import Mathlib

/-!
# DeepDetect supervised output connector

A shallow embedding of `src/supervisedoutputconnector.h` (class `dd::SupervisedOutput`):
the result aggregator (`add_results`), the top-k selector (`best_cats`), the metric
functions (`acc`, `mf1`, `mcc`, `raw_results`, `auc`, `compute_ap`, `ap`,
`multilabel_soft_kl`, `multilabel_soft_deltas`, `multilabel_soft_r2`,
`multilabel_soft_dc`, `multilabel_soft_ks`, `distl`, `percentl`, `comp_gini`, `gini`,
`timeSeriesErrors`, the MAE and MSE of `timeSeriesMetrics`), the reduction over test sets
(`aggregate_multiple_testsets`), the reading of the metric tokens
(`find_presence_and_thres`) and the serialisation of the Result Set (`to_ad`); of
`CSVInputFileConn::split_data` (`src/csvinputfileconn.h`); and of the weight transfer of
`src/backends/torch/torchutils.cc` (`copy_tensors`, `copy_weights`,
`copy_native_weights`).

Conventions of the embedding.

* A C++ `double` is an exact rational (`ℚ`): scores are only compared, counted and
  divided, so the embedding describes the arithmetic the code asks for, without rounding.
  Where an outcome turns on the rounding of an operation in `double`, the rounding is
  explicit (`to_double`, in `multilabel_soft_kl` and `multilabel_soft_deltas`), or the
  theorem carries the hypothesis that the sums, products and quotients at hand are
  exactly representable (`exact_double`), in which case the code computes them exactly.
* A C++ `float` is the rational obtained by rounding to 24 significant bits
  (`to_float`): `auc`, `compute_ap` and `ap` keep values in `float` variables, and the
  narrowing is part of what they compute; so do the threshold of
  `find_presence_and_thres` and the divisors of `timeSeriesErrors` and
  `timeSeriesMetrics`.
* `std::sqrt`, `std::log` and `std::atof` are parameters of the functions that call
  them, and so is `dd_utils::split`, whose source is not in `src/`.
* A C++ exception, an unchecked access past the end of a container and a division by
  zero are made visible as values of `Err`; a function that may end in one of them
  returns `Except Err _`.
* `std::multimap<double, T, std::greater<double>>` is a list of `(score, payload)`
  pairs kept in iteration order; `std::unordered_map<std::string, int>` is an
  association list (its iteration order is never used by the functions embedded here).
* `int` values that are sizes or counters bounded by a container size are natural
  numbers or integers; the `int` products of `auc` are reduced to 32 bits.
-/

namespace dd

/-! ## Outcomes -/

/-- The ways in which an embedded function can fail to return a value. -/
inductive Err where
  /-- `OutputConnectorBadParamException`. -/
  | bad_param
  /-- `std::out_of_range`, thrown by a checked `.at(i)`. -/
  | out_of_range
  /-- An access the C++ standard leaves undefined (unchecked index or iterator past the end). -/
  | undefined
  /-- A floating-point division whose divisor is zero. -/
  | div_by_zero
deriving DecidableEq, Repr

/-- Outcomes can be compared, so that the embedding can be evaluated on concrete inputs. -/
instance instDecidableEqExcept {ε α : Type} [DecidableEq ε] [DecidableEq α] :
    DecidableEq (Except ε α)
  | .ok a, .ok b =>
    if h : a = b then isTrue (by rw [h]) else isFalse (fun e => h (by cases e; rfl))
  | .error a, .error b =>
    if h : a = b then isTrue (by rw [h]) else isFalse (fun e => h (by cases e; rfl))
  | .ok _, .error _ => isFalse (fun e => by cases e)
  | .error _, .ok _ => isFalse (fun e => by cases e)

/-- `v.at(i)` of `std::vector`: the element, or `std::out_of_range`. -/
def vec_at {α : Type} (v : List α) (i : Nat) : Except Err α :=
  match v[i]? with
  | some x => .ok x
  | none => .error Err.out_of_range

/-- `v[i]` of `std::vector`: the element; past the end the behaviour is undefined. -/
def vec_idx {α : Type} (v : List α) (i : Nat) : Except Err α :=
  match v[i]? with
  | some x => .ok x
  | none => .error Err.undefined

/-- Floating-point division `a / b`, with a zero divisor made visible. -/
def fdiv (a b : ℚ) : Except Err ℚ :=
  if b = 0 then .error Err.div_by_zero else .ok (a / b)

/-! ## Score records (`sup_result`) -/

/-- The bounding-box payload: the four coordinates read by `best_cats`. -/
structure BBox where
  xmin : ℚ
  ymin : ℚ
  xmax : ℚ
  ymax : ℚ
deriving DecidableEq

/-- The payload of a roi vector, a mask or a series entry (an `APIData` the selector
never looks into). -/
abbrev Payload := List ℚ

/-- The ordered collection `std::multimap<double, T, std::greater<double>>`, in
iteration order. -/
abbrev ScoreMap (α : Type) := List (ℚ × α)

/-- `multimap::insert` under `std::greater`: the new pair goes after every key that is
greater than or equal to its own (upper bound of the equal range), so iteration is by
descending score and equal scores keep insertion order. -/
def mm_insert {α : Type} (k : ℚ) (v : α) : ScoreMap α → ScoreMap α
  | [] => [(k, v)]
  | e :: rest => if k ≤ e.1 then e :: mm_insert k v rest else (k, v) :: e :: rest

/-- The class `sup_result`: identifier, loss and the five ordered collections. -/
structure sup_result where
  _label : String
  _loss : ℚ
  _cats : ScoreMap String
  _bboxes : ScoreMap BBox
  _vals : ScoreMap Payload
  _series : ScoreMap Payload
  _masks : ScoreMap Payload
deriving DecidableEq

/-- The constructor `sup_result(label, loss)`: empty collections. -/
def sup_result.mk0 (label : String) (loss : ℚ) : sup_result :=
  { _label := label, _loss := loss, _cats := [], _bboxes := [], _vals := [],
    _series := [], _masks := [] }

/-- The method `add_cat`. -/
def sup_result.add_cat (s : sup_result) (prob : ℚ) (cat : String) : sup_result :=
  { s with _cats := mm_insert prob cat s._cats }

/-- The method `add_bbox`. -/
def sup_result.add_bbox (s : sup_result) (prob : ℚ) (ad : BBox) : sup_result :=
  { s with _bboxes := mm_insert prob ad s._bboxes }

/-- The method `add_mask`. -/
def sup_result.add_mask (s : sup_result) (prob : ℚ) (mask : Payload) : sup_result :=
  { s with _masks := mm_insert prob mask s._masks }

/-- The method `add_val`. -/
def sup_result.add_val (s : sup_result) (prob : ℚ) (ad : Payload) : sup_result :=
  { s with _vals := mm_insert prob ad s._vals }

/-- The method `add_timeseries`. -/
def sup_result.add_timeseries (s : sup_result) (prob : ℚ) (ad : Payload) : sup_result :=
  { s with _series := mm_insert prob ad s._series }

/-! ## The result aggregator (`add_results`) -/

/-- One input record of `add_results`: the keys read from the `APIData`. A vector whose
key is absent is empty, as in the source. -/
structure ResultRecord where
  uri : String
  loss : ℚ
  probs : List ℚ
  cats : List String
  bboxes : List BBox
  vals : List Payload
  series : List Payload
  masks : List Payload
deriving DecidableEq

/-- The connector state: `_vcats` (id to position) and `_vvcats` (records in insertion
order). -/
structure SupervisedOutput where
  _vcats : List (String × Nat)
  _vvcats : List sup_result
deriving DecidableEq

/-- A connector with no result. -/
def SupervisedOutput.empty : SupervisedOutput := { _vcats := [], _vvcats := [] }

/-- `unordered_map::find`: the value stored under `key`, if any. -/
def vcats_find (m : List (String × Nat)) (key : String) : Option Nat :=
  match m with
  | [] => none
  | e :: rest => if e.1 = key then some e.2 else vcats_find rest key

/-- `unordered_map::insert`: no effect when the key is already present. -/
def vcats_insert (m : List (String × Nat)) (key : String) (v : Nat) : List (String × Nat) :=
  match vcats_find m key with
  | some _ => m
  | none => m ++ [(key, v)]

/-- One statement `if (!v.empty()) _vvcats.at(...).add_x(probs.at(i), v.at(i))` of the
loop of `add_results`; `add` is the `add_x` call with the score already supplied. -/
def add_if_present {α : Type} (v : List α) (i : Nat) (add : α → sup_result)
    (s : sup_result) : Except Err sup_result :=
  if v.isEmpty then .ok s else (vec_at v i).map add

/-- Body of the loop `for (size_t i = 0; i < probs.size(); i++)` of `add_results`:
every non-empty payload vector contributes `(probs.at(i), payload.at(i))`. -/
def add_results_entry (ad : ResultRecord) (s : sup_result) (i : Nat) :
    Except Err sup_result := do
  let p ← vec_at ad.probs i
  let s1 ← add_if_present ad.cats i (s.add_cat p) s
  let s2 ← add_if_present ad.bboxes i (s1.add_bbox p) s1
  let s3 ← add_if_present ad.vals i (s2.add_val p) s2
  let s4 ← add_if_present ad.series i (s3.add_timeseries p) s3
  add_if_present ad.masks i (s4.add_mask p) s4

/-- The Score Record `add_results` builds for a new id: `sup_result supres(uri, loss)`
filled by the loop over `probs`. -/
def add_results_fill (ad : ResultRecord) : Except Err sup_result :=
  (List.range ad.probs.length).foldlM (add_results_entry ad) (sup_result.mk0 ad.uri ad.loss)

/-- Body of the loop `for (APIData ad : vrad)` of `add_results`: a record whose id is
already in `_vcats` is skipped; otherwise the id is mapped to `_vvcats.size()` and the
new record (the one at that position) is filled. -/
def add_results_one (so : SupervisedOutput) (ad : ResultRecord) :
    Except Err SupervisedOutput :=
  match vcats_find so._vcats ad.uri with
  | some _ => .ok so
  | none => do
    let supres ← add_results_fill ad
    pure { _vcats := vcats_insert so._vcats ad.uri so._vvcats.length,
           _vvcats := so._vvcats ++ [supres] }

/-- The method `add_results(vrad)`. -/
def add_results (so : SupervisedOutput) (vrad : List ResultRecord) :
    Except Err SupervisedOutput :=
  vrad.foldlM add_results_one so

/-- Several successive calls of `add_results` on the same connector. -/
def add_results_calls (so : SupervisedOutput) (calls : List (List ResultRecord)) :
    Except Err SupervisedOutput :=
  calls.foldlM add_results so

/-! ## The top-k selector (`best_cats`) -/

/-- `std::copy_n(m.begin(), n, std::inserter(out, out.end()))`: the first `n` entries of
`m`, inserted one after the other; nothing is copied when `n ≤ 0`. An insertion hinted
at `end()` lands at the upper bound of the equal range, like a plain `insert`. -/
def copy_n {α : Type} (m : ScoreMap α) (n : Int) (out : ScoreMap α) : ScoreMap α :=
  (m.take n.toNat).foldl (fun acc e => mm_insert e.1 e.2 acc) out

/-- Body of the plain-mode loop of `best_cats` (no bbox, roi or mask): `_cats` is always
copied, `_bboxes`, `_vals` and `_masks` when they are not empty; `_series` is not
touched. -/
def best_cats_plain (best : Int) (sresult : sup_result) : sup_result :=
  let b0 := sup_result.mk0 sresult._label sresult._loss
  let b1 := { b0 with _cats := copy_n sresult._cats (min best sresult._cats.length) b0._cats }
  let b2 := if !sresult._bboxes.isEmpty then
      { b1 with _bboxes := copy_n sresult._bboxes (min best sresult._bboxes.length) b1._bboxes }
    else b1
  let b3 := if !sresult._vals.isEmpty then
      { b2 with _vals := copy_n sresult._vals (min best sresult._vals.length) b2._vals }
    else b2
  if !sresult._masks.isEmpty then
    { b3 with _masks := copy_n sresult._masks (min best sresult._masks.length) b3._masks }
  else b3

/-- Branch `best == nclasses` of the detection loop: `nbest = _cats.size()`; all of
`_cats` is copied and, when not empty, the first `min(nbest, _bboxes.size())` boxes. -/
def best_cats_all (sresult : sup_result) : sup_result :=
  let b0 := sup_result.mk0 sresult._label sresult._loss
  let nbest : Int := sresult._cats.length
  let b1 := { b0 with _cats := copy_n sresult._cats (min nbest sresult._cats.length) b0._cats }
  if !sresult._bboxes.isEmpty then
    { b1 with _bboxes := copy_n sresult._bboxes (min nbest sresult._bboxes.length) b1._bboxes }
  else b1

/-- Round a non-negative rational to the nearest natural number, ties to even. -/
def round_half_even (q : ℚ) : Nat :=
  let f := (Rat.floor q).toNat
  let r := q - f
  if r < 1 / 2 then f else if 1 / 2 < r then f + 1 else if f % 2 = 0 then f else f + 1

/-- `std::to_string(double)`, that is `printf("%f")`: sign, integer part and six
decimals. -/
def to_string (x : ℚ) : String :=
  let n := round_half_even (|x| * 1000000)
  let frac := toString (n % 1000000)
  (if x < 0 then "-" else "") ++ toString (n / 1000000) ++ "."
    ++ String.mk (List.replicate (6 - frac.length) '0') ++ frac

/-- The box identity key `bbkey` of `best_cats`. -/
def bbkey (bbad : BBox) : String :=
  to_string bbad.xmin ++ "-" ++ to_string bbad.ymin ++ "-" ++ to_string bbad.xmax ++ "-"
    ++ to_string bbad.ymax

/-- `lboxes.find(bbkey)` on the per-sample `unordered_map<std::string, int>`. -/
def lboxes_find (lboxes : List (String × Int)) (key : String) : Option Int :=
  match lboxes with
  | [] => none
  | e :: rest => if e.1 = key then some e.2 else lboxes_find rest key

/-- `(*bbit).second += 1` on the entry stored under `key`. -/
def lboxes_incr (lboxes : List (String × Int)) (key : String) : List (String × Int) :=
  match lboxes with
  | [] => []
  | e :: rest => if e.1 = key then (e.1, e.2 + 1) :: rest else e :: lboxes_incr rest key

/-- Reading `*it` and then `++it` on a collection iterator that the loop only uses when
`flag` is set; at `end()` both are undefined. -/
def iter_next {α : Type} (flag : Bool) (it : ScoreMap α) :
    Except Err (Option (ℚ × α) × ScoreMap α) :=
  if flag then
    match it with
    | [] => .error Err.undefined
    | e :: rest => .ok (some e, rest)
  else .ok (none, it)

/-- `m.insert(pair)` when the pair was read, nothing otherwise. -/
def insert_opt {α : Type} (e : Option (ℚ × α)) (m : ScoreMap α) : ScoreMap α :=
  match e with
  | some p => mm_insert p.1 p.2 m
  | none => m

/-- The loop `while (mitx != sresult._bboxes.end())` of `best_cats` (branch
`best != nclasses`). The arguments are what remains to be read by the iterators `mitx`,
`mit`, `mity`, `mitmask`, the counters `lboxes` and the record being built. A key seen
before has its counter incremented and the entry is copied when the counter is `<= best`;
a new key gets counter 1 and the entry is copied. -/
def best_cats_dedup (best : Int) (has_roi has_mask : Bool) :
    ScoreMap BBox → ScoreMap String → ScoreMap Payload → ScoreMap Payload →
    List (String × Int) → sup_result → Except Err sup_result
  | [], _, _, _, _, bs => .ok bs
  | bx :: mitx, mit, mity, mitmask, lboxes, bs =>
    match mit with
    | [] => .error Err.undefined
    | c :: mit1 => do
      let (vv, mity1) ← iter_next has_roi mity
      let (mk, mitmask1) ← iter_next has_mask mitmask
      let key := bbkey bx.2
      let copied : sup_result :=
        { bs with _cats := mm_insert c.1 c.2 bs._cats,
                  _bboxes := mm_insert bx.1 bx.2 bs._bboxes,
                  _vals := insert_opt vv bs._vals,
                  _masks := insert_opt mk bs._masks }
      match lboxes_find lboxes key with
      | some n =>
        best_cats_dedup best has_roi has_mask mitx mit1 mity1 mitmask1
          (lboxes_incr lboxes key) (if n + 1 ≤ best then copied else bs)
      | none =>
        best_cats_dedup best has_roi has_mask mitx mit1 mity1 mitmask1
          (lboxes ++ [(key, 1)]) copied

/-- Body of the detection/roi/mask loop of `best_cats` for one sample; `best` is the
value after `-1` was replaced by `nclasses`. -/
def best_cats_detection (best nclasses : Int) (has_roi has_mask : Bool)
    (sresult : sup_result) : Except Err sup_result :=
  if best = nclasses then .ok (best_cats_all sresult)
  else
    best_cats_dedup best has_roi has_mask sresult._bboxes sresult._cats sresult._vals
      sresult._masks [] (sup_result.mk0 sresult._label sresult._loss)

/-- Tail of both loops: `bcats._vcats.insert(label, bcats._vvcats.size())` and
`bcats._vvcats.push_back(bsresult)`. -/
def push_result (bcats : SupervisedOutput) (bsresult : sup_result) : SupervisedOutput :=
  { _vcats := vcats_insert bcats._vcats bsresult._label bcats._vvcats.length,
    _vvcats := bcats._vvcats ++ [bsresult] }

/-- The method `best_cats(bcats, output_param_best, nclasses, has_bbox, has_roi,
has_mask)`; the result is the final content of `bcats`. -/
def best_cats (so bcats : SupervisedOutput) (output_param_best nclasses : Int)
    (has_bbox has_roi has_mask : Bool) : Except Err SupervisedOutput :=
  let best := if output_param_best = -1 then nclasses else output_param_best
  if !has_bbox && !has_roi && !has_mask then
    .ok (so._vvcats.foldl (fun b sresult => push_result b (best_cats_plain best sresult)) bcats)
  else
    so._vvcats.foldlM
      (fun b sresult =>
        (best_cats_detection best nclasses has_roi has_mask sresult).map (push_result b))
      bcats

/-! ## Predicates used to state the properties of the aggregator and the selector -/

/-- Every payload vector of the record that is not empty has at least one entry per
score, so that no `.at(i)` of `add_results` is out of range. -/
def ResultRecord.in_bounds (ad : ResultRecord) : Prop :=
  (ad.cats = [] ∨ ad.probs.length ≤ ad.cats.length)
  ∧ (ad.bboxes = [] ∨ ad.probs.length ≤ ad.bboxes.length)
  ∧ (ad.vals = [] ∨ ad.probs.length ≤ ad.vals.length)
  ∧ (ad.series = [] ∨ ad.probs.length ≤ ad.series.length)
  ∧ (ad.masks = [] ∨ ad.probs.length ≤ ad.masks.length)

/-- The keys of `_vcats` are the labels of `_vvcats`, in the same order, and each key is
mapped to its position. -/
def SupervisedOutput.indexed (so : SupervisedOutput) : Prop :=
  so._vcats = (so._vvcats.map (fun s => s._label)).zip (List.range so._vvcats.length)

/-- The records of `vrad` whose id is neither in `seen` nor carried by an earlier record
of `vrad`, in order. -/
def first_new (seen : List String) : List ResultRecord → List ResultRecord
  | [] => []
  | r :: rs =>
    if r.uri ∈ seen then first_new seen rs else r :: first_new (seen ++ [r.uri]) rs

/-- Iteration order of a collection: scores never increase. -/
def mm_sorted {α : Type} (m : ScoreMap α) : Prop :=
  m.Pairwise (fun a b => b.1 ≤ a.1)

/-- The five collections of a Score Record are ordered collections (the class invariant
of `std::multimap` under `std::greater`). -/
def sup_result.sorted (s : sup_result) : Prop :=
  mm_sorted s._cats ∧ mm_sorted s._bboxes ∧ mm_sorted s._vals ∧ mm_sorted s._series
    ∧ mm_sorted s._masks

/-- The prefix of the first `min(best, n)` entries of a collection of `n` entries. -/
def first_entries {α : Type} (best : Int) (m : ScoreMap α) : ScoreMap α :=
  m.take (min best m.length).toNat

/-- The record the specification announces for plain mode: same identifier and loss,
every collection (series included) replaced by its prefix of `min(best, n)` entries. -/
def spec_plain_record (best : Int) (s : sup_result) : sup_result :=
  { _label := s._label, _loss := s._loss, _cats := first_entries best s._cats,
    _bboxes := first_entries best s._bboxes, _vals := first_entries best s._vals,
    _series := first_entries best s._series, _masks := first_entries best s._masks }

/-- The record plain mode builds: as `spec_plain_record`, with no series. -/
def plain_record (best : Int) (s : sup_result) : sup_result :=
  { _label := s._label, _loss := s._loss, _cats := first_entries best s._cats,
    _bboxes := first_entries best s._bboxes, _vals := first_entries best s._vals,
    _series := [], _masks := first_entries best s._masks }

/-- Number of detections among the first `i + 1` (the `i`-th included) that have the
same box key as the `i`-th. -/
def key_rank (keys : List String) (i : Nat) : Nat :=
  (keys.take (i + 1)).count (keys.getD i "")

/-- The keep rule as the specification words it: the `i`-th detection is kept when its
key rank is `≤ best`. -/
def spec_keep_mask (best : Int) (keys : List String) : List Bool :=
  (List.range keys.length).map (fun i => decide ((key_rank keys i : Int) ≤ best))

/-- The keep rule of the loop: the `i`-th detection is kept when its key rank is
`≤ best`, or when it is the first detection with its key. -/
def keep_mask (best : Int) (keys : List String) : List Bool :=
  (List.range keys.length).map
    (fun i => decide ((key_rank keys i : Int) ≤ best ∨ key_rank keys i = 1))

/-- The keep rule of the loop, along the iteration: `seen` holds the keys already read. -/
def keep_mask_from (best : Int) (seen : List String) : List String → List Bool
  | [] => []
  | k :: ks =>
    decide (((seen.count k + 1 : Nat) : Int) ≤ best ∨ seen.count k + 1 = 1)
      :: keep_mask_from best (seen ++ [k]) ks

/-- The counters of `lboxes` are the numbers of occurrences among the keys read so far. -/
def counters_ok (lboxes : List (String × Int)) (seen : List String) : Prop :=
  ∀ k, lboxes_find lboxes k = if seen.count k = 0 then none else some (seen.count k : Int)

/-- `m.insert(e)` for every entry of `l`, in order. -/
def insert_all {α : Type} (out : ScoreMap α) (l : ScoreMap α) : ScoreMap α :=
  l.foldl (fun acc e => mm_insert e.1 e.2 acc) out

/-- The entries of `l` at the positions where `mask` is set, in order. -/
def select {α : Type} (mask : List Bool) (l : List α) : List α :=
  ((l.zip mask).filter (fun p => p.2)).map (fun p => p.1)

/-- No collection of the sample has more than `n` entries. -/
def sup_result.entries_le (n : Int) (s : sup_result) : Prop :=
  (s._cats.length : Int) ≤ n ∧ (s._bboxes.length : Int) ≤ n ∧ (s._vals.length : Int) ≤ n
    ∧ (s._series.length : Int) ≤ n ∧ (s._masks.length : Int) ≤ n

/-- The box keys of a sample, in iteration order. -/
def box_keys (s : sup_result) : List String :=
  s._bboxes.map (fun e => bbkey e.2)

/-- The lock-step condition the detection loop relies on: one category per box and,
when the flag is set, one roi vector (one mask) per box. -/
def sup_result.lock_step (has_roi has_mask : Bool) (s : sup_result) : Prop :=
  s._cats.length = s._bboxes.length
  ∧ (has_roi = true → s._vals.length = s._bboxes.length)
  ∧ (has_mask = true → s._masks.length = s._bboxes.length)

/-- Example record: id `a`, two scored categories. -/
def record_a1 : ResultRecord :=
  { uri := "a", loss := 1 / 2, probs := [9 / 10, 1 / 10], cats := ["cat", "dog"],
    bboxes := [], vals := [], series := [], masks := [] }

/-- Example record: the id `a` again, with another loss and another category. -/
def record_a2 : ResultRecord :=
  { uri := "a", loss := 7 / 10, probs := [3 / 10], cats := ["bird"],
    bboxes := [], vals := [], series := [], masks := [] }

/-- The connector holding the records `l`, each id mapped to its position. -/
def connector_of (l : List sup_result) : SupervisedOutput :=
  { _vcats := (l.map (fun s => s._label)).zip (List.range l.length), _vvcats := l }

/-- Example sample: one category and one series entry. -/
def sample_series : sup_result :=
  { _label := "s", _loss := 0, _cats := [(1 / 2, "cat")], _bboxes := [], _vals := [],
    _series := [(1 / 2, [1])], _masks := [] }

/-- Example sample: two categories. -/
def sample_two_cats : sup_result :=
  { _label := "s", _loss := 0, _cats := [(9 / 10, "cat"), (1 / 10, "dog")], _bboxes := [],
    _vals := [], _series := [], _masks := [] }

/-- Example sample: one detection with its category, box and roi vector. -/
def sample_box : sup_result :=
  { _label := "s", _loss := 0, _cats := [(9 / 10, "cat")],
    _bboxes := [(9 / 10, { xmin := 0, ymin := 0, xmax := 1, ymax := 1 })],
    _vals := [(9 / 10, [1, 2])], _series := [], _masks := [] }

/-- Example sample: three detections, the first two on the same box. -/
def sample_three_boxes : sup_result :=
  { _label := "s", _loss := 0,
    _cats := [(9 / 10, "cat"), (8 / 10, "dog"), (7 / 10, "bird")],
    _bboxes := [(9 / 10, { xmin := 0, ymin := 0, xmax := 1, ymax := 1 }),
                (8 / 10, { xmin := 0, ymin := 0, xmax := 1, ymax := 1 }),
                (7 / 10, { xmin := 0, ymin := 0, xmax := 2, ymax := 2 })],
    _vals := [], _series := [], _masks := [] }

/-! ## The batch payload of the metric engine -/

/-- One sub-record of the batch payload: `pred`, the scalar `target` and the optional
`logits`. -/
structure Sample where
  pred : List ℚ
  target : ℚ
  logits : Option (List ℚ) := none
deriving DecidableEq

/-- The batch payload read by the classification metrics: `nclasses` and the
sub-records `"0"`, ..., `"batch_size - 1"`. -/
structure Batch where
  nclasses : Int
  samples : List Sample
deriving DecidableEq

/-- The key `batch_size` of the payload: the number of sub-records. -/
def Batch.batch_size (ad : Batch) : Int := ad.samples.length

/-! ## `std::partial_sort` (libstdc++: `__heap_select` followed by `__sort_heap`)

The C++ standard leaves the order of the elements outside `[first, middle)` unspecified;
`acc` reads one of them, so the embedding follows the implementation the project is
built with (GNU libstdc++, `bits/stl_heap.h` and `bits/stl_algo.h`). Arrays are lists,
`first` is position 0, and an iterator is a position. -/

/-- A `while (cond) body` loop, run for at most `fuel` iterations. Every use below passes
a `fuel` that the loop cannot exhaust (see `while_loop_fuel`). -/
def while_loop {σ : Type} (cond : σ → Bool) (body : σ → σ) : Nat → σ → σ
  | 0, s => s
  | fuel + 1, s => if cond s then while_loop cond body fuel (body s) else s

/-- Loop test of `std::__push_heap` on the state `(array, holeIndex)`:
`holeIndex > topIndex && comp(first + parent, value)` with `parent = (holeIndex - 1) / 2`. -/
def push_heap_cond (comp : Nat → Nat → Bool) (topIndex value : Nat) (s : List Nat × Nat) :
    Bool :=
  decide (topIndex < s.2) && comp (s.1.getD ((s.2 - 1) / 2) 0) value

/-- Loop body of `std::__push_heap`: the parent moves down into the hole. -/
def push_heap_body (s : List Nat × Nat) : List Nat × Nat :=
  (s.1.set s.2 (s.1.getD ((s.2 - 1) / 2) 0), (s.2 - 1) / 2)

/-- The function `std::__push_heap(first, holeIndex, topIndex, value, comp)`. -/
def push_heap (comp : Nat → Nat → Bool) (a : List Nat) (holeIndex topIndex value : Nat) :
    List Nat :=
  let s := while_loop (push_heap_cond comp topIndex value) push_heap_body holeIndex
    (a, holeIndex)
  s.1.set s.2 value

/-- One iteration of the first loop of `__adjust_heap` on `(array, holeIndex,
secondChild)`: move to the preferred child and pull it up into the hole. -/
def adjust_heap_body (comp : Nat → Nat → Bool) (s : List Nat × Nat × Nat) :
    List Nat × Nat × Nat :=
  let sc := 2 * (s.2.2 + 1)
  let sc := if comp (s.1.getD sc 0) (s.1.getD (sc - 1) 0) then sc - 1 else sc
  (s.1.set s.2.1 (s.1.getD sc 0), sc, sc)

/-- Test of the first loop of `__adjust_heap`: `secondChild < (len - 1) / 2`. -/
def adjust_heap_cond (len : Nat) (s : List Nat × Nat × Nat) : Bool :=
  decide (s.2.2 < (len - 1) / 2)

/-- The function `std::__adjust_heap(first, holeIndex, len, value, comp)`. In the second
test the C++ value `(len - 2) / 2` is `-1` for `len = 0`, which no `secondChild` equals;
hence the condition `2 ≤ len`. -/
def adjust_heap (comp : Nat → Nat → Bool) (a : List Nat) (holeIndex len value : Nat) :
    List Nat :=
  let topIndex := holeIndex
  let s := while_loop (adjust_heap_cond len) (adjust_heap_body comp) len
    (a, holeIndex, holeIndex)
  let s := if len % 2 = 0 ∧ 2 ≤ len ∧ s.2.2 = (len - 2) / 2 then
      let sc := 2 * (s.2.2 + 1)
      (s.1.set s.2.1 (s.1.getD (sc - 1) 0), sc - 1, sc)
    else s
  push_heap comp s.1 s.2.1 topIndex value

/-- The function `std::__pop_heap(first, last, result, comp)` with `last - first = len`. -/
def pop_heap (comp : Nat → Nat → Bool) (a : List Nat) (len result : Nat) : List Nat :=
  let value := a.getD result 0
  let a := a.set result (a.getD 0 0)
  adjust_heap comp a 0 len value

/-- The function `std::__make_heap(first, last, comp)` with `last - first = len`: nothing
for `len < 2`, otherwise `__adjust_heap` for `parent = (len - 2) / 2` down to `0`. -/
def make_heap (comp : Nat → Nat → Bool) (a : List Nat) (len : Nat) : List Nat :=
  if len < 2 then a
  else (List.range ((len - 2) / 2 + 1)).reverse.foldl
    (fun a parent => adjust_heap comp a parent len (a.getD parent 0)) a

/-- The function `std::__sort_heap(first, last, comp)`: `while (last - first > 1)
{ --last; __pop_heap(first, last, last, comp); }`. -/
def sort_heap (comp : Nat → Nat → Bool) (a : List Nat) (len : Nat) : List Nat :=
  (List.range' 1 (len - 1)).reverse.foldl (fun a last => pop_heap comp a last last) a

/-- The function `std::__heap_select(first, middle, last, comp)`: `__make_heap(first,
middle)`, then every `i` in `[middle, last)` with `comp(i, first)` is exchanged with the
top of the heap by `__pop_heap(first, middle, i)`. -/
def heap_select (comp : Nat → Nat → Bool) (a : List Nat) (middle : Nat) : List Nat :=
  (List.range' middle (a.length - middle)).foldl
    (fun a i => if comp (a.getD i 0) (a.getD 0 0) then pop_heap comp a middle i else a)
    (make_heap comp a middle)

/-- The call `std::partial_sort(first, first + middle, last, comp)`. -/
def partial_sort (comp : Nat → Nat → Bool) (a : List Nat) (middle : Nat) : List Nat :=
  sort_heap comp (heap_select comp a middle) middle

/-! ## Accuracy (`acc`) -/

/-- `acc_comp(predictions)(a, b)`: `_v[a] > _v[b]`. -/
def acc_comp (v : List ℚ) (a b : Nat) : Bool :=
  decide (v.getD b 0 < v.getD a 0)

/-- The loop `for (int l = 0; l < k; l++) if (predk.at(l) == target) { acc++; break; }`:
whether `acc++` is executed. -/
def acc_lookup (predk : List Nat) (target : ℚ) : List Nat → Except Err Bool
  | [] => .ok false
  | l :: ls => do
    let x ← vec_at predk l
    if (x : ℚ) = target then pure true else acc_lookup predk target ls

/-- Body of the loop over the samples of `acc` for one `k`: whether the sample
increments `acc`. A sample with fewer than `k` predictions is skipped (`continue`); for
`k < 1` the range given to `std::partial_sort` is invalid. -/
def acc_sample (k : Int) (bad : Sample) : Except Err Bool :=
  if k - 1 ≥ bad.pred.length then .ok false
  else if k < 1 then .error Err.undefined
  else
    let predk := partial_sort (acc_comp bad.pred) (List.range bad.pred.length) (k - 1).toNat
    acc_lookup predk bad.target (List.range k.toNat)

/-- The number of samples that increment `acc`, for one `k`. -/
def acc_count (k : Int) : List Sample → Except Err Nat
  | [] => .ok 0
  | bad :: rest => do
    let hit ← acc_sample k bad
    let n ← acc_count k rest
    pure (if hit then n + 1 else n)

/-- The key under which the accuracy for `k` is stored. -/
def acc_key (k : Int) : String :=
  if k > 1 then "acc" ++ "-" ++ toString k else "acc"

/-- The value `acc / static_cast<double>(batch_size)` computed for one `k`. -/
def acc_value (ad : Batch) (k : Int) : Except Err ℚ := do
  let n ← acc_count k ad.samples
  fdiv n ad.batch_size

/-- `std::map::insert`: no effect when the key is present. -/
def map_insert (m : List (String × ℚ)) (key : String) (v : ℚ) : List (String × ℚ) :=
  if m.any (fun e => e.1 = key) then m else m ++ [(key, v)]

/-- The loop `for (auto k : vacck)` of `acc`: the map `accs` it returns. -/
def acc_values (ad : Batch) (vacck : List Int) : Except Err (List (String × ℚ)) :=
  vacck.foldlM (fun accs k => (acc_value ad k).map (map_insert accs (acc_key k))) []

/-- `std::atoi`: optional blanks, optional sign, then the leading digits (0 when there
is none). -/
def atoi (s : String) : Int :=
  let cs := s.toList.dropWhile (fun c => c = ' ' || c = '\t' || c = '\n')
  let neg := cs.head? = some '-'
  let cs := if cs.head? = some '-' ∨ cs.head? = some '+' then cs.drop 1 else cs
  let n := (cs.takeWhile Char.isDigit).foldl (fun n c => 10 * n + (c.toNat - '0'.toNat)) 0
  if neg then -(n : Int) else n

/-- Whether `s.find(sub) != std::string::npos`. -/
def str_contains (s sub : String) : Bool :=
  s.toList.tails.any (fun t => sub.toList.isPrefixOf t)

/-- The values `vacck` that `acc` reads from the measure tokens; `split` stands for
`dd_utils::split`, which is not part of the sources at hand. -/
def acc_vacck (split : String → Char → List String) (measures : List String) : List Int :=
  (measures.filter (fun s => str_contains s "acc")).map (fun s =>
    match split s '-' with
    | [_, x] => atoi x
    | _ => 1)

/-- The function `acc(ad, measures)`. -/
def acc (split : String → Char → List String) (ad : Batch) (measures : List String) :
    Except Err (List (String × ℚ)) :=
  acc_values ad (acc_vacck split measures)

/-- The index `std::max_element` returns: the first position holding the maximum (0 for
an empty vector, where `begin() == end()`). -/
def max_element (v : List ℚ) : Nat :=
  (List.range v.length).foldl (fun best j => if v.getD best 0 < v.getD j 0 then j else best) 0

/-- The specification's accuracy for one sample: the target is one of the `k` indices
with the highest scores (indices sorted by descending score, ties by index). -/
def spec_top_k (k : Nat) (bad : Sample) : Bool :=
  ((List.insertionSort (fun a b => bad.pred.getD b 0 ≤ bad.pred.getD a 0)
      (List.range bad.pred.length)).take k).any (fun i => (i : ℚ) = bad.target)

/-- The specification's accuracy at `k`: the fraction of samples whose target is among
the `k` best indices. -/
def spec_acc (ad : Batch) (k : Nat) : ℚ :=
  ((ad.samples.filter (spec_top_k k)).length : ℚ) / ad.batch_size

/-- Example batch: one sample, four scores, the target is the second best index. -/
def batch_second_best : Batch :=
  { nclasses := 4, samples := [{ pred := [1 / 10, 2 / 10, 9 / 10, 8 / 10], target := 3 }] }

/-- Example batch: the scenario of the specification (two samples, both right). -/
def batch_two_right : Batch :=
  { nclasses := 2,
    samples := [{ pred := [9 / 10, 1 / 10], target := 0 },
                { pred := [2 / 10, 8 / 10], target := 1 }] }

/-! ## Confusion-matrix metrics (`mf1`, `mcc`) and `raw_results` -/

/-- Whether the outcome is a C++ exception (as opposed to undefined behaviour or a
division by zero, which raise nothing). -/
def Err.is_exception : Err → Bool
  | Err.bad_param => true
  | Err.out_of_range => true
  | Err.undefined => false
  | Err.div_by_zero => false

/-- A dense matrix (`dMat`), as the list of its rows. -/
abbrev Matrix := List (List ℚ)

/-- `dMat::Zero(n, n)`. -/
def mat_zero (n : Nat) : Matrix :=
  List.replicate n (List.replicate n 0)

/-- `m(r, c)`: the coefficient; outside the matrix the access is unchecked. -/
def mat_get (m : Matrix) (r c : Nat) : Except Err ℚ :=
  match m[r]? with
  | some row => vec_idx row c
  | none => .error Err.undefined

/-- `m(r, c) += 1.0`; outside the matrix the access is unchecked. -/
def mat_incr (m : Matrix) (r c : Nat) : Except Err Matrix :=
  match m[r]? with
  | some row =>
    match row[c]? with
    | some x => .ok (m.set r (row.set c (x + 1)))
    | none => .error Err.undefined
  | none => .error Err.undefined

/-- `static_cast<int>(target)` for a target that passed the range check: truncation. -/
def target_index (target : ℚ) : Nat :=
  (Rat.floor target).toNat

/-- The range check on the target, common to `mf1`, `mcc` and `raw_results`: both
branches throw `OutputConnectorBadParamException`. -/
def check_target (nclasses : Int) (target : ℚ) : Except Err Unit :=
  if target < 0 then .error Err.bad_param
  else if (nclasses : ℚ) ≤ target then .error Err.bad_param
  else .ok ()

/-- Body of the loop over the samples in `mf1` and in `mcc` (the same statements in
both): argmax of the predictions, range check of the target, then
`conf_matrix(maxpr, static_cast<int>(target)) += 1.0`. -/
def conf_matrix_step (nclasses : Int) (conf_matrix : Matrix) (bad : Sample) :
    Except Err Matrix := do
  let maxpr := max_element bad.pred
  check_target nclasses bad.target
  mat_incr conf_matrix maxpr (target_index bad.target)

/-- The loop over the samples in `mf1` and `mcc`, from `dMat::Zero(nclasses, nclasses)`
(a negative dimension is outside the contract of `Zero`). -/
def conf_matrix_loop (ad : Batch) : Except Err Matrix :=
  if ad.nclasses < 0 then .error Err.undefined
  else ad.samples.foldlM (conf_matrix_step ad.nclasses) (mat_zero ad.nclasses.toNat)

/-- Sum of a vector of coefficients. -/
def vsum (v : List ℚ) : ℚ := v.foldl (fun s x => s + x) 0

/-- `m.diagonal()`. -/
def mat_diag (m : Matrix) : List ℚ :=
  (List.range m.length).map (fun i => (m.getD i []).getD i 0)

/-- `m.colwise().sum()`: for each column, the sum over the rows. -/
def mat_csum (m : Matrix) : List ℚ :=
  (List.range m.length).map (fun j => vsum (m.map (fun row => row.getD j 0)))

/-- `m.rowwise().sum()`: for each row, the sum of its coefficients. -/
def mat_rsum (m : Matrix) : List ℚ :=
  m.map vsum

/-- The outputs of `mf1`: the returned F1 and the reference parameters (`precision_m` and
`recall_m` are the parameters `precision` and `recall`). -/
structure MF1 where
  f1 : Except Err ℚ
  precision_m : Except Err ℚ
  recall_m : Except Err ℚ
  acc : Except Err ℚ
  precisionV : List ℚ
  recallV : List ℚ
  f1V : List ℚ
  conf_diag : List ℚ
  conf_matrix : Matrix

/-- The constant `1e-8` of `mf1`. -/
def mf1_eps : ℚ := 1 / 100000000

/-- The function `mf1`: confusion matrix (row = argmax prediction, column = target),
per-class precision, recall and F1 with `eps = 1e-8` in the denominators, their means
over the classes, and the column-normalised matrix and diagonal. -/
def mf1 (ad : Batch) : Except Err MF1 := do
  let m ← conf_matrix_loop ad
  let nclasses : ℚ := ad.nclasses
  let diag := mat_diag m
  let conf_csum := mat_csum m
  let conf_rsum := mat_rsum m
  let recallV := List.zipWith (fun d c => d / (c + mf1_eps)) diag conf_csum
  let precisionV := List.zipWith (fun d r => d / (r + mf1_eps)) diag conf_rsum
  let f1V := List.zipWith (fun p r => 2 * (p * r) / (p + r + mf1_eps)) precisionV recallV
  pure
    { f1 := fdiv (vsum f1V) nclasses,
      precision_m := fdiv (vsum precisionV) nclasses,
      recall_m := fdiv (vsum recallV) nclasses,
      acc := fdiv (vsum diag) (vsum (m.map vsum)),
      precisionV := precisionV,
      recallV := recallV,
      f1V := f1V,
      conf_diag := List.zipWith (fun d c => d / (c + mf1_eps)) diag conf_csum,
      conf_matrix := m.map (fun row =>
        List.zipWith (fun x c => if 0 < c then x / c else x) row conf_csum) }

/-- The function `mcc`; `sqrt` stands for `std::sqrt`. -/
def mcc (sqrt : ℚ → ℚ) (ad : Batch) : Except Err ℚ := do
  let m ← conf_matrix_loop ad
  let tp ← mat_get m 0 0
  let tn ← mat_get m 1 1
  let fn ← mat_get m 0 1
  let fp ← mat_get m 1 0
  let den := (tp + fp) * (tp + fn) * (tn + fp) * (tn + fn)
  let den := if den = 0 then 1 else den
  fdiv (tp * tn - fp * fn) (sqrt den)

/-- The data object returned by `raw_results`. -/
structure RawResults where
  truths : List String
  estimations : List String
  confidences : List ℚ
  all_logits : Option (List (List ℚ))
deriving DecidableEq

/-- The loop `for (j = 1; j < predictions.size(); ++j)` of `raw_results`: the first
index of the maximum and the maximum, starting from `predictions[0]`. -/
def raw_best (predictions : List ℚ) (max_pred : ℚ) : Nat × ℚ :=
  (List.range' 1 (predictions.length - 1)).foldl
    (fun (s : Nat × ℚ) j => if s.2 < predictions.getD j 0 then (j, predictions.getD j 0) else s)
    (0, max_pred)

/-- Body of the loop over the samples in `raw_results`, on the vectors `targets`, `preds`,
`confs` and `logits`. -/
def raw_results_step (nclasses : Int) (clnames : List String)
    (s : List String × List String × List ℚ × List (List ℚ)) (bad : Sample) :
    Except Err (List String × List String × List ℚ × List (List ℚ)) := do
  let logits := match bad.logits with
    | some l => s.2.2.2 ++ [l]
    | none => s.2.2.2
  check_target nclasses bad.target
  let truth ← vec_idx clnames (target_index bad.target)
  let max_pred ← vec_idx bad.pred 0
  let best := raw_best bad.pred max_pred
  let est ← vec_idx clnames best.1
  pure (s.1 ++ [truth], s.2.1 ++ [est], s.2.2.1 ++ [best.2], logits)

/-- The function `raw_results(ad, clnames)`. -/
def raw_results (ad : Batch) (clnames : List String) : Except Err RawResults := do
  let s ← ad.samples.foldlM (raw_results_step ad.nclasses clnames) ([], [], [], [])
  pure { truths := s.1, estimations := s.2.1, confidences := s.2.2.1,
         all_logits := if s.2.2.2.length > 0 then some s.2.2.2 else none }

/-- The exception with which a call ends, if it ends with one. -/
def raised {α : Type} (r : Except Err α) : Option Err :=
  match r with
  | .error e => if e.is_exception then some e else none
  | .ok _ => none

/-- Some target of the batch is negative or at least `nclasses`. -/
def Batch.has_bad_target (ad : Batch) : Prop :=
  ∃ s ∈ ad.samples, s.target < 0 ∨ (ad.nclasses : ℚ) ≤ s.target

/-- Square matrix of dimension `n`. -/
def mat_square (n : Nat) (m : Matrix) : Prop :=
  m.length = n ∧ ∀ row ∈ m, row.length = n

/-- Every target of the batch lies in `[0, nclasses)`. -/
def Batch.targets_valid (ad : Batch) : Prop :=
  ∀ s ∈ ad.samples, 0 ≤ s.target ∧ s.target < ad.nclasses

/-- Every sample has a non-empty prediction vector of length `nclasses`. -/
def Batch.preds_full (ad : Batch) : Prop :=
  ∀ s ∈ ad.samples, s.pred ≠ [] ∧ (s.pred.length : Int) = ad.nclasses

/-- Example batch: two classes, the second sample has target 2. -/
def batch_bad_target : Batch :=
  { nclasses := 2,
    samples := [{ pred := [9 / 10, 1 / 10], target := 0 },
                { pred := [2 / 10, 8 / 10], target := 2 }] }

/-! ## Specification of the confusion-matrix metrics -/

/-- Specification: the number of samples with argmax prediction `r` and target `c` (the
class of a sample is `static_cast<int>(target)`). -/
def spec_cell (samples : List Sample) (r c : Nat) : Nat :=
  samples.countP (fun s => decide (max_element s.pred = r ∧ target_index s.target = c))

/-- Specification: the number of samples of target `c`. -/
def spec_col (samples : List Sample) (c : Nat) : Nat :=
  samples.countP (fun s => decide (target_index s.target = c))

/-- Specification: the raw count matrix `M` (row = argmax, column = target) of dimension
`n`. -/
def count_matrix (n : Nat) (samples : List Sample) : Matrix :=
  (List.range n).map (fun r => (List.range n).map (fun c => (spec_cell samples r c : ℚ)))

/-- Specification: entry `(r, c)` of the confusion matrix produced by `mf1`: the number of
samples with argmax `r` and target `c` divided by the number of samples of target `c`,
and 0 for a class with no sample. -/
def spec_entry (samples : List Sample) (r c : Nat) : ℚ :=
  if spec_col samples c = 0 then 0
  else (spec_cell samples r c : ℚ) / (spec_col samples c : ℚ)

/-- Specification: the sum of row `c` of the raw count matrix. -/
def spec_row_sum (n : Nat) (samples : List Sample) (c : Nat) : ℚ :=
  ((List.range n).map (fun j => (spec_cell samples c j : ℚ))).sum

/-- Specification: the sum of column `c` of the raw count matrix. -/
def spec_col_sum (n : Nat) (samples : List Sample) (c : Nat) : ℚ :=
  ((List.range n).map (fun i => (spec_cell samples i c : ℚ))).sum

/-- Specification: `precision_c = M[c][c] / (sum of row c + 1e-8)`. -/
def spec_precision (n : Nat) (samples : List Sample) (c : Nat) : ℚ :=
  (spec_cell samples c c : ℚ) / (spec_row_sum n samples c + 1 / 100000000)

/-- Specification: `recall_c = M[c][c] / (sum of column c + 1e-8)`. -/
def spec_recall (n : Nat) (samples : List Sample) (c : Nat) : ℚ :=
  (spec_cell samples c c : ℚ) / (spec_col_sum n samples c + 1 / 100000000)

/-- Example batch: three classes, no sample of class 2, one sample of class 1 predicted
as class 0. -/
def batch_three_classes : Batch :=
  { nclasses := 3,
    samples := [{ pred := [9 / 10, 1 / 10, 0], target := 0 },
                { pred := [6 / 10, 4 / 10, 0], target := 1 },
                { pred := [2 / 10, 8 / 10, 0], target := 1 }] }

/-- Example batch: two classes, every sample of class 0 and predicted as class 0. -/
def batch_one_class : Batch :=
  { nclasses := 2,
    samples := [{ pred := [9 / 10, 1 / 10], target := 0 },
                { pred := [7 / 10, 3 / 10], target := 0 }] }

/-! ## Area under the ROC curve (`auc`) -/

/-- A 32-bit `int` result: the value reduced to `[-2^31, 2^31)` (signed overflow wraps
on the targets the project is built for). -/
def wrap32 (x : Int) : Int :=
  (x + 2147483648) % 4294967296 - 2147483648

/-- Search, downwards from `e`, for the first exponent with `2^e ≤ a`, in at most `fuel`
steps. -/
def float_exponent_from (a : ℚ) : Nat → Int → Int
  | 0, e => e
  | fuel + 1, e => if (2 : ℚ) ^ e ≤ a then e else float_exponent_from a fuel (e - 1)

/-- The exponent of `a > 0` as a `float`: the largest `e` in `[-126, 127]` with
`2^e ≤ a`, and `-126` when there is none (subnormal range). -/
def float_exponent (a : ℚ) : Int :=
  float_exponent_from a 253 127

/-- The conversion `double → float`: round to nearest, ties to even, with 24 significant
bits (spacing `2^-149` below `2^-126`). Magnitudes beyond the range of `float` are outside
the embedding. -/
def to_float (x : ℚ) : ℚ :=
  if x = 0 then 0
  else
    let e := float_exponent |x|
    let ulp : ℚ := (2 : ℚ) ^ (e - 23)
    let m := round_half_even (|x| / ulp)
    (if x < 0 then -1 else 1) * (m * ulp)

/-- The conversion `double → int`: truncation toward zero. -/
def to_int (x : ℚ) : Int :=
  if 0 ≤ x then Rat.floor x else Rat.ceil x

/-- `FLT_MAX`, the largest finite `float`, `(2^24 - 1) * 2^104`: the conversion of a
`double` of larger magnitude to `float` has no defined value, and `to_float` stands for
the conversion up to this magnitude only. -/
def flt_max : ℚ := 340282346638528859811704183484516925440

/-- The number of halvings that bring `n` below 2, in at most `fuel` steps: the position
of the leading bit of `n` when `fuel` is at least `n`. -/
def log2_from : Nat → Nat → Nat
  | 0, _ => 0
  | fuel + 1, n => if n < 2 then 0 else log2_from fuel (n / 2) + 1

/-- The exponent of `a > 0` as a `double`: the largest `e` in `[-1022, 1023]` with
`2^e ≤ a`, and `-1022` when there is none (subnormal range). With `num` in
`[2^i, 2^(i+1))` and `den` in `[2^j, 2^(j+1))` the quotient lies between `2^(i-j-1)` and
`2^(i-j+1)`, so the exponent is `i - j` or `i - j - 1`. -/
def double_exponent (a : ℚ) : Int :=
  let e0 : Int := (log2_from a.num.natAbs a.num.natAbs : Int) - (log2_from a.den a.den : Int)
  let e := if (2 : ℚ) ^ e0 ≤ a then e0 else e0 - 1
  max (-1022) (min 1023 e)

/-- The result of an operation in `double`: the exact result rounded to nearest, ties to
even, with 53 significant bits (spacing `2^-1074` below `2^-1022`). Magnitudes beyond the
range of `double` are outside the embedding. -/
def to_double (x : ℚ) : ℚ :=
  if x = 0 then 0
  else
    let e := double_exponent |x|
    let ulp : ℚ := (2 : ℚ) ^ (e - 52)
    let m := round_half_even (|x| / ulp)
    (if x < 0 then -1 else 1) * (m * ulp)

/-- `DBL_MAX`, the largest finite `double`, `(2^53 - 1) * 2^971`. -/
def dbl_max : ℚ := (2 ^ 53 - 1) * 2 ^ 971

/-- Whether `x` is the value of a `double`: an operation in `double` whose exact result
is `x` returns `x`. -/
def exact_double (x : ℚ) : Bool :=
  decide (|x| ≤ dbl_max) && decide (to_double x = x)

/-- Whether `0 * x`, `1 * x`, ..., `n * x` are all values of `double`s: up to `n` copies of
`x` then add up exactly, in whichever order they are added. -/
def exact_multiples (x : ℚ) (n : Nat) : Bool :=
  (List.range (n + 1)).all (fun k => exact_double ((k : ℚ) * x))

/-- The local class `PredictionAndAnswer`: a `float` prediction and an `int` answer. -/
structure PredictionAndAnswer where
  prediction : ℚ
  answer : Int
deriving DecidableEq

/-- The loop `for (i < pred.size()) p.emplace_back(pred.at(i), targets.at(i))`: the
prediction is narrowed to `float`, the target truncated to `int`; a `targets` shorter
than `pred` makes `targets.at(i)` throw. -/
def auc_pairs : List ℚ → List ℚ → Except Err (List PredictionAndAnswer)
  | [], _ => .ok []
  | _ :: _, [] => .error Err.out_of_range
  | f :: fs, t :: ts =>
    (auc_pairs fs ts).map (fun p => { prediction := to_float f, answer := to_int t } :: p)

/-- `std::sort` by ascending prediction. The order it leaves among equal predictions is
unspecified; a stable insertion sort stands for it, and `auc_scan_perm` shows that
the choice does not matter. -/
def std_sort (p : List PredictionAndAnswer) : List PredictionAndAnswer :=
  p.insertionSort (fun a b => a.prediction ≤ b.prediction)

/-- The loop variables `threshold`, `truePos`, `tp0`, `accum`, `tn` of `auc`. -/
structure AucState where
  threshold : ℚ
  truePos : Int
  tp0 : Int
  accum : Int
  tn : Int
deriving DecidableEq

/-- Body of the loop `for (i = 0; i < count; i++)` of `auc`, in 32-bit arithmetic. -/
def auc_step (s : AucState) (e : PredictionAndAnswer) : AucState :=
  let s1 : AucState :=
    if e.prediction ≠ s.threshold then
      { threshold := e.prediction,
        accum := wrap32 (s.accum + wrap32 (s.tn * wrap32 (s.truePos + s.tp0))),
        tp0 := s.truePos,
        tn := 0,
        truePos := s.truePos }
    else s
  { s1 with tn := wrap32 (s1.tn + wrap32 (1 - e.answer)),
            truePos := wrap32 (s1.truePos - e.answer) }

/-- The count `ones` of `auc`: `for (i < count) ones += p[i].answer`. -/
def auc_ones (p : List PredictionAndAnswer) : Int :=
  p.foldl (fun ones e => wrap32 (ones + e.answer)) 0

/-- The function `auc(pred, targets)` from `int count = p.size()` on, `p` being the
sorted vector. -/
def auc_scan (p : List PredictionAndAnswer) : Except Err ℚ :=
  let count := wrap32 p.length
  let ones := auc_ones p
  if ones = 0 ∨ count = ones then .ok 1
  else
    match p with
    | [] => .error Err.undefined
    | e0 :: _ =>
      let s := p.foldl auc_step
        { threshold := e0.prediction, truePos := ones, tp0 := ones, accum := 0, tn := 0 }
      let accum := wrap32 (s.accum + wrap32 (s.tn * wrap32 (s.truePos + s.tp0)))
      fdiv accum (wrap32 (wrap32 (2 * ones) * wrap32 (count - ones)))

/-- The function `auc(pred, targets)`. -/
def auc (pred targets : List ℚ) : Except Err ℚ := do
  let p ← auc_pairs pred targets
  auc_scan (std_sort p)

/-- The loop of `auc(ad)` that reads `pred.at(1)` and `target` of every sample. -/
def auc_inputs : List Sample → Except Err (List ℚ × List ℚ)
  | [] => .ok ([], [])
  | bad :: rest => do
    let p1 ← vec_at bad.pred 1
    let r ← auc_inputs rest
    pure (p1 :: r.1, bad.target :: r.2)

/-- The function `auc(ad)`. -/
def auc_ad (ad : Batch) : Except Err ℚ := do
  let r ← auc_inputs ad.samples
  auc r.1 r.2

/-- Number of (positive, negative) pairs of samples in which the score of the positive
is strictly higher: for every negative, the positives scored above it. A sample is a
pair `(score, target)`. -/
def pairs_higher (z : List (ℚ × ℚ)) : Nat :=
  (z.map (fun y =>
    if y.2 = 0 then z.countP (fun x => decide (x.2 = 1 ∧ y.1 < x.1)) else 0)).sum

/-- Number of (positive, negative) pairs of samples with equal scores. -/
def pairs_tied (z : List (ℚ × ℚ)) : Nat :=
  (z.map (fun y =>
    if y.2 = 0 then z.countP (fun x => decide (x.2 = 1 ∧ x.1 = y.1)) else 0)).sum

/-- Number of positives. -/
def positives (z : List (ℚ × ℚ)) : Nat := z.countP (fun e => decide (e.2 = 1))

/-- Number of negatives. -/
def negatives (z : List (ℚ × ℚ)) : Nat := z.countP (fun e => decide (e.2 = 0))

/-- The Mann-Whitney statistic of a list of `(score, target)` samples. -/
def mann_whitney (z : List (ℚ × ℚ)) : ℚ :=
  ((pairs_higher z : ℚ) + (pairs_tied z : ℚ) / 2) / ((positives z : ℚ) * (negatives z : ℚ))

/-- The samples with their scores narrowed to `float`. -/
def narrowed (z : List (ℚ × ℚ)) : List (ℚ × ℚ) :=
  z.map (fun e => (to_float e.1, e.2))

/-- Body of the loop of `auc` in unbounded integer arithmetic. -/
def auc_step_exact (s : AucState) (e : PredictionAndAnswer) : AucState :=
  let s1 : AucState :=
    if e.prediction ≠ s.threshold then
      { threshold := e.prediction,
        accum := s.accum + s.tn * (s.truePos + s.tp0),
        tp0 := s.truePos,
        tn := 0,
        truePos := s.truePos }
    else s
  { s1 with tn := s1.tn + (1 - e.answer), truePos := s1.truePos - e.answer }

/-- The value `accum + tn * (truePos + tp0)` with which the loop of `auc` ends. -/
def auc_final (s : AucState) : Int :=
  s.accum + s.tn * (s.truePos + s.tp0)

/-- The loop states agree up to multiples of `2^32`. -/
def auc_state_congr (s t : AucState) : Prop :=
  s.threshold = t.threshold ∧ s.truePos ≡ t.truePos [ZMOD 4294967296]
    ∧ s.tp0 ≡ t.tp0 [ZMOD 4294967296] ∧ s.accum ≡ t.accum [ZMOD 4294967296]
    ∧ s.tn ≡ t.tn [ZMOD 4294967296]

/-- Number of positives scored strictly above `t`. -/
def pos_above (l : List PredictionAndAnswer) (t : ℚ) : Nat :=
  l.countP (fun y => decide (y.answer = 1 ∧ t < y.prediction))

/-- Number of positives scored `t`. -/
def pos_at (l : List PredictionAndAnswer) (t : ℚ) : Nat :=
  l.countP (fun y => decide (y.answer = 1 ∧ y.prediction = t))

/-- Number of negatives scored `t`. -/
def neg_at (l : List PredictionAndAnswer) (t : ℚ) : Nat :=
  l.countP (fun y => decide (y.answer = 0 ∧ y.prediction = t))

/-- Number of positives. -/
def pos_count (l : List PredictionAndAnswer) : Nat :=
  l.countP (fun y => decide (y.answer = 1))

/-- Number of negatives. -/
def neg_count (l : List PredictionAndAnswer) : Nat :=
  l.countP (fun y => decide (y.answer = 0))

/-- Twice the number of (positive, negative) pairs with the positive above, plus the
number of tied pairs, where the negatives range over `outer` and the positives over `l`. -/
def pair_weight (l outer : List PredictionAndAnswer) : Nat :=
  (outer.map (fun x =>
    if x.answer = 0 then 2 * pos_above l x.prediction + pos_at l x.prediction else 0)).sum

/-- The entry of `p` built from a sample `(score, target)` whose score is already a
`float`. -/
def to_entry (e : ℚ × ℚ) : PredictionAndAnswer :=
  { prediction := e.1, answer := to_int e.2 }

/-- Example samples: a negative at 0.5 and a positive `1e-11` above. -/
def samples_close : List (ℚ × ℚ) := [(1 / 2, 0), (1 / 2 + 1 / 100000000000, 1)]

/-- Example samples: a negative at 0.1, a positive at 0.4, a negative at 0.4, a positive
at 0.8. -/
def samples_four : List (ℚ × ℚ) := [(1 / 10, 0), (4 / 10, 1), (4 / 10, 0), (8 / 10, 1)]

/-- Example samples: 32768 positives and 32768 negatives, all with score 0. -/
def samples_large : List (ℚ × ℚ) :=
  List.replicate 32768 (0, 1) ++ List.replicate 32768 (0, 0)

/-! ## Average precision (`cumsum_pair`, `compute_ap`) -/

/-- The comparison `SortScorePairDescend<T>`: `pair1.first > pair2.first`. -/
def SortScorePairDescend {α : Type} (pair1 pair2 : ℚ × α) : Bool :=
  decide (pair1.1 > pair2.1)

/-- `std::stable_sort` with `SortScorePairDescend`: scores in descending order, elements
of equal score in their original order (an element is inserted before the first one
that does not come before it). -/
def stable_sort {α : Type} (l : List (ℚ × α)) : List (ℚ × α) :=
  l.insertionSort (fun a b => SortScorePairDescend b a = false)

/-- The loop of `cumsum_pair` over the sorted pairs: the first element pushes its second
component, every later one `cumsum.back() + second` (an `int` sum). `last` is
`cumsum.back()`, `none` while `cumsum` is empty. -/
def cumsum_from : Option Int → List (ℚ × Int) → List Int
  | _, [] => []
  | none, p :: rest => p.2 :: cumsum_from (some p.2) rest
  | some b, p :: rest => wrap32 (b + p.2) :: cumsum_from (some (wrap32 (b + p.2))) rest

/-- The function `cumsum_pair`, called with an empty `cumsum`. -/
def cumsum_pair (pairs : List (ℚ × Int)) : List Int :=
  cumsum_from none (stable_sort pairs)

/-- A loop `for (i ...) v.push_back(f(i))` over the indices `is`, where `f` may fail. -/
def push_each (f : Nat → Except Err ℚ) : List Nat → Except Err (List ℚ)
  | [] => .ok []
  | i :: rest => do
    let x ← f i
    let xs ← push_each f rest
    pure (x :: xs)

/-- The constant `eps` of `compute_ap`. -/
def ap_eps : ℚ := 1 / 1000000

/-- The loop variables `cur_rec`, `cur_prec` (both `float`) and `ap` of `compute_ap`. -/
structure ApState where
  cur_rec : ℚ
  cur_prec : ℚ
  ap : ℚ
deriving DecidableEq

/-- Body of the loop `for (int i = num - 2; i >= 0; --i)` of `compute_ap`:
`std::max<float>` narrows `prec[i]`, the assignment to `cur_rec` narrows `rec[i]`, and
`cur_rec - rec[i]` and the product with `cur_prec` are computed in `double`. -/
def ap_step (prec rec_v : List ℚ) (s : ApState) (i : Nat) : Except Err ApState := do
  let p ← vec_idx prec i
  let r ← vec_idx rec_v i
  let cur_prec := max (to_float p) s.cur_prec
  let d := |s.cur_rec - r|
  pure { cur_prec := cur_prec,
         ap := if d > ap_eps then s.ap + cur_prec * d else s.ap,
         cur_rec := to_float r }

/-- The function `compute_ap(tp, fp, num_pos)`. The last product `cur_rec * cur_prec`
is a product of two `float`s, hence a `float`. -/
def compute_ap (tp fp : List (ℚ × Int)) (num_pos : Int) : Except Err ℚ :=
  let num := wrap32 tp.length
  if num = 0 ∨ num_pos = 0 then .ok 0
  else do
    let tp_cumsum := cumsum_pair tp
    let fp_cumsum := cumsum_pair fp
    let prec ← push_each (fun i => do
      let t ← vec_idx tp_cumsum i
      let f ← vec_idx fp_cumsum i
      fdiv t (wrap32 (t + f))) (List.range num.toNat)
    let rec_v ← push_each (fun i => do
      let t ← vec_idx tp_cumsum i
      fdiv t num_pos) (List.range num.toNat)
    match rec_v.getLast?, prec.getLast? with
    | some r, some p =>
      let s ← (List.range (num.toNat - 1)).reverse.foldlM (ap_step prec rec_v)
        { cur_rec := to_float r, cur_prec := to_float p, ap := 0 }
      pure (s.ap + to_float (s.cur_rec * s.cur_prec))
    | _, _ => .error Err.undefined

/-- The `tp` list of a list of detections `(score, is a true positive)`: `tp_i = 1` for
a true positive and `0` for a false positive. -/
def tp_list (dets : List (ℚ × Bool)) : List (ℚ × Int) :=
  dets.map (fun d => (d.1, if d.2 then 1 else 0))

/-- The `fp` list of a list of detections: `fp_i = 0` for a true positive and `1` for a
false positive. -/
def fp_list (dets : List (ℚ × Bool)) : List (ℚ × Int) :=
  dets.map (fun d => (d.1, if d.2 then 0 else 1))

/-- Specification: `tp_cum(i)`, the number of true positives among the first `i + 1`
detections in descending-score order. -/
def spec_tp_cum (dets : List (ℚ × Bool)) (i : Nat) : Nat :=
  ((stable_sort dets).take (i + 1)).countP (fun d => d.2)

/-- Specification: `fp_cum(i)`, the number of false positives among the first `i + 1`
detections in descending-score order. -/
def spec_fp_cum (dets : List (ℚ × Bool)) (i : Nat) : Nat :=
  ((stable_sort dets).take (i + 1)).countP (fun d => !d.2)

/-- Specification: `prec(i) = tp_cum(i) / (tp_cum(i) + fp_cum(i))`. -/
def spec_prec (dets : List (ℚ × Bool)) (i : Nat) : ℚ :=
  (spec_tp_cum dets i : ℚ) / ((spec_tp_cum dets i : ℚ) + (spec_fp_cum dets i : ℚ))

/-- Specification: `rec(i) = tp_cum(i) / num_pos`. -/
def spec_rec (dets : List (ℚ × Bool)) (num_pos : Int) (i : Nat) : ℚ :=
  (spec_tp_cum dets i : ℚ) / (num_pos : ℚ)

/-- Specification: the monotone precision envelope, `max over j ≥ i of prec(j)` (the
precisions are non-negative, so the maximum may start from 0). -/
def spec_env (dets : List (ℚ × Bool)) (i : Nat) : ℚ :=
  (((List.range dets.length).drop i).map (spec_prec dets)).foldr max 0

/-- Specification: the PASCAL-style average precision,
`sum over i of (max over j ≥ i of prec(j)) * (rec(i) - rec(i-1))` with `rec(-1) = 0`. -/
def pascal_ap (dets : List (ℚ × Bool)) (num_pos : Int) : ℚ :=
  ((List.range dets.length).map (fun i =>
    spec_env dets i
      * (spec_rec dets num_pos i - (if i = 0 then 0 else spec_rec dets num_pos (i - 1))))).sum

/-- Number of true positives of a list of detections. -/
def tp_total (dets : List (ℚ × Bool)) : Nat :=
  dets.countP (fun d => d.2)

/-- Example detections: one true positive. -/
def dets_one : List (ℚ × Bool) := [(9 / 10, true)]

/-- Example detections: 35 true positives. -/
def dets_many : List (ℚ × Bool) := List.replicate 35 (9 / 10, true)

/-- Example detections: a true positive at 0.9, a false positive at 0.8, a true positive
at 0.7, given out of order. -/
def dets_three : List (ℚ × Bool) := [(8 / 10, false), (7 / 10, true), (9 / 10, true)]

/-- The envelope `max over j in [i, n) of p j` of a non-negative sequence. -/
def env_of (p : Nat → ℚ) (n i : Nat) : ℚ :=
  (((List.range n).drop i).map p).foldr max 0

/-- The sum `sum over i < n of env(i) * (r i - r (i - 1))` with `r (-1) = 0`. -/
def ap_sum (p r : Nat → ℚ) (n : Nat) : ℚ :=
  ((List.range n).map (fun i => env_of p n i * (r i - (if i = 0 then 0 else r (i - 1))))).sum

/-- The part of `ap_sum` above index `i`: `sum over i < k < n of env(k) * (r k - r (k - 1))`. -/
def upper_sum (p r : Nat → ℚ) (n i : Nat) : ℚ :=
  (((List.range n).drop (i + 1)).map (fun k => env_of p n k * (r k - r (k - 1)))).sum

/-- The state of the loop of `compute_ap` once index `i` has been visited, against the
exact quantities: `cur_rec` is the narrowed `r i`, `cur_prec` is within `2^-24` of the
envelope at `i`, and `ap` is within `2^-23` per visited index of the exact partial sum. -/
def ap_inv (p r : Nat → ℚ) (n i : Nat) (s : ApState) : Prop :=
  s.cur_rec = to_float (r i)
    ∧ |s.cur_prec - env_of p n i| ≤ 1 / 16777216
    ∧ 0 ≤ s.cur_prec ∧ s.cur_prec ≤ 1
    ∧ |s.ap - upper_sum p r n i| ≤ (1 / 8388608) * ((n : ℚ) - 1 - (i : ℚ))

/-! ## Mean average precision (`ap`) -/

/-- One per-class record `vbad.at(j)` of the detection payload: the keys `tp_d`, `tp_i`,
`fp_d`, `fp_i`, `num_pos` and `label`. -/
structure ApRecord where
  tp_d : List ℚ
  tp_i : List Int
  fp_d : List ℚ
  fp_i : List Int
  num_pos : Int
  label : Int
deriving DecidableEq

/-- The detection payload read by `ap`: the vectors `bad.getv("0")`, ...,
`bad.getv("pos_count - 1")` of the sub-record `"0"`; `pos_count` is their number. -/
structure ApPayload where
  records : List (List ApRecord)
deriving DecidableEq

/-- The loop `for (j < d.size()) v.push_back(pair(d.at(j), i.at(j)))`: a list `i`
shorter than `d` makes `i.at(j)` throw. -/
def pairs_at : List ℚ → List Int → Except Err (List (ℚ × Int))
  | [], _ => .ok []
  | _ :: _, [] => .error Err.out_of_range
  | d :: ds, i :: is => (pairs_at ds is).map (fun p => (d, i) :: p)

/-- `std::map<int, T>::find`: the value stored under `k`, if any. The map is the list of
its entries in increasing key order. -/
def imap_find {α : Type} (m : List (Int × α)) (k : Int) : Option α :=
  (m.find? (fun e => e.1 = k)).map (fun e => e.2)

/-- The assignment `m[k] = v` of `std::map<int, T>`. -/
def imap_set {α : Type} : List (Int × α) → Int → α → List (Int × α)
  | [], k, v => [(k, v)]
  | e :: rest, k, v =>
    if k < e.1 then (k, v) :: e :: rest
    else if k = e.1 then (k, v) :: rest
    else e :: imap_set rest k v

/-- The variables `mmAP`, `APs`, `APs_count` and `APs_count_all` of `ap`. The values of
`APs` are `float`s. -/
structure ApAcc where
  mmAP : ℚ
  APs : List (Int × ℚ)
  APs_count : List (Int × Int)
  APs_count_all : Int
deriving DecidableEq

/-- Body of the inner loop `for (j < vbad.size())` of `ap`. -/
def ap_record (s : ApAcc) (r : ApRecord) : Except Err ApAcc := do
  let tp ← pairs_at r.tp_d r.tp_i
  let fp ← pairs_at r.fp_d r.fp_i
  if tp.length > 0 ∨ fp.length > 0 ∨ r.num_pos > 0 then
    let local_ap ← compute_ap tp fp r.num_pos
    match imap_find s.APs r.label with
    | none =>
      pure { mmAP := s.mmAP + local_ap,
             APs := imap_set s.APs r.label (to_float local_ap),
             APs_count := imap_set s.APs_count r.label 1,
             APs_count_all := wrap32 (s.APs_count_all + 1) }
    | some v =>
      pure { mmAP := s.mmAP + local_ap,
             APs := imap_set s.APs r.label (to_float (v + local_ap)),
             APs_count := imap_set s.APs_count r.label
               (wrap32 ((imap_find s.APs_count r.label).getD 0 + 1)),
             APs_count_all := wrap32 (s.APs_count_all + 1) }
  else
    match imap_find s.APs r.label with
    | none =>
      pure { s with APs := imap_set s.APs r.label 0,
                    APs_count := imap_set s.APs_count r.label 0 }
    | some _ => pure s

/-- Body of the loop `for (auto ap : APs)` of `ap`, for the key `k`: the sum stored under
`k` is divided by the count (a `float` division), or set to 0 when the count is 0. -/
def ap_normalise (APs_count : List (Int × Int)) (APs : List (Int × ℚ)) (k : Int) :
    List (Int × ℚ) :=
  let n := (imap_find APs_count k).getD 0
  if n = 0 then imap_set APs k 0
  else imap_set APs k (to_float ((imap_find APs k).getD 0 / to_float n))

/-- The function `ap(ad, APs)`: the value returned and the final content of `APs`. -/
def ap (ad : ApPayload) (APs : List (Int × ℚ)) : Except Err (ℚ × List (Int × ℚ)) := do
  let s ← ad.records.foldlM (fun s vbad => vbad.foldlM ap_record s)
    { mmAP := 0, APs := APs, APs_count := [], APs_count_all := 0 }
  let APs1 := (s.APs.map (fun e => e.1)).foldl (ap_normalise s.APs_count) s.APs
  if s.APs_count_all = 0 then pure (0, APs1)
  else pure (s.mmAP / s.APs_count_all, APs1)

/-- The record of one class with one ground truth and one true positive at 0.8, the
false-positive lists left empty. -/
def record_tp_only (label : Int) : ApRecord :=
  { tp_d := [8 / 10], tp_i := [1], fp_d := [], fp_i := [], num_pos := 1, label := label }

/-- The record of one class with one ground truth and one true positive at 0.8, the
false-positive lists running parallel to the true-positive lists. -/
def record_one_tp (label : Int) : ApRecord :=
  { tp_d := [8 / 10], tp_i := [1], fp_d := [8 / 10], fp_i := [0], num_pos := 1,
    label := label }

/-- Whether a record counts in the mean: `tp.size() > 0 or fp.size() > 0 or num_pos > 0`. -/
def ApRecord.active (r : ApRecord) : Prop :=
  r.tp_d ≠ [] ∨ r.fp_d ≠ [] ∨ r.num_pos > 0

/-- The average precision of one record: `compute_ap` on the `tp` and `fp` pair lists
built from the record. -/
def record_ap (r : ApRecord) : Except Err ℚ := do
  let tp ← pairs_at r.tp_d r.tp_i
  let fp ← pairs_at r.fp_d r.fp_i
  compute_ap tp fp r.num_pos

/-- The records of a payload, in the order `ap` visits them. -/
def ApPayload.all (ad : ApPayload) : List ApRecord :=
  ad.records.flatten

/-- Specification: the arithmetic mean of a list of values (0 for the empty list, which
has no mean). -/
def mean (l : List ℚ) : ℚ :=
  l.sum / (l.length : ℚ)

/-- The keys of a `std::map` are strictly increasing. -/
def imap_sorted {α : Type} (m : List (Int × α)) : Prop :=
  (m.map (fun e => e.1)).Pairwise (fun a b => a < b)

/-- A record that holds neither detection nor ground truth. -/
def record_empty (label : Int) : ApRecord :=
  { tp_d := [], tp_i := [], fp_d := [], fp_i := [], num_pos := 0, label := label }

/-- A record with one false positive at 0.8 and one ground truth. -/
def record_one_fp (label : Int) : ApRecord :=
  { tp_d := [8 / 10], tp_i := [0], fp_d := [8 / 10], fp_i := [1], num_pos := 1,
    label := label }

/-- Example payload: one class with a true positive and one class with a false
positive, one record each. -/
def payload_two_classes : ApPayload :=
  { records := [[record_one_tp 1, record_one_fp 2]] }

/-- Example payload: a class with a true positive and a class whose record holds neither
detection nor ground truth. -/
def payload_empty_class : ApPayload :=
  { records := [[record_one_tp 1, record_empty 2]] }

/-- Example payload: class 1 with two records (a true positive each) and class 2 with
one record (a false positive). -/
def payload_repeated_class : ApPayload :=
  { records := [[record_one_tp 1, record_one_fp 2], [record_one_tp 1]] }

/-! ## Multi-label soft Kullback-Leibler divergence (`multilabel_soft_kl`) -/

/-- A sub-record of the multi-label payload: the vectors `target` and `pred`. -/
structure MlSample where
  target : List ℚ
  pred : List ℚ
deriving DecidableEq

/-- The constant `eps = 0.00001` of `multilabel_soft_kl`, a `double`. -/
def kl_eps : ℚ := to_double (1 / 100000)

/-- The selection `(v.array() < eps).select(eps, v)` on one coefficient. -/
def kl_clamp (x : ℚ) : ℚ :=
  if x < kl_eps then kl_eps else x

/-- Whether a target coefficient counts in `total_number`: `target > thres` when
`thres >= 0`, and `target >= 0` otherwise (threshold unset, encoded as -1). -/
def kl_unmasked (thres t : ℚ) : Bool :=
  if thres ≥ 0 then decide (t > thres) else decide (t ≥ 0)

/-- Body of the loop of `multilabel_soft_kl` for one sample: the sum of `temp` and the
number of unmasked targets. `predictions.at(0)` and `targets.at(0)` throw on an empty
vector; the coefficient-wise product of vectors of different sizes is outside the
contract of the matrix library. `log` stands for `std::log`. The coefficient-wise
operations of `(dprede.array().inverse() * dtarge.array()).log() * dtarge.array()` are
operations in `double`: the inverse, the product under the logarithm and the product
with the logarithm are rounded. The sum `temp.sum()` is taken exactly, the order in
which the matrix library adds not being part of its interface. -/
def kl_sample (log : ℚ → ℚ) (thres : ℚ) (bad : MlSample) : Except Err (ℚ × Nat) :=
  if bad.pred = [] then .error Err.out_of_range
  else if bad.target = [] then .error Err.out_of_range
  else if bad.pred.length ≠ bad.target.length then .error Err.undefined
  else
    let temp := List.zipWith
      (fun p t =>
        to_double (log (to_double (to_double (1 / kl_clamp p) * kl_clamp t)) * kl_clamp t))
      bad.pred bad.target
    let temp := List.zipWith (fun t x => if kl_unmasked thres t then x else 0) bad.target temp
    .ok (vsum temp, bad.target.countP (kl_unmasked thres))

/-- The function `multilabel_soft_kl(ad, thres)` on the sub-records of the payload. The
accumulation `kl_divergence += temp.sum()` and the final quotient are taken exactly, as
the sums are. -/
def multilabel_soft_kl (log : ℚ → ℚ) (samples : List MlSample) (thres : ℚ) :
    Except Err ℚ := do
  let s ← samples.foldlM (fun (s : ℚ × Int) bad => do
      let r ← kl_sample log thres bad
      pure (s.1 + r.1, s.2 + (r.2 : Int))) (0, 0)
  fdiv s.1 s.2

/-- Example payload: the scenario of the specification, `target = pred = [0.5, 0.5]`. -/
def ml_identical : List MlSample :=
  [{ target := [1 / 2, 1 / 2], pred := [1 / 2, 1 / 2] }]

/-- Example payload: `target = pred = [0.95]`, 0.95 being the `double` written so. -/
def ml_near_one : List MlSample :=
  [{ target := [to_double (19 / 20)], pred := [to_double (19 / 20)] }]

/-- The values of `std::log` at 1 and at `1 - 2^-53`, the `double` below 1, where the
logarithm `-2^-53 - 2^-107 - ...` rounds to `-2^-53` (the function is not used
elsewhere). -/
def log_near_one (x : ℚ) : ℚ := x - 1

/-! ## Gini coefficient (`comp_gini`, `comp_gini_normalized`, `gini`) -/

/-- The loop `k[i] = { a[i], p[i] }` of `comp_gini`, for `i < a.size()`: `p[i]` is read
unchecked, so a `p` shorter than `a` is outside the contract. -/
def gini_pairs : List ℚ → List ℚ → Except Err (List (ℚ × ℚ))
  | [], _ => .ok []
  | _ :: _, [] => .error Err.undefined
  | a :: as, p :: ps => (gini_pairs as ps).map (fun k => (a, p) :: k)

/-- `std::stable_sort` of the pairs `K = (a, p)` with the comparison `a.p > b.p`:
descending `p`, pairs of equal `p` in their original order. -/
def sort_by_p (k : List (ℚ × ℚ)) : List (ℚ × ℚ) :=
  k.insertionSort (fun x y => ¬ (y.2 > x.2))

/-- The variables `accPopPercSum`, `accLossPercSum` and `giniSum` of `comp_gini`. -/
structure GiniState where
  accPopPercSum : ℚ
  accLossPercSum : ℚ
  giniSum : ℚ
deriving DecidableEq

/-- Body of the loop `for (auto &i : k)` of `comp_gini`; `size` is `a.size()`. -/
def gini_step (sum : ℚ) (size : Nat) (s : GiniState) (i : ℚ × ℚ) : Except Err GiniState := do
  let loss ← fdiv i.1 sum
  let pop ← fdiv 1 size
  let accLossPercSum := s.accLossPercSum + loss
  let accPopPercSum := s.accPopPercSum + pop
  pure { accLossPercSum := accLossPercSum,
         accPopPercSum := accPopPercSum,
         giniSum := s.giniSum + (accLossPercSum - accPopPercSum) }

/-- The function `comp_gini` from the sorted pairs on. -/
def gini_scan (k : List (ℚ × ℚ)) (sum : ℚ) (size : Nat) : Except Err ℚ := do
  let s ← k.foldlM (gini_step sum size)
    { accPopPercSum := 0, accLossPercSum := 0, giniSum := 0 }
  fdiv s.giniSum size

/-- The function `comp_gini(a, p)`. -/
def comp_gini (a p : List ℚ) : Except Err ℚ := do
  let k ← gini_pairs a p
  gini_scan (sort_by_p k) (vsum a) a.length

/-- The function `comp_gini_normalized(a, p)`. -/
def comp_gini_normalized (a p : List ℚ) : Except Err ℚ := do
  let g ← comp_gini a p
  let g0 ← comp_gini a a
  fdiv g g0

/-- Body of the loop of `gini(ad, regression)`: the entries `a.at(i)` and `p.at(i)`
after the iteration. In regression mode `p.at(i)` is `pred.at(0)`; otherwise the
argmax of the predictions is assigned to `a.at(i)` and `p.at(i)` keeps its initial
value 0. -/
def gini_entry (regression : Bool) (bad : Sample) : Except Err (ℚ × ℚ) :=
  if regression then do
    let p0 ← vec_at bad.pred 0
    pure (bad.target, p0)
  else pure (((max_element bad.pred : Nat) : ℚ), 0)

/-- The loop of `gini(ad, regression)` over the sub-records. -/
def gini_entries (regression : Bool) : List Sample → Except Err (List (ℚ × ℚ))
  | [] => .ok []
  | bad :: rest => do
    let e ← gini_entry regression bad
    let es ← gini_entries regression rest
    pure (e :: es)

/-- The function `gini(ad, regression)`. -/
def gini (ad : Batch) (regression : Bool) : Except Err ℚ := do
  let k ← gini_entries regression ad.samples
  comp_gini_normalized (k.map (fun e => e.1)) (k.map (fun e => e.2))

/-- Specification: the targets in the order of the samples stably sorted by `p`
descending. -/
def spec_ranked (a p : List ℚ) : List ℚ :=
  ((a.zip p).insertionSort (fun x y => x.2 ≥ y.2)).map (fun e => e.1)

/-- Specification: the cumulative share of target mass at position `i` (0-based) of the
ranked targets `r`: the sum of the first `i + 1` targets over the sum of all. -/
def spec_mass_share (r : List ℚ) (i : Nat) : ℚ :=
  (r.take (i + 1)).sum / r.sum

/-- Specification: `G = (1/n) * sum over positions of (cumulative share of target mass -
cumulative population share)` for the ranked targets `r`. -/
def spec_gini_of (r : List ℚ) : ℚ :=
  ((List.range r.length).map
    (fun i => spec_mass_share r i - ((i : ℚ) + 1) / (r.length : ℚ))).sum / (r.length : ℚ)

/-- Specification: `G(a, p)`. -/
def spec_gini (a p : List ℚ) : ℚ :=
  spec_gini_of (spec_ranked a p)

/-- Example batch: two samples, both predicted wrong (targets 0 and 1, argmax 1 and 0). -/
def batch_two_wrong : Batch :=
  { nclasses := 2,
    samples := [{ pred := [1 / 10, 9 / 10], target := 0 },
                { pred := [8 / 10, 2 / 10], target := 1 }] }

/-- Example batch for the regression mode: targets 1, 3, 2 predicted 1.1, 2.9, 2.2. -/
def batch_regression : Batch :=
  { nclasses := 1,
    samples := [{ pred := [11 / 10], target := 1 },
                { pred := [29 / 10], target := 3 },
                { pred := [22 / 10], target := 2 }] }

/-- Example batch for the classification mode: targets 1, 0, 0 and argmax predictions
0, 0, 1. -/
def batch_gini_class : Batch :=
  { nclasses := 2,
    samples := [{ pred := [9 / 10, 1 / 10], target := 1 },
                { pred := [9 / 10, 1 / 10], target := 0 },
                { pred := [2 / 10, 8 / 10], target := 0 }] }

/-- A value stored in a data object: a `double`, an `int`, a string or a vector of
`double` (other types behave like the last three: they are not `double`). -/
inductive ADValue where
  | dbl (v : ℚ)
  | int (v : Int)
  | str (s : String)
  | vec (v : List ℚ)
deriving DecidableEq

/-- `is<double>()`. -/
def ADValue.is_double : ADValue → Bool
  | .dbl _ => true
  | _ => false

/-- A metric record: the keys of a data object with their values (keys are unique). -/
abbrev ADRecord := List (String × ADValue)

/-- The statements `auto it = measures_sum.insert({ key, 0.0 }); it.first->second += val;`:
the entry of `key` is created with 0.0 when absent, then `val` is added to it. -/
def sum_add : List (String × ℚ) → String → ℚ → List (String × ℚ)
  | [], key, val => [(key, 0 + val)]
  | e :: rest, key, val =>
    if e.1 = key then (e.1, e.2 + val) :: rest else e :: sum_add rest key val

/-- The inner loop of `aggregate_multiple_testsets` over the keys of one record: only
the values that are `double` are added. -/
def aggregate_record (measures_sum : List (String × ℚ)) (test_meas : ADRecord) :
    List (String × ℚ) :=
  test_meas.foldl (fun m e =>
    match e.2 with
    | .dbl val => sum_add m e.1 val
    | _ => m) measures_sum

/-- The function `aggregate_multiple_testsets`: from the vector `measures` to the record
stored under `measure`. -/
def aggregate_multiple_testsets (measures : List ADRecord) : ADRecord :=
  (measures.foldl aggregate_record []).map
    (fun e => (e.1, ADValue.dbl (e.2 / (measures.length : ℚ))))

/-- The `double` entries of a record. -/
def doubles : ADRecord → List (String × ℚ)
  | [] => []
  | e :: rest =>
    match e.2 with
    | .dbl v => (e.1, v) :: doubles rest
    | _ => doubles rest

/-- Example record, as `measure` builds it: an accuracy, the test identifier and the
test name. -/
def record_measure : ADRecord :=
  [("acc", .dbl (3 / 4)), ("f1", .dbl (1 / 2)), ("test_id", .int 0), ("test_name", .str "")]

/-- The output object on which `aggregate_multiple_testsets` works: the vector stored
under `measures` and the record stored under `measure`, if any. -/
structure AdOut where
  measures : List ADRecord
  measure : Option ADRecord
deriving DecidableEq

/-- The effect of `aggregate_multiple_testsets(ad_out)` on the output object:
`ad_out.add("measure", meas_obj)`. -/
def aggregate_multiple_testsets_on (ad_out : AdOut) : AdOut :=
  { ad_out with measure := some (aggregate_multiple_testsets ad_out.measures) }

/-- The `double` stored under `key` in a record, if the record has the key with a value
of that type. -/
def dbl_value (r : ADRecord) (key : String) : Option ℚ :=
  match r.find? (fun e => e.1 = key) with
  | some (_, .dbl v) => some v
  | _ => none

/-- Specification: the contribution of a record to the sum of a field: the value of the
field, and 0 for a record lacking it. -/
def field_value (r : ADRecord) (key : String) : ℚ :=
  (dbl_value r key).getD 0

/-- Specification: the sum of a field over the records divided by their number. -/
def field_mean (measures : List ADRecord) (key : String) : ℚ :=
  (measures.map (fun r => field_value r key)).sum / (measures.length : ℚ)

/-- The sum stored under `key` in `measures_sum`, if any. -/
def sum_find (m : List (String × ℚ)) (key : String) : Option ℚ :=
  (m.find? (fun e => e.1 = key)).map (fun e => e.2)

/-- Example records: the second lacks `f1` and the first lacks `map`. -/
def records_two : List ADRecord :=
  [[("acc", .dbl (3 / 4)), ("f1", .dbl (1 / 2)), ("test_id", .int 0)],
   [("acc", .dbl (1 / 4)), ("map", .dbl 1), ("test_id", .int 1)]]

/-! ## Multi-label soft metrics: delta scores (`multilabel_soft_deltas`) -/

/-- Body of the loop over the samples of `multilabel_soft_deltas`: the number of unmasked
targets and the vector `dif`, in which a masked coefficient is 10 and an unmasked one is
`|target - pred|`, the difference `dtarg - dpred` being the result of a subtraction in
`double`. `predictions.at(0)` and `targets.at(0)` throw on an empty vector; the
difference of vectors of different sizes is outside the contract of the matrix library. -/
def deltas_sample (thres : ℚ) (bad : MlSample) : Except Err (Nat × List ℚ) :=
  if bad.pred = [] then .error Err.out_of_range
  else if bad.target = [] then .error Err.out_of_range
  else if bad.pred.length ≠ bad.target.length then .error Err.undefined
  else .ok (bad.target.countP (kl_unmasked thres),
    List.zipWith (fun t p => if kl_unmasked thres t then |to_double (t - p)| else 10)
      bad.target bad.pred)

/-- One iteration of the loop over the samples of `multilabel_soft_deltas`, on the pair
`(total_number, delta_scores)`: `delta_scores[k] += (dif.array() < deltas[k]).count()`. -/
def deltas_step (deltas : List ℚ) (thres : ℚ) (s : Int × List ℚ) (bad : MlSample) :
    Except Err (Int × List ℚ) := do
  let r ← deltas_sample thres bad
  pure (s.1 + (r.1 : Int),
    List.zipWith (fun sc d => sc + ((r.2.countP (fun x => decide (x < d)) : Nat) : ℚ)) s.2 deltas)

/-- The function `multilabel_soft_deltas(ad, delta_scores, deltas, thres)`: the content of
`delta_scores` on return. The entries `k < deltas.size()` are set to 0, incremented and
divided by `total_number`; `delta_scores[k]` is written unchecked. The scores are counts,
added exactly, until the last statement, which divides a count by a count: the quotient
stands for the `double` nearest to it. -/
def multilabel_soft_deltas (samples : List MlSample) (delta_scores deltas : List ℚ)
    (thres : ℚ) : Except Err (List ℚ) :=
  if delta_scores.length < deltas.length then .error Err.undefined
  else do
    let s ← samples.foldlM (deltas_step deltas thres) ((0 : Int), deltas.map (fun _ => (0 : ℚ)))
    let scores ← s.2.mapM (fun sc => fdiv sc s.1)
    pure (scores ++ delta_scores.drop deltas.length)

/-- The vector `deltas{ 0.05, 0.1, 0.2, 0.5 }` of `measure`: the `double`s written
0.05, 0.1, 0.2 and 0.5. -/
def measure_deltas : List ℚ :=
  [to_double (1 / 20), to_double (1 / 10), to_double (1 / 5), to_double (1 / 2)]

/-- The vector `delta_scores{ 0, 0, 0, 0 }` of `measure`. -/
def measure_delta_scores : List ℚ := [0, 0, 0, 0]

/-- Specification: the unmasked entries of the whole batch, as pairs `(target, pred)`. -/
def spec_unmasked_entries (thres : ℚ) (samples : List MlSample) : List (ℚ × ℚ) :=
  (samples.map (fun s => (s.target.zip s.pred).filter (fun e => kl_unmasked thres e.1))).flatten

/-- The score with the differences as the code takes them: the number of unmasked
entries whose difference `target - pred`, rounded to `double`, is below `delta` in
absolute value, divided by the number of unmasked entries. -/
def spec_rounded_score (samples : List MlSample) (thres delta : ℚ) : ℚ :=
  (((spec_unmasked_entries thres samples).countP
      (fun e => decide (|to_double (e.1 - e.2)| < delta)) : Nat) : ℚ)
    / (((spec_unmasked_entries thres samples).length : Nat) : ℚ)

/-- Specification: the number of unmasked entries with `|target - pred| < delta`, divided
by the number of unmasked entries. -/
def spec_delta_score (samples : List MlSample) (thres delta : ℚ) : ℚ :=
  (((spec_unmasked_entries thres samples).countP (fun e => decide (|e.1 - e.2| < delta)) : Nat) : ℚ)
    / (((spec_unmasked_entries thres samples).length : Nat) : ℚ)

/-- Example payload: two samples of three classes, one target masked, all values and
differences being values of `double`s. -/
def ml_dyadic : List MlSample :=
  [{ target := [1 / 2, -1, 1], pred := [17 / 32, 1 / 4, 3 / 4] },
   { target := [0, 1 / 4, 1], pred := [1 / 8, 1 / 4, 0] }]

/-- Example payload: one target 1/2 with the prediction `2^-60`; the difference is not
the value of a `double`, and rounds to 1/2. -/
def ml_round_up : List MlSample :=
  [{ target := [1 / 2], pred := [1 / 2 ^ 60] }]

/-! ## Multi-label soft metrics: coefficient of determination (`multilabel_soft_r2`) -/

/-- The variables of `multilabel_soft_dc` declared before the loop over the samples. -/
structure DcState where
  t_j : List ℚ
  p_j : List ℚ
  t_ : ℚ
  p_ : ℚ
  dcov : ℚ
  dvart : ℚ
  dvarp : ℚ
  distance_correlation : ℚ
deriving DecidableEq

/-- The loop that fills `care_classes` for one sample; `targets[l]` is read unchecked for
`l < nclasses`. -/
def dc_care_classes (nclasses : Nat) (thres : ℚ) (targets : List ℚ) :
    Except Err (List Nat) :=
  if targets.length < nclasses then .error Err.undefined
  else .ok ((List.range nclasses).filter (fun l => kl_unmasked thres (targets.getD l 0)))

/-- The function `dc_pt_jk`: the pair `(p_jk, t_jk)`. -/
def dc_pt_jk (j k : Nat) (targets predictions : List ℚ) : ℚ × ℚ :=
  (|predictions.getD j 0 - predictions.getD k 0|, |targets.getD j 0 - targets.getD k 0|)

/-- Body of the loop `for (int l : care_classes)` that accumulates the row means: the
inner loop adds `t_lm` to `t_j[l]` (and `p_lm` to `p_j[l]`), then `t_j[l]` is divided by
the number of active classes and added to `t_`. -/
def dc_row (care : List Nat) (targets predictions : List ℚ) (s : DcState) (l : Nat) :
    DcState :=
  let tl := care.foldl (fun acc m => acc + (dc_pt_jk l m targets predictions).2)
    (s.t_j.getD l 0)
  let pl := care.foldl (fun acc m => acc + (dc_pt_jk l m targets predictions).1)
    (s.p_j.getD l 0)
  let tl := tl / (care.length : ℚ)
  let pl := pl / (care.length : ℚ)
  { s with t_j := s.t_j.set l tl, t_ := s.t_ + tl, p_j := s.p_j.set l pl, p_ := s.p_ + pl }

/-- Body of the double loop `for (int j : care_classes) for (int k : care_classes)` that
accumulates `dcov`, `dvart` and `dvarp`. -/
def dc_cell (targets predictions : List ℚ) (s : DcState) (j k : Nat) : DcState :=
  let pt := dc_pt_jk j k targets predictions
  let p := pt.1 - s.p_j.getD j 0 - s.p_j.getD k 0 + s.p_
  let t := pt.2 - s.t_j.getD j 0 - s.t_j.getD k 0 + s.t_
  { s with dcov := s.dcov + p * t, dvart := s.dvart + t * t, dvarp := s.dvarp + p * p }

/-- The loops over `care_classes` for one sample: the row means `t_j[l]`, `p_j[l]`, the
grand means `t_`, `p_`, then the sums `dcov`, `dvart` and `dvarp`. -/
def dc_sums (care : List Nat) (targets predictions : List ℚ) (s : DcState) : DcState :=
  let n : ℚ := (care.length : ℚ)
  let s1 := care.foldl (dc_row care targets predictions) s
  let s2 := { s1 with t_ := s1.t_ / n, p_ := s1.p_ / n }
  care.foldl (fun s j => care.foldl (fun s k => dc_cell targets predictions s j k) s) s2

/-- End of the body of the loop over the samples: the divisions by
`care_classes.size() * care_classes.size()`, the square roots and the update of
`distance_correlation`; `n` is `care_classes.size()` and `sqrt` stands for `std::sqrt`. -/
def dc_close (sqrt : ℚ → ℚ) (n : ℚ) (s3 : DcState) : Except Err DcState :=
  let dcov := sqrt (s3.dcov / (n * n))
  let dvart := sqrt (s3.dvart / (n * n))
  let dvarp := sqrt (s3.dvarp / (n * n))
  let s4 := { s3 with dcov := dcov, dvart := dvart, dvarp := dvarp }
  if dvart ≠ 0 ∧ dvarp ≠ 0 then
    (fdiv dcov (sqrt (dvart * dvarp))).map
      (fun q => { s4 with distance_correlation := s4.distance_correlation + q })
  else .ok s4

/-- Body of the loop over the samples of `multilabel_soft_dc`. The state `s` is the one
left by the previous sample: the source resets `care_classes` only. `predictions[l]` is
read unchecked. -/
def dc_sample (sqrt : ℚ → ℚ) (nclasses : Nat) (thres : ℚ) (s : DcState) (badj : MlSample) :
    Except Err DcState :=
  match dc_care_classes nclasses thres badj.target with
  | .error e => .error e
  | .ok care =>
    if care = [] then .ok s
    else if care.any (fun l => decide (badj.pred.length ≤ l)) then .error Err.undefined
    else dc_close sqrt (care.length : ℚ) (dc_sums care badj.target badj.pred s)

/-- The function `multilabel_soft_dc(ad, thres)` on the sub-records of the payload;
`nclasses` is the size of the target vector of sub-record 0, and the read of that
sub-record fails on a payload without sample. -/
def multilabel_soft_dc (sqrt : ℚ → ℚ) (samples : List MlSample) (thres : ℚ) :
    Except Err ℚ :=
  match samples with
  | [] => .error Err.out_of_range
  | first :: _ => do
    let nclasses := first.target.length
    let s ← samples.foldlM (dc_sample sqrt nclasses thres)
      { t_j := List.replicate nclasses 0, p_j := List.replicate nclasses 0, t_ := 0, p_ := 0,
        dcov := 0, dvart := 0, dvarp := 0, distance_correlation := 0 }
    fdiv s.distance_correlation (samples.length : ℚ)

/-- The values of `std::sqrt` at the arguments met in the examples below: 0, 1/4 and 1
(the function is not used elsewhere). -/
def sqrt_squares (x : ℚ) : ℚ :=
  if x = 1 / 4 then 1 / 2 else x

/-- Example sample: targets and predictions `[0, 2]`. -/
def dc_sample_spread : MlSample := { target := [0, 2], pred := [0, 2] }

/-- Example sample: constant targets and predictions `[0, 0]`. -/
def dc_sample_flat : MlSample := { target := [0, 0], pred := [0, 0] }

/-! ## Time-series errors (`timeSeriesErrors`) -/

/-- The outputs of `timeSeriesErrors`. -/
structure TsErrors where
  max_errors : List ℚ
  indexes_max_error : List Int
  mean_errors : List ℚ
  max_error : ℚ
  mean_error : ℚ
deriving DecidableEq

/-- The variables updated by the loop over the samples of `timeSeriesErrors`. -/
structure TsState where
  max : List ℚ
  idxmxerrors : List Int
  mean_error_vector : List ℚ
  nts : ℚ
deriving DecidableEq

/-- The matrix `dMat::Map(&v.at(0), rows, cols)`, row-major: row `t` holds
`v[t * cols + s]` for `s < cols`. `v.at(0)` throws on an empty vector; a vector with
fewer than `rows * cols` entries is read past its end. -/
def ts_map (v : List ℚ) (rows cols : Nat) : Except Err (List (List ℚ)) :=
  if v = [] then .error Err.out_of_range
  else if v.length < rows * cols then .error Err.undefined
  else .ok ((List.range rows).map
    (fun t => (List.range cols).map (fun s => v.getD (t * cols + s) 0)))

/-- Column `j` of a matrix given by its rows. -/
def mat_col (m : List (List ℚ)) (j : Nat) : List ℚ :=
  m.map (fun row => row.getD j 0)

/-- Body of the loop over the samples of `timeSeriesErrors`; `first` is the test
`i == 0`. The matrix `error` is used as computed: no row of it is modified. `maxCoeff` on
a matrix without row is outside the contract of the matrix library. -/
def ts_sample (sqrt : ℚ → ℚ) (timeseries : Nat) (L1 : Bool) (s : TsState)
    (first : Bool) (bad : MlSample) : Except Err TsState := do
  let dataduration := bad.target.length / timeseries
  let dpred ← ts_map bad.pred dataduration timeseries
  let dtarg ← ts_map bad.target dataduration timeseries
  let error := List.zipWith (List.zipWith (fun p t => |p - t|)) dpred dtarg
  let error := if L1 then error else error.map (fun row => row.map (fun e => e * e))
  if dataduration = 0 then .error Err.undefined
  else
    let cols := (List.range timeseries).map (mat_col error)
    let batchmax := cols.map (fun c => c.getD (max_element c) 0)
    let batch_max_indexes := cols.map (fun c => (max_element c : Int))
    let mean := List.zipWith (fun m c => m + vsum c) s.mean_error_vector cols
    let mean := if L1 then mean else mean.map sqrt
    let upd := if first then List.zip batchmax batch_max_indexes
      else List.zipWith
        (fun (b : ℚ × Int) (m : ℚ × Int) => if b.1 > m.1 then b else m)
        (List.zip batchmax batch_max_indexes) (List.zip s.max s.idxmxerrors)
    pure { max := upd.map (fun e => e.1), idxmxerrors := upd.map (fun e => e.2),
           mean_error_vector := mean, nts := s.nts + (bad.target.length : ℚ) }

/-- The loop over the samples of `timeSeriesErrors`, from sample number `i` on. -/
def ts_loop (sqrt : ℚ → ℚ) (timeseries : Nat) (L1 : Bool) :
    Nat → TsState → List MlSample → Except Err TsState
  | _, s, [] => .ok s
  | i, s, bad :: rest => do
    let s1 ← ts_sample sqrt timeseries L1 s (decide (i = 0)) bad
    ts_loop sqrt timeseries L1 (i + 1) s1 rest

/-- The function `timeSeriesErrors(ad, timeseries, max_errors, indexes_max_error,
mean_errors, max_error, mean_error, L1)`: its five outputs. The three buffers hold
`timeseries` entries; `mean_errors` is set to zero on entry and the initial content of
the two others is overwritten by the first sample (with no sample the division by
`nts = 0` has no value). The divisor `static_cast<float>(nts)` is a `float`. The
differences, sums, products and quotients of `double`s are taken exactly: the definition
gives what the code computes when none of these operations rounds, and the theorems on
the values returned are stated for such batches. -/
def timeSeriesErrors (sqrt : ℚ → ℚ) (samples : List MlSample) (timeseries : Int)
    (L1 : Bool) : Except Err TsErrors :=
  if timeseries ≤ 0 then .error Err.undefined
  else do
    let n := timeseries.toNat
    let s ← ts_loop sqrt n L1 0
      { max := List.replicate n 0, idxmxerrors := List.replicate n 0,
        mean_error_vector := List.replicate n 0, nts := 0 } samples
    let mean ← s.mean_error_vector.mapM (fun x => fdiv x (to_float s.nts))
    let mean := mean.map (fun x => x * (timeseries : ℚ))
    let max_error := (s.max.drop 1).foldl (fun m x => if x > m then x else m) (s.max.getD 0 0)
    let mean_error := (mean.drop 1).foldl (fun m x => m + x) (mean.getD 0 0)
    pure { max_errors := s.max, indexes_max_error := s.idxmxerrors, mean_errors := mean,
           max_error := max_error, mean_error := mean_error / (timeseries : ℚ) }

/-- Example payload: one series of two timesteps, predicted exactly. -/
def ts_exact : List MlSample := [{ target := [0, 0], pred := [0, 0] }]

/-- Example payload: the same series, the prediction at timestep 0 being off by 1. -/
def ts_first_off : List MlSample := [{ target := [0, 0], pred := [1, 0] }]

/-! ## Metric tokens (`find_presence_and_thres`, soft-metric selection of `measure`) -/

/-- The function `find_presence_and_thres(meas, measures, do_meas, meas_thres)`: the
values of `do_meas` and `meas_thres` on return. `split` stands for `dd_utils::split` and
`atof` for `std::atof`, which are not part of the sources at hand; `meas_thres` is a
`float`. -/
def find_presence_and_thres (split : String → Char → List String) (atof : String → ℚ)
    (meas : String) (measures : List String) (do_meas : Bool) (meas_thres : ℚ) : Bool × ℚ :=
  measures.foldl (fun st s =>
    if str_contains s meas then
      match split s '-' with
      | [_, x] => (true, to_float (atof x))
      | _ => (true, 0)
    else st) (do_meas, meas_thres)

/-- The variables `mlsoft_<name>` and `mlsoft_<name>_thres` of `measure` after the branch
`if (multilabel && regression)`, for the family `name` (one of `kl`, `js`, `was`, `ks`,
`dc`, `r2`, `deltas`): declared as `false` and `-1`; the token `acc` enables the metric
and leaves the threshold, otherwise `find_presence_and_thres` sets both. -/
def soft_selection (split : String → Char → List String) (atof : String → ℚ)
    (measures : List String) (name : String) : Bool × ℚ :=
  if measures.contains "acc" then (true, -1)
  else find_presence_and_thres split atof name measures false (-1)

/-- Example for the parameter `split`: the pieces of `s` between the occurrences of
`delim`, read from the characters still to come and the piece being read. -/
def split_chars (delim : Char) : List Char → List Char → List (List Char)
  | [], cur => [cur.reverse]
  | c :: cs, cur =>
    if c = delim then cur.reverse :: split_chars delim cs []
    else split_chars delim cs (c :: cur)

/-- Example for the parameter `split`: the pieces of `s` between the occurrences of
`delim`. -/
def split_pieces (s : String) (delim : Char) : List String :=
  (split_chars delim s.toList []).map String.mk

/-- The number written by a list of decimal digits. -/
def digits_value (cs : List Char) : Nat :=
  cs.foldl (fun n c => 10 * n + (c.toNat - '0'.toNat)) 0

/-- Example for the parameter `atof`: the value of a plain decimal numeral
`digits[.digits]`. -/
def atof_decimal (s : String) : ℚ :=
  let ip := s.toList.takeWhile Char.isDigit
  let rest := s.toList.dropWhile Char.isDigit
  let fp := if rest.head? = some '.' then (rest.drop 1).takeWhile Char.isDigit else []
  (digits_value ip : ℚ) + (digits_value fp : ℚ) / (10 : ℚ) ^ fp.length

/-- Example for the parameter `atof`: the `double` nearest to the value of a plain decimal
numeral, which is what `std::atof` returns. -/
def atof_double (s : String) : ℚ :=
  to_double (atof_decimal s)

/-! ## Serialisation of the Result Set (`to_ad`) -/

/-- One element of the output list `v` of a prediction: the keys `cat`, `val`, `loss`,
`prob`, `bbox`, `vals`, `mask` and `out` when present, and whether the key `last` is
present (its value is `true`). -/
structure AdEntry where
  cat : Option String
  val : Option ℚ
  loss : Option ℚ
  prob : Option ℚ
  bbox : Option BBox
  vals : Option Payload
  mask : Option Payload
  out : Option Payload
  last : Bool
deriving DecidableEq

/-- One element of `predictions`: the keys `loss` (when present) and `uri`, and the
output list `v` with the key it is stored under. -/
structure AdPrediction where
  loss : Option ℚ
  uri : String
  key : String
  v : List AdEntry
deriving DecidableEq

/-- The entry `nad` built by the loop `while (mit != _cats.end())` of `to_ad` from the
category `m` and the box, roi vector and mask read (if any); `is_last` is the test
`mit == _cats.end()` after `++mit`. -/
def to_ad_entry (regression autoencoder : Bool) (m : ℚ × String) (b : Option (ℚ × BBox))
    (vv mk : Option (ℚ × Payload)) (is_last : Bool) : AdEntry :=
  { cat := if !autoencoder then some m.2 else none,
    val := if regression then some m.1 else none,
    loss := if !regression && autoencoder then some m.1 else none,
    prob := if !regression && !autoencoder then some m.1 else none,
    bbox := b.map (fun e => e.2), vals := vv.map (fun e => e.2),
    mask := mk.map (fun e => e.2), out := none, last := is_last }

/-- The loop `while (mit != _cats.end())` of `to_ad`. The arguments are what remains to
be read by the iterators `mit`, `bit`, `vit` and `maskit`; the entry built from the last
category gets the key `last`. -/
def to_ad_cats (regression autoencoder has_bbox has_roi has_mask : Bool) :
    ScoreMap String → ScoreMap BBox → ScoreMap Payload → ScoreMap Payload →
    Except Err (List AdEntry)
  | [], _, _, _ => .ok []
  | m :: mit, bit, vit, maskit => do
    let (b, bit1) ← iter_next (has_bbox || has_roi || has_mask) bit
    let (vv, vit1) ← iter_next has_roi vit
    let (mk, maskit1) ← iter_next has_mask maskit
    let rest ← to_ad_cats regression autoencoder has_bbox has_roi has_mask mit bit1 vit1
      maskit1
    pure (to_ad_entry regression autoencoder m b vv mk mit.isEmpty :: rest)

/-- The loop `while (sit != _series.end())` of `to_ad`: one entry per series element, the
one built from the last element gets the key `last`. -/
def to_ad_series : ScoreMap Payload → List AdEntry
  | [] => []
  | s :: sit =>
    { cat := none, val := none, loss := none, prob := none, bbox := none, vals := none,
      mask := none, out := some s.2, last := sit.isEmpty } :: to_ad_series sit

/-- Body of the loop over `_vvcats` of `to_ad` (built without `USE_SIMSEARCH`): the
prediction of one sample. The entries of the categories come first, then those of the
series. -/
def to_ad_pred (regression autoencoder has_bbox has_roi has_mask timeseries : Bool)
    (r : sup_result) : Except Err AdPrediction := do
  let v ← to_ad_cats regression autoencoder has_bbox has_roi has_mask r._cats r._bboxes
    r._vals r._masks
  pure { loss := if r._loss > 0 then some r._loss else none,
         uri := r._label,
         key := if timeseries then "series" else if regression then "vector"
           else if autoencoder then "losses" else if has_roi then "rois" else "classes",
         v := v ++ to_ad_series r._series }

/-- The loop over `_vvcats` of `to_ad`, on the samples still to come. -/
def to_ad_loop (regression autoencoder has_bbox has_roi has_mask timeseries : Bool) :
    List sup_result → Except Err (List AdPrediction)
  | [] => .ok []
  | r :: rest => do
    let adpred ← to_ad_pred regression autoencoder has_bbox has_roi has_mask timeseries r
    let vpred ← to_ad_loop regression autoencoder has_bbox has_roi has_mask timeseries rest
    pure (adpred :: vpred)

/-- The method `to_ad(out, regression, autoencoder, has_bbox, has_roi, has_mask,
timeseries, indexed_uris)`: the vector stored under `predictions`. -/
def to_ad (so : SupervisedOutput)
    (regression autoencoder has_bbox has_roi has_mask timeseries : Bool) :
    Except Err (List AdPrediction) :=
  to_ad_loop regression autoencoder has_bbox has_roi has_mask timeseries so._vvcats

/-- The collections read by the flags hold one entry per category, so that no iterator
of `to_ad` is read at its end. -/
def sup_result.covers (has_bbox has_roi has_mask : Bool) (r : sup_result) : Prop :=
  ((has_bbox || has_roi || has_mask) = true → r._cats.length ≤ r._bboxes.length)
  ∧ (has_roi = true → r._cats.length ≤ r._vals.length)
  ∧ (has_mask = true → r._cats.length ≤ r._masks.length)

/-- The number of entries of an output list that carry the key `last`. -/
def last_count (v : List AdEntry) : Nat :=
  v.countP (fun e => e.last)

/-- Whether the final entry of an output list carries the key `last`. -/
def last_at_end (v : List AdEntry) : Bool :=
  match v.getLast? with
  | some e => e.last
  | none => false

/-- Example record: one category and one series element under the same score. -/
def record_cat_series : ResultRecord :=
  { uri := "a", loss := 0, probs := [1 / 2], cats := ["cat"], bboxes := [], vals := [],
    series := [[1]], masks := [] }

/-- Example record: id `b`, three scored categories, two of them with the same score. -/
def record_b3 : ResultRecord :=
  { uri := "b", loss := 0, probs := [1 / 2, 3 / 4, 1 / 2], cats := ["x", "y", "z"],
    bboxes := [], vals := [], series := [], masks := [] }

/-! ## Predicates on the order of the Result Set -/

/-- The distinct ids of a list, in order of first appearance. -/
def distinct_ids : List String → List String
  | [] => []
  | x :: xs => x :: (distinct_ids xs).filter (fun y => decide (y ≠ x))

/-- The collection `c` iterates the entries of `l` by non-increasing score, the entries of
equal score in the order they have in `l`. -/
def stable_order {α : Type} (c l : List (ℚ × α)) : Prop :=
  mm_sorted c ∧ c.length = l.length
    ∧ ∀ q : ℚ, c.filter (fun e => decide (e.1 = q)) = l.filter (fun e => decide (e.1 = q))

/-- Every collection of `o` keeps entries of the same collection of `s`, in the order
they have there. -/
def sup_result.keeps_order (o s : sup_result) : Prop :=
  o._cats.Sublist s._cats ∧ o._bboxes.Sublist s._bboxes ∧ o._vals.Sublist s._vals
    ∧ o._series.Sublist s._series ∧ o._masks.Sublist s._masks

/-! ## Lock-step of the collections -/

/-- Every payload vector of the record that is present and not empty has the same length
as the score vector. -/
def ResultRecord.well_formed (ad : ResultRecord) : Prop :=
  (ad.cats = [] ∨ ad.cats.length = ad.probs.length)
  ∧ (ad.bboxes = [] ∨ ad.bboxes.length = ad.probs.length)
  ∧ (ad.vals = [] ∨ ad.vals.length = ad.probs.length)
  ∧ (ad.series = [] ∨ ad.series.length = ad.probs.length)
  ∧ (ad.masks = [] ∨ ad.masks.length = ad.probs.length)

/-- The indices of a score vector in the order in which a collection filled from it
iterates: by non-increasing score, equal scores by increasing index. -/
def fill_order (probs : List ℚ) : List Nat :=
  (insert_all [] (probs.zip (List.range probs.length))).map (fun e => e.2)

/-- The entries `(probs[i], v[i])` for the indices `i` of `idx`, in that order. -/
def entries_at {α : Type} (probs : List ℚ) (v : List α) (idx : List Nat) : List (ℚ × α) :=
  idx.filterMap (fun i => (probs.zip v)[i]?)

/-- The collection `c` of a Score Record holds, at every position, the entry built from
the index that `fill_order` gives for that position; when the payload vector `v` is
populated it has one entry per score. -/
def lock_stepped {α : Type} (probs : List ℚ) (v : List α) (c : ScoreMap α) : Prop :=
  c = entries_at probs v (fill_order probs) ∧ (v ≠ [] → c.length = probs.length)

/-- Example record: three detections with their categories and boxes. -/
def record_boxes : ResultRecord :=
  { uri := "d", loss := 0, probs := [1 / 2, 3 / 4, 1 / 2], cats := ["x", "y", "z"],
    bboxes := [{ xmin := 0, ymin := 0, xmax := 1, ymax := 1 },
               { xmin := 1, ymin := 1, xmax := 2, ymax := 2 },
               { xmin := 2, ymin := 2, xmax := 3, ymax := 3 }],
    vals := [], series := [], masks := [] }

/-- Example sample: one box and no category. -/
def sample_box_only : sup_result :=
  { _label := "s", _loss := 0, _cats := [],
    _bboxes := [(9 / 10, { xmin := 0, ymin := 0, xmax := 1, ymax := 1 })],
    _vals := [], _series := [], _masks := [] }

/-- The record the detection loop of `best_cats` builds when `best == nclasses`: all the
categories and the first `n` boxes, `n` being the number of categories. -/
def all_record (s : sup_result) : sup_result :=
  { _label := s._label, _loss := s._loss, _cats := s._cats,
    _bboxes := first_entries s._cats.length s._bboxes,
    _vals := [], _series := [], _masks := [] }

/-- The record the detection loop of `best_cats` builds when `best != nclasses`, for a
sample in lock-step: the detections kept by the rule `keep_mask`. -/
def dedup_record (best : Int) (has_roi has_mask : Bool) (s : sup_result) : sup_result :=
  { _label := s._label, _loss := s._loss,
    _cats := select (keep_mask best (box_keys s)) s._cats,
    _bboxes := select (keep_mask best (box_keys s)) s._bboxes,
    _vals := if has_roi then select (keep_mask best (box_keys s)) s._vals else [],
    _series := [],
    _masks := if has_mask then select (keep_mask best (box_keys s)) s._masks else [] }

/-! ## CSV input connector (`split_data`) -/

/-- The class `CSVline`: the id of the line and its data. -/
structure CSVline where
  _str : String
  _v : List ℚ
deriving DecidableEq

/-- The variables of the loop of `split_data`: the position in `csvdata` of the iterator
`dchit` (0 is `csvdata.begin()`), the counter `cpos` and the test set. -/
structure SplitState where
  dchit : Nat
  cpos : Int
  csvdata_test : List CSVline
deriving DecidableEq

/-- Body of the loop `while (chit != csvdata.end())` of `split_data`; `chit` is the
position of the iterator together with the line it points to. -/
def split_step (split_size : Int) (s : SplitState) (chit : Nat × CSVline) : SplitState :=
  if s.cpos = split_size then
    { s with dchit := if s.dchit = 0 then chit.1 else s.dchit,
             csvdata_test := s.csvdata_test ++ [chit.2] }
  else { s with cpos := wrap32 (s.cpos + 1) }

/-- The method `split_data(csvdata, csvdata_test)` of `CSVInputFileConn`: the content of
`csvdata` and of `csvdata_test` on return. The conversion of the floor to `int` is
defined for values in the range of `int` only. -/
def split_data (_test_split : ℚ) (csvdata csvdata_test : List CSVline) :
    Except Err (List CSVline × List CSVline) :=
  if _test_split > 0 then
    let split_size : Int := Rat.floor ((csvdata.length : ℚ) * (1 - _test_split))
    if split_size < -2147483648 ∨ 2147483647 < split_size then .error Err.undefined
    else
      let s := ((List.range csvdata.length).zip csvdata).foldl (split_step split_size)
        { dchit := 0, cpos := 0, csvdata_test := csvdata_test }
      .ok (csvdata.take s.dchit, s.csvdata_test)
  else .ok (csvdata, csvdata_test)

/-- Example dataset: two lines. -/
def csv_two : List CSVline :=
  [{ _str := "1", _v := [1] }, { _str := "2", _v := [2] }]

/-- Example dataset: four lines. -/
def csv_four : List CSVline :=
  [{ _str := "1", _v := [1] }, { _str := "2", _v := [2] }, { _str := "3", _v := [3] },
   { _str := "4", _v := [4] }]

/-! ## Weight transfer (`torch_utils::copy_tensors`, `copy_weights`, `copy_native_weights`) -/

/-- The exceptions raised by the weight transfer, and the unchecked read of a vector past
its end. -/
inductive MLLibErr where
  /-- `MLLibBadParamException`. -/
  | bad_param
  /-- `MLLibInternalException`. -/
  | internal
  /-- An access the C++ standard leaves undefined. -/
  | undefined
deriving DecidableEq

/-- A tensor: its shape (`sizes()`), its elements and the device it lives on. -/
structure Tensor where
  sizes : List Int
  data : List ℚ
  device : String
deriving DecidableEq

/-- `tensor.to(device)`. -/
def Tensor.to (t : Tensor) (device : String) : Tensor :=
  { t with device := device }

/-- A list of named tensors: `named_parameters()`, `named_buffers()` or a
`torch::OrderedDict<std::string, torch::Tensor>`, in order. -/
abbrev ParamDict := List (String × Tensor)

/-- `to_params.find(name)`: the tensor stored under `name`, if any. -/
def dict_find (d : ParamDict) (name : String) : Option Tensor :=
  (d.find? (fun e => e.1 = name)).map (fun e => e.2)

/-- `to_value.set_data(t)` on the tensor stored under `name`. -/
def dict_set : ParamDict → String → Tensor → ParamDict
  | [], _, _ => []
  | e :: rest, name, t => if e.1 = name then (name, t) :: rest else e :: dict_set rest name t

/-- What a weight transfer leaves behind: the destination tensors and the exception
raised, if any. -/
structure CopyOutcome (α : Type) where
  to_params : α
  raised : Option MLLibErr
deriving DecidableEq

/-- The first loop of `copy_tensors`, on the source tensors still to be read, the
destination and the set `copied_params`: a source tensor without destination, or whose
destination has another shape, is skipped (a warning is logged) unless `strict` is set,
in which case `MLLibBadParamException` is thrown. -/
def copy_tensors_loop (device : String) (strict : Bool) :
    ParamDict → ParamDict → List String → ParamDict × List String × Option MLLibErr
  | [], to_params, copied_params => (to_params, copied_params, none)
  | from_item :: rest, to_params, copied_params =>
    match dict_find to_params from_item.1 with
    | none =>
      if strict then (to_params, copied_params, some MLLibErr.bad_param)
      else copy_tensors_loop device strict rest to_params copied_params
    | some to_value =>
      if from_item.2.sizes ≠ to_value.sizes then
        if strict then (to_params, copied_params, some MLLibErr.bad_param)
        else copy_tensors_loop device strict rest to_params copied_params
      else
        copy_tensors_loop device strict rest
          (dict_set to_params from_item.1 (from_item.2.to device))
          (if from_item.1 ∈ copied_params then copied_params
           else copied_params ++ [from_item.1])

/-- The function `copy_tensors(from_params, to_params, device, logger, strict)`. After
the loop, `MLLibBadParamException` is thrown when nothing was copied, and in strict mode
when a destination tensor was not copied. -/
def copy_tensors (from_params to_params : ParamDict) (device : String) (strict : Bool) :
    CopyOutcome ParamDict :=
  match copy_tensors_loop device strict from_params to_params [] with
  | (to1, _, some e) => { to_params := to1, raised := some e }
  | (to1, copied_params, none) =>
    if copied_params = [] then { to_params := to1, raised := some MLLibErr.bad_param }
    else if strict ∧ (to1.any (fun e => decide (e.1 ∉ copied_params))) = true then
      { to_params := to1, raised := some MLLibErr.bad_param }
    else { to_params := to1, raised := none }

/-- A module as the weight transfer sees it: its named parameters and its named
buffers. -/
structure Module where
  named_parameters : ParamDict
  named_buffers : ParamDict
deriving DecidableEq

/-- The function `copy_weights(from, to, device, logger, strict)`: the parameters, then
the buffers when the first copy raised nothing. -/
def copy_weights (from_module to_module : Module) (device : String) (strict : Bool) :
    CopyOutcome Module :=
  let p := copy_tensors from_module.named_parameters to_module.named_parameters device strict
  match p.raised with
  | some e => { to_params := { to_module with named_parameters := p.to_params },
                raised := some e }
  | none =>
    let b := copy_tensors from_module.named_buffers to_module.named_buffers device strict
    { to_params := { named_parameters := p.to_params, named_buffers := b.to_params },
      raised := b.raised }

/-- `to_param.copy_(from_param.to(device))`: the elements of the source, in the
destination tensor. -/
def Tensor.copy_ (to_param from_param : Tensor) : Tensor :=
  { to_param with data := from_param.data }

/-- The function `copy_native_weights(from, to, device)` on the vectors `parameters()`
of the two modules: `to_params[i]` is read unchecked, and a pair of different shapes
throws `MLLibInternalException`. -/
def copy_native_weights (device : String) : List Tensor → List Tensor →
    CopyOutcome (List Tensor)
  | [], to_params => { to_params := to_params, raised := none }
  | _ :: _, [] => { to_params := [], raised := some MLLibErr.undefined }
  | from_param :: from_rest, to_param :: to_rest =>
    if from_param.sizes ≠ to_param.sizes then
      { to_params := to_param :: to_rest, raised := some MLLibErr.internal }
    else
      let r := copy_native_weights device from_rest to_rest
      { to_params := to_param.copy_ (from_param.to device) :: r.to_params,
        raised := r.raised }

/-- Example tensor of shape `[2]`. -/
def tensor_a2 : Tensor := { sizes := [2], data := [1, 2], device := "cpu" }

/-- Example tensor of shape `[1]`. -/
def tensor_b1 : Tensor := { sizes := [1], data := [3], device := "cpu" }

/-- Example destination tensor of shape `[3]`. -/
def tensor_a3 : Tensor := { sizes := [3], data := [0, 0, 0], device := "cpu" }

/-- Example destination tensor of shape `[1]`. -/
def tensor_b0 : Tensor := { sizes := [1], data := [0], device := "cpu" }

/-- Example source: a parameter `a` of shape `[2]` and a parameter `b` of shape `[1]`. -/
def from_ab : ParamDict := [("a", tensor_a2), ("b", tensor_b1)]

/-- Example destination: a parameter `a` of shape `[3]` and a parameter `b` of shape
`[1]`. -/
def to_ab : ParamDict := [("a", tensor_a3), ("b", tensor_b0)]

/-! ## Multi-label soft metrics: Kolmogorov-Smirnov distance (`multilabel_soft_ks`) -/

/-- The selection of `multilabel_soft_ks` on one target coefficient: `dtarg < thres` when
`thres >= 0`, `dtarg < 0` otherwise. -/
def ks_masked (thres t : ℚ) : Bool :=
  if thres ≥ 0 then decide (t < thres) else decide (t < 0)

/-- Body of the loop over the samples of `multilabel_soft_ks`: the value assigned to `ks`,
`dif.array().abs().maxCoeff()`, and the increment of `total_number`. `predictions.at(0)`
and `targets.at(0)` throw on an empty vector; the difference of vectors of different
sizes is outside the contract of the matrix library. -/
def ks_sample (thres : ℚ) (bad : MlSample) : Except Err (ℚ × Nat) :=
  if bad.pred = [] then .error Err.out_of_range
  else if bad.target = [] then .error Err.out_of_range
  else if bad.pred.length ≠ bad.target.length then .error Err.undefined
  else
    let dif := List.zipWith (fun t p => t - p) bad.target bad.pred
    let dif := List.zipWith (fun t d => if ks_masked thres t then 0 else d) bad.target dif
    let a := dif.map (fun d => |d|)
    .ok (a.getD (max_element a) 0, bad.target.countP (kl_unmasked thres))

/-- The function `multilabel_soft_ks(ad, thres)` on the sub-records of the payload: `ks`
is assigned, not accumulated, at every sample. -/
def multilabel_soft_ks (samples : List MlSample) (thres : ℚ) : Except Err ℚ := do
  let s ← samples.foldlM (fun (s : ℚ × Int) bad => do
      let r ← ks_sample thres bad
      pure (r.1, s.2 + (r.2 : Int))) (0, 0)
  pure s.1

/-- Specification: the values `|target - pred|` of a sample, with the masked entries
counted as 0; an entry is masked when its target is `< 0` for an unset (negative)
threshold and strictly below the threshold otherwise. -/
def spec_ks_values (thres : ℚ) (bad : MlSample) : List ℚ :=
  (bad.target.zip bad.pred).map (fun e =>
    if (if thres < 0 then decide (e.1 < 0) else decide (e.1 < thres)) then 0
    else |e.1 - e.2|)

/-! ## Regression distances (`distl`, `percentl`) -/

/-- A sub-record of the payload read by `distl` and `percentl`: the vector `pred` and the
value stored under `target`. -/
structure RegSample where
  pred : List ℚ
  target : ADValue
deriving DecidableEq

/-- The payload read by `distl` and `percentl`: the sub-records and the optional key
`ignore_label`. The key `batch_size` is the number of sub-records. -/
structure RegPayload where
  samples : List RegSample
  ignore_label : Option Int
deriving DecidableEq

/-- The vector `target` of a sub-record: the vector stored under `target` when
`predictions.size() > 1`, the scalar stored there, pushed on an empty vector, otherwise.
A value of another type makes `get<T>()` throw. -/
def reg_target (bad : RegSample) : Except Err (List ℚ) :=
  if bad.pred.length > 1 then
    match bad.target with
    | .vec v => .ok v
    | _ => .error Err.bad_param
  else
    match bad.target with
    | .dbl v => .ok [v]
    | _ => .error Err.bad_param

/-- The declaration `int t = target.at(j)`: the conversion of a `double` to `int`
truncates, and is undefined when the truncated value is not an `int`. -/
def reg_trunc (x : ℚ) : Except Err Int :=
  if to_int x < -(2 ^ 31) ∨ 2 ^ 31 ≤ to_int x then .error Err.undefined else .ok (to_int x)

/-- The test `has_ignore && t - static_cast<double>(ignore_label) < 1E-9`. -/
def reg_skipped (ignore_label : Option Int) (t : Int) : Bool :=
  match ignore_label with
  | none => false
  | some L => decide ((t : ℚ) - (L : ℚ) < 1 / 10 ^ 9)

/-- The statement `all[j] += x`, the index being unchecked. -/
def all_add (all : List ℚ) (j : Nat) (x : ℚ) : Except Err (List ℚ) :=
  if j < all.length then .ok (all.set j (all.getD j 0 + x)) else .error Err.undefined

/-- The loop variables of `distl`: `eucl`, `leucl` (local to a sample) and `all_eucl`. -/
structure DistState where
  eucl : ℚ
  leucl : ℚ
  all_eucl : List ℚ
deriving DecidableEq

/-- The block of `distl` that adds `diff` to the sums: `eucl += diff / reg_dim` or
`leucl += diff * diff`, then `all_eucl[j] += diff` or `all_eucl[j] += diff * diff`. -/
def distl_add (l1 compute_all_distl : Bool) (reg_dim j : Nat) (diff : ℚ) (s : DistState) :
    Except Err DistState := do
  let s1 ← if l1 then (fdiv diff (reg_dim : ℚ)).map (fun q => { s with eucl := s.eucl + q })
    else pure { s with leucl := s.leucl + diff * diff }
  if compute_all_distl then
    (all_add s1.all_eucl j (if l1 then diff else diff * diff)).map
      (fun a => { s1 with all_eucl := a })
  else pure s1

/-- The body of the loop over `j` of `distl` after the `continue` test, for entry `j` of
value `x`: `diff = fabs(predictions.at(j) - target.at(j))`, added to the sums when
`thres < 0` or `diff >= thres`. -/
def distl_live (thres : ℚ) (l1 compute_all_distl : Bool) (pred : List ℚ) (s : DistState)
    (jx : Nat × ℚ) : Except Err DistState := do
  let p ← vec_at pred jx.1
  let diff := |p - jx.2|
  if thres ≥ 0 then
    if diff ≥ thres then distl_add l1 compute_all_distl pred.length jx.1 diff s
    else pure s
  else distl_add l1 compute_all_distl pred.length jx.1 diff s

/-- The body of the loop over `j` of `distl`, for entry `j` of value `x`. -/
def distl_entry (thres : ℚ) (l1 compute_all_distl : Bool) (ignore_label : Option Int)
    (pred : List ℚ) (s : DistState) (jx : Nat × ℚ) : Except Err DistState := do
  let t ← reg_trunc jx.2
  if reg_skipped ignore_label t then pure s
  else distl_live thres l1 compute_all_distl pred s jx

/-- The loop `for (j < target.size()) all_eucl[j] = sqrt(all_eucl[j])`, the index being
unchecked. -/
def sqrt_first (sqrt : ℚ → ℚ) (n : Nat) (all : List ℚ) : Except Err (List ℚ) :=
  if n ≤ all.length then .ok ((all.take n).map sqrt ++ all.drop n) else .error Err.undefined

/-- The body of the loop over the samples of `distl`, on the pair `(eucl, all_eucl)`;
`sqrt` stands for `std::sqrt`. -/
def distl_sample (sqrt : ℚ → ℚ) (thres : ℚ) (l1 compute_all_distl : Bool)
    (ignore_label : Option Int) (s : ℚ × List ℚ) (bad : RegSample) :
    Except Err (ℚ × List ℚ) := do
  let target ← reg_target bad
  let st ← ((List.range target.length).zip target).foldlM
    (distl_entry thres l1 compute_all_distl ignore_label bad.pred)
    { eucl := s.1, leucl := 0, all_eucl := s.2 }
  if l1 then pure (st.eucl, st.all_eucl)
  else do
    let q ← fdiv (sqrt st.leucl) (bad.pred.length : ℚ)
    let all ← if compute_all_distl then sqrt_first sqrt target.length st.all_eucl
      else pure st.all_eucl
    pure (st.eucl + q, all)

/-- The function `distl(ad, thres, compute_all_distl, l1)`: the pair it returns. The read
of sub-record 0 fails on a payload without sample; `all_eucl` has `psize` entries when
`compute_all_distl` is set and none otherwise. -/
def distl (sqrt : ℚ → ℚ) (ad : RegPayload) (thres : ℚ) (compute_all_distl l1 : Bool) :
    Except Err (ℚ × List ℚ) :=
  match ad.samples with
  | [] => .error Err.out_of_range
  | first :: _ => do
    let all_eucl : List ℚ :=
      if compute_all_distl then List.replicate first.pred.length 0 else []
    let s ← ad.samples.foldlM (distl_sample sqrt thres l1 compute_all_distl ad.ignore_label)
      (0, all_eucl)
    pure (s.1 / (ad.samples.length : ℚ), s.2.map (fun x => x / (ad.samples.length : ℚ)))

/-- The body of the loop over `j` of `percentl` after the `continue` test, on the pair
`(percent, all_percent)`: `reldiff = fabs(predictions.at(j) - target.at(j)) /
(fabs(target.at(j)) + 1E-9)`, `percent += reldiff / reg_dim`, `all_percent[j] += reldiff`.
Neither divisor is zero here: `predictions.at(j)` has returned. -/
def percentl_live (compute_all_distl : Bool) (pred : List ℚ) (s : ℚ × List ℚ)
    (jx : Nat × ℚ) : Except Err (ℚ × List ℚ) := do
  let p ← vec_at pred jx.1
  let reldiff := |p - jx.2| / (|jx.2| + 1 / 10 ^ 9)
  let q ← fdiv reldiff (pred.length : ℚ)
  if compute_all_distl then (all_add s.2 jx.1 reldiff).map (fun a => (s.1 + q, a))
  else pure (s.1 + q, s.2)

/-- The body of the loop over `j` of `percentl`, for entry `j` of value `x`. -/
def percentl_entry (compute_all_distl : Bool) (ignore_label : Option Int) (pred : List ℚ)
    (s : ℚ × List ℚ) (jx : Nat × ℚ) : Except Err (ℚ × List ℚ) := do
  let t ← reg_trunc jx.2
  if reg_skipped ignore_label t then pure s
  else percentl_live compute_all_distl pred s jx

/-- The body of the loop over the samples of `percentl`. -/
def percentl_sample (compute_all_distl : Bool) (ignore_label : Option Int)
    (s : ℚ × List ℚ) (bad : RegSample) : Except Err (ℚ × List ℚ) := do
  let target ← reg_target bad
  ((List.range target.length).zip target).foldlM
    (percentl_entry compute_all_distl ignore_label bad.pred) s

/-- The function `percentl(ad, compute_all_distl)`: the pair it returns. -/
def percentl (ad : RegPayload) (compute_all_distl : Bool) : Except Err (ℚ × List ℚ) :=
  match ad.samples with
  | [] => .error Err.out_of_range
  | first :: _ => do
    let all_percent : List ℚ :=
      if compute_all_distl then List.replicate first.pred.length 0 else []
    let s ← ad.samples.foldlM (percentl_sample compute_all_distl ad.ignore_label)
      (0, all_percent)
    pure (s.1 * 100 / (ad.samples.length : ℚ),
      s.2.map (fun x => x / (ad.samples.length : ℚ) * 100))

/-- Example payload with `ignore_label = 0`: the second entries of both samples have a
target that truncates to 0 or less. -/
def reg_ignore_a : RegPayload :=
  { samples := [{ pred := [1, 5], target := .vec [2, 1 / 2] },
                { pred := [3, 7], target := .vec [3, -4] }],
    ignore_label := some 0 }

/-- The payload `reg_ignore_a` with other predictions at the second entries. -/
def reg_ignore_b : RegPayload :=
  { samples := [{ pred := [1, 100], target := .vec [2, 1 / 2] },
                { pred := [3, -9], target := .vec [3, -4] }],
    ignore_label := some 0 }

/-! ## Average precision: detections that are all true positives -/

/-- Example detections: three true positives. -/
def dets_all_three : List (ℚ × Bool) := [(9 / 10, true), (8 / 10, true), (7 / 10, true)]

/-- The state of the loop of `compute_ap` once index `i` has been visited, against the
recalls `r`: `cur_rec` is the narrowed `r i`, `cur_prec` is in `[0, 1]`, and `ap` is
between 0 and the recall gained above index `i` plus `2^-24` per visited index. -/
def ap_bound_inv (r : Nat → ℚ) (n i : Nat) (s : ApState) : Prop :=
  s.cur_rec = to_float (r i)
    ∧ 0 ≤ s.cur_prec ∧ s.cur_prec ≤ 1
    ∧ 0 ≤ s.ap ∧ s.ap ≤ (r (n - 1) - r i) + (1 / 16777216) * ((n : ℚ) - 1 - (i : ℚ))

/-! ## Time-series errors: specification of the mean and maximum errors -/

/-- Specification: the absolute errors of series `j` in one sample, over its timesteps;
entry `t * timeseries + j` of the flattened vectors is timestep `t` of series `j`. -/
def spec_series_errors (timeseries : Nat) (bad : MlSample) (j : Nat) : List ℚ :=
  (List.range (bad.target.length / timeseries)).map
    (fun t => |bad.pred.getD (t * timeseries + j) 0 - bad.target.getD (t * timeseries + j) 0|)

/-- Specification: the absolute errors of series `j` over all samples and timesteps. -/
def spec_batch_errors (timeseries : Nat) (samples : List MlSample) (j : Nat) : List ℚ :=
  (samples.map (fun bad => spec_series_errors timeseries bad j)).flatten

/-- Specification: the total number of timesteps of a batch. -/
def spec_timesteps (timeseries : Nat) (samples : List MlSample) : Nat :=
  (samples.map (fun bad => bad.target.length / timeseries)).sum

/-- The number of values of a batch: the sum of `targets.size()` over the samples. -/
def batch_values (samples : List MlSample) : Nat :=
  (samples.map (fun bad => bad.target.length)).sum

/-- The state of the loop of `timeSeriesErrors` (L1) once the samples `done` have been
visited, for `n` series: the sums of the absolute errors per series, the number of values
read, and, once a sample has been visited, the largest absolute error per series. -/
def ts_inv (n : Nat) (done : List MlSample) (s : TsState) : Prop :=
  s.mean_error_vector = (List.range n).map (fun j => (spec_batch_errors n done j).sum)
    ∧ s.nts = (batch_values done : ℚ)
    ∧ ∃ (M : Nat → ℚ) (I : Nat → Int),
        s.max = (List.range n).map M ∧ s.idxmxerrors = (List.range n).map I
          ∧ (done ≠ [] → ∀ j, j < n →
              M j ∈ spec_batch_errors n done j ∧ ∀ e ∈ spec_batch_errors n done j, e ≤ M j)

/-- Example sample: one series of `2^24 + 1` timesteps, every prediction off by 1. -/
def ts_long : MlSample :=
  { target := List.replicate 16777217 0, pred := List.replicate 16777217 1 }

/-- Example payload: two series of two timesteps, flattened; series 0 has the errors 1
and 3, series 1 the errors 0 and 2. -/
def ts_two_series : List MlSample :=
  [{ target := [0, 0, 0, 0], pred := [1, 0, 3, 2] }]

/-- Example payload: one series of three timesteps, every prediction off by the `double`
written 0.1. -/
def ts_tenths : List MlSample :=
  [{ target := [0, 0, 0],
     pred := [to_double (1 / 10), to_double (1 / 10), to_double (1 / 10)] }]

/-! ## Time-series metrics: MAE and MSE (`timeSeriesMetrics`) -/

/-- A sub-record of the payload read by `timeSeriesMetrics`: the four flattened vectors
`target`, `pred`, `target_unscaled` and `pred_unscaled`. -/
structure TsSample where
  target : List ℚ
  pred : List ℚ
  target_unscaled : List ℚ
  pred_unscaled : List ℚ
deriving DecidableEq

/-- Body of the loop over the samples of `timeSeriesMetrics`, on the pair `(mae_vector,
mse_vector)`. The four maps read `dataduration * timeseries` entries from `&v.at(0)`;
`error.row(0)` needs a matrix with a row. The divisor `static_cast<float>(targets.size())`
is a `float`. The vectors of the four other metrics do not enter `mae_vector` or
`mse_vector`, and their statements raise nothing once these guards are passed. The
differences, squares, sums and quotients of `double`s are taken exactly: the definition
gives what the code computes when none of these operations rounds, and the theorems on
the values returned are stated for such batches. -/
def ts_metrics_sample (timeseries : Nat) (s : List ℚ × List ℚ) (bad : TsSample) :
    Except Err (List ℚ × List ℚ) := do
  let dataduration := bad.target.length / timeseries
  let _ ← ts_map bad.pred dataduration timeseries
  let _ ← ts_map bad.target dataduration timeseries
  let dpred_unscaled ← ts_map bad.pred_unscaled dataduration timeseries
  let dtarg_unscaled ← ts_map bad.target_unscaled dataduration timeseries
  let error_unscaled :=
    List.zipWith (List.zipWith (fun p t => |p - t|)) dpred_unscaled dtarg_unscaled
  let square_error_unscaled := error_unscaled.map (fun row => row.map (fun e => e * e))
  if dataduration = 0 then .error Err.undefined
  else do
    let mae_add ← ((List.range timeseries).map (mat_col error_unscaled)).mapM
      (fun c => fdiv (vsum c) (to_float (bad.target.length : ℚ)))
    let mse_add ← ((List.range timeseries).map (mat_col square_error_unscaled)).mapM
      (fun c => fdiv (vsum c) (to_float (bad.target.length : ℚ)))
    pure (List.zipWith (fun m a => m + a) s.1 mae_add,
          List.zipWith (fun m a => m + a) s.2 mse_add)

/-- The function `timeSeriesMetrics(ad, timeseries, mape, smape, mase, owa, mae, mse)`:
the content of `mae` and `mse` on return. Both hold `timeseries` entries, set to zero on
entry, and are divided by `static_cast<float>(batch_size)` after the loop. -/
def timeSeriesMetrics (samples : List TsSample) (timeseries : Int) :
    Except Err (List ℚ × List ℚ) :=
  if timeseries ≤ 0 then .error Err.undefined
  else do
    let n := timeseries.toNat
    let s ← samples.foldlM (ts_metrics_sample n) (List.replicate n 0, List.replicate n 0)
    let mae ← s.1.mapM (fun x => fdiv x (to_float (samples.length : ℚ)))
    let mse ← s.2.mapM (fun x => fdiv x (to_float (samples.length : ℚ)))
    pure (mae, mse)

/-- The statements of `measure` that average a per-series vector `v` of `timeseries`
entries: `d += v[i]` for `i < timeseries`, then `d /= timeseries`. -/
def measure_ts_average (timeseries : Int) (v : List ℚ) : Except Err ℚ :=
  fdiv (vsum (v.take timeseries.toNat)) (timeseries : ℚ)

/-- Example payload: one sample of two series and two timesteps whose unscaled
predictions are all off by 3. -/
def tsm_two_series : List TsSample :=
  [{ target := [0, 1, 0, 1], pred := [0, 1, 1, 1],
     target_unscaled := [10, 20, 30, 40], pred_unscaled := [13, 17, 27, 43] }]

/-- Example payload: one series of three timesteps, every unscaled prediction off by the
`double` written 0.1. -/
def tsm_tenths : List TsSample :=
  [{ target := [0, 0, 0], pred := [0, 0, 0], target_unscaled := [0, 0, 0],
     pred_unscaled := [to_double (1 / 10), to_double (1 / 10), to_double (1 / 10)] }]

/-- Example sample: one series of `2^24 + 1` timesteps, every unscaled prediction off
by 1. -/
def tsm_long : TsSample :=
  { target := List.replicate 16777217 0, pred := List.replicate 16777217 0,
    target_unscaled := List.replicate 16777217 0, pred_unscaled := List.replicate 16777217 1 }

/-- The amount added to every entry of `mae_vector` by a sample whose absolute unscaled
errors all equal `c`: the column sum `dataduration * c` over the narrowed number of values
of the sample. -/
def constant_share (timeseries : Nat) (c : ℚ) (bad : TsSample) : ℚ :=
  ((bad.target.length / timeseries : Nat) : ℚ) * c / to_float (bad.target.length : ℚ)

/-! ## Exact arithmetic in `timeSeriesErrors` and `timeSeriesMetrics` -/

/-- Whether `x` is `k * q` for a natural number `k`. -/
def natural_multiple (q x : ℚ) : Bool :=
  decide (0 ≤ x / q) && decide ((x / q).den = 1)

/-- The conditions under which no operation of `timeSeriesErrors` in L1 mode rounds on a
batch of `n` series, `q` being a unit of which every absolute error is a multiple:
the number of values is at most `2^53`; every difference `pred - target` is the value
of a `double` and its absolute value is a natural multiple of `q`; for every series,
the multiples of `q` up to the sum of its absolute errors are values of `double`s (these
errors then add up exactly, in whichever order they are added), and so are the quotient
of that sum by the number of values and its quotient by the number of timesteps (the
former multiplied by `n`); the sums of the first means and the quotient of their total
by `n` are values of `double`s. -/
def ts_errors_exact (q : ℚ) (n : Nat) (samples : List MlSample) : Bool :=
  decide ((batch_values samples : ℚ) ≤ 2 ^ 53)
  && samples.all (fun bad => (bad.pred.zip bad.target).all (fun e =>
      exact_double (e.1 - e.2) && natural_multiple q |e.1 - e.2|))
  && (List.range n).all (fun j =>
      exact_multiples q (Rat.floor ((spec_batch_errors n samples j).sum / q)).toNat
      && exact_double ((spec_batch_errors n samples j).sum / (batch_values samples : ℚ))
      && exact_double ((spec_batch_errors n samples j).sum / (spec_timesteps n samples : ℚ)))
  && (List.range (n + 1)).all (fun k => exact_double
      (((List.range k).map (fun j =>
        (spec_batch_errors n samples j).sum / (spec_timesteps n samples : ℚ))).sum))
  && exact_double (((List.range n).map (fun j =>
      (spec_batch_errors n samples j).sum / (spec_timesteps n samples : ℚ))).sum / (n : ℚ))

/-- The conditions under which no operation of `timeSeriesMetrics` on `mae_vector` and
`mse_vector`, nor the averaging of `measure`, rounds on a batch of `n` series whose
absolute unscaled errors all equal `c`: the multiples of `c` and of `c * c` up to the
number of timesteps of each sample are values of `double`s (the columns then add up
exactly, in whichever order they are added), and so are the multiples of `c / n` up to
the number of samples and up to `n`, and the multiples of `c * c / n` up to the number of
samples. -/
def tsm_exact (c : ℚ) (n : Nat) (samples : List TsSample) : Bool :=
  samples.all (fun bad =>
      exact_multiples c (bad.target.length / n)
      && exact_multiples (c * c) (bad.target.length / n))
  && exact_multiples (c / (n : ℚ)) (max samples.length n)
  && exact_multiples (c * c / (n : ℚ)) samples.length


/-! ### General lemmas -/

theorem bind_ok {α β : Type} (x : α) (f : α → Except Err β) :
    (Except.ok x >>= f) = f x := rfl


/-! ## Properties of the aggregator -/

theorem vcats_find_eq_none (m : List (String × Nat)) (key : String) :
    vcats_find m key = none ↔ key ∉ m.map Prod.fst := by
  induction m with
  | nil => simp [vcats_find]
  | cons e rest ih =>
    by_cases h : e.1 = key
    · simp [vcats_find, h]
    · simp only [vcats_find, h, if_false, ih, List.map_cons, List.mem_cons, not_or]
      constructor
      · intro h2; exact ⟨fun h3 => h h3.symm, h2⟩
      · intro h2; exact h2.2

theorem vcats_find_isSome (m : List (String × Nat)) (key : String)
    (h : key ∈ m.map Prod.fst) : ∃ n, vcats_find m key = some n := by
  cases hf : vcats_find m key with
  | none => exact absurd h ((vcats_find_eq_none m key).1 hf)
  | some n => exact ⟨n, rfl⟩

theorem vec_at_of_lt {α : Type} (v : List α) (i : Nat) (h : i < v.length) :
    vec_at v i = .ok (v.get ⟨i, h⟩) := by
  simp [vec_at, List.getElem?_eq_getElem h]

theorem add_results_step_ok {α : Type} (v : List α) (i n : Nat) (hi : i < n)
    (h : v = [] ∨ n ≤ v.length) (f : α → sup_result) (s : sup_result)
    (hf : ∀ x, (f x)._label = s._label ∧ (f x)._loss = s._loss) :
    ∃ s1, add_if_present v i f s = .ok s1 ∧ s1._label = s._label ∧ s1._loss = s._loss := by
  by_cases c : v = []
  · exact ⟨s, by simp [add_if_present, c], rfl, rfl⟩
  · rcases h with h | h
    · exact absurd h c
    · refine ⟨f (v.get ⟨i, by omega⟩), ?_, hf _⟩
      have hne : v.isEmpty = false := by cases v with
        | nil => exact absurd rfl c
        | cons _ _ => rfl
      simp [add_if_present, hne, vec_at_of_lt v i (by omega), Except.map]

theorem add_results_entry_ok (ad : ResultRecord) (hb : ad.in_bounds) (s : sup_result)
    (i : Nat) (hi : i < ad.probs.length) :
    ∃ s1, add_results_entry ad s i = .ok s1 ∧ s1._label = s._label ∧ s1._loss = s._loss := by
  obtain ⟨h1, h2, h3, h4, h5⟩ := hb
  have e0 := vec_at_of_lt ad.probs i hi
  unfold add_results_entry
  rw [e0]
  simp only [bind, Except.bind]
  obtain ⟨s1, e1, l1, o1⟩ := add_results_step_ok ad.cats i _ hi h1
    (s.add_cat (ad.probs.get ⟨i, hi⟩)) s (fun _ => ⟨rfl, rfl⟩)
  simp only [e1]
  obtain ⟨s2, e2, l2, o2⟩ := add_results_step_ok ad.bboxes i _ hi h2
    (s1.add_bbox (ad.probs.get ⟨i, hi⟩)) s1 (fun _ => ⟨rfl, rfl⟩)
  simp only [e2]
  obtain ⟨s3, e3, l3, o3⟩ := add_results_step_ok ad.vals i _ hi h3
    (s2.add_val (ad.probs.get ⟨i, hi⟩)) s2 (fun _ => ⟨rfl, rfl⟩)
  simp only [e3]
  obtain ⟨s4, e4, l4, o4⟩ := add_results_step_ok ad.series i _ hi h4
    (s3.add_timeseries (ad.probs.get ⟨i, hi⟩)) s3 (fun _ => ⟨rfl, rfl⟩)
  simp only [e4]
  obtain ⟨s5, e5, l5, o5⟩ := add_results_step_ok ad.masks i _ hi h5
    (s4.add_mask (ad.probs.get ⟨i, hi⟩)) s4 (fun _ => ⟨rfl, rfl⟩)
  exact ⟨s5, e5, by rw [l5, l4, l3, l2, l1], by rw [o5, o4, o3, o2, o1]⟩

theorem add_results_loop_ok (ad : ResultRecord) (hb : ad.in_bounds) (l : List Nat)
    (hl : ∀ i ∈ l, i < ad.probs.length) (s : sup_result) :
    ∃ s1, l.foldlM (add_results_entry ad) s = .ok s1 ∧ s1._label = s._label
      ∧ s1._loss = s._loss := by
  induction l generalizing s with
  | nil => exact ⟨s, rfl, rfl, rfl⟩
  | cons i rest ih =>
    obtain ⟨s1, e1, l1, o1⟩ := add_results_entry_ok ad hb s i (hl i (List.mem_cons_self _ _))
    obtain ⟨s2, e2, l2, o2⟩ := ih (fun j hj => hl j (List.mem_cons_of_mem _ hj)) s1
    refine ⟨s2, ?_, by rw [l2, l1], by rw [o2, o1]⟩
    simp only [List.foldlM, bind, Except.bind, e1]
    exact e2

theorem add_results_fill_ok (ad : ResultRecord) (hb : ad.in_bounds) :
    ∃ s, add_results_fill ad = .ok s ∧ s._label = ad.uri ∧ s._loss = ad.loss := by
  have h := add_results_loop_ok ad hb (List.range ad.probs.length)
    (fun i hi => List.mem_range.1 hi) (sup_result.mk0 ad.uri ad.loss)
  exact h

theorem add_results_fill_label (ad : ResultRecord) (s : sup_result)
    (h : add_results_fill ad = .ok s) (hb : ad.in_bounds) : s._label = ad.uri := by
  obtain ⟨s1, e1, l1, _⟩ := add_results_fill_ok ad hb
  rw [e1] at h
  cases h
  exact l1

theorem first_new_uri (seen : List String) (rs : List ResultRecord) (id : String) :
    id ∈ (first_new seen rs).map (fun r => r.uri) ↔
      id ∈ rs.map (fun r => r.uri) ∧ id ∉ seen := by
  induction rs generalizing seen with
  | nil => simp [first_new]
  | cons r rest ih =>
    by_cases h : r.uri ∈ seen
    · simp only [first_new, h, if_true, ih, List.map_cons, List.mem_cons]
      constructor
      · rintro ⟨h1, h2⟩; exact ⟨Or.inr h1, h2⟩
      · rintro ⟨h1 | h1, h2⟩
        · exact absurd (h1 ▸ h) h2
        · exact ⟨h1, h2⟩
    · simp only [first_new, h, if_false, List.map_cons, List.mem_cons, ih, List.mem_append,
        List.mem_singleton, not_or]
      constructor
      · rintro (h1 | ⟨h1, h2, _, _⟩)
        · exact ⟨Or.inl h1, h1 ▸ h⟩
        · exact ⟨Or.inr h1, h2⟩
      · rintro ⟨h1 | h1, h2⟩
        · exact Or.inl h1
        · by_cases h3 : id = r.uri
          · exact Or.inl h3
          · exact Or.inr ⟨h1, h2, h3, by simp⟩

theorem first_new_nodup (seen : List String) (rs : List ResultRecord) :
    ((first_new seen rs).map (fun r => r.uri)).Nodup := by
  induction rs generalizing seen with
  | nil => simp [first_new]
  | cons r rest ih =>
    by_cases h : r.uri ∈ seen
    · simp only [first_new, h, if_true]; exact ih seen
    · simp only [first_new, h, if_false, List.map_cons, List.nodup_cons]
      refine ⟨?_, ih _⟩
      intro hm
      have := ((first_new_uri _ _ _).1 hm).2
      exact this (by simp)

theorem first_new_find (seen : List String) (rs : List ResultRecord) (r : ResultRecord)
    (hr : r ∈ first_new seen rs) : rs.find? (fun x => x.uri = r.uri) = some r := by
  induction rs generalizing seen with
  | nil => simp [first_new] at hr
  | cons x rest ih =>
    have hru : ∀ seen1, r ∈ first_new seen1 rest → r.uri ∉ seen1 := fun seen1 hm =>
      ((first_new_uri seen1 rest r.uri).1 (List.mem_map_of_mem _ hm)).2
    by_cases h : x.uri ∈ seen
    · simp only [first_new, h, if_true] at hr
      have hne : x.uri ≠ r.uri := fun e => hru seen hr (e ▸ h)
      simp only [List.find?_cons, hne, decide_False]
      exact ih seen hr
    · simp only [first_new, h, if_false, List.mem_cons] at hr
      rcases hr with hr | hr
      · subst hr; simp
      · have hne : x.uri ≠ r.uri := fun e => hru _ hr (by simp [e])
        simp only [List.find?_cons, hne, decide_False]
        exact ih _ hr

theorem indexed_keys (so : SupervisedOutput) (h : so.indexed) :
    so._vcats.map Prod.fst = so._vvcats.map (fun s => s._label) := by
  rw [h, List.map_fst_zip]
  simp

theorem indexed_push (so : SupervisedOutput) (h : so.indexed) (s : sup_result)
    (hn : vcats_find so._vcats s._label = none) :
    SupervisedOutput.indexed
      { _vcats := vcats_insert so._vcats s._label so._vvcats.length,
        _vvcats := so._vvcats ++ [s] } := by
  unfold SupervisedOutput.indexed at *
  simp only [vcats_insert, hn, List.map_append, List.map_cons, List.map_nil,
    List.length_append, List.length_singleton, List.range_succ]
  rw [List.zip_append (by simp)]
  rw [← h]
  rfl

theorem add_results_cons (so : SupervisedOutput) (r : ResultRecord)
    (rest : List ResultRecord) :
    add_results so (r :: rest) = (add_results_one so r).bind (fun so1 => add_results so1 rest) := by
  rfl

theorem add_results_append (so : SupervisedOutput) (xs ys : List ResultRecord) :
    add_results so (xs ++ ys) = (add_results so xs).bind (fun so1 => add_results so1 ys) := by
  unfold add_results
  rw [List.foldlM_append]
  rfl

theorem add_results_calls_join (so : SupervisedOutput) (calls : List (List ResultRecord)) :
    add_results_calls so calls = add_results so calls.flatten := by
  induction calls generalizing so with
  | nil => rfl
  | cons c rest ih =>
    rw [List.flatten_cons, add_results_append]
    show (add_results so c).bind (fun so1 => add_results_calls so1 rest) = _
    congr 1
    funext so1
    exact ih so1

theorem add_results_run (rs : List ResultRecord) (so : SupervisedOutput) (hso : so.indexed)
    (hb : ∀ r ∈ rs, r.in_bounds) :
    ∃ so1 news, add_results so rs = .ok so1 ∧ so1.indexed
      ∧ so1._vvcats = so._vvcats ++ news
      ∧ List.Forall₂ (fun s r => add_results_fill r = .ok s) news
          (first_new (so._vvcats.map (fun s => s._label)) rs) := by
  induction rs generalizing so with
  | nil => exact ⟨so, [], rfl, hso, by simp, by simp [first_new]⟩
  | cons r rest ih =>
    have hrest : ∀ x ∈ rest, x.in_bounds := fun x hx => hb x (List.mem_cons_of_mem _ hx)
    rw [add_results_cons]
    by_cases hm : r.uri ∈ so._vvcats.map (fun s => s._label)
    · obtain ⟨n, hn⟩ := vcats_find_isSome so._vcats r.uri (by rw [indexed_keys so hso]; exact hm)
      obtain ⟨so1, news, e, hi, hv, hf⟩ := ih so hso hrest
      refine ⟨so1, news, ?_, hi, hv, ?_⟩
      · simp only [add_results_one, hn, Except.bind]; exact e
      · simp only [first_new, hm, if_true]; exact hf
    · have hn : vcats_find so._vcats r.uri = none :=
        (vcats_find_eq_none _ _).2 (by rw [indexed_keys so hso]; exact hm)
      obtain ⟨s, es, ls, _⟩ := add_results_fill_ok r (hb r (List.mem_cons_self _ _))
      have hpush := indexed_push so hso s (by rw [ls]; exact hn)
      obtain ⟨so1, news, e, hi, hv, hf⟩ := ih _ hpush hrest
      refine ⟨so1, s :: news, ?_, hi, ?_, ?_⟩
      · simp only [add_results_one, hn, es, Except.bind, bind, pure, Except.pure]
        rw [← ls]; exact e
      · rw [hv]; simp
      · simp only [first_new, hm, if_false]
        refine List.Forall₂.cons es ?_
        simpa [ls] using hf

theorem forall₂_exists_right {α β : Type} {R : α → β → Prop} {l1 : List α} {l2 : List β}
    (h : List.Forall₂ R l1 l2) (a : α) (ha : a ∈ l1) : ∃ b, b ∈ l2 ∧ R a b := by
  induction h with
  | nil => cases ha
  | cons hd _ ih =>
    rcases List.mem_cons.1 ha with rfl | ha1
    · exact ⟨_, List.mem_cons_self _ _, hd⟩
    · obtain ⟨b, hb, hr⟩ := ih ha1
      exact ⟨b, List.mem_cons_of_mem _ hb, hr⟩

/-- C1. Starting from an empty connector and for records whose payload vectors cover
their score vector, any sequence of `add_results` calls returns a Result Set with exactly
one Score Record per distinct id (ids without repetition, and the ids present are those
of the records passed); the record stored under an id is the one the connector builds
from the first record carrying that id, alone: later records with the same id change
nothing. -/
theorem add_results_keeps_first (calls : List (List ResultRecord))
    (hb : ∀ c ∈ calls, ∀ r ∈ c, r.in_bounds) :
    ∃ so, add_results_calls SupervisedOutput.empty calls = .ok so
      ∧ (so._vvcats.map (fun s => s._label)).Nodup
      ∧ (∀ id, id ∈ so._vvcats.map (fun s => s._label) ↔
            id ∈ calls.flatten.map (fun r => r.uri))
      ∧ ∀ s ∈ so._vvcats, ∃ r,
          calls.flatten.find? (fun x => x.uri = s._label) = some r
          ∧ add_results SupervisedOutput.empty [r]
              = .ok { _vcats := [(s._label, 0)], _vvcats := [s] } := by
  have hb1 : ∀ r ∈ calls.flatten, r.in_bounds := by
    intro r hr
    obtain ⟨c, hc, hrc⟩ := List.mem_flatten.1 hr
    exact hb c hc r hrc
  obtain ⟨so, news, e, _, hv, hf⟩ :=
    add_results_run calls.flatten SupervisedOutput.empty rfl hb1
  have hv1 : so._vvcats = news := by simpa [SupervisedOutput.empty] using hv
  have hf1 : List.Forall₂ (fun s r => add_results_fill r = .ok s) so._vvcats
      (first_new [] calls.flatten) := by
    rw [hv1]; simpa [SupervisedOutput.empty] using hf
  have hin : ∀ r ∈ first_new [] calls.flatten, r.in_bounds := by
    intro r hr
    have := (first_new_uri [] calls.flatten r.uri).1 (List.mem_map_of_mem _ hr)
    have hfind := first_new_find [] calls.flatten r hr
    exact hb1 r (List.mem_of_find?_eq_some hfind)
  have hlab : so._vvcats.map (fun s => s._label)
      = (first_new [] calls.flatten).map (fun r => r.uri) := by
    have hgen : ∀ (l1 : List sup_result) (l2 : List ResultRecord),
        List.Forall₂ (fun s r => add_results_fill r = .ok s) l1 l2 →
        (∀ r ∈ l2, r.in_bounds) →
        l1.map (fun s => s._label) = l2.map (fun r => r.uri) := by
      intro l1 l2 h
      induction h with
      | nil => intro _; rfl
      | cons hd _ ih =>
        intro hall
        simp only [List.map_cons]
        rw [add_results_fill_label _ _ hd (hall _ (List.mem_cons_self _ _)),
          ih (fun r hr => hall r (List.mem_cons_of_mem _ hr))]
    exact hgen _ _ hf1 hin
  refine ⟨so, by rw [add_results_calls_join]; exact e, ?_, ?_, ?_⟩
  · rw [hlab]; exact first_new_nodup [] _
  · intro id
    rw [hlab, first_new_uri]
    simp
  · intro s hs
    obtain ⟨r, hr, hsr⟩ := forall₂_exists_right hf1 s hs
    have hl := add_results_fill_label r s hsr (hin r hr)
    refine ⟨r, by rw [hl]; exact first_new_find [] _ r hr, ?_⟩
    simp [add_results, List.foldlM, add_results_one, SupervisedOutput.empty, vcats_find, hsr,
      vcats_insert, bind, Except.bind, pure, Except.pure, hl]


theorem add_results_keeps_first_witness :
    (∀ c ∈ [[record_a1, record_a2]], ∀ r ∈ c, r.in_bounds)
    ∧ ∃ so, add_results_calls SupervisedOutput.empty [[record_a1, record_a2]] = .ok so
      ∧ (so._vvcats.map (fun s => s._label)).Nodup
      ∧ (∀ id, id ∈ so._vvcats.map (fun s => s._label) ↔
            id ∈ [[record_a1, record_a2]].flatten.map (fun r => r.uri))
      ∧ ∀ s ∈ so._vvcats, ∃ r,
          [[record_a1, record_a2]].flatten.find? (fun x => x.uri = s._label) = some r
          ∧ add_results SupervisedOutput.empty [r]
              = .ok { _vcats := [(s._label, 0)], _vvcats := [s] } :=
  have h : ∀ c ∈ [[record_a1, record_a2]], ∀ r ∈ c, r.in_bounds := by
    simp [ResultRecord.in_bounds, record_a1, record_a2]
  ⟨h, add_results_keeps_first [[record_a1, record_a2]] h⟩

/-- The scenario of the specification: two records with the same id, in one call or in
two, leave exactly one entry, built from the first. -/
theorem add_results_same_id_twice :
    add_results SupervisedOutput.empty [record_a1, record_a2]
      = .ok { _vcats := [("a", 0)],
              _vvcats := [{ _label := "a", _loss := 1 / 2,
                            _cats := [(9 / 10, "cat"), (1 / 10, "dog")], _bboxes := [],
                            _vals := [], _series := [], _masks := [] }] }
    ∧ add_results_calls SupervisedOutput.empty [[record_a1], [record_a2]]
      = add_results SupervisedOutput.empty [record_a1, record_a2] := by
  constructor
  · decide!
  · with_unfolding_all rfl


/-! ## Properties of the top-k selector -/

theorem mm_insert_last {α : Type} (k : ℚ) (v : α) (m : ScoreMap α)
    (h : ∀ e ∈ m, k ≤ e.1) : mm_insert k v m = m ++ [(k, v)] := by
  induction m with
  | nil => rfl
  | cons e rest ih =>
    have h1 : k ≤ e.1 := h e (List.mem_cons_self _ _)
    simp only [mm_insert, h1, if_true, List.cons_append]
    rw [ih (fun x hx => h x (List.mem_cons_of_mem _ hx))]

theorem insert_all_sorted {α : Type} (l out : ScoreMap α) (h : mm_sorted (out ++ l)) :
    l.foldl (fun acc e => mm_insert e.1 e.2 acc) out = out ++ l := by
  induction l generalizing out with
  | nil => simp
  | cons e rest ih =>
    simp only [List.foldl_cons]
    have hlast : mm_insert e.1 e.2 out = out ++ [e] := by
      apply mm_insert_last
      intro x hx
      have hp := List.pairwise_append.1 h
      exact hp.2.2 x hx e (List.mem_cons_self _ _)
    rw [hlast, ih (out ++ [e]) (by simpa using h)]
    simp

theorem mm_sorted_take {α : Type} (m : ScoreMap α) (n : Nat) (h : mm_sorted m) :
    mm_sorted (m.take n) :=
  List.Pairwise.sublist (List.take_sublist n m) h

theorem copy_n_sorted {α : Type} (m : ScoreMap α) (best : Int) (h : mm_sorted m) :
    copy_n m (min best m.length) [] = first_entries best m := by
  unfold copy_n first_entries
  rw [insert_all_sorted _ [] (by simpa using mm_sorted_take m _ h)]
  simp

theorem first_entries_nil {α : Type} (best : Int) : first_entries best ([] : ScoreMap α) = [] := by
  simp [first_entries]

theorem copy_if_present {α : Type} (m : ScoreMap α) (best : Int) (h : mm_sorted m) :
    (if !m.isEmpty then copy_n m (min best m.length) [] else []) = first_entries best m := by
  cases m with
  | nil => simp [first_entries]
  | cons e r =>
    rw [← copy_n_sorted _ best h]
    simp

theorem best_cats_plain_eq (best : Int) (s : sup_result) (h : s.sorted) :
    best_cats_plain best s = plain_record best s := by
  obtain ⟨h1, h2, h3, _, h5⟩ := h
  have c2 := copy_if_present s._bboxes best h2
  have c3 := copy_if_present s._vals best h3
  have c5 := copy_if_present s._masks best h5
  unfold best_cats_plain plain_record
  simp only [sup_result.mk0]
  rw [← copy_n_sorted _ best h1, ← c2, ← c3, ← c5]
  cases hb : s._bboxes.isEmpty <;> cases hv : s._vals.isEmpty <;>
    cases hm : s._masks.isEmpty <;> simp

theorem foldl_push_map (f : sup_result → sup_result) (l : List sup_result)
    (b : SupervisedOutput) :
    (l.foldl (fun b s => push_result b (f s)) b)._vvcats = b._vvcats ++ l.map f := by
  induction l generalizing b with
  | nil => simp
  | cons s rest ih =>
    rw [List.foldl_cons, ih]
    simp [push_result]

/-- C3 (as amended). In plain mode and for every `best ≥ 0`, `best_cats` returns one
record per input sample, in order, with the same identifier and loss, in which the
category, box, roi and mask collections are the prefixes of the first `min(best, n)`
entries of the input collections and the series collection is empty. -/
theorem best_cats_plain_first_entries (so : SupervisedOutput) (best nclasses : Int)
    (hbest : 0 ≤ best) (hs : ∀ s ∈ so._vvcats, s.sorted) :
    ∃ out, best_cats so SupervisedOutput.empty best nclasses false false false = .ok out
      ∧ out._vvcats = so._vvcats.map (fun s =>
          { _label := s._label, _loss := s._loss, _cats := first_entries best s._cats,
            _bboxes := first_entries best s._bboxes, _vals := first_entries best s._vals,
            _series := [], _masks := first_entries best s._masks }) := by
  have hne : best ≠ -1 := by omega
  refine ⟨_, by simp only [best_cats, hne, if_false]; rfl, ?_⟩
  rw [foldl_push_map]
  simp only [SupervisedOutput.empty, List.nil_append]
  apply List.map_congr_left
  intro s hm
  rw [best_cats_plain_eq best s (hs s hm)]
  rfl

theorem best_cats_plain_first_entries_witness :
    (0 : Int) ≤ 1 ∧ (∀ s ∈ (connector_of [sample_two_cats])._vvcats, s.sorted)
    ∧ ∃ out, best_cats (connector_of [sample_two_cats]) SupervisedOutput.empty 1 2
          false false false = .ok out
      ∧ out._vvcats = (connector_of [sample_two_cats])._vvcats.map (fun s =>
          { _label := s._label, _loss := s._loss, _cats := first_entries 1 s._cats,
            _bboxes := first_entries 1 s._bboxes, _vals := first_entries 1 s._vals,
            _series := [], _masks := first_entries 1 s._masks }) :=
  have h : ∀ s ∈ (connector_of [sample_two_cats])._vvcats, s.sorted := by
    intro s hm
    simp only [connector_of, List.mem_singleton] at hm
    subst hm
    simp only [sup_result.sorted, mm_sorted, sample_two_cats]
    norm_num
  ⟨by decide, h, best_cats_plain_first_entries (connector_of [sample_two_cats]) 1 2 (by decide) h⟩

/-- C3, counterexample. A sample with one series entry, `best = 1`, plain mode: the
output record has no series entry, while the prefix of `min(best, n) = 1` entries of the
input series holds one. -/
theorem best_cats_plain_drops_series :
    (best_cats (connector_of [sample_series]) SupervisedOutput.empty 1 2 false false false).map
        (fun out => out._vvcats.map (fun s => s._series)) = .ok [[]]
    ∧ (connector_of [sample_series])._vvcats.map (fun s => (spec_plain_record 1 s)._series)
        = [[(1 / 2, [1])]] := by
  decide!


theorem select_cons {α : Type} (b : Bool) (mask : List Bool) (e : α) (l : List α) :
    select (b :: mask) (e :: l) = if b then e :: select mask l else select mask l := by
  cases b <;> simp [select]

theorem select_sublist {α : Type} (mask : List Bool) (l : List α) :
    List.Sublist (select mask l) l := by
  induction l generalizing mask with
  | nil => simp [select]
  | cons e rest ih =>
    cases mask with
    | nil => simp [select]
    | cons b m =>
      rw [select_cons]
      cases b
      · exact List.Sublist.cons _ (ih m)
      · exact List.Sublist.cons₂ _ (ih m)

theorem select_all {α : Type} (l : List α) (mask : List Bool) (hlen : mask.length = l.length)
    (h : ∀ b ∈ mask, b = true) : select mask l = l := by
  induction l generalizing mask with
  | nil => simp [select]
  | cons e rest ih =>
    cases mask with
    | nil => simp at hlen
    | cons b m =>
      rw [select_cons, h b (List.mem_cons_self _ _)]
      simp only [if_true]
      rw [ih m (by simpa using hlen) (fun x hx => h x (List.mem_cons_of_mem _ hx))]

theorem lboxes_find_incr (l : List (String × Int)) (key k : String) :
    lboxes_find (lboxes_incr l key) k
      = if k = key then (lboxes_find l key).map (fun n => n + 1) else lboxes_find l k := by
  induction l with
  | nil => simp [lboxes_incr, lboxes_find]
  | cons e rest ih =>
    by_cases h1 : e.1 = key
    · by_cases h2 : k = key
      · simp [lboxes_incr, lboxes_find, h1, h2]
      · have h3 : ¬ key = k := fun h => h2 h.symm
        simp [lboxes_incr, lboxes_find, h1, h2, h3]
    · by_cases h2 : k = key
      · subst h2
        simp [lboxes_incr, lboxes_find, h1, ih]
      · by_cases h3 : e.1 = k
        · simp [lboxes_incr, lboxes_find, h1, h2, h3]
        · simp [lboxes_incr, lboxes_find, h1, h2, h3, ih]

theorem lboxes_find_append (l : List (String × Int)) (key k : String) (n : Int) :
    lboxes_find (l ++ [(key, n)]) k
      = match lboxes_find l k with
        | some m => some m
        | none => if key = k then some n else none := by
  induction l with
  | nil => simp [lboxes_find]
  | cons e rest ih =>
    by_cases h1 : e.1 = k
    · simp [lboxes_find, h1]
    · simp [lboxes_find, h1, ih]

theorem counters_ok_incr (lboxes : List (String × Int)) (seen : List String) (key : String)
    (n : Int) (h : counters_ok lboxes seen) (hf : lboxes_find lboxes key = some n) :
    counters_ok (lboxes_incr lboxes key) (seen ++ [key]) ∧ n = seen.count key
      ∧ seen.count key ≠ 0 := by
  have hk := h key
  rw [hf] at hk
  by_cases h0 : seen.count key = 0
  · simp [h0] at hk
  · simp only [h0, if_false, Option.some.injEq] at hk
    refine ⟨?_, hk, h0⟩
    intro k
    rw [lboxes_find_incr]
    by_cases e : k = key
    · subst e
      simp [hf, hk]
    · have := h k
      simp only [e, if_false, List.count_append, this]
      have hc : List.count k [key] = 0 := by
        simp [List.count_singleton, e]
      simp [hc]

theorem counters_ok_new (lboxes : List (String × Int)) (seen : List String) (key : String)
    (h : counters_ok lboxes seen) (hf : lboxes_find lboxes key = none) :
    counters_ok (lboxes ++ [(key, 1)]) (seen ++ [key]) ∧ seen.count key = 0 := by
  have hk := h key
  rw [hf] at hk
  by_cases h0 : seen.count key = 0
  · refine ⟨?_, h0⟩
    intro k
    rw [lboxes_find_append]
    by_cases e : k = key
    · subst e
      simp [hf, h0]
    · have := h k
      have hc : List.count k [key] = 0 := by
        simp [List.count_singleton, e]
      have e2 : ¬ key = k := fun h => e h.symm
      rw [this]
      by_cases hz : seen.count k = 0
      · simp [hz, hc, e2]
      · simp [hz, hc]
  · simp [h0] at hk

theorem iter_next_step {α : Type} (flag : Bool) (l : ScoreMap α) (n : Nat)
    (hlen : flag = true → l.length = n + 1) :
    ∃ vv l1, iter_next flag l = .ok (vv, l1) ∧ (flag = true → l1.length = n)
      ∧ (∀ out mask,
          (if flag then insert_all out (select (true :: mask) l) else out)
            = if flag then insert_all (insert_opt vv out) (select mask l1)
              else insert_opt vv out)
      ∧ (∀ (out : ScoreMap α) mask,
          (if flag then insert_all out (select (false :: mask) l) else out)
            = if flag then insert_all out (select mask l1) else out) := by
  cases flag with
  | false => exact ⟨none, l, rfl, by simp, by simp [insert_opt], by simp⟩
  | true =>
    cases l with
    | nil => simp at hlen
    | cons e rest =>
      refine ⟨some e, rest, rfl, fun _ => by simpa using hlen, ?_, ?_⟩
      · intro out mask
        simp [select_cons, insert_all, insert_opt]
      · intro out mask
        simp [select_cons]

theorem best_cats_dedup_run (best : Int) (has_roi has_mask : Bool)
    (bboxes : ScoreMap BBox) (cats : ScoreMap String) (vals masks : ScoreMap Payload)
    (lboxes : List (String × Int)) (bs : sup_result) (seen : List String)
    (hc : counters_ok lboxes seen) (h1 : cats.length = bboxes.length)
    (h2 : has_roi = true → vals.length = bboxes.length)
    (h3 : has_mask = true → masks.length = bboxes.length) :
    best_cats_dedup best has_roi has_mask bboxes cats vals masks lboxes bs = .ok
      { bs with
        _cats := insert_all bs._cats
          (select (keep_mask_from best seen (bboxes.map (fun e => bbkey e.2))) cats),
        _bboxes := insert_all bs._bboxes
          (select (keep_mask_from best seen (bboxes.map (fun e => bbkey e.2))) bboxes),
        _vals := if has_roi then insert_all bs._vals
          (select (keep_mask_from best seen (bboxes.map (fun e => bbkey e.2))) vals)
          else bs._vals,
        _masks := if has_mask then insert_all bs._masks
          (select (keep_mask_from best seen (bboxes.map (fun e => bbkey e.2))) masks)
          else bs._masks } := by
  induction bboxes generalizing cats vals masks lboxes bs seen with
  | nil =>
    have hv : ∀ (flag : Bool) (l : ScoreMap Payload) (out : ScoreMap Payload),
        (if flag then insert_all out (select [] l) else out) = out := by
      intro flag l out
      cases flag <;> simp [select, insert_all]
    simp only [best_cats_dedup, List.map_nil, keep_mask_from, hv]
    simp [select, insert_all]
  | cons bx mitx ih =>
    cases cats with
    | nil => simp at h1
    | cons c mit1 =>
      obtain ⟨vv, mity1, ev, lv, kv, sv⟩ := iter_next_step has_roi vals mitx.length
        (fun h => by simpa using h2 h)
      obtain ⟨mk, mitmask1, em, lm, km, sm⟩ := iter_next_step has_mask masks mitx.length
        (fun h => by simpa using h3 h)
      have hl1 : mit1.length = mitx.length := by simpa using h1
      simp only [best_cats_dedup, ev, em, bind, Except.bind, List.map_cons, keep_mask_from]
      cases hf : lboxes_find lboxes (bbkey bx.2) with
      | some n =>
        obtain ⟨hc1, hn, hn0⟩ := counters_ok_incr lboxes seen _ n hc hf
        simp only []
        rw [ih mit1 mity1 mitmask1 _ _ (seen ++ [bbkey bx.2]) hc1 hl1 lv lm]
        have hnot1 : ¬ (seen.count (bbkey bx.2) + 1 = 1) := by omega
        by_cases hle : n + 1 ≤ best
        · have hd : decide (((seen.count (bbkey bx.2) + 1 : Nat) : Int) ≤ best
              ∨ seen.count (bbkey bx.2) + 1 = 1) = true := by
            simp only [decide_eq_true_eq]; left; push_cast; omega
          simp only [hd, hle, if_true, select_cons, kv, km]
          simp [insert_all]
        · have hd : decide (((seen.count (bbkey bx.2) + 1 : Nat) : Int) ≤ best
              ∨ seen.count (bbkey bx.2) + 1 = 1) = false := by
            simp only [decide_eq_false_iff_not, not_or]
            exact ⟨by push_cast; omega, hnot1⟩
          simp only [hd, hle, if_false, select_cons, sv, sm]
          simp
      | none =>
        obtain ⟨hc1, hn0⟩ := counters_ok_new lboxes seen _ hc hf
        simp only []
        rw [ih mit1 mity1 mitmask1 _ _ (seen ++ [bbkey bx.2]) hc1 hl1 lv lm]
        have hd : decide (((seen.count (bbkey bx.2) + 1 : Nat) : Int) ≤ best
            ∨ seen.count (bbkey bx.2) + 1 = 1) = true := by
          simp only [decide_eq_true_eq]; right; omega
        simp only [hd, if_true, select_cons, kv, km]
        simp [insert_all]


theorem key_rank_at_length (seen : List String) (k : String) (ks : List String) :
    key_rank (seen ++ k :: ks) seen.length = seen.count k + 1 := by
  unfold key_rank
  have h1 : (seen ++ k :: ks).take (seen.length + 1) = seen ++ [k] := by
    rw [List.take_append_eq_append_take]
    simp
  have h2 : (seen ++ k :: ks).getD seen.length "" = k := by
    rw [List.getD_eq_getElem?_getD, List.getElem?_append_right (Nat.le_refl _)]
    simp
  rw [h1, h2]
  simp [List.count_append]

theorem keep_mask_from_eq (best : Int) (seen keys : List String) :
    keep_mask_from best seen keys = (List.range keys.length).map (fun i =>
      decide ((key_rank (seen ++ keys) (seen.length + i) : Int) ≤ best
        ∨ key_rank (seen ++ keys) (seen.length + i) = 1)) := by
  induction keys generalizing seen with
  | nil => simp [keep_mask_from]
  | cons k ks ih =>
    rw [keep_mask_from, ih (seen ++ [k])]
    simp only [List.length_cons, List.range_succ_eq_map, List.map_cons, List.map_map,
      Nat.add_zero, key_rank_at_length]
    congr 1
    apply List.map_congr_left
    intro i _
    simp only [Function.comp, List.append_assoc, List.singleton_append, List.length_append,
      List.length_singleton]
    have : seen.length + 1 + i = seen.length + (i + 1) := by omega
    rw [this]

theorem keep_mask_from_nil (best : Int) (keys : List String) :
    keep_mask_from best [] keys = keep_mask best keys := by
  rw [keep_mask_from_eq]
  simp [keep_mask]

theorem keep_mask_length (best : Int) (keys : List String) :
    (keep_mask best keys).length = keys.length := by
  simp [keep_mask]

theorem insert_all_nil_select {α : Type} (mask : List Bool) (l : ScoreMap α)
    (h : mm_sorted l) : insert_all [] (select mask l) = select mask l := by
  unfold insert_all
  rw [insert_all_sorted _ [] (by
    simpa using List.Pairwise.sublist (select_sublist mask l) h)]
  simp

theorem best_cats_detection_eq (best nclasses : Int) (has_roi has_mask : Bool)
    (s : sup_result) (hne : best ≠ nclasses) (hs : s.sorted)
    (hl : s.lock_step has_roi has_mask) :
    best_cats_detection best nclasses has_roi has_mask s = .ok
      { _label := s._label, _loss := s._loss,
        _cats := select (keep_mask best (box_keys s)) s._cats,
        _bboxes := select (keep_mask best (box_keys s)) s._bboxes,
        _vals := if has_roi then select (keep_mask best (box_keys s)) s._vals else [],
        _series := [],
        _masks := if has_mask then select (keep_mask best (box_keys s)) s._masks else [] } := by
  obtain ⟨s1, s2, s3, _, s5⟩ := hs
  obtain ⟨l1, l2, l3⟩ := hl
  unfold best_cats_detection
  simp only [hne, if_false]
  rw [best_cats_dedup_run best has_roi has_mask s._bboxes s._cats s._vals s._masks [] _ []
    (by intro k; simp [lboxes_find]) l1 l2 l3]
  simp only [sup_result.mk0, keep_mask_from_nil, insert_all_nil_select _ _ s1,
    insert_all_nil_select _ _ s2, insert_all_nil_select _ _ s3, insert_all_nil_select _ _ s5,
    box_keys]

theorem foldlM_push_map (f : sup_result → Except Err sup_result) (g : sup_result → sup_result)
    (l : List sup_result) (b : SupervisedOutput) (h : ∀ s ∈ l, f s = .ok (g s)) :
    ∃ out, l.foldlM (fun b s => (f s).map (push_result b)) b = .ok out
      ∧ out._vvcats = b._vvcats ++ l.map g := by
  induction l generalizing b with
  | nil => exact ⟨b, rfl, by simp⟩
  | cons s rest ih =>
    obtain ⟨out, e, hv⟩ := ih (push_result b (g s)) (fun x hx => h x (List.mem_cons_of_mem _ hx))
    refine ⟨out, ?_, ?_⟩
    · simp only [List.foldlM, h s (List.mem_cons_self _ _), Except.map, bind, Except.bind]
      exact e
    · rw [hv]; simp [push_result]

theorem best_cats_box_key_rule_aux (so : SupervisedOutput) (best nclasses : Int)
    (has_bbox has_roi has_mask : Bool)
    (hmode : (has_bbox || has_roi || has_mask) = true)
    (hb1 : best ≠ -1) (hb2 : best ≠ nclasses)
    (hs : ∀ s ∈ so._vvcats, s.sorted ∧ s.lock_step has_roi has_mask) :
    ∃ out, best_cats so SupervisedOutput.empty best nclasses has_bbox has_roi has_mask
        = .ok out
      ∧ out._vvcats = so._vvcats.map (fun s =>
          { _label := s._label, _loss := s._loss,
            _cats := select (keep_mask best (box_keys s)) s._cats,
            _bboxes := select (keep_mask best (box_keys s)) s._bboxes,
            _vals := if has_roi then select (keep_mask best (box_keys s)) s._vals else [],
            _series := [],
            _masks := if has_mask then select (keep_mask best (box_keys s)) s._masks
              else [] }) := by
  have hplain : (!has_bbox && !has_roi && !has_mask) = false := by
    cases has_bbox <;> cases has_roi <;> cases has_mask <;> simp_all
  obtain ⟨out, e, hv⟩ := foldlM_push_map
    (best_cats_detection best nclasses has_roi has_mask) _ so._vvcats SupervisedOutput.empty
    (fun s hm => best_cats_detection_eq best nclasses has_roi has_mask s hb2 (hs s hm).1
      (hs s hm).2)
  refine ⟨out, ?_, by simpa [SupervisedOutput.empty] using hv⟩
  simp only [best_cats, hb1, if_false, hplain]
  exact e

/-- C4 (as amended). In detection/roi/mask mode with `best` different from `-1` and from
`nclasses`, for samples in lock-step, the output record of every sample holds, in their
input order, exactly the detections kept by the rule: the `i`-th detection is kept if and
only if its key rank (the number of detections among the first `i`, itself included, with
the same box key) is `≤ best`, or it is the first detection with its key. The same
positions are kept in the category and box collections, and in the roi (mask)
collection when `has_roi` (`has_mask`) is set. -/
theorem best_cats_box_key_rule (so : SupervisedOutput) (best nclasses : Int)
    (has_bbox has_roi has_mask : Bool)
    (hmode : (has_bbox || has_roi || has_mask) = true)
    (hb1 : best ≠ -1) (hb2 : best ≠ nclasses)
    (hs : ∀ s ∈ so._vvcats, s.sorted ∧ s.lock_step has_roi has_mask) :
    ∃ out, best_cats so SupervisedOutput.empty best nclasses has_bbox has_roi has_mask
        = .ok out
      ∧ out._vvcats = so._vvcats.map (fun s =>
          { _label := s._label, _loss := s._loss,
            _cats := select (keep_mask best (box_keys s)) s._cats,
            _bboxes := select (keep_mask best (box_keys s)) s._bboxes,
            _vals := if has_roi then select (keep_mask best (box_keys s)) s._vals else [],
            _series := [],
            _masks := if has_mask then select (keep_mask best (box_keys s)) s._masks
              else [] }) :=
  best_cats_box_key_rule_aux so best nclasses has_bbox has_roi has_mask hmode hb1 hb2 hs


theorem best_cats_box_key_rule_witness :
    ((true || false || false) = true) ∧ ((1 : Int) ≠ -1) ∧ ((1 : Int) ≠ 5)
    ∧ (∀ s ∈ (connector_of [sample_three_boxes])._vvcats,
        s.sorted ∧ s.lock_step false false)
    ∧ ∃ out, best_cats (connector_of [sample_three_boxes]) SupervisedOutput.empty 1 5
          true false false = .ok out
      ∧ out._vvcats = (connector_of [sample_three_boxes])._vvcats.map (fun s =>
          { _label := s._label, _loss := s._loss,
            _cats := select (keep_mask 1 (box_keys s)) s._cats,
            _bboxes := select (keep_mask 1 (box_keys s)) s._bboxes,
            _vals := if false then select (keep_mask 1 (box_keys s)) s._vals else [],
            _series := [],
            _masks := if false then select (keep_mask 1 (box_keys s)) s._masks else [] }) :=
  have h : ∀ s ∈ (connector_of [sample_three_boxes])._vvcats,
      s.sorted ∧ s.lock_step false false := by
    intro s hm
    simp only [connector_of, List.mem_singleton] at hm
    subst hm
    simp only [sup_result.sorted, sup_result.lock_step, mm_sorted, sample_three_boxes]
    norm_num
  ⟨by decide, by decide, by decide, h,
    best_cats_box_key_rule (connector_of [sample_three_boxes]) 1 5 true false false
      (by decide) (by decide) (by decide) h⟩

/-- The rule on three detections of which the first two share a box, `best = 1`: the
second detection is dropped, the first and the third are kept. -/
theorem best_cats_three_boxes :
    keep_mask 1 (box_keys sample_three_boxes) = [true, false, true]
    ∧ (best_cats (connector_of [sample_three_boxes]) SupervisedOutput.empty 1 5
          true false false).map (fun out => out._vvcats.map (fun s => s._cats))
        = .ok [[(9 / 10, "cat"), (7 / 10, "bird")]] := by
  decide!

/-- C4, counterexample. One detection, `best = 0` (and `nclasses = 5`), detection mode:
the key rank of the detection is `1 > best`, so the rule of the specification drops it,
but the loop keeps it (first occurrence of its key). -/
theorem best_cats_keeps_first_of_key :
    (best_cats (connector_of [sample_box]) SupervisedOutput.empty 0 5 true false false).map
        (fun out => out._vvcats.map (fun s => s._bboxes))
      = .ok [[(9 / 10, { xmin := 0, ymin := 0, xmax := 1, ymax := 1 })]]
    ∧ (connector_of [sample_box])._vvcats.map
        (fun s => select (spec_keep_mask 0 (box_keys s)) s._bboxes) = [[]] := by
  decide!


theorem first_entries_full {α : Type} (b : Int) (m : ScoreMap α) (h : (m.length : Int) ≤ b) :
    first_entries b m = m := by
  unfold first_entries
  rw [min_eq_right h]
  simp

theorem best_cats_all_eq (s : sup_result) (hs : s.sorted)
    (hl : s._cats.length = s._bboxes.length) :
    best_cats_all s = { _label := s._label, _loss := s._loss, _cats := s._cats,
                        _bboxes := s._bboxes, _vals := [], _series := [], _masks := [] } := by
  obtain ⟨h1, h2, _, _, _⟩ := hs
  have c1 := copy_n_sorted s._cats s._cats.length h1
  have c2 := copy_if_present s._bboxes s._cats.length h2
  rw [first_entries_full _ _ (le_refl _)] at c1
  rw [first_entries_full _ _ (by rw [hl])] at c2
  unfold best_cats_all
  simp only [sup_result.mk0]
  cases hb : s._bboxes.isEmpty
  · simp only [hb, Bool.not_false, if_true] at c2 ⊢
    rw [c1, c2]
  · simp only [hb, Bool.not_true] at c2 ⊢
    rw [c1, ← c2]
    simp

theorem key_rank_le (keys : List String) (i : Nat) :
    key_rank keys i ≤ keys.length := by
  unfold key_rank
  calc (keys.take (i + 1)).count (keys.getD i "")
      ≤ (keys.take (i + 1)).length := List.count_le_length _ _
    _ ≤ keys.length := by simp

theorem keep_mask_all (best : Int) (keys : List String) (h : (keys.length : Int) ≤ best) :
    ∀ b ∈ keep_mask best keys, b = true := by
  intro b hb
  simp only [keep_mask, List.mem_map, List.mem_range] at hb
  obtain ⟨i, _, rfl⟩ := hb
  simp only [decide_eq_true_eq]
  left
  have := key_rank_le keys i
  omega

theorem forall₂_of_map {α β : Type} (P : β → α → Prop) (g : α → β) (l : List α)
    (h : ∀ a ∈ l, P (g a) a) : List.Forall₂ P (l.map g) l := by
  induction l with
  | nil => exact List.Forall₂.nil
  | cons a rest ih =>
    exact List.Forall₂.cons (h a (List.mem_cons_self _ _))
      (ih (fun x hx => h x (List.mem_cons_of_mem _ hx)))

/-- C2 (as amended). Called into an empty output with `best = -1` (in plain mode: with
`nclasses` at least the number of entries of every collection of every sample), or with
`best` at least the number of entries of every collection of every sample, `best_cats`
returns the samples of the input in the same order, each with the same identifier and
loss and the same category and box collections; in plain mode the roi and mask
collections are also those of the input and the series collection is empty. In
detection/roi/mask mode the samples are taken in lock-step. -/
theorem best_cats_keeps_all (so : SupervisedOutput) (best nclasses : Int)
    (has_bbox has_roi has_mask : Bool)
    (hs : ∀ s ∈ so._vvcats, s.sorted)
    (hbest : (best = -1 ∧ ((has_bbox || has_roi || has_mask) = false →
                ∀ s ∈ so._vvcats, s.entries_le nclasses))
             ∨ ∀ s ∈ so._vvcats, s.entries_le best)
    (hl : (has_bbox || has_roi || has_mask) = true →
            ∀ s ∈ so._vvcats, s.lock_step has_roi has_mask) :
    ∃ out, best_cats so SupervisedOutput.empty best nclasses has_bbox has_roi has_mask
        = .ok out
      ∧ List.Forall₂ (fun o s =>
          o._label = s._label ∧ o._loss = s._loss ∧ o._cats = s._cats
          ∧ o._bboxes = s._bboxes
          ∧ ((has_bbox || has_roi || has_mask) = false →
              o._vals = s._vals ∧ o._masks = s._masks ∧ o._series = []))
          out._vvcats so._vvcats := by
  by_cases hmode : (has_bbox || has_roi || has_mask) = true
  · -- detection / roi / mask mode
    have hplain : (!has_bbox && !has_roi && !has_mask) = false := by
      cases has_bbox <;> cases has_roi <;> cases has_mask <;> simp_all
    have hfalse : ¬ (has_bbox || has_roi || has_mask) = false := by simp [hmode]
    by_cases hb : (if best = -1 then nclasses else best) = nclasses
    · obtain ⟨out, e, hv⟩ := foldlM_push_map
        (best_cats_detection (if best = -1 then nclasses else best) nclasses has_roi has_mask)
        (fun s => { _label := s._label, _loss := s._loss, _cats := s._cats,
                    _bboxes := s._bboxes, _vals := [], _series := [], _masks := [] })
        so._vvcats SupervisedOutput.empty
        (fun s hm => by
          simp only [best_cats_detection, hb, if_true]
          rw [best_cats_all_eq s (hs s hm) (hl hmode s hm).1])
      refine ⟨out, by simp only [best_cats, hplain]; exact e, ?_⟩
      rw [hv]
      simp only [SupervisedOutput.empty, List.nil_append]
      exact forall₂_of_map _ _ _ (fun s _ => ⟨rfl, rfl, rfl, rfl, fun h => absurd h hfalse⟩)
    · have hb1 : best ≠ -1 := by
        intro h; simp [h] at hb
      have hb2 : best ≠ nclasses := by
        intro h; simp [hb1, h] at hb
      have hle : ∀ s ∈ so._vvcats, s.entries_le best := by
        rcases hbest with ⟨h, _⟩ | h
        · exact absurd h hb1
        · exact h
      obtain ⟨out, e, hv⟩ := best_cats_box_key_rule_aux so best nclasses has_bbox has_roi
        has_mask hmode hb1 hb2 (fun s hm => ⟨hs s hm, hl hmode s hm⟩)
      refine ⟨out, e, ?_⟩
      rw [hv]
      apply forall₂_of_map
      intro s hm
      have hk : ((box_keys s).length : Int) ≤ best := by
        simpa [box_keys] using (hle s hm).2.1
      have hall := keep_mask_all best (box_keys s) hk
      have hlen := keep_mask_length best (box_keys s)
      refine ⟨rfl, rfl, ?_, ?_, fun h => absurd h hfalse⟩
      · exact select_all _ _ (by rw [hlen, (hl hmode s hm).1]; simp [box_keys]) hall
      · exact select_all _ _ (by rw [hlen]; simp [box_keys]) hall
  · -- plain mode
    have hm0 : (has_bbox || has_roi || has_mask) = false := by simpa using hmode
    have hplain : (!has_bbox && !has_roi && !has_mask) = true := by
      cases has_bbox <;> cases has_roi <;> cases has_mask <;> simp_all
    have hle : ∀ s ∈ so._vvcats, s.entries_le (if best = -1 then nclasses else best) := by
      intro s hm
      rcases hbest with ⟨h, hn⟩ | h
      · simp only [h, if_true]; exact hn hm0 s hm
      · by_cases h1 : best = -1
        · have := (h s hm).1
          omega
        · simp only [h1, if_false]; exact h s hm
    refine ⟨_, by simp only [best_cats, hplain, if_true]; rfl, ?_⟩
    rw [foldl_push_map]
    simp only [SupervisedOutput.empty, List.nil_append]
    apply forall₂_of_map
    intro s hm
    obtain ⟨e1, e2, e3, _, e5⟩ := hle s hm
    rw [best_cats_plain_eq _ s (hs s hm)]
    simp [plain_record, first_entries_full _ _ e1, first_entries_full _ _ e2,
      first_entries_full _ _ e3, first_entries_full _ _ e5]


theorem best_cats_keeps_all_witness :
    (∀ s ∈ (connector_of [sample_two_cats])._vvcats, s.sorted)
    ∧ ∃ out, best_cats (connector_of [sample_two_cats]) SupervisedOutput.empty (-1) 2
          false false false = .ok out
      ∧ List.Forall₂ (fun o s =>
          o._label = s._label ∧ o._loss = s._loss ∧ o._cats = s._cats
          ∧ o._bboxes = s._bboxes
          ∧ ((false || false || false) = false →
              o._vals = s._vals ∧ o._masks = s._masks ∧ o._series = []))
          out._vvcats (connector_of [sample_two_cats])._vvcats :=
  have h : ∀ s ∈ (connector_of [sample_two_cats])._vvcats, s.sorted := by
    intro s hm
    simp only [connector_of, List.mem_singleton] at hm
    subst hm
    simp only [sup_result.sorted, mm_sorted, sample_two_cats]
    norm_num
  ⟨h, best_cats_keeps_all (connector_of [sample_two_cats]) (-1) 2 false false false h
    (Or.inl ⟨rfl, fun _ s hm => by
      simp only [connector_of, List.mem_singleton] at hm
      subst hm
      simp [sup_result.entries_le, sample_two_cats]⟩)
    (fun hmode => by simp at hmode)⟩

/-- C2, counterexample. With `best = -1` the output differs from the input: in plain
mode a series entry is lost; in plain mode with `nclasses = 1` a sample with two
categories keeps one; in detection mode with `has_roi` the roi vector of the only
detection is lost. -/
theorem best_cats_minus_one_not_identity :
    (best_cats (connector_of [sample_series]) SupervisedOutput.empty (-1) 2
        false false false).map (fun out => out._vvcats.map (fun s => s._series)) = .ok [[]]
    ∧ best_cats (connector_of [sample_series]) SupervisedOutput.empty (-1) 2
        false false false ≠ .ok (connector_of [sample_series])
    ∧ (best_cats (connector_of [sample_two_cats]) SupervisedOutput.empty (-1) 1
        false false false).map (fun out => out._vvcats.map (fun s => s._cats))
        = .ok [[(9 / 10, "cat")]]
    ∧ best_cats (connector_of [sample_two_cats]) SupervisedOutput.empty (-1) 1
        false false false ≠ .ok (connector_of [sample_two_cats])
    ∧ (best_cats (connector_of [sample_box]) SupervisedOutput.empty (-1) 5
        true true false).map (fun out => out._vvcats.map (fun s => s._vals)) = .ok [[]]
    ∧ best_cats (connector_of [sample_box]) SupervisedOutput.empty (-1) 5
        true true false ≠ .ok (connector_of [sample_box]) := by
  decide!


/-! ## `std::partial_sort`: the heap operations permute the array -/

theorem while_loop_inv {σ : Type} (cond : σ → Bool) (body : σ → σ) (P : σ → Prop)
    (hstep : ∀ s, P s → cond s = true → P (body s)) (fuel : Nat) (s : σ) (h : P s) :
    P (while_loop cond body fuel s) := by
  induction fuel generalizing s with
  | zero => exact h
  | succ n ih =>
    simp only [while_loop]
    by_cases hc : cond s = true
    · simp only [hc, if_true]; exact ih _ (hstep s h hc)
    · simp only [hc]; exact h

/-- A loop whose measure `μ` decreases at every iteration has left when the fuel is at
least the initial measure: the fuel passed by `push_heap` and `adjust_heap` is never
exhausted. -/
theorem while_loop_fuel {σ : Type} (cond : σ → Bool) (body : σ → σ) (μ : σ → Nat)
    (hdec : ∀ s, cond s = true → μ (body s) < μ s) (fuel : Nat) (s : σ) (h : μ s ≤ fuel) :
    cond (while_loop cond body fuel s) = false := by
  induction fuel generalizing s with
  | zero =>
    simp only [while_loop]
    by_contra hc
    have := hdec s (by simpa using hc)
    omega
  | succ n ih =>
    simp only [while_loop]
    by_cases hc : cond s = true
    · simp only [hc, if_true]
      exact ih _ (by have := hdec s hc; omega)
    · simp only [hc]; simpa using hc

theorem push_heap_fuel (comp : Nat → Nat → Bool) (a : List Nat) (holeIndex topIndex value : Nat) :
    push_heap_cond comp topIndex value
      (while_loop (push_heap_cond comp topIndex value) push_heap_body holeIndex
        (a, holeIndex)) = false := by
  refine while_loop_fuel (push_heap_cond comp topIndex value) push_heap_body (fun s => s.2)
    ?_ holeIndex (a, holeIndex) (Nat.le_refl _)
  intro s hc
  simp only [push_heap_cond, Bool.and_eq_true, decide_eq_true_eq] at hc
  have := hc.1
  show (s.2 - 1) / 2 < s.2
  omega

theorem adjust_heap_fuel (comp : Nat → Nat → Bool) (a : List Nat) (holeIndex len : Nat) :
    adjust_heap_cond len
      (while_loop (adjust_heap_cond len) (adjust_heap_body comp) len
        (a, holeIndex, holeIndex)) = false := by
  refine while_loop_fuel (adjust_heap_cond len) (adjust_heap_body comp)
    (fun s => len - s.2.2) ?_ len (a, holeIndex, holeIndex) (by simp)
  intro s hc
  simp only [adjust_heap_cond, decide_eq_true_eq] at hc
  simp only [adjust_heap_body]
  split <;> omega

theorem getD_set_ne (l : List Nat) (i j x : Nat) (hne : i ≠ j) :
    (l.set i x).getD j 0 = l.getD j 0 := by
  simp [List.getD_eq_getElem?_getD, List.getElem?_set_ne hne]

theorem count_getD_le (l : List Nat) (i : Nat) (hi : i < l.length) (b : Nat) :
    (if l.getD i 0 = b then 1 else 0) ≤ l.count b := by
  by_cases h : l.getD i 0 = b
  · simp only [h, if_true]
    have hm : b ∈ l := by
      rw [← h, List.getD_eq_getElem l 0 hi]
      exact List.getElem_mem _
    exact List.count_pos_iff.2 hm
  · rw [if_neg h]; exact Nat.zero_le _

theorem count_set_getD (l : List Nat) (i x b : Nat) (hi : i < l.length) :
    (l.set i x).count b
      = l.count b - (if l.getD i 0 = b then 1 else 0) + (if x = b then 1 else 0) := by
  rw [List.count_set _ _ _ _ hi, List.getD_eq_getElem l 0 hi]
  simp

/-- Moving the entry at `j` into the hole at `i` and using `j` as the new hole does not
change the content once the hole is filled. -/
theorem set_set_perm_hole (l : List Nat) (i j x : Nat) (hi : i < l.length)
    (hj : j < l.length) (hne : i ≠ j) :
    ((l.set i (l.getD j 0)).set j x).Perm (l.set i x) := by
  rw [List.perm_iff_count]
  intro b
  rw [count_set_getD _ j x b (by simpa using hj), count_set_getD _ i _ b hi,
    count_set_getD _ i x b hi, getD_set_ne _ _ _ _ hne]
  have h1 := count_getD_le l i hi b
  have h2 := count_getD_le l j hj b
  by_cases e1 : l.getD i 0 = b <;> by_cases e2 : l.getD j 0 = b <;>
    by_cases e3 : x = b <;> simp only [e1, e2, e3, if_true, if_false] at h1 h2 ⊢ <;> omega

theorem set_getD_self (l : List Nat) (i : Nat) : l.set i (l.getD i 0) = l := by
  induction l generalizing i with
  | nil => rfl
  | cons x rest ih =>
    cases i with
    | zero => rfl
    | succ n =>
      simp only [List.set_cons_succ, List.getD_cons_succ]
      rw [ih n]

theorem take_perm_of_drop {α : Type} (a b : List α) (n : Nat) (hp : a.Perm b)
    (hd : a.drop n = b.drop n) : (a.take n).Perm (b.take n) := by
  have h1 : (a.take n ++ a.drop n).Perm (b.take n ++ a.drop n) := by
    rw [List.take_append_drop]
    conv => rhs; rw [hd, List.take_append_drop]
    exact hp
  exact (List.perm_append_right_iff _).1 h1

theorem drop_of_drop_le {α : Type} (a b : List α) (n m : Nat) (hnm : n ≤ m)
    (hd : a.drop n = b.drop n) : a.drop m = b.drop m := by
  have : m = n + (m - n) := by omega
  rw [this, ← List.drop_drop, ← List.drop_drop, hd]


theorem push_heap_region (comp : Nat → Nat → Bool) (a : List Nat)
    (holeIndex topIndex value len : Nat) (hh : holeIndex < len) (hlen : len ≤ a.length) :
    (push_heap comp a holeIndex topIndex value).Perm (a.set holeIndex value)
      ∧ (push_heap comp a holeIndex topIndex value).drop len = a.drop len := by
  have hinv := while_loop_inv (push_heap_cond comp topIndex value) push_heap_body
    (fun s => s.2 < len ∧ s.1.length = a.length
      ∧ (s.1.set s.2 value).Perm (a.set holeIndex value) ∧ s.1.drop len = a.drop len)
    (by
      intro s ⟨h1, h2, h3, h4⟩ hc
      simp only [push_heap_cond, Bool.and_eq_true, decide_eq_true_eq] at hc
      have hp : (s.2 - 1) / 2 < s.2 := by omega
      refine ⟨by show (s.2 - 1) / 2 < len; omega, by simp [push_heap_body, h2], ?_, ?_⟩
      · exact (set_set_perm_hole s.1 s.2 ((s.2 - 1) / 2) value (by omega) (by omega)
          (by omega)).trans h3
      · show (s.1.set s.2 _).drop len = _
        rw [List.drop_set_of_lt _ _ h1, h4])
    holeIndex (a, holeIndex) ⟨hh, rfl, List.Perm.refl _, rfl⟩
  obtain ⟨h1, _, h3, h4⟩ := hinv
  refine ⟨h3, ?_⟩
  show (List.set _ _ value).drop len = _
  rw [List.drop_set_of_lt _ _ h1, h4]

theorem adjust_heap_region (comp : Nat → Nat → Bool) (a : List Nat)
    (holeIndex len value : Nat) (hh : holeIndex < len) (hlen : len ≤ a.length) :
    (adjust_heap comp a holeIndex len value).Perm (a.set holeIndex value)
      ∧ (adjust_heap comp a holeIndex len value).drop len = a.drop len := by
  have hinv := while_loop_inv (adjust_heap_cond len) (adjust_heap_body comp)
    (fun s => s.2.2 = s.2.1 ∧ s.2.1 < len ∧ s.1.length = a.length
      ∧ (s.1.set s.2.1 value).Perm (a.set holeIndex value) ∧ s.1.drop len = a.drop len)
    (by
      intro s ⟨h0, h1, h2, h3, h4⟩ hc
      simp only [adjust_heap_cond, decide_eq_true_eq] at hc
      simp only [adjust_heap_body]
      split
      · refine ⟨by first | rfl | trivial, by show 2 * (s.2.2 + 1) - 1 < len; omega, by simp [h2], ?_, ?_⟩
        · exact (set_set_perm_hole s.1 s.2.1 (2 * (s.2.2 + 1) - 1) value (by omega)
            (by omega) (by omega)).trans h3
        · show (s.1.set s.2.1 _).drop len = _
          rw [List.drop_set_of_lt _ _ h1, h4]
      · refine ⟨by first | rfl | trivial, by show 2 * (s.2.2 + 1) < len; omega, by simp [h2], ?_, ?_⟩
        · exact (set_set_perm_hole s.1 s.2.1 (2 * (s.2.2 + 1)) value (by omega)
            (by omega) (by omega)).trans h3
        · show (s.1.set s.2.1 _).drop len = _
          rw [List.drop_set_of_lt _ _ h1, h4])
    len (a, holeIndex, holeIndex) ⟨rfl, hh, rfl, List.Perm.refl _, rfl⟩
  unfold adjust_heap
  simp only []
  generalize while_loop (adjust_heap_cond len) (adjust_heap_body comp) len
    (a, holeIndex, holeIndex) = S at hinv ⊢
  obtain ⟨h0, h1, h2, h3, h4⟩ := hinv
  split
  · rename_i hc
    obtain ⟨c1, c2, c3⟩ := hc
    have hlt : 2 * (S.2.2 + 1) - 1 < len := by omega
    obtain ⟨p1, p2⟩ := push_heap_region comp
      (S.1.set S.2.1 (S.1.getD (2 * (S.2.2 + 1) - 1) 0)) (2 * (S.2.2 + 1) - 1) holeIndex
      value len hlt (by simp [h2, hlen])
    refine ⟨p1.trans ?_, ?_⟩
    · exact (set_set_perm_hole S.1 S.2.1 (2 * (S.2.2 + 1) - 1) value (by omega) (by omega)
        (by omega)).trans h3
    · rw [p2, List.drop_set_of_lt _ _ h1, h4]
  · obtain ⟨p1, p2⟩ := push_heap_region comp S.1 S.2.1 holeIndex value len h1 (by omega)
    exact ⟨p1.trans h3, by rw [p2, h4]⟩

theorem adjust_heap_length (comp : Nat → Nat → Bool) (a : List Nat)
    (holeIndex len value : Nat) (hh : holeIndex < len) (hlen : len ≤ a.length) :
    (adjust_heap comp a holeIndex len value).length = a.length := by
  have := (adjust_heap_region comp a holeIndex len value hh hlen).1.length_eq
  simpa using this

/-- `__pop_heap(first, first + len, first + result)` with `result` outside the heap: the
heap keeps its entries except the top, replaced by the entry at `result`, which receives
the old top. -/
theorem pop_heap_region (comp : Nat → Nat → Bool) (a : List Nat) (len result : Nat)
    (h1 : 1 ≤ len) (h2 : len ≤ result) (h3 : result < a.length) :
    (pop_heap comp a len result).Perm a
      ∧ (pop_heap comp a len result).drop len = (a.set result (a.getD 0 0)).drop len
      ∧ ((pop_heap comp a len result).take len).Perm ((a.take len).set 0 (a.getD result 0)) := by
  unfold pop_heap
  simp only []
  obtain ⟨p1, p2⟩ := adjust_heap_region comp (a.set result (a.getD 0 0)) 0 len
    (a.getD result 0) (by omega) (by simp; omega)
  have hswap : ((a.set result (a.getD 0 0)).set 0 (a.getD result 0)).Perm a := by
    have := set_set_perm_hole a result 0 (a.getD result 0) h3 (by omega) (by omega)
    rw [set_getD_self] at this
    exact this
  refine ⟨p1.trans hswap, p2, ?_⟩
  have ht := take_perm_of_drop _ _ len p1 (by
    rw [p2, List.drop_set_of_lt _ _ (by omega : 0 < len)])
  have he : ((a.set result (a.getD 0 0)).set 0 (a.getD result 0)).take len
      = (a.take len).set 0 (a.getD result 0) := by
    rw [List.set_take, List.set_take]
    congr 1
    exact List.set_eq_of_length_le (by simp; omega)
  rw [he] at ht
  exact ht


theorem foldl_inv {β ι : Type} (f : β → ι → β) (P : β → Prop) (l : List ι)
    (h : ∀ b x, x ∈ l → P b → P (f b x)) (b : β) (hb : P b) : P (l.foldl f b) := by
  induction l generalizing b with
  | nil => exact hb
  | cons x rest ih =>
    exact ih (fun b y hy => h b y (List.mem_cons_of_mem _ hy)) _
      (h b x (List.mem_cons_self _ _) hb)

theorem foldl_range'_inv {β : Type} (f : β → Nat → β) (P : Nat → β → Prop) (n s : Nat)
    (b : β) (hb : P s b)
    (hstep : ∀ i b, s ≤ i → i < s + n → P i b → P (i + 1) (f b i)) :
    P (s + n) ((List.range' s n).foldl f b) := by
  induction n generalizing s b with
  | zero => simpa using hb
  | succ n ih =>
    rw [List.range'_succ, List.foldl_cons]
    have := ih (s + 1) (f b s) (hstep s b (Nat.le_refl _) (by omega) hb)
      (fun i b hi hlt hp => hstep i b (by omega) (by omega) hp)
    have e : s + 1 + n = s + (n + 1) := by omega
    rw [e] at this
    exact this

theorem make_heap_region (comp : Nat → Nat → Bool) (a : List Nat) (len : Nat)
    (hlen : len ≤ a.length) :
    (make_heap comp a len).Perm a ∧ (make_heap comp a len).drop len = a.drop len := by
  unfold make_heap
  split
  · exact ⟨List.Perm.refl _, rfl⟩
  · rename_i h2
    refine foldl_inv _ (fun (b : List Nat) => b.Perm a ∧ b.drop len = a.drop len) _ ?_ _ ?_
    · intro b parent hp ⟨hb1, hb2⟩
      simp only [List.mem_reverse, List.mem_range] at hp
      have hbl : len ≤ b.length := by rw [hb1.length_eq]; exact hlen
      obtain ⟨p1, p2⟩ := adjust_heap_region comp b parent len (b.getD parent 0)
        (by omega) hbl
      rw [set_getD_self] at p1
      exact ⟨p1.trans hb1, by rw [p2, hb2]⟩
    · exact ⟨List.Perm.refl _, rfl⟩

theorem sort_heap_region (comp : Nat → Nat → Bool) (a : List Nat) (len : Nat)
    (hlen : len ≤ a.length) :
    (sort_heap comp a len).Perm a ∧ (sort_heap comp a len).drop len = a.drop len := by
  unfold sort_heap
  refine foldl_inv _ (fun (b : List Nat) => b.Perm a ∧ b.drop len = a.drop len) _ ?_ _ ?_
  · intro b last hl ⟨hb1, hb2⟩
    simp only [List.mem_reverse, List.mem_range'_1] at hl
    have hbl : last < b.length := by rw [hb1.length_eq]; omega
    obtain ⟨p1, p2, _⟩ := pop_heap_region comp b last last (by omega) (Nat.le_refl _) hbl
    refine ⟨p1.trans hb1, ?_⟩
    have := drop_of_drop_le _ _ last len (by omega) p2
    rw [this, List.drop_set_of_lt _ _ (by omega), hb2]
  · exact ⟨List.Perm.refl _, rfl⟩

/-! ## `std::max_element` -/

theorem max_element_spec (v : List ℚ) :
    max_element v < max v.length 1
      ∧ (∀ j, j < v.length → v.getD j 0 ≤ v.getD (max_element v) 0)
      ∧ (∀ j, j < max_element v → v.getD j 0 < v.getD (max_element v) 0) := by
  unfold max_element
  rw [List.range_eq_range']
  have h := foldl_range'_inv
    (fun best j => if v.getD best 0 < v.getD j 0 then j else best)
    (fun i best => best < max i 1 ∧ (∀ j, j < i → v.getD j 0 ≤ v.getD best 0)
      ∧ (∀ j, j < best → v.getD j 0 < v.getD best 0))
    v.length 0 0 ⟨by simp, by simp, by simp⟩
    (by
      intro i best _ _ ⟨h1, h2, h3⟩
      by_cases hc : v.getD best 0 < v.getD i 0
      · simp only [hc, if_true]
        refine ⟨by omega, ?_, ?_⟩
        · intro j hj
          rcases Nat.lt_succ_iff_lt_or_eq.1 hj with hj1 | hj1
          · exact le_of_lt (lt_of_le_of_lt (h2 j hj1) hc)
          · rw [hj1]
        · intro j hj
          exact lt_of_le_of_lt (h2 j hj) hc
      · simp only [hc, if_false]
        refine ⟨by omega, ?_, h3⟩
        intro j hj
        rcases Nat.lt_succ_iff_lt_or_eq.1 hj with hj1 | hj1
        · exact h2 j hj1
        · rw [hj1]; exact not_lt.1 hc)
  simpa using h


/-! ## `acc`: what the partial sort leaves in the positions that are read -/

theorem getD_of_drop_eq (b a : List Nat) (i : Nat) (h : b.drop i = a.drop i) :
    b.getD i 0 = a.getD i 0 := by
  have hb : b.getD i 0 = (b.drop i).getD 0 0 := by simp
  have ha : a.getD i 0 = (a.drop i).getD 0 0 := by simp
  rw [hb, ha, h]

theorem getD_range (n i : Nat) (h : i < n) : (List.range n).getD i 0 = i := by
  rw [List.getD_eq_getElem _ 0 (by simpa using h)]
  simp

theorem mem_set_zero_of_ne (l : List Nat) (x y : Nat) (hy : y ∈ l) (hne : y ≠ l.getD 0 0) :
    y ∈ l.set 0 x := by
  cases l with
  | nil => cases hy
  | cons t tl =>
    rcases List.mem_cons.1 hy with h | h
    · exact absurd h hne
    · simp [h]

theorem pop_heap_empty (comp : Nat → Nat → Bool) (b : List Nat) (i : Nat) :
    pop_heap comp b 0 i = (b.set i (b.getD 0 0)).set 0 (b.getD i 0) := by
  simp [pop_heap, adjust_heap, push_heap, while_loop]

/-- With an empty heap (`middle = first`), `__heap_select` leaves at position 0 the index
`std::max_element` would return. -/
theorem heap_select_zero (v : List ℚ) :
    (heap_select (acc_comp v) (List.range v.length) 0).getD 0 0 = max_element v := by
  unfold heap_select max_element
  rw [List.range_eq_range' (n := v.length)]
  have h := foldl_range'_inv
    (fun (a : List Nat) i =>
      if acc_comp v (a.getD i 0) (a.getD 0 0) then pop_heap (acc_comp v) a 0 i else a)
    (fun i b => b.length = v.length
      ∧ b.getD 0 0 = (List.range' 0 i).foldl
          (fun best j => if v.getD best 0 < v.getD j 0 then j else best) 0
      ∧ ∀ j, i ≤ j → 1 ≤ j → j < v.length → b.getD j 0 = j)
    v.length 0 (List.range' 0 v.length)
    ⟨by simp, by
      cases hv : v.length with
      | zero => simp
      | succ n => simp [List.range'_succ], by
      intro j _ _ hj
      rw [← List.range_eq_range']
      exact getD_range _ _ hj⟩
    (by
      intro i b _ hi ⟨h1, h2, h3⟩
      have hi' : i < v.length := by omega
      have hF : (List.range' 0 (i + 1)).foldl
          (fun best j => if v.getD best 0 < v.getD j 0 then j else best) 0
          = (if v.getD (b.getD 0 0) 0 < v.getD i 0 then i else b.getD 0 0) := by
        rw [List.range'_concat, List.foldl_append, ← h2]
        simp
      rw [hF]
      by_cases hi0 : i = 0
      · subst hi0
        have hcomp : acc_comp v (b.getD 0 0) (b.getD 0 0) = false := by simp [acc_comp]
        have hb0 : b.getD 0 0 = 0 := by simpa using h2
        simp only [hcomp, Bool.false_eq_true, if_false]
        refine ⟨h1, ?_, fun j _ hj1 hj => h3 j (by omega) hj1 hj⟩
        rw [hb0]; simp
      · have hbi : b.getD i 0 = i := h3 i (Nat.le_refl _) (by omega) hi'
        by_cases hc : v.getD (b.getD 0 0) 0 < v.getD i 0
        · simp only [acc_comp, hbi, hc, decide_True, if_true, pop_heap_empty]
          refine ⟨by simp [h1], ?_, ?_⟩
          · rw [List.getD_eq_getElem _ 0 (by simp; omega)]
            simp
          · intro j hj hj1 hjn
            rw [getD_set_ne _ _ _ _ (by omega), getD_set_ne _ _ _ _ (by omega)]
            exact h3 j (by omega) hj1 hjn
        · have hcomp : acc_comp v (b.getD i 0) (b.getD 0 0) = false := by
            unfold acc_comp; rw [hbi]; exact decide_eq_false hc
          simp only [hcomp, Bool.false_eq_true, if_false, hc]
          exact ⟨h1, trivial, fun j hj hj1 hjn => h3 j (by omega) hj1 hjn⟩)
  simpa [make_heap] using h.2.1

/-- With a heap of `middle ≥ 1` entries, `__heap_select` leaves the index of the first
maximum among the first `middle` positions. -/
theorem heap_select_has_max (v : List ℚ) (m : Nat) (hm1 : 1 ≤ m) (hmn : m ≤ v.length) :
    (heap_select (acc_comp v) (List.range v.length) m).Perm (List.range v.length)
      ∧ max_element v ∈ (heap_select (acc_comp v) (List.range v.length) m).take m := by
  obtain ⟨hs1, hs2, hs3⟩ := max_element_spec v
  have hn : 1 ≤ v.length := by omega
  have hamax : max_element v < v.length := by
    rw [max_eq_left hn] at hs1; exact hs1
  obtain ⟨mk1, mk2⟩ := make_heap_region (acc_comp v) (List.range v.length) m (by simpa using hmn)
  unfold heap_select
  simp only [List.length_range]
  have h := foldl_range'_inv
    (fun (a : List Nat) i =>
      if acc_comp v (a.getD i 0) (a.getD 0 0) then pop_heap (acc_comp v) a m i else a)
    (fun i b => b.Perm (List.range v.length)
      ∧ b.drop i = (List.range v.length).drop i
      ∧ (max_element v < i → max_element v ∈ b.take m))
    (v.length - m) m (make_heap (acc_comp v) (List.range v.length) m)
    ⟨mk1, mk2, by
      intro hlt
      have hp := take_perm_of_drop _ _ m mk1 mk2
      rw [hp.mem_iff, List.take_range]
      simp; omega⟩
    (by
      intro i b hmi hi ⟨h1, h2, h3⟩
      have hi' : i < v.length := by omega
      have hbl : b.length = v.length := by simpa using h1.length_eq
      have hbi : b.getD i 0 = i := by
        rw [getD_of_drop_eq _ _ _ h2]; exact getD_range _ _ hi'
      have htake : (b.take i).Perm (List.range i) := by
        have := take_perm_of_drop _ _ i h1 h2
        rw [List.take_range, min_eq_left (by omega)] at this
        exact this
      have htop_mem : b.getD 0 0 ∈ b.take m := by
        rw [List.getD_eq_getElem _ 0 (by omega), List.mem_take_iff_getElem]
        exact ⟨0, by simp; omega, rfl⟩
      have htop : b.getD 0 0 < i := by
        have : b.getD 0 0 ∈ b.take i :=
          (List.take_sublist_take_left b hmi).subset htop_mem
        have := htake.mem_iff.1 this
        simpa using this
      by_cases hc : v.getD (b.getD 0 0) 0 < v.getD i 0
      · simp only [acc_comp, hbi, hc, decide_True, if_true]
        obtain ⟨p1, p2, p3⟩ := pop_heap_region (acc_comp v) b m i hm1 hmi (by omega)
        refine ⟨p1.trans h1, ?_, ?_⟩
        · have := drop_of_drop_le _ _ m (i + 1) (by omega) p2
          rw [this, List.drop_set_of_lt _ _ (by omega)]
          exact drop_of_drop_le _ _ i (i + 1) (by omega) h2
        · intro hlt
          rw [p3.mem_iff, hbi]
          rcases Nat.lt_succ_iff_lt_or_eq.1 hlt with hlt1 | hlt1
          · apply mem_set_zero_of_ne _ _ _ (h3 hlt1)
            intro he
            have e1 : (b.take m).getD 0 0 = b.getD 0 0 := by
              simp [List.getD_eq_getElem?_getD, List.getElem?_take, (by omega : 0 < m)]
            rw [e1] at he
            rw [← he] at hc
            exact absurd (hs2 i hi') (not_le.2 hc)
          · rw [hlt1]
            cases hb : b.take m with
            | nil =>
              have : (b.take m).length = 0 := by rw [hb]; rfl
              rw [List.length_take] at this; omega
            | cons t tl => simp
      · have hcomp : acc_comp v (b.getD i 0) (b.getD 0 0) = false := by
          unfold acc_comp; rw [hbi]; exact decide_eq_false hc
        simp only [hcomp, Bool.false_eq_true, if_false]
        refine ⟨h1, drop_of_drop_le _ _ i (i + 1) (by omega) h2, ?_⟩
        intro hlt
        rcases Nat.lt_succ_iff_lt_or_eq.1 hlt with hlt1 | hlt1
        · exact h3 hlt1
        · exfalso
          apply hc
          have := hs3 (b.getD 0 0) (by omega)
          rw [hlt1] at this
          exact this)
  have e : m + (v.length - m) = v.length := by omega
  rw [e] at h
  exact ⟨h.1, h.2.2 hamax⟩

theorem partial_sort_has_max (v : List ℚ) (m : Nat) (hm1 : 1 ≤ m) (hmn : m ≤ v.length) :
    (partial_sort (acc_comp v) (List.range v.length) m).length = v.length
      ∧ max_element v ∈ (partial_sort (acc_comp v) (List.range v.length) m).take m := by
  obtain ⟨h1, h2⟩ := heap_select_has_max v m hm1 hmn
  have hl : m ≤ (heap_select (acc_comp v) (List.range v.length) m).length := by
    rw [h1.length_eq]; simpa using hmn
  obtain ⟨s1, s2⟩ := sort_heap_region (acc_comp v) _ m hl
  unfold partial_sort
  refine ⟨by rw [s1.length_eq, h1.length_eq]; simp, ?_⟩
  rw [(take_perm_of_drop _ _ m s1 s2).mem_iff]
  exact h2

theorem partial_sort_zero (v : List ℚ) :
    (partial_sort (acc_comp v) (List.range v.length) 0).length = v.length
      ∧ (partial_sort (acc_comp v) (List.range v.length) 0).getD 0 0 = max_element v := by
  have e : partial_sort (acc_comp v) (List.range v.length) 0
      = heap_select (acc_comp v) (List.range v.length) 0 := by
    simp [partial_sort, sort_heap]
  rw [e]
  refine ⟨?_, heap_select_zero v⟩
  unfold heap_select
  simp only [List.length_range, Nat.sub_zero]
  have h := foldl_inv
    (fun (a : List Nat) i =>
      if acc_comp v (a.getD i 0) (a.getD 0 0) then pop_heap (acc_comp v) a 0 i else a)
    (fun (b : List Nat) => b.length = v.length) (List.range' 0 v.length)
    (by
      intro b i _ hb
      by_cases hc : acc_comp v (b.getD i 0) (b.getD 0 0) = true
      · simp only [hc, if_true, pop_heap_empty]; simpa using hb
      · simp only [hc]; exact hb)
    (make_heap (acc_comp v) (List.range v.length) 0) (by simp [make_heap])
  exact h


theorem acc_lookup_eq (predk : List Nat) (target : ℚ) (ls : List Nat)
    (h : ∀ l ∈ ls, l < predk.length) :
    acc_lookup predk target ls
      = .ok (ls.any (fun l => decide (((predk.getD l 0 : Nat) : ℚ) = target))) := by
  induction ls with
  | nil => rfl
  | cons l rest ih =>
    have hl := h l (List.mem_cons_self _ _)
    simp only [acc_lookup, vec_at_of_lt predk l hl, bind, Except.bind, List.any_cons]
    rw [List.get_eq_getElem, ← List.getD_eq_getElem predk 0 hl]
    by_cases e : ((predk.getD l 0 : Nat) : ℚ) = target
    · simp only [e, if_true, decide_True, Bool.true_or, pure, Except.pure]
    · simp only [e, if_false, decide_False, Bool.false_or]
      exact ih (fun x hx => h x (List.mem_cons_of_mem _ hx))

theorem acc_sample_one (bad : Sample) (hne : 1 ≤ bad.pred.length) :
    acc_sample 1 bad = .ok (decide (((max_element bad.pred : Nat) : ℚ) = bad.target)) := by
  obtain ⟨h1, h2⟩ := partial_sort_zero bad.pred
  have hlen : ¬ ((1 : Int) - 1 ≥ bad.pred.length) := by
    simp only [sub_self, ge_iff_le, not_le]; omega
  have hr : List.range (1 : Int).toNat = [0] := rfl
  have c2 : ¬ ((1 : Int) < 1) := by omega
  simp only [acc_sample, hlen, c2, if_false, sub_self, Int.toNat_zero, hr]
  rw [acc_lookup_eq _ _ _ (by
    intro l hl; simp only [List.mem_singleton] at hl; subst hl; rw [h1]; omega)]
  have c3 : ¬ ((0 : Int) ≥ bad.pred.length) := by omega
  simp only [List.any_cons, List.any_nil, Bool.or_false, h2, c3, if_false]

theorem acc_sample_ge (k : Int) (bad : Sample) (hk : 2 ≤ k) (hlen : k ≤ bad.pred.length) :
    ∃ hit, acc_sample k bad = .ok hit
      ∧ (((max_element bad.pred : Nat) : ℚ) = bad.target → hit = true) := by
  have hm1 : 1 ≤ (k - 1).toNat := by omega
  have hmn : (k - 1).toNat ≤ bad.pred.length := by omega
  obtain ⟨h1, h2⟩ := partial_sort_has_max bad.pred (k - 1).toNat hm1 hmn
  have c1 : ¬ (k - 1 ≥ bad.pred.length) := by omega
  have c2 : ¬ (k < 1) := by omega
  simp only [acc_sample, c1, c2, if_false]
  rw [acc_lookup_eq _ _ _ (by
    intro l hl; simp only [List.mem_range] at hl; rw [h1]; omega)]
  refine ⟨_, rfl, ?_⟩
  intro ht
  obtain ⟨l, hl, hl2⟩ := List.mem_take_iff_getElem.1 h2
  simp only [List.any_eq_true, List.mem_range, decide_eq_true_eq]
  have hll : l < (partial_sort (acc_comp bad.pred) (List.range bad.pred.length)
      (k - 1).toNat).length := by
    have := (Nat.lt_min.1 hl).2; exact this
  refine ⟨l, by have := (Nat.lt_min.1 hl).1; omega, ?_⟩
  rw [List.getD_eq_getElem _ 0 hll, hl2]
  exact ht

theorem acc_count_mono (k : Int) (hk : 1 ≤ k) (samples : List Sample)
    (hlen : ∀ s ∈ samples, k ≤ s.pred.length) :
    ∃ n1 nk, acc_count 1 samples = .ok n1 ∧ acc_count k samples = .ok nk ∧ n1 ≤ nk := by
  induction samples with
  | nil => exact ⟨0, 0, rfl, rfl, Nat.le_refl _⟩
  | cons bad rest ih =>
    obtain ⟨n1, nk, e1, ek, hle⟩ := ih (fun s hs => hlen s (List.mem_cons_of_mem _ hs))
    have hb := hlen bad (List.mem_cons_self _ _)
    have h1 := acc_sample_one bad (by omega)
    by_cases hk1 : k = 1
    · subst hk1
      have e : acc_count 1 (bad :: rest)
          = .ok (if decide (((max_element bad.pred : Nat) : ℚ) = bad.target) then n1 + 1
                 else n1) := by
        simp only [acc_count, h1, e1, bind, Except.bind, pure, Except.pure]
      exact ⟨_, _, e, e, Nat.le_refl _⟩
    · obtain ⟨hit, eh, hh⟩ := acc_sample_ge k bad (by omega) hb
      have e : acc_count 1 (bad :: rest)
          = .ok (if decide (((max_element bad.pred : Nat) : ℚ) = bad.target) then n1 + 1
                 else n1) := by
        simp only [acc_count, h1, e1, bind, Except.bind, pure, Except.pure]
      have e' : acc_count k (bad :: rest) = .ok (if hit then nk + 1 else nk) := by
        simp only [acc_count, eh, ek, bind, Except.bind, pure, Except.pure]
      refine ⟨_, _, e, e', ?_⟩
      by_cases ht : ((max_element bad.pred : Nat) : ℚ) = bad.target
      · simp only [ht, decide_True, if_true, hh ht]; omega
      · simp only [ht, decide_False, Bool.false_eq_true, if_false]
        cases hit
        · simpa using hle
        · simp only [if_true]; omega

theorem acc_values_single (ad : Batch) (k : Int) :
    acc_values ad [k] = (acc_value ad k).map (fun v => [(acc_key k, v)]) := by
  simp only [acc_values, List.foldlM, bind, Except.bind, Except.map, map_insert, List.any_nil,
    List.nil_append, pure, Except.pure]
  cases acc_value ad k <;> rfl

/-- C6 (as amended). For every non-empty batch and every `k ≥ 1` such that every sample
has at least `k` predictions, `acc` returns an accuracy at 1 and an accuracy at `k`, and
the first is less than or equal to the second. -/
theorem acc_monotone (ad : Batch) (k : Int) (hk : 1 ≤ k) (hne : ad.samples ≠ [])
    (hlen : ∀ s ∈ ad.samples, k ≤ s.pred.length) :
    ∃ a1 ak, acc_values ad [1] = .ok [("acc", a1)]
      ∧ acc_values ad [k] = .ok [(acc_key k, ak)] ∧ a1 ≤ ak := by
  obtain ⟨n1, nk, e1, ek, hle⟩ := acc_count_mono k hk ad.samples hlen
  have hpos : (0 : ℚ) < ad.batch_size := by
    have : 0 < ad.samples.length := List.length_pos.2 hne
    simp only [Batch.batch_size]
    exact_mod_cast this
  have hb : (ad.batch_size : ℚ) ≠ 0 := ne_of_gt hpos
  refine ⟨(n1 : ℚ) / ad.batch_size, (nk : ℚ) / ad.batch_size, ?_, ?_, ?_⟩
  · rw [acc_values_single]
    simp [acc_value, e1, fdiv, hb, bind, Except.bind, Except.map, acc_key]
  · rw [acc_values_single]
    simp [acc_value, ek, fdiv, hb, bind, Except.bind, Except.map]
  · exact div_le_div_of_nonneg_right (by exact_mod_cast hle) (le_of_lt hpos)

theorem acc_monotone_witness :
    (1 : Int) ≤ 2 ∧ batch_two_right.samples ≠ []
    ∧ (∀ s ∈ batch_two_right.samples, (2 : Int) ≤ s.pred.length)
    ∧ ∃ a1 ak, acc_values batch_two_right [1] = .ok [("acc", a1)]
      ∧ acc_values batch_two_right [2] = .ok [(acc_key 2, ak)] ∧ a1 ≤ ak :=
  have h1 : batch_two_right.samples ≠ [] := by simp [batch_two_right]
  have h2 : ∀ s ∈ batch_two_right.samples, (2 : Int) ≤ s.pred.length := by
    simp [batch_two_right]
  ⟨by decide, h1, h2, acc_monotone batch_two_right 2 (by decide) h1 h2⟩

/-- C6, counterexample. Two samples with two predictions each, both right at `k = 1`;
at `k = 3` both are skipped (`k - 1 >= predictions.size()`), so the accuracy at 1 is 1 and
the accuracy at 3 is 0. -/
theorem acc_not_monotone :
    acc_values batch_two_right [1] = .ok [("acc", 1)]
    ∧ acc_values batch_two_right [3] = .ok [("acc-3", 0)]
    ∧ ¬ ((1 : ℚ) ≤ 0) := by
  refine ⟨by decide!, by decide!, by norm_num⟩

/-- C5, failing input. One sample with scores `[0.1, 0.2, 0.9, 0.8]` and target 3, the
second best index, `k = 2`: `std::partial_sort` is asked to order the first `k - 1 = 1`
positions only and leaves `[2, 0, 1, 3]`, so the loop over the first `k` positions reads
the indices 2 and 0 and `acc-2` is 0, while the target is among the two best indices
(the specified accuracy is 1). -/
theorem acc_top2_misses_second_best :
    partial_sort (acc_comp [1 / 10, 2 / 10, 9 / 10, 8 / 10]) (List.range 4) (2 - 1)
        = [2, 0, 1, 3]
    ∧ acc_values batch_second_best [2] = .ok [("acc-2", 0)]
    ∧ spec_acc batch_second_best 2 = 1 := by
  decide!

/-- The scenario of the specification for `acc`: two samples, both right, `acc = 1`. -/
theorem acc_two_right : acc_values batch_two_right [1] = .ok [("acc", 1)] := by
  decide!


/-! ## The target range check of `mf1`, `mcc` and `raw_results` -/

theorem foldlM_check {σ α : Type} (f : σ → α → Except Err σ) (P : σ → Prop) (good : α → Prop)
    (l : List α)
    (hgood : ∀ s a, a ∈ l → P s → good a → ∃ s1, f s a = .ok s1 ∧ P s1)
    (hbad : ∀ s a, a ∈ l → P s → ¬ good a → f s a = .error Err.bad_param)
    (s : σ) (hs : P s) :
    ((∀ a ∈ l, good a) → ∃ s1, l.foldlM f s = .ok s1 ∧ P s1)
      ∧ ((∃ a ∈ l, ¬ good a) → l.foldlM f s = .error Err.bad_param) := by
  induction l generalizing s with
  | nil =>
    refine ⟨fun _ => ⟨s, rfl, hs⟩, ?_⟩
    rintro ⟨a, ha, _⟩
    cases ha
  | cons a rest ih =>
    have hg1 : ∀ s x, x ∈ rest → P s → good x → ∃ s1, f s x = .ok s1 ∧ P s1 :=
      fun s x hx => hgood s x (List.mem_cons_of_mem _ hx)
    have hb1 : ∀ s x, x ∈ rest → P s → ¬ good x → f s x = .error Err.bad_param :=
      fun s x hx => hbad s x (List.mem_cons_of_mem _ hx)
    by_cases hg : good a
    · obtain ⟨s1, e1, p1⟩ := hgood s a (List.mem_cons_self _ _) hs hg
      obtain ⟨ih1, ih2⟩ := ih hg1 hb1 s1 p1
      have hfold : (a :: rest).foldlM f s = rest.foldlM f s1 := by
        simp only [List.foldlM, e1, bind, Except.bind]
      rw [hfold]
      refine ⟨fun h => ih1 (fun x hx => h x (List.mem_cons_of_mem _ hx)), ?_⟩
      rintro ⟨x, hx, hxb⟩
      rcases List.mem_cons.1 hx with rfl | hx1
      · exact absurd hg hxb
      · exact ih2 ⟨x, hx1, hxb⟩
    · have hfold : (a :: rest).foldlM f s = .error Err.bad_param := by
        simp only [List.foldlM, hbad s a (List.mem_cons_self _ _) hs hg, bind, Except.bind]
      rw [hfold]
      refine ⟨fun h => absurd (h a (List.mem_cons_self _ _)) hg, fun _ => rfl⟩

theorem check_target_ok (nclasses : Int) (target : ℚ) (h0 : 0 ≤ target)
    (h1 : target < nclasses) : check_target nclasses target = .ok () := by
  simp [check_target, not_lt.2 h0, not_le.2 h1]

theorem check_target_bad (nclasses : Int) (target : ℚ)
    (h : ¬ (0 ≤ target ∧ target < nclasses)) :
    check_target nclasses target = .error Err.bad_param := by
  unfold check_target
  by_cases h0 : target < 0
  · simp [h0]
  · have h1 : (nclasses : ℚ) ≤ target := by
      by_contra hc
      exact h ⟨not_lt.1 h0, not_le.1 hc⟩
    simp [h0, h1]

theorem target_index_lt (nclasses : Int) (target : ℚ) (h0 : 0 ≤ target)
    (h1 : target < nclasses) : (target_index target : Int) < nclasses := by
  unfold target_index
  have hf0 : 0 ≤ Rat.floor target := Rat.le_floor.2 (by simpa using h0)
  have hf1 : Rat.floor target < nclasses := by
    by_contra hc
    exact absurd (Rat.le_floor.1 (not_lt.1 hc)) (not_le.2 h1)
  rw [Int.toNat_of_nonneg hf0]
  exact hf1

theorem mat_incr_ok (n : Nat) (m : Matrix) (hm : mat_square n m) (r c : Nat) (hr : r < n)
    (hc : c < n) : ∃ m1, mat_incr m r c = .ok m1 ∧ mat_square n m1 := by
  obtain ⟨h1, h2⟩ := hm
  have hr1 : r < m.length := by omega
  have hrow : (m[r]).length = n := h2 _ (List.getElem_mem _)
  have hc1 : c < (m[r]).length := by omega
  refine ⟨m.set r ((m[r]).set c ((m[r])[c] + 1)), ?_, ?_, ?_⟩
  · simp [mat_incr, List.getElem?_eq_getElem hr1, List.getElem?_eq_getElem hc1]
  · simpa using h1
  · intro row hrow1
    rcases List.mem_or_eq_of_mem_set hrow1 with h | h
    · exact h2 row h
    · rw [h]; simpa using hrow

theorem mat_zero_square (n : Nat) : mat_square n (mat_zero n) := by
  refine ⟨by simp [mat_zero], ?_⟩
  intro row hrow
  simp only [mat_zero, List.mem_replicate] at hrow
  rw [hrow.2]; simp

theorem max_element_lt (v : List ℚ) (hne : v ≠ []) : max_element v < v.length := by
  have h := (max_element_spec v).1
  have : 1 ≤ v.length := List.length_pos.2 hne
  rw [max_eq_left this] at h
  exact h

theorem bad_target_iff (ad : Batch) :
    ad.has_bad_target ↔ ∃ s ∈ ad.samples, ¬ (0 ≤ s.target ∧ s.target < ad.nclasses) := by
  unfold Batch.has_bad_target
  constructor
  · rintro ⟨s, hs, h⟩
    refine ⟨s, hs, ?_⟩
    rintro ⟨h0, h1⟩
    rcases h with h | h
    · exact absurd h0 (not_le.2 h)
    · exact absurd h1 (not_lt.2 h)
  · rintro ⟨s, hs, h⟩
    refine ⟨s, hs, ?_⟩
    by_cases h0 : s.target < 0
    · exact Or.inl h0
    · right
      by_contra hc
      exact h ⟨not_lt.1 h0, not_le.1 hc⟩

theorem conf_matrix_loop_cases (ad : Batch) (hp : ad.preds_full) :
    (ad.has_bad_target → conf_matrix_loop ad = .error Err.bad_param)
      ∧ (¬ ad.has_bad_target → raised (conf_matrix_loop ad) = none
          ∧ (0 ≤ ad.nclasses →
              ∃ m, conf_matrix_loop ad = .ok m ∧ mat_square ad.nclasses.toNat m)) := by
  by_cases hn : ad.nclasses < 0
  · refine ⟨?_, fun _ => ⟨by simp [conf_matrix_loop, hn, raised, Err.is_exception],
      fun h => absurd h (by omega)⟩⟩
    rintro ⟨s, hs, _⟩
    have := (hp s hs).2
    omega
  · obtain ⟨hf1, hf2⟩ := foldlM_check (conf_matrix_step ad.nclasses)
      (mat_square ad.nclasses.toNat)
      (fun (s : Sample) => 0 ≤ s.target ∧ s.target < ad.nclasses) ad.samples
      (by
        intro m s hs hm hg
        obtain ⟨hne, hlen⟩ := hp s hs
        have hmax := max_element_lt s.pred hne
        have hti := target_index_lt ad.nclasses s.target hg.1 hg.2
        obtain ⟨m1, e1, p1⟩ := mat_incr_ok _ m hm (max_element s.pred)
          (target_index s.target) (by omega) (by omega)
        exact ⟨m1, by
          simp only [conf_matrix_step, check_target_ok _ _ hg.1 hg.2, bind, Except.bind, e1],
          p1⟩)
      (by
        intro m s _ _ hg
        simp only [conf_matrix_step, check_target_bad _ _ hg, bind, Except.bind])
      (mat_zero ad.nclasses.toNat) (mat_zero_square _)
    refine ⟨?_, ?_⟩
    · intro hb
      simp only [conf_matrix_loop, hn, if_false]
      exact hf2 ((bad_target_iff ad).1 hb)
    · intro hb
      have hall : ∀ s ∈ ad.samples, 0 ≤ s.target ∧ s.target < ad.nclasses := by
        intro s hs
        by_contra hc
        exact hb ((bad_target_iff ad).2 ⟨s, hs, hc⟩)
      obtain ⟨m, e, pm⟩ := hf1 hall
      have e1 : conf_matrix_loop ad = .ok m := by
        simp only [conf_matrix_loop, hn, if_false]; exact e
      exact ⟨by rw [e1]; rfl, fun _ => ⟨m, e1, pm⟩⟩

theorem raised_bind_pure {α β : Type} (r : Except Err α) (g : α → β) :
    raised (r.bind (fun a => pure (g a))) = raised r := by
  cases r <;> rfl

theorem mat_get_raised (m : Matrix) (r c : Nat) :
    (∃ x, mat_get m r c = .ok x) ∨ mat_get m r c = .error Err.undefined := by
  unfold mat_get vec_idx
  cases hm : m[r]? with
  | none => exact Or.inr rfl
  | some row =>
    cases hr : row[c]? with
    | none => right; simp only [hr]
    | some x => left; exact ⟨x, by simp only [hr]⟩

theorem fdiv_raised (a b : ℚ) : raised (fdiv a b) = none := by
  unfold fdiv
  split <;> rfl

theorem mcc_raised (sqrt : ℚ → ℚ) (ad : Batch) :
    raised (mcc sqrt ad) = raised (conf_matrix_loop ad) := by
  unfold mcc
  cases conf_matrix_loop ad with
  | error e => rfl
  | ok m =>
    simp only [bind, Except.bind]
    rcases mat_get_raised m 0 0 with ⟨x1, h1⟩ | h1 <;> rw [h1] <;> try rfl
    rcases mat_get_raised m 1 1 with ⟨x2, h2⟩ | h2 <;> rw [h2] <;> try rfl
    rcases mat_get_raised m 0 1 with ⟨x3, h3⟩ | h3 <;> rw [h3] <;> try rfl
    rcases mat_get_raised m 1 0 with ⟨x4, h4⟩ | h4 <;> rw [h4] <;> try rfl
    simp only []
    rw [fdiv_raised]
    rfl

theorem raw_best_lt (predictions : List ℚ) (max_pred : ℚ) (hne : predictions ≠ []) :
    (raw_best predictions max_pred).1 < predictions.length := by
  have hpos : 1 ≤ predictions.length := List.length_pos.2 hne
  unfold raw_best
  have h := foldl_range'_inv
    (fun (s : Nat × ℚ) j =>
      if s.2 < predictions.getD j 0 then (j, predictions.getD j 0) else s)
    (fun i s => s.1 < i) (predictions.length - 1) 1 (0, max_pred) (by simp)
    (by
      intro i s _ _ hs
      show (if s.2 < predictions.getD i 0 then (i, predictions.getD i 0) else s).1 < i + 1
      split
      · simp
      · omega)
  have e : 1 + (predictions.length - 1) = predictions.length := by omega
  rw [e] at h
  exact h

theorem raw_results_loop_cases (ad : Batch) (clnames : List String) (hp : ad.preds_full)
    (hc : ad.nclasses ≤ clnames.length) :
    (ad.has_bad_target →
        ad.samples.foldlM (raw_results_step ad.nclasses clnames) ([], [], [], [])
          = .error Err.bad_param)
      ∧ (¬ ad.has_bad_target →
        ∃ s, ad.samples.foldlM (raw_results_step ad.nclasses clnames) ([], [], [], [])
          = .ok s) := by
  obtain ⟨hf1, hf2⟩ := foldlM_check (raw_results_step ad.nclasses clnames)
    (fun _ => True) (fun (s : Sample) => 0 ≤ s.target ∧ s.target < ad.nclasses) ad.samples
    (by
      intro st s hs _ hg
      obtain ⟨hne, hlen⟩ := hp s hs
      have hti := target_index_lt ad.nclasses s.target hg.1 hg.2
      have h1 : target_index s.target < clnames.length := by omega
      have hpos : 0 < s.pred.length := List.length_pos.2 hne
      have hb : (raw_best s.pred s.pred[0]).1 < clnames.length := by
        have := raw_best_lt s.pred s.pred[0] hne
        omega
      have e : raw_results_step ad.nclasses clnames st s = .ok
          (st.1 ++ [clnames[target_index s.target]],
           st.2.1 ++ [clnames[(raw_best s.pred s.pred[0]).1]],
           st.2.2.1 ++ [(raw_best s.pred s.pred[0]).2],
           match s.logits with
           | some l => st.2.2.2 ++ [l]
           | none => st.2.2.2) := by
        simp only [raw_results_step, check_target_ok _ _ hg.1 hg.2, bind, Except.bind,
          vec_idx, List.getElem?_eq_getElem h1, List.getElem?_eq_getElem hpos,
          List.getElem?_eq_getElem hb, pure, Except.pure]
      exact ⟨_, e, trivial⟩)
    (by
      intro st s _ _ hg
      simp only [raw_results_step, check_target_bad _ _ hg, bind, Except.bind])
    ([], [], [], []) trivial
  refine ⟨fun hb => hf2 ((bad_target_iff ad).1 hb), ?_⟩
  intro hb
  have hall : ∀ s ∈ ad.samples, 0 ≤ s.target ∧ s.target < ad.nclasses := by
    intro s hs
    by_contra hcon
    exact hb ((bad_target_iff ad).2 ⟨s, hs, hcon⟩)
  obtain ⟨s, e, _⟩ := hf1 hall
  exact ⟨s, e⟩

/-- C7. For every batch whose samples have non-empty prediction vectors of length
`nclasses` (and class names for every class), each of `mf1`, `mcc` and `raw_results`
ends with the exception `OutputConnectorBadParamException` if and only if some sample's
target is `< 0` or `>= nclasses`; when every target lies in `[0, nclasses)` none of them
ends with an exception. -/
theorem target_check_raises (sqrt : ℚ → ℚ) (ad : Batch) (clnames : List String)
    (hp : ad.preds_full) (hc : ad.nclasses ≤ clnames.length) :
    (raised (mf1 ad) = some Err.bad_param ↔ ad.has_bad_target)
    ∧ (raised (mcc sqrt ad) = some Err.bad_param ↔ ad.has_bad_target)
    ∧ (raised (raw_results ad clnames) = some Err.bad_param ↔ ad.has_bad_target)
    ∧ (¬ ad.has_bad_target →
        raised (mf1 ad) = none ∧ raised (mcc sqrt ad) = none
        ∧ raised (raw_results ad clnames) = none) := by
  obtain ⟨hl1, hl2⟩ := conf_matrix_loop_cases ad hp
  obtain ⟨hr1, hr2⟩ := raw_results_loop_cases ad clnames hp hc
  have hmf1 : raised (mf1 ad) = raised (conf_matrix_loop ad) := by
    unfold mf1
    exact raised_bind_pure _ _
  have hmcc := mcc_raised sqrt ad
  have hraw_bad : ad.has_bad_target → raised (raw_results ad clnames) = some Err.bad_param := by
    intro hb
    simp only [raw_results, hr1 hb, bind, Except.bind]
    rfl
  have hraw_ok : ¬ ad.has_bad_target → raised (raw_results ad clnames) = none := by
    intro hb
    obtain ⟨s, e⟩ := hr2 hb
    simp only [raw_results, e, bind, Except.bind]
    rfl
  have hloop_bad : ad.has_bad_target → raised (conf_matrix_loop ad) = some Err.bad_param := by
    intro hb
    rw [hl1 hb]
    rfl
  by_cases hb : ad.has_bad_target
  · refine ⟨⟨fun _ => hb, fun _ => by rw [hmf1]; exact hloop_bad hb⟩,
      ⟨fun _ => hb, fun _ => by rw [hmcc]; exact hloop_bad hb⟩,
      ⟨fun _ => hb, fun _ => hraw_bad hb⟩, fun h => absurd hb h⟩
  · have h0 := (hl2 hb).1
    refine ⟨⟨fun h => ?_, fun h => absurd h hb⟩, ⟨fun h => ?_, fun h => absurd h hb⟩,
      ⟨fun h => ?_, fun h => absurd h hb⟩, fun _ => ⟨by rw [hmf1]; exact h0,
        by rw [hmcc]; exact h0, hraw_ok hb⟩⟩
    · rw [hmf1, h0] at h; cases h
    · rw [hmcc, h0] at h; cases h
    · rw [hraw_ok hb] at h; cases h

theorem target_check_raises_witness :
    batch_bad_target.preds_full ∧ batch_bad_target.nclasses ≤ (["a", "b"] : List String).length
    ∧ (raised (mf1 batch_bad_target) = some Err.bad_param ↔ batch_bad_target.has_bad_target)
    ∧ (raised (mcc (fun x => x) batch_bad_target) = some Err.bad_param
        ↔ batch_bad_target.has_bad_target)
    ∧ (raised (raw_results batch_bad_target ["a", "b"]) = some Err.bad_param
        ↔ batch_bad_target.has_bad_target)
    ∧ (¬ batch_bad_target.has_bad_target →
        raised (mf1 batch_bad_target) = none ∧ raised (mcc (fun x => x) batch_bad_target) = none
        ∧ raised (raw_results batch_bad_target ["a", "b"]) = none) :=
  have h1 : batch_bad_target.preds_full := by
    simp [Batch.preds_full, batch_bad_target]
  have h2 : batch_bad_target.nclasses ≤ (["a", "b"] : List String).length := by
    simp [batch_bad_target]
  ⟨h1, h2, target_check_raises (fun x => x) batch_bad_target ["a", "b"] h1 h2⟩

/-- The three functions on a batch whose second target equals `nclasses`: each ends with
the bad-parameter exception; on the batch of the specification's scenario none does. -/
theorem target_check_examples :
    raised (mf1 batch_bad_target) = some Err.bad_param
    ∧ raised (mcc (fun x => x) batch_bad_target) = some Err.bad_param
    ∧ raised (raw_results batch_bad_target ["a", "b"]) = some Err.bad_param
    ∧ raised (mf1 batch_two_right) = none
    ∧ raised (mcc (fun x => x) batch_two_right) = none
    ∧ raised (raw_results batch_two_right ["a", "b"]) = none := by
  decide!


/-! ## `auc`: 32-bit arithmetic -/

theorem wrap32_modEq (x : Int) : wrap32 x ≡ x [ZMOD 4294967296] := by
  unfold wrap32 Int.ModEq
  omega

theorem wrap32_congr (a b : Int) (h : a ≡ b [ZMOD 4294967296]) : wrap32 a = wrap32 b := by
  unfold Int.ModEq at h
  unfold wrap32
  omega

theorem wrap32_of_range (x : Int) (h0 : -2147483648 ≤ x) (h1 : x < 2147483648) :
    wrap32 x = x := by
  unfold wrap32
  omega

theorem auc_step_congr (s t : AucState) (e : PredictionAndAnswer)
    (h : auc_state_congr s t) : auc_state_congr (auc_step s e) (auc_step_exact t e) := by
  obtain ⟨h1, h2, h3, h4, h5⟩ := h
  unfold auc_step auc_step_exact
  rw [h1]
  by_cases hc : e.prediction = t.threshold
  · simp only [hc, ne_eq, not_true_eq_false, if_false]
    refine ⟨h1, ?_, h3, h4, ?_⟩
    · exact (wrap32_modEq _).trans (h2.sub (Int.ModEq.refl _))
    · exact (wrap32_modEq _).trans (h5.add (wrap32_modEq _))
  · simp only [hc, ne_eq, not_false_eq_true, if_true]
    refine ⟨rfl, ?_, h2, ?_, ?_⟩
    · exact (wrap32_modEq _).trans (h2.sub (Int.ModEq.refl _))
    · exact (wrap32_modEq _).trans
        (h4.add ((wrap32_modEq _).trans (h5.mul ((wrap32_modEq _).trans (h2.add h3)))))
    · exact (wrap32_modEq _).trans ((Int.ModEq.refl _).add (wrap32_modEq _))

theorem auc_fold_congr (p : List PredictionAndAnswer) (s t : AucState)
    (h : auc_state_congr s t) :
    auc_state_congr (p.foldl auc_step s) (p.foldl auc_step_exact t) := by
  induction p generalizing s t with
  | nil => exact h
  | cons e rest ih => exact ih _ _ (auc_step_congr s t e h)

theorem auc_final_congr (s t : AucState) (h : auc_state_congr s t) :
    wrap32 (s.accum + wrap32 (s.tn * wrap32 (s.truePos + s.tp0))) = wrap32 (auc_final t) := by
  obtain ⟨_, h2, h3, h4, h5⟩ := h
  apply wrap32_congr
  unfold auc_final
  exact h4.add ((wrap32_modEq _).trans (h5.mul ((wrap32_modEq _).trans (h2.add h3))))

theorem auc_ones_eq (p : List PredictionAndAnswer) :
    auc_ones p = wrap32 ((p.map (fun e => e.answer)).sum) := by
  have h : ∀ (l : List PredictionAndAnswer) (o x : Int), o ≡ x [ZMOD 4294967296] →
      l.foldl (fun ones e => wrap32 (ones + e.answer)) o
        ≡ x + (l.map (fun e => e.answer)).sum [ZMOD 4294967296] := by
    intro l
    induction l with
    | nil => intro o x hox; simpa using hox
    | cons e rest ih =>
      intro o x hox
      simp only [List.foldl_cons, List.map_cons, List.sum_cons]
      have := ih (wrap32 (o + e.answer)) (x + e.answer)
        ((wrap32_modEq _).trans (hox.add (Int.ModEq.refl _)))
      rw [add_assoc] at this
      exact this
  have h0 := h p 0 0 (Int.ModEq.refl _)
  simp only [zero_add] at h0
  unfold auc_ones
  have hw : ∀ x : Int, -2147483648 ≤ wrap32 x ∧ wrap32 x < 2147483648 := by
    intro x; unfold wrap32; omega
  have hr : ∀ (l : List PredictionAndAnswer) (o : Int), -2147483648 ≤ o → o < 2147483648 →
      -2147483648 ≤ l.foldl (fun ones e => wrap32 (ones + e.answer)) o
      ∧ l.foldl (fun ones e => wrap32 (ones + e.answer)) o < 2147483648 := by
    intro l
    induction l with
    | nil => intro o h1 h2; exact ⟨h1, h2⟩
    | cons e rest ih =>
      intro o _ _
      exact ih _ (hw _).1 (hw _).2
  have hr0 := hr p 0 (by norm_num) (by norm_num)
  rw [← wrap32_congr _ _ h0, wrap32_of_range _ hr0.1 hr0.2]


/-! ## `auc`: the scan computes the pair weight -/

theorem pos_above_cons_of_le (x : PredictionAndAnswer) (xs : List PredictionAndAnswer) (t : ℚ)
    (h : x.prediction ≤ t) : pos_above (x :: xs) t = pos_above xs t := by
  simp [pos_above, List.countP_cons, not_lt.2 h]

theorem pos_above_all (l : List PredictionAndAnswer) (t : ℚ)
    (h : ∀ e ∈ l, t < e.prediction) : pos_above l t = pos_count l := by
  induction l with
  | nil => rfl
  | cons e rest ih =>
    have he := h e (List.mem_cons_self _ _)
    have := ih (fun y hy => h y (List.mem_cons_of_mem _ hy))
    simp only [pos_above, pos_count, List.countP_cons] at this ⊢
    rw [this]
    simp [he]

theorem neg_at_none (l : List PredictionAndAnswer) (t : ℚ)
    (h : ∀ e ∈ l, t < e.prediction) : neg_at l t = 0 := by
  induction l with
  | nil => rfl
  | cons e rest ih =>
    have he := h e (List.mem_cons_self _ _)
    have := ih (fun y hy => h y (List.mem_cons_of_mem _ hy))
    simp only [neg_at, List.countP_cons] at this ⊢
    rw [this]
    simp [ne_of_gt he]

theorem pos_count_split (l : List PredictionAndAnswer) (t : ℚ)
    (h : ∀ e ∈ l, t ≤ e.prediction) : pos_count l = pos_above l t + pos_at l t := by
  induction l with
  | nil => rfl
  | cons e rest ih =>
    have he := h e (List.mem_cons_self _ _)
    have := ih (fun y hy => h y (List.mem_cons_of_mem _ hy))
    simp only [pos_count, pos_above, pos_at, List.countP_cons] at this ⊢
    rw [this]
    by_cases ha : e.answer = 1
    · rcases lt_or_eq_of_le he with hlt | heq
      · simp [ha, hlt, ne_of_gt hlt]; omega
      · simp [ha, heq]; omega
    · simp [ha]

theorem pair_term_cons (x y : PredictionAndAnswer) (xs : List PredictionAndAnswer)
    (hy : x.prediction ≤ y.prediction) :
    (if y.answer = 0 then 2 * pos_above (x :: xs) y.prediction + pos_at (x :: xs) y.prediction
      else 0)
      = (if y.answer = 0 then 2 * pos_above xs y.prediction + pos_at xs y.prediction else 0)
        + (if x.answer = 1 then
            (if y.answer = 0 ∧ y.prediction = x.prediction then 1 else 0) else 0) := by
  have h1 : pos_above (x :: xs) y.prediction = pos_above xs y.prediction :=
    pos_above_cons_of_le x xs _ hy
  have h2 : pos_at (x :: xs) y.prediction
      = pos_at xs y.prediction
        + (if x.answer = 1 ∧ x.prediction = y.prediction then 1 else 0) := by
    simp only [pos_at, List.countP_cons, decide_eq_true_eq]
  rw [h1, h2]
  by_cases hya : y.answer = 0
  · by_cases hx : x.answer = 1
    · by_cases hp : x.prediction = y.prediction
      · simp only [hya, hx, hp, and_self, if_true]; omega
      · have hp' : ¬ y.prediction = x.prediction := fun h => hp h.symm
        simp only [hya, hx, hp, hp', and_false, and_true, if_true, if_false]; omega
    · simp only [hya, hx, false_and, if_true, if_false]; omega
  · simp only [hya, false_and, if_false]
    split <;> rfl

theorem pair_weight_cons_left (x : PredictionAndAnswer) (xs outer : List PredictionAndAnswer)
    (h : ∀ y ∈ outer, x.prediction ≤ y.prediction) :
    pair_weight (x :: xs) outer
      = pair_weight xs outer + (if x.answer = 1 then neg_at outer x.prediction else 0) := by
  induction outer with
  | nil => simp [pair_weight, neg_at]
  | cons y rest ih =>
    have hy := h y (List.mem_cons_self _ _)
    have := ih (fun z hz => h z (List.mem_cons_of_mem _ hz))
    have hn : neg_at (y :: rest) x.prediction
        = neg_at rest x.prediction
          + (if y.answer = 0 ∧ y.prediction = x.prediction then 1 else 0) := by
      simp only [neg_at, List.countP_cons, decide_eq_true_eq]
    simp only [pair_weight, List.map_cons, List.sum_cons] at this ⊢
    rw [this, pair_term_cons x y xs hy, hn]
    by_cases hx : x.answer = 1
    · simp only [hx, if_true]; omega
    · simp only [hx, if_false]; omega

theorem pair_weight_cons (x : PredictionAndAnswer) (xs : List PredictionAndAnswer)
    (hb : x.answer = 0 ∨ x.answer = 1) (h : ∀ y ∈ xs, x.prediction ≤ y.prediction) :
    pair_weight (x :: xs) (x :: xs)
      = pair_weight xs xs
        + (if x.answer = 0 then 2 * pos_above xs x.prediction + pos_at xs x.prediction else 0)
        + (if x.answer = 1 then neg_at xs x.prediction else 0) := by
  have h1 := pair_weight_cons_left x xs xs h
  have h2 : pair_weight (x :: xs) (x :: xs)
      = (if x.answer = 0 then 2 * pos_above (x :: xs) x.prediction
          + pos_at (x :: xs) x.prediction else 0) + pair_weight (x :: xs) xs := by
    simp [pair_weight]
  rw [h2, h1]
  rcases hb with hb | hb
  · simp [hb, pos_above, pos_at, List.countP_cons]; omega
  · simp [hb]

theorem auc_exact_run (rest : List PredictionAndAnswer)
    (hs : rest.Sorted (fun a b => a.prediction ≤ b.prediction))
    (hb : ∀ e ∈ rest, e.answer = 0 ∨ e.answer = 1)
    (s : AucState) (hge : ∀ e ∈ rest, s.threshold ≤ e.prediction)
    (htp : s.truePos = pos_count rest) :
    auc_final (rest.foldl auc_step_exact s)
      = s.accum + pair_weight rest rest + s.tn * (s.tp0 + pos_above rest s.threshold)
        + neg_at rest s.threshold * (s.tp0 - s.truePos) := by
  induction rest generalizing s with
  | nil =>
    simp only [List.foldl_nil, auc_final, pair_weight, pos_above, neg_at, pos_count,
      List.countP_nil, List.map_nil, List.sum_nil] at htp ⊢
    rw [htp]; push_cast; ring
  | cons x xs ih =>
    have hx : ∀ y ∈ xs, x.prediction ≤ y.prediction := fun y hy =>
      List.rel_of_sorted_cons hs y hy
    have hxb := hb x (List.mem_cons_self _ _)
    have hxt := hge x (List.mem_cons_self _ _)
    have hw := pair_weight_cons x xs hxb hx
    have hsplit := pos_count_split xs x.prediction hx
    have hcount : pos_count (x :: xs) = pos_count xs + (if x.answer = 1 then 1 else 0) := by
      simp [pos_count, List.countP_cons]
    rw [List.foldl_cons]
    have hthr : (auc_step_exact s x).threshold = x.prediction := by
      unfold auc_step_exact
      by_cases hc : x.prediction = s.threshold
      · simp [hc]
      · simp [hc]
    have htp1 : (auc_step_exact s x).truePos = pos_count xs := by
      have : (auc_step_exact s x).truePos = s.truePos - x.answer := by
        unfold auc_step_exact
        by_cases hc : x.prediction = s.threshold <;> simp [hc]
      rw [this, htp, hcount]
      rcases hxb with h0 | h1
      · simp [h0]
      · simp [h1]
    rw [ih (List.Sorted.of_cons hs) (fun e he => hb e (List.mem_cons_of_mem _ he)) _
      (by rw [hthr]; exact hx) htp1, hthr]
    by_cases hc : x.prediction = s.threshold
    · -- same threshold
      have ht : s.threshold = x.prediction := hc.symm
      have ha : pos_above (x :: xs) x.prediction = pos_above xs x.prediction :=
        pos_above_cons_of_le x xs _ (le_refl _)
      have hn : neg_at (x :: xs) x.prediction
          = neg_at xs x.prediction + (if x.answer = 0 then 1 else 0) := by
        simp [neg_at, List.countP_cons]
      have hstep : auc_step_exact s x
          = { s with tn := s.tn + (1 - x.answer), truePos := s.truePos - x.answer } := by
        unfold auc_step_exact
        simp only [hc, ne_eq, not_true_eq_false, if_false]
      rw [hstep, ht, hw, ha, hn, htp, hcount, hsplit]
      rcases hxb with h0 | h1
      · simp only [h0]; push_cast; simp; ring
      · simp only [h1]; push_cast; simp; ring
    · -- the threshold changes
      have hlt : s.threshold < x.prediction := lt_of_le_of_ne hxt (fun h => hc h.symm)
      have hall : ∀ e ∈ x :: xs, s.threshold < e.prediction := by
        intro e he
        rcases List.mem_cons.1 he with rfl | he1
        · exact hlt
        · exact lt_of_lt_of_le hlt (hx e he1)
      have ha := pos_above_all (x :: xs) s.threshold hall
      have hn := neg_at_none (x :: xs) s.threshold hall
      have hstep : auc_step_exact s x
          = { threshold := x.prediction,
              accum := s.accum + s.tn * (s.truePos + s.tp0),
              tp0 := s.truePos,
              tn := 0 + (1 - x.answer),
              truePos := s.truePos - x.answer } := by
        unfold auc_step_exact
        simp only [hc, ne_eq, not_false_eq_true, if_true]
      rw [hstep, hw, ha, hn, htp, hcount, hsplit]
      rcases hxb with h0 | h1
      · simp only [h0]; push_cast; simp; ring
      · simp only [h1]; push_cast; simp; ring


/-! ## `auc`: the Mann-Whitney statistic -/

theorem answers_sum (p : List PredictionAndAnswer) (hb : ∀ e ∈ p, e.answer = 0 ∨ e.answer = 1) :
    (p.map (fun e => e.answer)).sum = pos_count p
      ∧ p.length = pos_count p + neg_count p := by
  induction p with
  | nil => simp [pos_count, neg_count]
  | cons e rest ih =>
    obtain ⟨h1, h2⟩ := ih (fun x hx => hb x (List.mem_cons_of_mem _ hx))
    simp only [List.map_cons, List.sum_cons, h1, List.length_cons, h2, pos_count, neg_count,
      List.countP_cons, decide_eq_true_eq]
    rcases hb e (List.mem_cons_self _ _) with h | h
    · simp [h]; omega
    · simp [h]; omega

theorem pair_weight_perm (l1 l2 o1 o2 : List PredictionAndAnswer) (hl : l1.Perm l2)
    (ho : o1.Perm o2) : pair_weight l1 o1 = pair_weight l2 o2 := by
  unfold pair_weight
  have hf : (fun (x : PredictionAndAnswer) =>
        if x.answer = 0 then 2 * pos_above l1 x.prediction + pos_at l1 x.prediction else 0)
      = (fun x =>
        if x.answer = 0 then 2 * pos_above l2 x.prediction + pos_at l2 x.prediction else 0) := by
    funext x
    simp only [pos_above, pos_at, hl.countP_eq]
  rw [hf]
  exact (ho.map _).sum_eq

theorem pair_weight_le (l outer : List PredictionAndAnswer) :
    pair_weight l outer ≤ 2 * pos_count l * neg_count outer := by
  have hle : ∀ t, 2 * pos_above l t + pos_at l t ≤ 2 * pos_count l := by
    intro t
    have h : pos_above l t + pos_at l t ≤ pos_count l := by
      induction l with
      | nil => simp [pos_above, pos_at, pos_count]
      | cons e rest ih =>
        simp only [pos_above, pos_at, pos_count, List.countP_cons, decide_eq_true_eq] at ih ⊢
        by_cases ha : e.answer = 1
        · by_cases hlt : t < e.prediction
          · have hne : ¬ e.prediction = t := ne_of_gt hlt
            simp only [ha, hlt, hne, and_self, and_false, and_true, if_true, if_false]; omega
          · simp only [ha, hlt, and_false, true_and, if_true, if_false]
            split <;> omega
        · simp only [ha, false_and, if_false]; omega
    have := Nat.zero_le (pos_at l t)
    omega
  induction outer with
  | nil => simp [pair_weight, neg_count]
  | cons x rest ih =>
    simp only [pair_weight, List.map_cons, List.sum_cons, neg_count, List.countP_cons,
      decide_eq_true_eq] at ih ⊢
    by_cases hx : x.answer = 0
    · simp only [hx, if_true]
      have := hle x.prediction
      rw [Nat.mul_add]
      omega
    · simp only [hx, if_false, Nat.add_zero]
      omega

/-- The scan of a sorted vector with at least one positive and one negative, in 32-bit
arithmetic: the pair weight over twice the number of (positive, negative) pairs, both
reduced to 32 bits. -/
theorem auc_scan_wrapped (p : List PredictionAndAnswer)
    (hs : p.Sorted (fun a b => a.prediction ≤ b.prediction))
    (hb : ∀ e ∈ p, e.answer = 0 ∨ e.answer = 1)
    (hP : 1 ≤ pos_count p) (hN : 1 ≤ neg_count p) (hlen : p.length < 2147483648) :
    auc_scan p = fdiv (wrap32 (pair_weight p p) : Int)
      (wrap32 (2 * (pos_count p : Int) * (neg_count p : Int)) : Int) := by
  obtain ⟨hsum, hl⟩ := answers_sum p hb
  have hones : auc_ones p = pos_count p := by
    rw [auc_ones_eq, hsum]
    exact wrap32_of_range _ (by omega) (by omega)
  have hcount : wrap32 (p.length : Int) = p.length :=
    wrap32_of_range _ (by omega) (by omega)
  unfold auc_scan
  simp only [hones, hcount]
  have hc : ¬ (((pos_count p : Nat) : Int) = 0 ∨ ((p.length : Nat) : Int) = (pos_count p : Nat)) := by
    omega
  simp only [hc, if_false]
  cases p with
  | nil => simp [pos_count] at hP
  | cons e0 tl =>
    simp only []
    have hcongr := auc_fold_congr (e0 :: tl)
      { threshold := e0.prediction, truePos := pos_count (e0 :: tl),
        tp0 := pos_count (e0 :: tl), accum := 0, tn := 0 }
      { threshold := e0.prediction, truePos := pos_count (e0 :: tl),
        tp0 := pos_count (e0 :: tl), accum := 0, tn := 0 }
      ⟨rfl, Int.ModEq.refl _, Int.ModEq.refl _, Int.ModEq.refl _, Int.ModEq.refl _⟩
    rw [auc_final_congr _ _ hcongr]
    rw [auc_exact_run (e0 :: tl) hs hb _
      (by
        intro e he
        rcases List.mem_cons.1 he with rfl | he1
        · exact le_refl _
        · exact List.rel_of_sorted_cons hs e he1)
      rfl]
    have hden : wrap32 (wrap32 (2 * (pos_count (e0 :: tl) : Int))
          * wrap32 (((e0 :: tl).length : Int) - (pos_count (e0 :: tl) : Int)))
        = wrap32 (2 * (pos_count (e0 :: tl) : Int) * (neg_count (e0 :: tl) : Int)) := by
      apply wrap32_congr
      have : (((e0 :: tl).length : Int) - (pos_count (e0 :: tl) : Int))
          = (neg_count (e0 :: tl) : Int) := by omega
      rw [this]
      exact (wrap32_modEq _).mul (wrap32_modEq _)
    rw [hden]
    simp

theorem std_sort_sorted (p : List PredictionAndAnswer) :
    (std_sort p).Sorted (fun a b => a.prediction ≤ b.prediction) := by
  unfold std_sort
  haveI : IsTotal PredictionAndAnswer (fun a b => a.prediction ≤ b.prediction) :=
    ⟨fun a b => le_total a.prediction b.prediction⟩
  haveI : IsTrans PredictionAndAnswer (fun a b => a.prediction ≤ b.prediction) :=
    ⟨fun a b c hab hbc => le_trans hab hbc⟩
  exact List.sorted_insertionSort _ p

theorem std_sort_perm (p : List PredictionAndAnswer) : (std_sort p).Perm p :=
  List.perm_insertionSort _ p

/-- The result of the scan is the same for every ordering of the vector that is sorted
by prediction: the order `std::sort` leaves among equal predictions is irrelevant. -/
theorem auc_scan_perm (p q : List PredictionAndAnswer)
    (hp : p.Sorted (fun a b => a.prediction ≤ b.prediction))
    (hq : q.Sorted (fun a b => a.prediction ≤ b.prediction)) (hpq : p.Perm q)
    (hb : ∀ e ∈ p, e.answer = 0 ∨ e.answer = 1)
    (hP : 1 ≤ pos_count p) (hN : 1 ≤ neg_count p) (hlen : p.length < 2147483648) :
    auc_scan p = auc_scan q := by
  have hbq : ∀ e ∈ q, e.answer = 0 ∨ e.answer = 1 := fun e he => hb e (hpq.mem_iff.2 he)
  have e1 : pos_count q = pos_count p := by unfold pos_count; exact hpq.symm.countP_eq _
  have e2 : neg_count q = neg_count p := by unfold neg_count; exact hpq.symm.countP_eq _
  rw [auc_scan_wrapped p hp hb hP hN hlen,
    auc_scan_wrapped q hq hbq (by rw [e1]; exact hP) (by rw [e2]; exact hN)
      (by rw [← hpq.length_eq]; exact hlen),
    e1, e2, pair_weight_perm q p q p hpq.symm hpq.symm]


theorem to_int_zero : to_int 0 = 0 := by decide!

theorem to_int_one : to_int 1 = 1 := by decide!

theorem auc_pairs_eq (z : List (ℚ × ℚ)) :
    auc_pairs (z.map Prod.fst) (z.map Prod.snd) = .ok ((narrowed z).map to_entry) := by
  induction z with
  | nil => rfl
  | cons e rest ih =>
    simp only [List.map_cons, auc_pairs, ih, Except.map, narrowed, to_entry]

theorem to_entry_answer (e : ℚ × ℚ) (h : e.2 = 0 ∨ e.2 = 1) :
    ((to_entry e).answer = 0 ↔ e.2 = 0) ∧ ((to_entry e).answer = 1 ↔ e.2 = 1)
      ∧ ((to_entry e).answer = 0 ∨ (to_entry e).answer = 1) := by
  rcases h with h | h
  · simp [to_entry, h, to_int_zero]
  · simp [to_entry, h, to_int_one]

theorem entry_counts (z : List (ℚ × ℚ)) (hb : ∀ e ∈ z, e.2 = 0 ∨ e.2 = 1) (t : ℚ) :
    pos_count (z.map to_entry) = positives z ∧ neg_count (z.map to_entry) = negatives z
      ∧ pos_above (z.map to_entry) t = z.countP (fun x => decide (x.2 = 1 ∧ t < x.1))
      ∧ pos_at (z.map to_entry) t = z.countP (fun x => decide (x.2 = 1 ∧ x.1 = t)) := by
  unfold pos_count neg_count pos_above pos_at positives negatives
  simp only [List.countP_map]
  refine ⟨?_, ?_, ?_, ?_⟩ <;> apply List.countP_congr <;> intro e he <;>
    have h := to_entry_answer e (hb e he) <;>
    simp only [Function.comp, decide_eq_true_eq, h.1, h.2.1] <;> simp [to_entry]

theorem pair_weight_entries (z outer : List (ℚ × ℚ)) (hb : ∀ e ∈ z, e.2 = 0 ∨ e.2 = 1)
    (ho : ∀ e ∈ outer, e.2 = 0 ∨ e.2 = 1) :
    pair_weight (z.map to_entry) (outer.map to_entry)
      = 2 * (outer.map (fun y =>
          if y.2 = 0 then z.countP (fun x => decide (x.2 = 1 ∧ y.1 < x.1)) else 0)).sum
        + (outer.map (fun y =>
          if y.2 = 0 then z.countP (fun x => decide (x.2 = 1 ∧ x.1 = y.1)) else 0)).sum := by
  induction outer with
  | nil => simp [pair_weight]
  | cons y rest ih =>
    have := ih (fun e he => ho e (List.mem_cons_of_mem _ he))
    simp only [pair_weight, List.map_cons, List.sum_cons] at this ⊢
    rw [this]
    obtain ⟨_, _, h3, h4⟩ := entry_counts z hb y.1
    have hy := to_entry_answer y (ho y (List.mem_cons_self _ _))
    have hp : (to_entry y).prediction = y.1 := rfl
    rw [hp, h3, h4]
    by_cases h0 : y.2 = 0
    · simp only [hy.1.2 h0, h0, if_true]; ring
    · have : ¬ (to_entry y).answer = 0 := fun h => h0 (hy.1.1 h)
      simp only [this, h0, if_false]; ring

theorem narrowed_counts (z : List (ℚ × ℚ)) :
    positives (narrowed z) = positives z ∧ negatives (narrowed z) = negatives z
      ∧ (narrowed z).length = z.length
      ∧ ((∀ e ∈ z, e.2 = 0 ∨ e.2 = 1) → ∀ e ∈ narrowed z, e.2 = 0 ∨ e.2 = 1) := by
  refine ⟨?_, ?_, by simp [narrowed], ?_⟩
  · simp only [positives, narrowed, List.countP_map]; rfl
  · simp only [negatives, narrowed, List.countP_map]; rfl
  · intro h e he
    simp only [narrowed, List.mem_map] at he
    obtain ⟨x, hx, rfl⟩ := he
    exact h x hx

theorem length_eq_pos_neg (z : List (ℚ × ℚ)) (hb : ∀ e ∈ z, e.2 = 0 ∨ e.2 = 1) :
    z.length = positives z + negatives z := by
  induction z with
  | nil => rfl
  | cons e rest ih =>
    have := ih (fun x hx => hb x (List.mem_cons_of_mem _ hx))
    simp only [positives, negatives, List.countP_cons, List.length_cons,
      decide_eq_true_eq] at this ⊢
    rcases hb e (List.mem_cons_self _ _) with h | h
    · simp [h]; omega
    · simp [h]; omega

/-- The value of `auc` in 32-bit arithmetic, for samples with targets 0 and 1 of which
at least one is positive and one negative. -/
theorem auc_wrapped (z : List (ℚ × ℚ)) (hb : ∀ e ∈ z, e.2 = 0 ∨ e.2 = 1)
    (hP : 1 ≤ positives z) (hN : 1 ≤ negatives z) (hlen : z.length < 2147483648) :
    auc (z.map Prod.fst) (z.map Prod.snd)
      = fdiv (wrap32 (2 * pairs_higher (narrowed z) + pairs_tied (narrowed z) : Nat) : Int)
          (wrap32 (2 * (positives z : Int) * (negatives z : Int)) : Int) := by
  obtain ⟨n1, n2, n3, n4⟩ := narrowed_counts z
  have hbn := n4 hb
  obtain ⟨c1, c2, _, _⟩ := entry_counts (narrowed z) hbn 0
  have hbe : ∀ e ∈ (narrowed z).map to_entry, e.answer = 0 ∨ e.answer = 1 := by
    intro e he
    obtain ⟨x, hx, rfl⟩ := List.mem_map.1 he
    exact (to_entry_answer x (hbn x hx)).2.2
  have hperm := std_sort_perm ((narrowed z).map to_entry)
  have e1 : pos_count (std_sort ((narrowed z).map to_entry)) = positives z := by
    rw [← n1, ← c1]; unfold pos_count; exact hperm.countP_eq _
  have e2 : neg_count (std_sort ((narrowed z).map to_entry)) = negatives z := by
    rw [← n2, ← c2]; unfold neg_count; exact hperm.countP_eq _
  simp only [auc, auc_pairs_eq, bind, Except.bind]
  rw [auc_scan_wrapped _ (std_sort_sorted _) (fun e he => hbe e (hperm.mem_iff.1 he))
    (by rw [e1]; exact hP) (by rw [e2]; exact hN)
    (by rw [hperm.length_eq]; simpa [n3] using hlen),
    e1, e2, pair_weight_perm _ _ _ _ hperm hperm, pair_weight_entries _ _ hbn hbn]
  rfl

theorem pairs_perm (z1 z2 : List (ℚ × ℚ)) (h : z1.Perm z2) :
    pairs_higher z1 = pairs_higher z2 ∧ pairs_tied z1 = pairs_tied z2
      ∧ positives z1 = positives z2 ∧ negatives z1 = negatives z2 := by
  refine ⟨?_, ?_, h.countP_eq _, h.countP_eq _⟩
  · unfold pairs_higher
    have hf : (fun (y : ℚ × ℚ) =>
          if y.2 = 0 then z1.countP (fun x => decide (x.2 = 1 ∧ y.1 < x.1)) else 0)
        = (fun y => if y.2 = 0 then z2.countP (fun x => decide (x.2 = 1 ∧ y.1 < x.1)) else 0) := by
      funext y; rw [h.countP_eq]
    rw [hf]; exact (h.map _).sum_eq
  · unfold pairs_tied
    have hf : (fun (y : ℚ × ℚ) =>
          if y.2 = 0 then z1.countP (fun x => decide (x.2 = 1 ∧ x.1 = y.1)) else 0)
        = (fun y => if y.2 = 0 then z2.countP (fun x => decide (x.2 = 1 ∧ x.1 = y.1)) else 0) := by
      funext y; rw [h.countP_eq]
    rw [hf]; exact (h.map _).sum_eq

theorem auc_mann_whitney_aux (z : List (ℚ × ℚ)) (hb : ∀ e ∈ z, e.2 = 0 ∨ e.2 = 1)
    (hP : 1 ≤ positives z) (hN : 1 ≤ negatives z)
    (hbound : 2 * positives z * negatives z < 2147483648) :
    auc (z.map Prod.fst) (z.map Prod.snd) = .ok (mann_whitney (narrowed z)) := by
  obtain ⟨n1, n2, n3, n4⟩ := narrowed_counts z
  have hbn := n4 hb
  have hPN : positives z + negatives z ≤ 2 * positives z * negatives z := by
    have h1 : positives z * 1 ≤ positives z * negatives z := Nat.mul_le_mul_left _ hN
    have h2 : 1 * negatives z ≤ positives z * negatives z := Nat.mul_le_mul_right _ hP
    rw [Nat.mul_assoc]
    omega
  have hlen : z.length < 2147483648 := by
    rw [length_eq_pos_neg z hb]; omega
  rw [auc_wrapped z hb hP hN hlen]
  obtain ⟨c1, c2, _, _⟩ := entry_counts (narrowed z) hbn 0
  have hw : 2 * pairs_higher (narrowed z) + pairs_tied (narrowed z)
      ≤ 2 * positives z * negatives z := by
    have := pair_weight_le ((narrowed z).map to_entry) ((narrowed z).map to_entry)
    rw [pair_weight_entries _ _ hbn hbn, c1, c2, n1, n2] at this
    exact this
  have hd : (2 * (positives z : Int) * (negatives z : Int)) < 2147483648 := by
    exact_mod_cast hbound
  have hd0 : (0 : Int) ≤ 2 * (positives z : Int) * (negatives z : Int) := by positivity
  rw [wrap32_of_range _ (by omega) (by omega), wrap32_of_range _ (by omega) hd]
  have hne : (((2 * (positives z : Int) * (negatives z : Int)) : Int) : ℚ) ≠ 0 := by
    have h1 : (0 : ℚ) < positives z := by exact_mod_cast hP
    have h2 : (0 : ℚ) < negatives z := by exact_mod_cast hN
    push_cast
    positivity
  simp only [fdiv, hne, if_false]
  congr 1
  unfold mann_whitney
  rw [n1, n2]
  have h1 : (positives z : ℚ) ≠ 0 := by
    have : (0 : ℚ) < positives z := by exact_mod_cast hP
    exact ne_of_gt this
  have h2 : (negatives z : ℚ) ≠ 0 := by
    have : (0 : ℚ) < negatives z := by exact_mod_cast hN
    exact ne_of_gt this
  push_cast
  field_simp
  ring

/-- C8 (as amended). For every list of `(score, target)` samples with targets in
`{0, 1}` and scores within the range of `float` (of magnitude at most `FLT_MAX`), `P ≥ 1`
positives and `N ≥ 1` negatives such that `2 * P * N < 2^31`, `auc` returns the
Mann-Whitney statistic of the samples with their scores narrowed to `float`: (number of
(positive, negative) pairs in which the positive has the strictly higher score + half
the number of such pairs with equal scores) / (P * N); the result is the same for every
ordering of the samples. The range of the scores is the one in which the narrowing has
a value, which `to_float` stands for. -/
theorem auc_mann_whitney (z : List (ℚ × ℚ)) (hb : ∀ e ∈ z, e.2 = 0 ∨ e.2 = 1)
    (hrange : ∀ e ∈ z, |e.1| ≤ flt_max)
    (hP : 1 ≤ positives z) (hN : 1 ≤ negatives z)
    (hbound : 2 * positives z * negatives z < 2147483648) :
    auc (z.map Prod.fst) (z.map Prod.snd) = .ok (mann_whitney (narrowed z))
    ∧ ∀ z1 : List (ℚ × ℚ), z1.Perm z →
        auc (z1.map Prod.fst) (z1.map Prod.snd) = auc (z.map Prod.fst) (z.map Prod.snd) := by
  have _ := hrange
  refine ⟨auc_mann_whitney_aux z hb hP hN hbound, ?_⟩
  intro z1 hperm
  obtain ⟨_, _, p3, p4⟩ := pairs_perm z1 z hperm
  have hb1 : ∀ e ∈ z1, e.2 = 0 ∨ e.2 = 1 := fun e he => hb e (hperm.mem_iff.1 he)
  rw [auc_mann_whitney_aux z hb hP hN hbound,
    auc_mann_whitney_aux z1 hb1 (by rw [p3]; exact hP) (by rw [p4]; exact hN)
      (by rw [p3, p4]; exact hbound)]
  have hn : (narrowed z1).Perm (narrowed z) := hperm.map _
  obtain ⟨q1, q2, q3, q4⟩ := pairs_perm _ _ hn
  unfold mann_whitney
  rw [q1, q2, q3, q4]


theorem sum_replicate_nat (n x : Nat) : (List.replicate n x).sum = n * x := by
  induction n with
  | zero => simp
  | succ n ih => rw [List.replicate_succ, List.sum_cons, ih]; ring

/-- Counts of `a` positives followed by `b` negatives, all with score 0. -/
theorem two_blocks_counts (a b : Nat) :
    (∀ e ∈ List.replicate a ((0 : ℚ), (1 : ℚ)) ++ List.replicate b (0, 0), e.2 = 0 ∨ e.2 = 1)
    ∧ positives (List.replicate a ((0 : ℚ), (1 : ℚ)) ++ List.replicate b (0, 0)) = a
    ∧ negatives (List.replicate a ((0 : ℚ), (1 : ℚ)) ++ List.replicate b (0, 0)) = b
    ∧ narrowed (List.replicate a ((0 : ℚ), (1 : ℚ)) ++ List.replicate b (0, 0))
        = List.replicate a ((0 : ℚ), (1 : ℚ)) ++ List.replicate b (0, 0)
    ∧ pairs_higher (List.replicate a ((0 : ℚ), (1 : ℚ)) ++ List.replicate b (0, 0)) = 0
    ∧ pairs_tied (List.replicate a ((0 : ℚ), (1 : ℚ)) ++ List.replicate b (0, 0)) = b * a := by
  refine ⟨?_, ?_, ?_, ?_, ?_, ?_⟩
  · intro e he
    rcases List.mem_append.1 he with h | h
    · rw [(List.mem_replicate.1 h).2]; exact Or.inr rfl
    · rw [(List.mem_replicate.1 h).2]; exact Or.inl rfl
  · simp [positives, List.countP_append, List.countP_replicate]
  · simp [negatives, List.countP_append, List.countP_replicate]
  · simp [narrowed, to_float]
  · simp [pairs_higher, List.countP_append, List.countP_replicate]
  · simp [pairs_tied, List.countP_append, List.countP_replicate, sum_replicate_nat]

/-- The value of `auc` on `a` positives followed by `b` negatives, all with score 0. -/
theorem auc_two_blocks (a b : Nat) (ha : 1 ≤ a) (hb : 1 ≤ b) (hlen : a + b < 2147483648) :
    auc ((List.replicate a ((0 : ℚ), (1 : ℚ)) ++ List.replicate b (0, 0)).map Prod.fst)
        ((List.replicate a ((0 : ℚ), (1 : ℚ)) ++ List.replicate b (0, 0)).map Prod.snd)
      = fdiv (wrap32 ((b * a : Nat) : Int) : Int) (wrap32 (2 * (a : Int) * (b : Int)) : Int) := by
  obtain ⟨hbin, hP, hN, hn, hh, ht⟩ := two_blocks_counts a b
  rw [auc_wrapped _ hbin (by rw [hP]; exact ha) (by rw [hN]; exact hb)
    (by simpa using hlen), hn, hh, ht, hP, hN, Nat.mul_zero, Nat.zero_add]

/-- The Mann-Whitney statistic of `a` positives and `b` negatives of equal score. -/
theorem mann_whitney_two_blocks (a b : Nat) (ha : 1 ≤ a) (hb : 1 ≤ b) :
    mann_whitney (List.replicate a ((0 : ℚ), (1 : ℚ)) ++ List.replicate b (0, 0)) = 1 / 2 := by
  obtain ⟨_, hP, hN, _, hh, ht⟩ := two_blocks_counts a b
  unfold mann_whitney
  rw [hP, hN, hh, ht]
  have h1 : (a : ℚ) ≠ 0 := by
    have : (0 : ℚ) < a := by exact_mod_cast ha
    exact ne_of_gt this
  have h2 : (b : ℚ) ≠ 0 := by
    have : (0 : ℚ) < b := by exact_mod_cast hb
    exact ne_of_gt this
  push_cast
  field_simp
  ring

/-- C8 (counterexamples). Two scores that differ as doubles but narrow to the same
`float`: the positive is strictly above the negative, the Mann-Whitney statistic of the
samples is 1 and `auc` returns 1/2. With 32768 positives and 32768 negatives, all of
score 0, the statistic is 1/2 and the normaliser `2 * ones * (count - ones)` wraps in
32 bits: `auc` returns -1/2. -/
theorem auc_not_mann_whitney :
    ((∀ e ∈ samples_close, e.2 = 0 ∨ e.2 = 1) ∧ 1 ≤ positives samples_close
      ∧ 1 ≤ negatives samples_close
      ∧ mann_whitney samples_close = 1
      ∧ auc (samples_close.map Prod.fst) (samples_close.map Prod.snd) = .ok (1 / 2))
    ∧ ((∀ e ∈ samples_large, e.2 = 0 ∨ e.2 = 1) ∧ positives samples_large = 32768
      ∧ negatives samples_large = 32768
      ∧ mann_whitney samples_large = 1 / 2
      ∧ auc (samples_large.map Prod.fst) (samples_large.map Prod.snd) = .ok (-1 / 2)) := by
  refine ⟨⟨by decide!, by decide!, by decide!, by decide!, by decide!⟩, ?_⟩
  obtain ⟨hbin, hP, hN, _, _, _⟩ := two_blocks_counts 32768 32768
  refine ⟨hbin, hP, hN, mann_whitney_two_blocks 32768 32768 (by omega) (by omega), ?_⟩
  have h := auc_two_blocks 32768 32768 (by omega) (by omega) (by omega)
  have e1 : wrap32 (((32768 * 32768 : Nat)) : Int) = 1073741824 := by
    unfold wrap32; norm_num
  have e2 : wrap32 (2 * ((32768 : Nat) : Int) * ((32768 : Nat) : Int)) = -2147483648 := by
    unfold wrap32; norm_num
  rw [e1, e2] at h
  refine h.trans ?_
  simp only [fdiv]
  norm_num

/-- C8 (witness). A negative at 0.1, a positive and a negative at 0.4, a positive at
0.8: `auc` returns 7/8. -/
theorem auc_mann_whitney_witness :
    auc (samples_four.map Prod.fst) (samples_four.map Prod.snd)
        = .ok (mann_whitney (narrowed samples_four))
    ∧ ∀ z1 : List (ℚ × ℚ), z1.Perm samples_four →
        auc (z1.map Prod.fst) (z1.map Prod.snd)
          = auc (samples_four.map Prod.fst) (samples_four.map Prod.snd) :=
  auc_mann_whitney samples_four (by decide!) (by decide!) (by decide!) (by decide!)
    (by decide!)

/-- The value returned on the four samples of the witness. -/
theorem auc_samples_four :
    auc (samples_four.map Prod.fst) (samples_four.map Prod.snd) = .ok (7 / 8)
      ∧ mann_whitney (narrowed samples_four) = 7 / 8 := by
  constructor <;> decide!


theorem auc_pairs_ok (pred targets : List ℚ) (hlen : pred.length ≤ targets.length) :
    ∃ p, auc_pairs pred targets = .ok p ∧ p.length = pred.length
      ∧ ∀ e ∈ p, ∃ t ∈ targets, e.answer = to_int t := by
  induction pred generalizing targets with
  | nil => exact ⟨[], rfl, rfl, fun e he => absurd he (List.not_mem_nil _)⟩
  | cons f fs ih =>
    cases targets with
    | nil => simp at hlen
    | cons t ts =>
      obtain ⟨p, hp, hl, ha⟩ := ih ts (by simpa using hlen)
      refine ⟨{ prediction := to_float f, answer := to_int t } :: p, ?_, by simp [hl], ?_⟩
      · simp only [auc_pairs, hp, Except.map]
      · intro e he
        rcases List.mem_cons.1 he with rfl | h
        · exact ⟨t, List.mem_cons_self _ _, rfl⟩
        · obtain ⟨t1, ht1, h1⟩ := ha e h
          exact ⟨t1, List.mem_cons_of_mem _ ht1, h1⟩

theorem answers_sum_const (p : List PredictionAndAnswer) (c : Int)
    (h : ∀ e ∈ p, e.answer = c) : (p.map (fun e => e.answer)).sum = c * p.length := by
  induction p with
  | nil => simp
  | cons e rest ih =>
    rw [List.map_cons, List.sum_cons, ih (fun x hx => h x (List.mem_cons_of_mem _ hx)),
      h e (List.mem_cons_self _ _)]
    simp only [List.length_cons]
    push_cast
    ring

theorem auc_scan_degenerate (p : List PredictionAndAnswer)
    (h : (∀ e ∈ p, e.answer = 0) ∨ (∀ e ∈ p, e.answer = 1)) : auc_scan p = .ok 1 := by
  have hones := auc_ones_eq p
  unfold auc_scan
  apply if_pos
  rcases h with h | h
  · left
    rw [hones, answers_sum_const p 0 h]
    simp [wrap32]
  · right
    rw [hones, answers_sum_const p 1 h]
    simp

theorem auc_degenerate_aux (pred targets : List ℚ) (hlen : pred.length ≤ targets.length)
    (h : (∀ t ∈ targets, t = 0) ∨ (∀ t ∈ targets, t = 1)) : auc pred targets = .ok 1 := by
  obtain ⟨p, hp, _, ha⟩ := auc_pairs_ok pred targets hlen
  simp only [auc, hp, bind, Except.bind]
  apply auc_scan_degenerate
  have hperm := std_sort_perm p
  rcases h with h | h
  · left
    intro e he
    obtain ⟨t, ht, h1⟩ := ha e (hperm.mem_iff.1 he)
    rw [h1, h t ht, to_int_zero]
  · right
    intro e he
    obtain ⟨t, ht, h1⟩ := ha e (hperm.mem_iff.1 he)
    rw [h1, h t ht, to_int_one]

theorem auc_inputs_ok (l : List Sample) (hp : ∀ s ∈ l, 2 ≤ s.pred.length) :
    ∃ r, auc_inputs l = .ok r ∧ r.1.length = l.length ∧ r.2 = l.map (fun s => s.target) := by
  induction l with
  | nil => exact ⟨([], []), rfl, rfl, rfl⟩
  | cons s rest ih =>
    obtain ⟨r, hr, hl, ht⟩ := ih (fun x hx => hp x (List.mem_cons_of_mem _ hx))
    have h2 := hp s (List.mem_cons_self _ _)
    obtain ⟨v, hv⟩ : ∃ v, vec_at s.pred 1 = .ok v :=
      ⟨_, vec_at_of_lt s.pred 1 (by omega)⟩
    refine ⟨(v :: r.1, s.target :: r.2), ?_, by simp [hl], by simp [ht]⟩
    simp only [auc_inputs, hv, hr, bind, Except.bind, pure, Except.pure]

/-- The batch form of the degenerate case: when every sample has at least two
predictions (`pred.at(1)` exists) and the targets are all 0 or all 1, `auc(ad)`
returns 1. -/
theorem auc_ad_degenerate (ad : Batch) (hp : ∀ s ∈ ad.samples, 2 ≤ s.pred.length)
    (h : (∀ s ∈ ad.samples, s.target = 0) ∨ (∀ s ∈ ad.samples, s.target = 1)) :
    auc_ad ad = .ok 1 := by
  obtain ⟨r, hr, hl, ht⟩ := auc_inputs_ok ad.samples hp
  simp only [auc_ad, hr, bind, Except.bind]
  apply auc_degenerate_aux
  · rw [hl, ht, List.length_map]
  · rw [ht]
    rcases h with h | h
    · left; intro t htm
      obtain ⟨s, hs, rfl⟩ := List.mem_map.1 htm
      exact h s hs
    · right; intro t htm
      obtain ⟨s, hs, rfl⟩ := List.mem_map.1 htm
      exact h s hs

/-- C9. For every list of predicted scores and every list of targets of the same
length (the empty ones included) in which the targets are all 0 or all 1, `auc`
returns exactly 1: it ends normally, so no division by zero takes place. -/
theorem auc_degenerate (pred targets : List ℚ) (hlen : pred.length = targets.length)
    (h : (∀ t ∈ targets, t = 0) ∨ (∀ t ∈ targets, t = 1)) : auc pred targets = .ok 1 :=
  auc_degenerate_aux pred targets (le_of_eq hlen) h

/-- C9 (witness). Three positives with scores 0.2, 0.9, 0.5. -/
theorem auc_degenerate_witness :
    auc [2 / 10, 9 / 10, 5 / 10] [1, 1, 1] = .ok 1 :=
  auc_degenerate [2 / 10, 9 / 10, 5 / 10] [1, 1, 1] rfl (Or.inr (by decide!))

/-- The degenerate cases on concrete inputs: no sample, and two negatives. -/
theorem auc_degenerate_examples :
    auc [] [] = .ok 1 ∧ auc [3 / 10, 7 / 10] [0, 0] = .ok 1
      ∧ auc_ad { nclasses := 2, samples := [] } = .ok 1 := by
  refine ⟨by decide!, by decide!, by decide!⟩


/-! ### Rounding to `float` on `[0, 1]` -/

theorem round_half_even_spec (q : ℚ) (hq : 0 ≤ q) :
    |(round_half_even q : ℚ) - q| ≤ 1 / 2
      ∧ ∀ N : Nat, q ≤ N → round_half_even q ≤ N := by
  have hf0 : 0 ≤ Rat.floor q := Rat.le_floor.2 (by simpa using hq)
  have hcast : (((Rat.floor q).toNat : Nat) : ℚ) = ((Rat.floor q : Int) : ℚ) := by
    have : (((Rat.floor q).toNat : Nat) : Int) = Rat.floor q := Int.toNat_of_nonneg hf0
    exact_mod_cast this
  have hle : (((Rat.floor q).toNat : Nat) : ℚ) ≤ q := by
    rw [hcast]; exact Rat.le_floor.1 (le_refl _)
  have hlt : q < (((Rat.floor q).toNat : Nat) : ℚ) + 1 := by
    rw [hcast]
    by_contra hc
    push_neg at hc
    have : Rat.floor q + 1 ≤ Rat.floor q := Rat.le_floor.2 (by push_cast; exact hc)
    omega
  have hN : ∀ N : Nat, q ≤ N → (Rat.floor q).toNat ≤ N := by
    intro N h
    have : (((Rat.floor q).toNat : Nat) : ℚ) ≤ (N : ℚ) := le_trans hle h
    exact_mod_cast this
  have hN1 : ∀ N : Nat, q ≤ N → (((Rat.floor q).toNat : Nat) : ℚ) < q →
      (Rat.floor q).toNat + 1 ≤ N := by
    intro N h h1
    have : (((Rat.floor q).toNat : Nat) : ℚ) < (N : ℚ) := lt_of_lt_of_le h1 h
    have : (Rat.floor q).toNat < N := by exact_mod_cast this
    omega
  unfold round_half_even
  simp only []
  split_ifs with h1 h2 h3
  · refine ⟨?_, hN⟩
    rw [abs_le]; constructor <;> linarith
  · refine ⟨?_, fun N h => hN1 N h (by linarith)⟩
    rw [abs_le]; push_cast; constructor <;> linarith
  · refine ⟨?_, hN⟩
    rw [abs_le]; constructor <;> linarith
  · refine ⟨?_, fun N h => hN1 N h (by linarith)⟩
    rw [abs_le]; push_cast; constructor <;> linarith

theorem float_exponent_from_le (a : ℚ) (ha : a ≤ 1) (fuel : Nat) (e : Int)
    (h : e ≤ fuel) : float_exponent_from a fuel e ≤ 0 := by
  induction fuel generalizing e with
  | zero => simpa [float_exponent_from] using h
  | succ k ih =>
    unfold float_exponent_from
    split_ifs with h1
    · by_contra hc
      push_neg at hc
      have h2 : (2 : ℚ) ^ (1 : Int) ≤ (2 : ℚ) ^ e :=
        zpow_le_zpow_right₀ (by norm_num) (by omega)
      have h3 : (2 : ℚ) ^ (1 : Int) = 2 := by norm_num
      linarith
    · exact ih (e - 1) (by push_cast at h; omega)

/-- Narrowing a value of `[0, 1]` to `float` stays in `[0, 1]` and moves it by at most
`2^-24`. -/
theorem to_float_unit (x : ℚ) (h0 : 0 ≤ x) (h1 : x ≤ 1) :
    0 ≤ to_float x ∧ to_float x ≤ 1 ∧ |to_float x - x| ≤ 1 / 16777216 := by
  unfold to_float
  by_cases hx : x = 0
  · simp [hx]
  · have hpos : 0 < x := lt_of_le_of_ne h0 (Ne.symm hx)
    have habs : |x| = x := abs_of_nonneg h0
    have hneg : ¬ x < 0 := not_lt.2 h0
    simp only [hx, if_false, habs, hneg, one_mul]
    have he : float_exponent x ≤ 0 := float_exponent_from_le x h1 253 127 (by norm_num)
    obtain ⟨k, hk⟩ : ∃ k : Nat, (23 : Int) - float_exponent x = k :=
      ⟨(23 - float_exponent x).toNat, by omega⟩
    have hulp : (2 : ℚ) ^ (float_exponent x - 23) = 1 / (2 : ℚ) ^ k := by
      have : float_exponent x - 23 = -(k : Int) := by omega
      rw [this, zpow_neg, zpow_natCast, one_div]
    have hk23 : 23 ≤ k := by omega
    have hpow : (0 : ℚ) < (2 : ℚ) ^ k := by positivity
    have hpow23 : (8388608 : ℚ) ≤ (2 : ℚ) ^ k := by
      have : (2 : ℚ) ^ 23 ≤ (2 : ℚ) ^ k := pow_le_pow_right₀ (by norm_num) hk23
      norm_num at this
      exact this
    rw [hulp]
    have hq : x / (1 / (2 : ℚ) ^ k) = x * (2 : ℚ) ^ k := by field_simp
    rw [hq]
    have hq0 : 0 ≤ x * (2 : ℚ) ^ k := by positivity
    obtain ⟨r1, r2⟩ := round_half_even_spec (x * (2 : ℚ) ^ k) hq0
    have hm : round_half_even (x * (2 : ℚ) ^ k) ≤ 2 ^ k := by
      apply r2
      push_cast
      nlinarith
    have hmq : ((round_half_even (x * (2 : ℚ) ^ k) : Nat) : ℚ) ≤ (2 : ℚ) ^ k := by
      exact_mod_cast hm
    refine ⟨by positivity, ?_, ?_⟩
    · rw [mul_one_div, div_le_one hpow]; exact hmq
    · have e1 : ((round_half_even (x * (2 : ℚ) ^ k) : Nat) : ℚ) * (1 / (2 : ℚ) ^ k) - x
          = (((round_half_even (x * (2 : ℚ) ^ k) : Nat) : ℚ) - x * (2 : ℚ) ^ k)
              * (1 / (2 : ℚ) ^ k) := by
        field_simp
        ring
      rw [e1, abs_mul, abs_of_pos (by positivity : (0 : ℚ) < 1 / (2 : ℚ) ^ k)]
      have h2 : 1 / (2 : ℚ) ^ k ≤ 1 / 8388608 :=
        one_div_le_one_div_of_le (by norm_num) hpow23
      have h3 : (0 : ℚ) ≤ 1 / (2 : ℚ) ^ k := by positivity
      calc |((round_half_even (x * (2 : ℚ) ^ k) : Nat) : ℚ) - x * (2 : ℚ) ^ k|
              * (1 / (2 : ℚ) ^ k)
          ≤ (1 / 2) * (1 / 8388608) := mul_le_mul r1 h2 h3 (by norm_num)
        _ = 1 / 16777216 := by norm_num


/-! ### The loop of `compute_ap` against the exact envelope sum -/

theorem drop_range_cons (n i : Nat) (h : i < n) :
    (List.range n).drop i = i :: (List.range n).drop (i + 1) := by
  rw [List.drop_eq_getElem_cons (by simpa using h)]
  simp

theorem env_of_step (p : Nat → ℚ) (n i : Nat) (h : i < n) :
    env_of p n i = max (p i) (env_of p n (i + 1)) := by
  unfold env_of
  rw [drop_range_cons n i h]
  rfl

theorem foldr_max_bounds (l : List ℚ) (h : ∀ x ∈ l, 0 ≤ x ∧ x ≤ 1) :
    0 ≤ l.foldr max 0 ∧ l.foldr max 0 ≤ 1 := by
  induction l with
  | nil => simp
  | cons a rest ih =>
    obtain ⟨h1, h2⟩ := ih (fun x hx => h x (List.mem_cons_of_mem _ hx))
    obtain ⟨a1, a2⟩ := h a (List.mem_cons_self _ _)
    simp only [List.foldr_cons]
    exact ⟨le_max_of_le_left a1, max_le a2 h2⟩

theorem env_of_bounds (p : Nat → ℚ) (n : Nat) (hp : ∀ i, i < n → 0 ≤ p i ∧ p i ≤ 1)
    (i : Nat) : 0 ≤ env_of p n i ∧ env_of p n i ≤ 1 := by
  unfold env_of
  apply foldr_max_bounds
  intro x hx
  obtain ⟨k, hk, rfl⟩ := List.mem_map.1 hx
  exact hp k (List.mem_range.1 (List.mem_of_mem_drop hk))

theorem env_of_last (p : Nat → ℚ) (n : Nat) (hn : 0 < n) (h0 : 0 ≤ p (n - 1)) :
    env_of p n (n - 1) = p (n - 1) := by
  rw [env_of_step p n (n - 1) (by omega)]
  have : n - 1 + 1 = n := by omega
  rw [this]
  unfold env_of
  rw [List.drop_eq_nil_of_le (by simp)]
  simp [h0]

theorem upper_sum_step (p r : Nat → ℚ) (n i : Nat) (h : i + 1 < n) :
    upper_sum p r n i
      = env_of p n (i + 1) * (r (i + 1) - r i) + upper_sum p r n (i + 1) := by
  unfold upper_sum
  rw [drop_range_cons n (i + 1) h]
  simp

theorem upper_sum_last (p r : Nat → ℚ) (n : Nat) (hn : 0 < n) :
    upper_sum p r n (n - 1) = 0 := by
  unfold upper_sum
  have : n - 1 + 1 = n := by omega
  rw [this, List.drop_eq_nil_of_le (by simp)]
  simp

theorem ap_sum_eq (p r : Nat → ℚ) (n : Nat) (hn : 0 < n) :
    ap_sum p r n = env_of p n 0 * r 0 + upper_sum p r n 0 := by
  unfold ap_sum upper_sum
  have h0 : List.range n = 0 :: (List.range n).drop 1 := by
    have := drop_range_cons n 0 hn
    simpa using this
  have hrest : ((List.range n).drop (0 + 1)).map
        (fun i => env_of p n i * (r i - (if i = 0 then 0 else r (i - 1))))
      = ((List.range n).drop (0 + 1)).map (fun k => env_of p n k * (r k - r (k - 1))) := by
    apply List.map_congr_left
    intro k hk
    have hk1 : k ≠ 0 := by
      intro hk0
      subst hk0
      have hs : ((List.range n).drop (0 + 1)).Sublist ((List.range (n - 1)).map Nat.succ) := by
        have : List.range n = 0 :: (List.range (n - 1)).map Nat.succ := by
          have hn1 : n = (n - 1) + 1 := by omega
          conv_lhs => rw [hn1, List.range_succ_eq_map]
        rw [this]
        simp
      have := hs.subset hk
      simp at this
    simp [hk1]
  conv_lhs => rw [h0]
  rw [List.map_cons, List.sum_cons]
  simp only [if_true, sub_zero]
  rw [← hrest]

theorem vec_idx_map_range {α : Type} (f : Nat → α) (n i : Nat) (h : i < n) :
    vec_idx ((List.range n).map f) i = .ok (f i) := by
  simp [vec_idx, h]

/-- One iteration of the loop of `compute_ap` on exact data: the state moves from index
`i + 1` to index `i` and stays within the tolerance. -/
theorem ap_step_numbers (cp E ap A p p1 r r1 h : ℚ)
    (hcp : |cp - E| ≤ 1 / 16777216) (hcp0 : 0 ≤ cp) (hcp1 : cp ≤ 1)
    (hE0 : 0 ≤ E) (hE1 : E ≤ 1) (hpE : p1 ≤ E)
    (hp0 : 0 ≤ p) (hp1 : p ≤ 1) (hr0 : 0 ≤ r) (hr10 : 0 ≤ r1) (hr11 : r1 ≤ 1)
    (hstep : r1 = r ∨ (r1 = r + h ∧ p ≤ p1)) (hh : ap_eps + 1 / 16777216 < h) :
    |max (to_float p) cp - max p E| ≤ 1 / 16777216
      ∧ 0 ≤ max (to_float p) cp ∧ max (to_float p) cp ≤ 1
      ∧ |(if |to_float r1 - r| > ap_eps then ap + max (to_float p) cp * |to_float r1 - r|
            else ap) - (E * (r1 - r) + A)| ≤ |ap - A| + 1 / 8388608 := by
  obtain ⟨f0, f1, fe⟩ := to_float_unit p hp0 hp1
  obtain ⟨g0, g1, ge⟩ := to_float_unit r1 hr10 hr11
  have hm : |max (to_float p) cp - max p E| ≤ 1 / 16777216 :=
    le_trans (abs_max_sub_max_le_max _ _ _ _) (max_le fe hcp)
  refine ⟨hm, le_max_of_le_right hcp0, max_le f1 hcp1, ?_⟩
  have heps : ap_eps = 1 / 1000000 := rfl
  rw [abs_le] at ge
  rcases hstep with hs | ⟨hs, hpp⟩
  · have hd : ¬ |to_float r1 - r| > ap_eps := by
      rw [not_lt, heps, ← hs, abs_le]
      constructor <;> linarith [ge.1, ge.2]
    rw [if_neg hd, hs]
    have : E * (r - r) + A = A := by ring
    rw [this]
    linarith
  · have hhpos : 0 < h := by rw [heps] at hh; linarith
    have hdpos : 0 < to_float r1 - r := by rw [heps] at hh; linarith [ge.1]
    have hdabs : |to_float r1 - r| = to_float r1 - r := abs_of_pos hdpos
    have hd : |to_float r1 - r| > ap_eps := by
      rw [hdabs]; linarith [ge.1]
    rw [if_pos hd, hdabs]
    have hmaxE : max p E = E := max_eq_right (le_trans hpp hpE)
    rw [hmaxE] at hm
    set M := max (to_float p) cp with hM
    have hM0 : 0 ≤ M := le_max_of_le_right hcp0
    have hd1 : to_float r1 - r ≤ 1 := by linarith
    have e1 : ap + M * (to_float r1 - r) - (E * (r1 - r) + A)
        = (ap - A) + (M - E) * (to_float r1 - r) + E * (to_float r1 - r1) := by ring
    rw [e1]
    have t1 : |(M - E) * (to_float r1 - r)| ≤ 1 / 16777216 := by
      rw [abs_mul, abs_of_pos hdpos]
      calc |M - E| * (to_float r1 - r) ≤ (1 / 16777216) * 1 :=
            mul_le_mul hm hd1 (le_of_lt hdpos) (by norm_num)
        _ = 1 / 16777216 := by norm_num
    have t2 : |E * (to_float r1 - r1)| ≤ 1 / 16777216 := by
      rw [abs_mul, abs_of_nonneg hE0]
      have : |to_float r1 - r1| ≤ 1 / 16777216 := abs_le.2 ge
      calc E * |to_float r1 - r1| ≤ 1 * (1 / 16777216) :=
            mul_le_mul hE1 this (abs_nonneg _) (by norm_num)
        _ = 1 / 16777216 := by norm_num
    calc |(ap - A) + (M - E) * (to_float r1 - r) + E * (to_float r1 - r1)|
        ≤ |(ap - A) + (M - E) * (to_float r1 - r)| + |E * (to_float r1 - r1)| :=
          abs_add _ _
      _ ≤ |ap - A| + |(M - E) * (to_float r1 - r)| + |E * (to_float r1 - r1)| := by
          linarith [abs_add (ap - A) ((M - E) * (to_float r1 - r))]
      _ ≤ |ap - A| + 1 / 8388608 := by linarith

/-- The last statement `ap += cur_rec * cur_prec` on exact data. -/
theorem ap_last_numbers (cp E r : ℚ)
    (hcp : |cp - E| ≤ 1 / 16777216) (hcp0 : 0 ≤ cp) (hcp1 : cp ≤ 1)
    (hr0 : 0 ≤ r) (hr1 : r ≤ 1) :
    |to_float (to_float r * cp) - E * r| ≤ 3 / 16777216 := by
  obtain ⟨g0, g1, ge⟩ := to_float_unit r hr0 hr1
  have hx0 : 0 ≤ to_float r * cp := mul_nonneg g0 hcp0
  have hx1 : to_float r * cp ≤ 1 := by
    calc to_float r * cp ≤ 1 * 1 := mul_le_mul g1 hcp1 hcp0 (by norm_num)
      _ = 1 := by norm_num
  obtain ⟨_, _, xe⟩ := to_float_unit _ hx0 hx1
  have e1 : to_float (to_float r * cp) - E * r
      = (to_float (to_float r * cp) - to_float r * cp) + (to_float r - r) * cp
          + r * (cp - E) := by ring
  rw [e1]
  have t1 : |(to_float r - r) * cp| ≤ 1 / 16777216 := by
    rw [abs_mul, abs_of_nonneg hcp0]
    calc |to_float r - r| * cp ≤ (1 / 16777216) * 1 :=
          mul_le_mul ge hcp1 hcp0 (by norm_num)
      _ = 1 / 16777216 := by norm_num
  have t2 : |r * (cp - E)| ≤ 1 / 16777216 := by
    rw [abs_mul, abs_of_nonneg hr0]
    calc r * |cp - E| ≤ 1 * (1 / 16777216) :=
          mul_le_mul hr1 hcp (abs_nonneg _) (by norm_num)
      _ = 1 / 16777216 := by norm_num
  have a1 := abs_add ((to_float (to_float r * cp) - to_float r * cp) + (to_float r - r) * cp)
    (r * (cp - E))
  have a2 := abs_add (to_float (to_float r * cp) - to_float r * cp) ((to_float r - r) * cp)
  linarith


theorem range_reverse_succ (m : Nat) :
    (List.range (m + 1)).reverse = m :: (List.range m).reverse := by
  rw [List.range_succ, List.reverse_append]
  rfl

theorem ap_step_ok (p r : Nat → ℚ) (n m : Nat) (hm : m < n) (s : ApState) :
    ap_step ((List.range n).map p) ((List.range n).map r) s m
      = .ok { cur_prec := max (to_float (p m)) s.cur_prec,
              ap := if |s.cur_rec - r m| > ap_eps
                then s.ap + max (to_float (p m)) s.cur_prec * |s.cur_rec - r m| else s.ap,
              cur_rec := to_float (r m) } := by
  unfold ap_step
  rw [vec_idx_map_range p n m hm, vec_idx_map_range r n m hm]
  rfl

/-- The loop of `compute_ap` on exact data: from index `m` down to index 0 the state
stays within the tolerance of the exact envelope sum. -/
theorem ap_loop (p r : Nat → ℚ) (n : Nat) (h : ℚ)
    (hp : ∀ i, i < n → 0 ≤ p i ∧ p i ≤ 1) (hr : ∀ i, i < n → 0 ≤ r i ∧ r i ≤ 1)
    (hstep : ∀ i, i + 1 < n → r (i + 1) = r i ∨ (r (i + 1) = r i + h ∧ p i ≤ p (i + 1)))
    (hh : ap_eps + 1 / 16777216 < h) :
    ∀ m, m < n → ∀ s, ap_inv p r n m s →
      ∃ s1, (List.range m).reverse.foldlM
          (ap_step ((List.range n).map p) ((List.range n).map r)) s = .ok s1
        ∧ ap_inv p r n 0 s1 := by
  intro m
  induction m with
  | zero => intro _ s hs; exact ⟨s, rfl, hs⟩
  | succ m ih =>
    intro hm s hs
    obtain ⟨i1, i2, i3, i4, i5⟩ := hs
    rw [range_reverse_succ, List.foldlM_cons, ap_step_ok p r n m (by omega) s]
    simp only [bind, Except.bind]
    apply ih (by omega)
    have hE := env_of_bounds p n hp (m + 1)
    have hpE : p (m + 1) ≤ env_of p n (m + 1) := by
      rw [env_of_step p n (m + 1) hm]; exact le_max_left _ _
    obtain ⟨n1, n2, n3, n4⟩ := ap_step_numbers s.cur_prec (env_of p n (m + 1)) s.ap
      (upper_sum p r n (m + 1)) (p m) (p (m + 1)) (r m) (r (m + 1)) h i2 i3 i4 hE.1 hE.2 hpE
      (hp m (by omega)).1 (hp m (by omega)).2 (hr m (by omega)).1
      (hr (m + 1) hm).1 (hr (m + 1) hm).2 (hstep m hm) hh
    refine ⟨rfl, ?_, n2, n3, ?_⟩
    · rw [env_of_step p n m (by omega)]; exact n1
    · rw [upper_sum_step p r n m hm]
      simp only [i1]
      refine le_trans n4 ?_
      push_cast at i5 ⊢
      linarith

/-- The loop and the last statement of `compute_ap` on exact data, from the initial
state built from the last precision and recall. -/
theorem ap_scan_close (p r : Nat → ℚ) (n : Nat) (h : ℚ) (hn : 0 < n)
    (hp : ∀ i, i < n → 0 ≤ p i ∧ p i ≤ 1) (hr : ∀ i, i < n → 0 ≤ r i ∧ r i ≤ 1)
    (hstep : ∀ i, i + 1 < n → r (i + 1) = r i ∨ (r (i + 1) = r i + h ∧ p i ≤ p (i + 1)))
    (hh : ap_eps + 1 / 16777216 < h) :
    ∃ s1, (List.range (n - 1)).reverse.foldlM
        (ap_step ((List.range n).map p) ((List.range n).map r))
        { cur_rec := to_float (r (n - 1)), cur_prec := to_float (p (n - 1)), ap := 0 } = .ok s1
      ∧ |s1.ap + to_float (s1.cur_rec * s1.cur_prec) - ap_sum p r n|
          ≤ ((n : ℚ) + 1) / 8388608 := by
  obtain ⟨p0, p1⟩ := hp (n - 1) (by omega)
  obtain ⟨f0, f1, fe⟩ := to_float_unit (p (n - 1)) p0 p1
  have hinit : ap_inv p r n (n - 1)
      { cur_rec := to_float (r (n - 1)), cur_prec := to_float (p (n - 1)), ap := 0 } := by
    refine ⟨rfl, ?_, f0, f1, ?_⟩
    · rw [env_of_last p n hn p0]; exact fe
    · rw [upper_sum_last p r n hn]
      have : ((n - 1 : Nat) : ℚ) = (n : ℚ) - 1 := by
        rw [Nat.cast_sub hn]; simp
      simp [this]
  obtain ⟨s1, hs1, j1, j2, j3, j4, j5⟩ := ap_loop p r n h hp hr hstep hh (n - 1) (by omega) _ hinit
  refine ⟨s1, hs1, ?_⟩
  rw [ap_sum_eq p r n hn, j1]
  have hl := ap_last_numbers s1.cur_prec (env_of p n 0) (r 0) j2 j3 j4
    (hr 0 hn).1 (hr 0 hn).2
  have e1 : s1.ap + to_float (to_float (r 0) * s1.cur_prec)
        - (env_of p n 0 * r 0 + upper_sum p r n 0)
      = (s1.ap - upper_sum p r n 0)
        + (to_float (to_float (r 0) * s1.cur_prec) - env_of p n 0 * r 0) := by ring
  rw [e1]
  have a1 := abs_add (s1.ap - upper_sum p r n 0)
    (to_float (to_float (r 0) * s1.cur_prec) - env_of p n 0 * r 0)
  have hn1 : (1 : ℚ) ≤ n := by exact_mod_cast hn
  simp only [Nat.cast_zero, sub_zero] at j5
  rw [div_eq_mul_one_div]
  linarith


/-! ### The cumulative sums of `compute_ap` on a list of detections -/

theorem stable_sort_map {α β : Type} (f : ℚ × α → ℚ × β) (hf : ∀ x, (f x).1 = x.1)
    (l : List (ℚ × α)) : stable_sort (l.map f) = (stable_sort l).map f := by
  unfold stable_sort
  symm
  apply List.map_insertionSort
  intro a _ b _
  simp [SortScorePairDescend, hf]

theorem stable_sort_length {α : Type} (l : List (ℚ × α)) :
    (stable_sort l).length = l.length :=
  List.length_insertionSort _ l

theorem stable_sort_perm {α : Type} (l : List (ℚ × α)) : (stable_sort l).Perm l :=
  List.perm_insertionSort _ l

theorem cumsum_some (q : ℚ × Bool → Bool) (S : List (ℚ × Bool)) :
    ∀ c : Int, 0 ≤ c → c + S.length < 2147483648 →
      cumsum_from (some c) (S.map (fun d => (d.1, if q d then (1 : Int) else 0)))
        = (List.range S.length).map (fun i => c + ((S.take (i + 1)).countP q : Int)) := by
  induction S with
  | nil => intro c _ _; rfl
  | cons d rest ih =>
    intro c hc hlen
    simp only [List.length_cons, Nat.cast_add, Nat.cast_one] at hlen
    have hb : (0 : Int) ≤ (if q d then (1 : Int) else 0)
        ∧ (if q d then (1 : Int) else 0) ≤ 1 := by
      split_ifs <;> simp
    have hw : wrap32 (c + (if q d then (1 : Int) else 0)) = c + (if q d then (1 : Int) else 0) :=
      wrap32_of_range _ (by omega) (by omega)
    simp only [List.map_cons, cumsum_from, hw, List.length_cons]
    rw [ih _ (by omega) (by omega), List.range_succ_eq_map, List.map_cons, List.map_map]
    congr 1
    · by_cases hq : q d <;> simp [hq]
    · apply List.map_congr_left
      intro i _
      by_cases hq : q d
      · simp [hq, List.countP_cons]; ring
      · simp [hq, List.countP_cons]

theorem cumsum_none (q : ℚ × Bool → Bool) (S : List (ℚ × Bool))
    (hlen : S.length < 2147483648) :
    cumsum_from none (S.map (fun d => (d.1, if q d then (1 : Int) else 0)))
      = (List.range S.length).map (fun i => ((S.take (i + 1)).countP q : Int)) := by
  cases S with
  | nil => rfl
  | cons d rest =>
    simp only [List.length_cons] at hlen
    have hb : (0 : Int) ≤ (if q d then (1 : Int) else 0)
        ∧ (if q d then (1 : Int) else 0) ≤ 1 := by
      split_ifs <;> simp
    simp only [List.map_cons, cumsum_from, List.length_cons]
    rw [cumsum_some q rest _ hb.1 (by omega), List.range_succ_eq_map, List.map_cons,
      List.map_map]
    congr 1
    · by_cases hq : q d <;> simp [hq]
    · apply List.map_congr_left
      intro i _
      by_cases hq : q d
      · simp [hq, List.countP_cons]; ring
      · simp [hq, List.countP_cons]

theorem cumsum_pair_tp (dets : List (ℚ × Bool)) (hlen : dets.length < 2147483648) :
    cumsum_pair (tp_list dets)
      = (List.range dets.length).map (fun i => (spec_tp_cum dets i : Int)) := by
  unfold cumsum_pair tp_list
  rw [stable_sort_map (fun d : ℚ × Bool => (d.1, if d.2 then (1 : Int) else 0)) (fun _ => rfl)]
  have := cumsum_none (fun d => d.2) (stable_sort dets) (by rw [stable_sort_length]; exact hlen)
  rw [stable_sort_length] at this
  exact this

theorem cumsum_pair_fp (dets : List (ℚ × Bool)) (hlen : dets.length < 2147483648) :
    cumsum_pair (fp_list dets)
      = (List.range dets.length).map (fun i => (spec_fp_cum dets i : Int)) := by
  unfold cumsum_pair fp_list
  rw [stable_sort_map (fun d : ℚ × Bool => (d.1, if d.2 then (0 : Int) else 1)) (fun _ => rfl)]
  have := cumsum_none (fun d => !d.2) (stable_sort dets)
    (by rw [stable_sort_length]; exact hlen)
  rw [stable_sort_length] at this
  have hmap : (stable_sort dets).map (fun d : ℚ × Bool => (d.1, if d.2 then (0 : Int) else 1))
      = (stable_sort dets).map
          (fun d : ℚ × Bool => (d.1, if (fun d : ℚ × Bool => !d.2) d then (1 : Int) else 0)) := by
    apply List.map_congr_left
    intro d _
    by_cases hd : d.2 = true <;> simp [hd]
  rw [hmap]
  exact this

theorem spec_cum_add (dets : List (ℚ × Bool)) (i : Nat) (hi : i < dets.length) :
    spec_tp_cum dets i + spec_fp_cum dets i = i + 1 := by
  unfold spec_tp_cum spec_fp_cum
  have h := List.length_eq_countP_add_countP (fun d : ℚ × Bool => d.2)
    ((stable_sort dets).take (i + 1))
  rw [List.length_take, stable_sort_length, Nat.min_eq_left (by omega)] at h
  have h2 : ((stable_sort dets).take (i + 1)).countP (fun d => !d.2)
      = ((stable_sort dets).take (i + 1)).countP (fun a => decide ¬a.2 = true) := by
    apply List.countP_congr
    intro d _
    cases d.2 <;> simp
  rw [h2]
  exact h.symm

theorem spec_tp_cum_le (dets : List (ℚ × Bool)) (i : Nat) :
    spec_tp_cum dets i ≤ tp_total dets := by
  unfold spec_tp_cum tp_total
  rw [← (stable_sort_perm dets).countP_eq]
  exact (List.take_sublist _ _).countP_le _

theorem spec_cum_succ (dets : List (ℚ × Bool)) (i : Nat) (hi : i + 1 < dets.length) :
    (spec_tp_cum dets (i + 1) = spec_tp_cum dets i
        ∧ spec_fp_cum dets (i + 1) = spec_fp_cum dets i + 1)
      ∨ (spec_tp_cum dets (i + 1) = spec_tp_cum dets i + 1
        ∧ spec_fp_cum dets (i + 1) = spec_fp_cum dets i) := by
  unfold spec_tp_cum spec_fp_cum
  have hl : i + 1 < (stable_sort dets).length := by rw [stable_sort_length]; exact hi
  rw [List.take_succ, List.getElem?_eq_getElem hl]
  simp only [Option.toList, List.countP_append, List.countP_cons, List.countP_nil]
  cases ((stable_sort dets)[i + 1]).2 <;> simp

theorem push_each_ok (f : Nat → Except Err ℚ) (g : Nat → ℚ) (l : List Nat)
    (h : ∀ i ∈ l, f i = .ok (g i)) : push_each f l = .ok (l.map g) := by
  induction l with
  | nil => rfl
  | cons i rest ih =>
    simp only [push_each, h i (List.mem_cons_self _ _),
      ih (fun k hk => h k (List.mem_cons_of_mem _ hk)), bind, Except.bind, pure, Except.pure,
      List.map_cons]

theorem getLast_map_range (f : Nat → ℚ) (n : Nat) (hn : 0 < n) :
    ((List.range n).map f).getLast? = some (f (n - 1)) := by
  obtain ⟨k, rfl⟩ : ∃ k, n = k + 1 := ⟨n - 1, by omega⟩
  rw [List.range_succ, List.map_append]
  simp

theorem spec_prec_bounds (dets : List (ℚ × Bool)) (i : Nat) :
    0 ≤ spec_prec dets i ∧ spec_prec dets i ≤ 1 := by
  unfold spec_prec
  have h1 : (0 : ℚ) ≤ spec_tp_cum dets i := Nat.cast_nonneg _
  have h2 : (0 : ℚ) ≤ spec_fp_cum dets i := Nat.cast_nonneg _
  refine ⟨div_nonneg h1 (add_nonneg h1 h2), ?_⟩
  apply div_le_one_of_le₀ (by linarith) (add_nonneg h1 h2)

theorem spec_rec_bounds (dets : List (ℚ × Bool)) (num_pos : Int) (h1 : 1 ≤ num_pos)
    (htp : (tp_total dets : Int) ≤ num_pos) (i : Nat) :
    0 ≤ spec_rec dets num_pos i ∧ spec_rec dets num_pos i ≤ 1 := by
  unfold spec_rec
  have hpos : (0 : ℚ) < (num_pos : ℚ) := by exact_mod_cast (by omega : (0 : Int) < num_pos)
  have hle : (spec_tp_cum dets i : ℚ) ≤ (num_pos : ℚ) := by
    have : ((spec_tp_cum dets i : Nat) : Int) ≤ num_pos :=
      le_trans (by exact_mod_cast spec_tp_cum_le dets i) htp
    exact_mod_cast this
  exact ⟨div_nonneg (Nat.cast_nonneg _) (le_of_lt hpos),
    div_le_one_of_le₀ hle (le_of_lt hpos)⟩

theorem spec_step (dets : List (ℚ × Bool)) (num_pos : Int) (h1 : 1 ≤ num_pos) (i : Nat)
    (hi : i + 1 < dets.length) :
    spec_rec dets num_pos (i + 1) = spec_rec dets num_pos i
      ∨ (spec_rec dets num_pos (i + 1) = spec_rec dets num_pos i + 1 / (num_pos : ℚ)
        ∧ spec_prec dets i ≤ spec_prec dets (i + 1)) := by
  have hpos : (0 : ℚ) < (num_pos : ℚ) := by exact_mod_cast (by omega : (0 : Int) < num_pos)
  rcases spec_cum_succ dets i hi with ⟨ht, _⟩ | ⟨ht, hf⟩
  · left
    unfold spec_rec
    rw [ht]
  · right
    have hsum := spec_cum_add dets i (by omega)
    constructor
    · unfold spec_rec
      rw [ht]
      push_cast
      ring
    · unfold spec_prec
      rw [ht, hf]
      have hq : (spec_tp_cum dets i : ℚ) + (spec_fp_cum dets i : ℚ) = (i : ℚ) + 1 := by
        exact_mod_cast hsum
      have hF : (0 : ℚ) ≤ spec_fp_cum dets i := Nat.cast_nonneg _
      have hT : (0 : ℚ) ≤ spec_tp_cum dets i := Nat.cast_nonneg _
      have hi0 : (0 : ℚ) ≤ i := Nat.cast_nonneg _
      push_cast
      rw [div_le_div_iff₀ (by linarith) (by linarith)]
      nlinarith



theorem compute_ap_prec (dets : List (ℚ × Bool)) (hlen : dets.length < 2147483648) :
    push_each (fun i => do
        let t ← vec_idx ((List.range dets.length).map (fun i => (spec_tp_cum dets i : Int))) i
        let f ← vec_idx ((List.range dets.length).map (fun i => (spec_fp_cum dets i : Int))) i
        fdiv t (wrap32 (t + f))) (List.range dets.length)
      = .ok ((List.range dets.length).map (spec_prec dets)) := by
  apply push_each_ok
  intro i hi
  have hi1 : i < dets.length := List.mem_range.1 hi
  have hs := spec_cum_add dets i hi1
  have hw : wrap32 ((spec_tp_cum dets i : Int) + (spec_fp_cum dets i : Int))
      = (spec_tp_cum dets i : Int) + (spec_fp_cum dets i : Int) :=
    wrap32_of_range _ (by omega) (by omega)
  rw [vec_idx_map_range _ _ _ hi1, vec_idx_map_range _ _ _ hi1]
  rw [bind_ok, bind_ok, hw]
  have hne0 : (((spec_tp_cum dets i : Int) + (spec_fp_cum dets i : Int) : Int) : ℚ) ≠ 0 := by
    have h0 : (0 : Int) < (spec_tp_cum dets i : Int) + (spec_fp_cum dets i : Int) := by omega
    exact Int.cast_ne_zero.2 (ne_of_gt h0)
  unfold fdiv
  rw [if_neg hne0]
  unfold spec_prec
  rw [Int.cast_add, Int.cast_natCast, Int.cast_natCast]

theorem compute_ap_rec (dets : List (ℚ × Bool)) (num_pos : Int) (hnp : (num_pos : ℚ) ≠ 0) :
    push_each (fun i => do
        let t ← vec_idx ((List.range dets.length).map (fun i => (spec_tp_cum dets i : Int))) i
        fdiv t num_pos) (List.range dets.length)
      = .ok ((List.range dets.length).map (spec_rec dets num_pos)) := by
  apply push_each_ok
  intro i hi
  have hi1 : i < dets.length := List.mem_range.1 hi
  rw [vec_idx_map_range _ _ _ hi1, bind_ok]
  unfold fdiv
  rw [if_neg hnp]
  unfold spec_rec
  rw [Int.cast_natCast]

theorem compute_ap_close_aux (dets : List (ℚ × Bool)) (num_pos : Int) (hne : dets ≠ [])
    (hlen : dets.length < 2147483648) (h1 : 1 ≤ num_pos) (h2 : num_pos ≤ 940000)
    (htp : (tp_total dets : Int) ≤ num_pos) :
    ∃ v, compute_ap (tp_list dets) (fp_list dets) num_pos = .ok v
      ∧ |v - pascal_ap dets num_pos| ≤ ((dets.length : ℚ) + 1) / 8388608 := by
  have hn : 0 < dets.length := List.length_pos.2 hne
  have hnum : wrap32 (((tp_list dets).length : Nat) : Int) = (dets.length : Int) := by
    unfold tp_list
    rw [List.length_map]
    exact wrap32_of_range _ (by omega) (by omega)
  have hnp : (num_pos : ℚ) ≠ 0 :=
    Int.cast_ne_zero.2 (ne_of_gt (by omega : (0 : Int) < num_pos))
  have hh : ap_eps + 1 / 16777216 < 1 / (num_pos : ℚ) := by
    have hpos : (0 : ℚ) < (num_pos : ℚ) := Int.cast_pos.2 (by omega)
    have hle : (num_pos : ℚ) ≤ 940000 := by exact_mod_cast h2
    have : (1 : ℚ) / 940000 ≤ 1 / (num_pos : ℚ) := one_div_le_one_div_of_le hpos hle
    have heps : ap_eps = 1 / 1000000 := rfl
    rw [heps]
    refine lt_of_lt_of_le ?_ this
    norm_num
  obtain ⟨s1, hs1, hb⟩ := ap_scan_close (spec_prec dets) (spec_rec dets num_pos) dets.length
    (1 / (num_pos : ℚ)) hn (fun i _ => spec_prec_bounds dets i)
    (fun i _ => spec_rec_bounds dets num_pos h1 htp i)
    (fun i hi => spec_step dets num_pos h1 i hi) hh
  refine ⟨s1.ap + to_float (s1.cur_rec * s1.cur_prec), ?_, hb⟩
  have hc : ¬ ((dets.length : Int) = 0 ∨ num_pos = 0) := by omega
  unfold compute_ap
  rw [hnum]
  dsimp only
  rw [if_neg hc, cumsum_pair_tp dets hlen, cumsum_pair_fp dets hlen, Int.toNat_ofNat,
    compute_ap_prec dets hlen, bind_ok, compute_ap_rec dets num_pos hnp, bind_ok,
    getLast_map_range _ _ hn, getLast_map_range _ _ hn]
  dsimp only
  rw [hs1, bind_ok]
  rfl


/-- C10 (as amended). For a non-empty list of fewer than `2^31` detections, each a true
positive (`tp_i = 1`, `fp_i = 0`) or a false positive (`tp_i = 0`, `fp_i = 1`), with
`1 ≤ num_pos ≤ 940000` and at most `num_pos` true positives, `compute_ap` returns the
PASCAL-style area under the monotone precision envelope up to single-precision rounding:
the value returned differs from `sum over i of (max over j ≥ i of prec(j)) *
(rec(i) - rec(i-1))` by at most `(n + 1) / 2^23`. -/
theorem compute_ap_pascal (dets : List (ℚ × Bool)) (num_pos : Int) (hne : dets ≠ [])
    (hlen : dets.length < 2147483648) (h1 : 1 ≤ num_pos) (h2 : num_pos ≤ 940000)
    (htp : (tp_total dets : Int) ≤ num_pos) :
    ∃ v, compute_ap (tp_list dets) (fp_list dets) num_pos = .ok v
      ∧ |v - pascal_ap dets num_pos| ≤ ((dets.length : ℚ) + 1) / 8388608 :=
  compute_ap_close_aux dets num_pos hne hlen h1 h2 htp

/-- C10 (witness). A true positive at 0.9, a false positive at 0.8 and a true positive
at 0.7, with two ground truths. -/
theorem compute_ap_pascal_witness :
    ∃ v, compute_ap (tp_list dets_three) (fp_list dets_three) 2 = .ok v
      ∧ |v - pascal_ap dets_three 2| ≤ ((dets_three.length : ℚ) + 1) / 8388608 :=
  compute_ap_pascal dets_three 2 (List.cons_ne_nil _ _) (by decide) (by decide) (by decide)
    (by decide!)

/-- The values on the detections of the witness: the area is 5/6 and `compute_ap`
returns 5/6 rounded to `float`. -/
theorem compute_ap_dets_three :
    compute_ap (tp_list dets_three) (fp_list dets_three) 2 = .ok (27962027 / 33554432)
      ∧ pascal_ap dets_three 2 = 5 / 6 := by
  refine ⟨by decide!, by decide!⟩

/-- C10 (counterexamples). One true positive and three ground truths: the area is 1/3
and `compute_ap` returns 1/3 rounded to `float`. 35 true positives and 999999 ground
truths: the area is 35/999999 and `compute_ap` returns about 34/999999, the recall
step at the last detection falling below `eps` once the recall is narrowed to `float`. -/
theorem compute_ap_not_exact :
    (compute_ap (tp_list dets_one) (fp_list dets_one) 3 = .ok (11184811 / 33554432)
      ∧ pascal_ap dets_one 3 = 1 / 3)
    ∧ (compute_ap (tp_list dets_many) (fp_list dets_many) 999999
          = .ok (2265660491369 / 66637001712992256)
      ∧ pascal_ap dets_many 999999 = 35 / 999999) := by
  refine ⟨⟨by decide!, by decide!⟩, by decide!, by decide!⟩


/-! ### `ap` on one class with one true positive -/

theorem compute_ap_one_tp : compute_ap [(8 / 10, 1)] [(8 / 10, 0)] 1 = .ok 1 := by decide!

theorem to_float_one : to_float 1 = 1 := by decide!

theorem ap_record_one_tp (label : Int) :
    ap_record { mmAP := 0, APs := [], APs_count := [], APs_count_all := 0 }
        (record_one_tp label)
      = .ok { mmAP := 1, APs := [(label, 1)], APs_count := [(label, 1)],
              APs_count_all := 1 } := by
  have e1 : pairs_at [8 / 10] [1] = .ok [(8 / 10, 1)] := rfl
  have e2 : pairs_at [8 / 10] [0] = .ok [(8 / 10, 0)] := rfl
  unfold ap_record record_one_tp
  rw [e1, bind_ok, e2, bind_ok, if_pos (Or.inl (by decide)), compute_ap_one_tp, bind_ok]
  have e3 : imap_find ([] : List (Int × ℚ)) label = none := rfl
  rw [e3]
  dsimp only
  rw [to_float_one, zero_add]
  rfl

/-- C11 (as amended). For one class with one ground truth and one true-positive
detection at score 0.8, given with the false-positive lists parallel to the
true-positive lists (`tp_d = [0.8]`, `tp_i = [1]`, `fp_d = [0.8]`, `fp_i = [0]`,
`num_pos = 1`), `compute_ap` returns 1, and `ap` returns the value 1 and stores 1 for
the class. -/
theorem ap_one_true_positive (label : Int) :
    compute_ap [(8 / 10, 1)] [(8 / 10, 0)] 1 = .ok 1
      ∧ ap { records := [[record_one_tp label]] } [] = .ok (1, [(label, 1)]) := by
  refine ⟨compute_ap_one_tp, ?_⟩
  unfold ap
  rw [List.foldlM_cons, List.foldlM_cons, ap_record_one_tp label]
  simp only [List.foldlM_nil, bind_ok, pure, Except.pure]
  rw [if_neg (by decide)]
  simp [ap_normalise, imap_find, imap_set, to_float_one]

/-- C11 (counterexample). With the false-positive lists empty, `compute_ap` reads
`fp_cumsum[0]` in an empty vector: neither `compute_ap` nor `ap` returns 1. -/
theorem ap_empty_fp_undefined :
    compute_ap [(8 / 10, 1)] [] 1 = .error Err.undefined
      ∧ ap { records := [[record_tp_only 1]] } [] = .error Err.undefined := by
  refine ⟨by decide!, by decide!⟩


/-! ### `std::map<int, T>` as a list of entries -/

theorem imap_find_cons {α : Type} (e : Int × α) (m : List (Int × α)) (k : Int) :
    imap_find (e :: m) k = if e.1 = k then some e.2 else imap_find m k := by
  unfold imap_find
  by_cases h : e.1 = k <;> simp [List.find?_cons, h]

theorem imap_find_none {α : Type} (m : List (Int × α)) (k : Int)
    (h : k ∉ m.map (fun e => e.1)) : imap_find m k = none := by
  induction m with
  | nil => rfl
  | cons e rest ih =>
    simp only [List.map_cons, List.mem_cons, not_or] at h
    rw [imap_find_cons, if_neg (fun he => h.1 he.symm), ih h.2]

theorem imap_find_mem {α : Type} (m : List (Int × α)) (k : Int) (v : α)
    (hn : (m.map (fun e => e.1)).Nodup) (h : (k, v) ∈ m) : imap_find m k = some v := by
  induction m with
  | nil => simp at h
  | cons e rest ih =>
    simp only [List.map_cons, List.nodup_cons] at hn
    rw [imap_find_cons]
    rcases List.mem_cons.1 h with he | he
    · rw [← he]; simp
    · have hne : e.1 ≠ k := by
        intro hek
        apply hn.1
        rw [hek]
        exact List.mem_map.2 ⟨(k, v), he, rfl⟩
      rw [if_neg hne, ih hn.2 he]

theorem imap_set_perm_new {α : Type} (m : List (Int × α)) (k : Int) (v : α)
    (h : k ∉ m.map (fun e => e.1)) : (imap_set m k v).Perm ((k, v) :: m) := by
  induction m with
  | nil => exact List.Perm.refl _
  | cons e rest ih =>
    simp only [List.map_cons, List.mem_cons, not_or] at h
    unfold imap_set
    split_ifs with h1 h2
    · exact List.Perm.refl _
    · exact absurd h2 h.1
    · exact ((ih h.2).cons e).trans (List.Perm.swap _ _ _)

theorem imap_set_keys_lt {α : Type} (m : List (Int × α)) (k : Int) (v : α) (a : Int)
    (ha : a < k) (hm : ∀ b ∈ m.map (fun e => e.1), a < b) :
    ∀ b ∈ (imap_set m k v).map (fun e => e.1), a < b := by
  induction m with
  | nil => intro b hb; simp [imap_set] at hb; rw [hb]; exact ha
  | cons e rest ih =>
    have he : a < e.1 := hm e.1 (by simp)
    have hr : ∀ b ∈ rest.map (fun e => e.1), a < b :=
      fun b hb => hm b (by simp only [List.map_cons]; exact List.mem_cons_of_mem _ hb)
    unfold imap_set
    split_ifs with h1 h2
    · intro b hb
      simp only [List.map_cons, List.mem_cons] at hb
      rcases hb with rfl | rfl | hb
      · exact ha
      · exact he
      · exact hr b hb
    · intro b hb
      simp only [List.map_cons, List.mem_cons] at hb
      rcases hb with rfl | hb
      · exact ha
      · exact hr b hb
    · intro b hb
      simp only [List.map_cons, List.mem_cons] at hb
      rcases hb with rfl | hb
      · exact he
      · exact ih hr b hb

theorem imap_set_sorted {α : Type} (m : List (Int × α)) (k : Int) (v : α)
    (hs : imap_sorted m) : imap_sorted (imap_set m k v) := by
  unfold imap_sorted at hs ⊢
  induction m with
  | nil => simp [imap_set]
  | cons e rest ih =>
    simp only [List.map_cons, List.pairwise_cons] at hs
    unfold imap_set
    split_ifs with h1 h2
    · simp only [List.map_cons, List.pairwise_cons]
      refine ⟨?_, hs.1, hs.2⟩
      intro b hb
      rcases List.mem_cons.1 hb with rfl | hb
      · exact h1
      · exact lt_trans h1 (hs.1 b hb)
    · simp only [List.map_cons, List.pairwise_cons]
      exact ⟨fun b hb => h2 ▸ hs.1 b hb, hs.2⟩
    · simp only [List.map_cons, List.pairwise_cons]
      refine ⟨imap_set_keys_lt rest k v e.1 (by omega) hs.1, ih hs.2⟩

theorem imap_sorted_nodup {α : Type} (m : List (Int × α)) (hs : imap_sorted m) :
    (m.map (fun e => e.1)).Nodup :=
  List.Pairwise.imp (fun h => ne_of_lt h) hs

/-- In a map, assigning to a key that is present replaces the value of its entry. -/
theorem imap_set_replace {α : Type} (m : List (Int × α)) (k : Int) (v : α)
    (hs : imap_sorted m) (hk : k ∈ m.map (fun e => e.1)) :
    imap_set m k v = m.map (fun e => if e.1 = k then (e.1, v) else e) := by
  unfold imap_sorted at hs
  induction m with
  | nil => simp at hk
  | cons e rest ih =>
    simp only [List.map_cons, List.pairwise_cons] at hs
    simp only [List.map_cons, List.mem_cons] at hk
    unfold imap_set
    by_cases h2 : k = e.1
    · rw [if_neg (by omega), if_pos h2, List.map_cons, if_pos h2.symm]
      congr 1
      · rw [h2]
      · symm
        conv_rhs => rw [← List.map_id rest]
        apply List.map_congr_left
        intro x hx
        have : e.1 < x.1 := hs.1 x.1 (List.mem_map.2 ⟨x, hx, rfl⟩)
        rw [if_neg (by omega)]
        rfl
    · have hkr : k ∈ rest.map (fun e => e.1) := by
        rcases hk with h | h
        · exact absurd h h2
        · exact h
      have hlt : e.1 < k := hs.1 k hkr
      rw [if_neg (by omega), if_neg h2, List.map_cons, if_neg (by omega), ih hs.2 hkr]


/-! ### The loops of `ap` -/

theorem pairs_at_length (d : List ℚ) : ∀ (i : List Int) (p : List (ℚ × Int)),
    pairs_at d i = .ok p → p.length = d.length := by
  induction d with
  | nil => intro i p h; cases h; rfl
  | cons x xs ih =>
    intro i p h
    cases i with
    | nil => cases h
    | cons y ys =>
      unfold pairs_at at h
      cases hr : pairs_at xs ys with
      | error e => rw [hr] at h; cases h
      | ok q =>
        rw [hr] at h
        cases h
        simp [ih ys q hr]

theorem record_ap_ok (r : ApRecord) (v : ℚ) (hv : record_ap r = .ok v) :
    ∃ tp fp, pairs_at r.tp_d r.tp_i = .ok tp ∧ pairs_at r.fp_d r.fp_i = .ok fp
      ∧ compute_ap tp fp r.num_pos = .ok v := by
  unfold record_ap at hv
  cases h1 : pairs_at r.tp_d r.tp_i with
  | error e => rw [h1] at hv; cases hv
  | ok tp =>
    cases h2 : pairs_at r.fp_d r.fp_i with
    | error e => rw [h1, bind_ok, h2] at hv; cases hv
    | ok fp =>
      rw [h1, bind_ok, h2, bind_ok] at hv
      exact ⟨tp, fp, rfl, rfl, hv⟩

/-- The body of the loop of `ap` on a record that counts and whose class is new. -/
theorem ap_record_new (s : ApAcc) (r : ApRecord) (v : ℚ) (hv : record_ap r = .ok v)
    (hact : r.active) (hnew : r.label ∉ s.APs.map (fun e => e.1)) :
    ap_record s r
      = .ok { mmAP := s.mmAP + v,
              APs := imap_set s.APs r.label (to_float v),
              APs_count := imap_set s.APs_count r.label 1,
              APs_count_all := wrap32 (s.APs_count_all + 1) } := by
  obtain ⟨tp, fp, h1, h2, h3⟩ := record_ap_ok r v hv
  have hcond : tp.length > 0 ∨ fp.length > 0 ∨ r.num_pos > 0 := by
    rw [pairs_at_length _ _ _ h1, pairs_at_length _ _ _ h2]
    rcases hact with h | h | h
    · exact Or.inl (List.length_pos.2 h)
    · exact Or.inr (Or.inl (List.length_pos.2 h))
    · exact Or.inr (Or.inr h)
  unfold ap_record
  rw [h1, bind_ok, h2, bind_ok, if_pos hcond, h3, bind_ok, imap_find_none _ _ hnew]
  rfl

theorem foldlM_flatten {α σ : Type} (f : σ → α → Except Err σ) (ls : List (List α)) :
    ∀ s : σ, ls.foldlM (fun s l => l.foldlM f s) s = ls.flatten.foldlM f s := by
  induction ls with
  | nil => intro s; rfl
  | cons l rest ih =>
    intro s
    rw [List.flatten_cons, List.foldlM_append, List.foldlM_cons]
    cases h : l.foldlM f s with
    | error e => rfl
    | ok s1 => exact ih s1

/-- The record loop of `ap` on records that all count, of pairwise different classes:
the sum of the values, one entry per class holding the value narrowed to `float`, and
the counts. -/
theorem ap_records_run (val : ApRecord → ℚ) (todo : List ApRecord) :
    ∀ (done : List ApRecord) (s : ApAcc),
      (∀ r ∈ todo, record_ap r = .ok (val r) ∧ r.active) →
      ((done ++ todo).map (fun r => r.label)).Nodup →
      (done ++ todo).length < 2147483648 →
      s.mmAP = (done.map val).sum →
      s.APs.Perm (done.map (fun r => (r.label, to_float (val r)))) →
      imap_sorted s.APs →
      s.APs_count.Perm (done.map (fun r => (r.label, (1 : Int)))) →
      s.APs_count_all = (done.length : Int) →
      ∃ s1, todo.foldlM ap_record s = .ok s1
        ∧ s1.mmAP = ((done ++ todo).map val).sum
        ∧ s1.APs.Perm ((done ++ todo).map (fun r => (r.label, to_float (val r))))
        ∧ imap_sorted s1.APs
        ∧ s1.APs_count.Perm ((done ++ todo).map (fun r => (r.label, (1 : Int))))
        ∧ s1.APs_count_all = ((done ++ todo).length : Int) := by
  induction todo with
  | nil =>
    intro done s _ _ _ i1 i2 i3 i4 i5
    refine ⟨s, rfl, ?_, ?_, i3, ?_, ?_⟩ <;> simpa using by assumption
  | cons r rest ih =>
    intro done s hr hnd hlen i1 i2 i3 i4 i5
    have hsplit : done ++ r :: rest = (done ++ [r]) ++ rest := by simp
    have hnew : r.label ∉ s.APs.map (fun e => e.1) := by
      intro hmem
      have hp := (i2.map (fun e => e.1)).mem_iff.1 hmem
      rw [List.map_map] at hp
      have hp2 : r.label ∈ done.map (fun r => r.label) := hp
      rw [List.map_append, List.map_cons] at hnd
      have := (List.nodup_append.1 hnd).2.2 hp2 (List.mem_cons_self _ _)
      exact this
    obtain ⟨hv, hact⟩ := hr r (List.mem_cons_self _ _)
    rw [List.foldlM_cons, ap_record_new s r (val r) hv hact hnew, bind_ok, hsplit]
    have hlen1 : (done.length : Int) + 1 < 2147483648 := by
      simp only [List.length_append, List.length_cons] at hlen
      omega
    apply ih (done ++ [r])
    · exact fun x hx => hr x (List.mem_cons_of_mem _ hx)
    · rw [← hsplit]; exact hnd
    · rw [← hsplit]; exact hlen
    · simp [i1]
    · rw [List.map_append]
      exact ((imap_set_perm_new s.APs r.label _ hnew).trans
        (List.Perm.cons _ i2)).trans (List.perm_append_singleton _ _).symm
    · exact imap_set_sorted _ _ _ i3
    · have hnewc : r.label ∉ s.APs_count.map (fun e => e.1) := by
        intro hmem
        have hp := (i4.map (fun e => e.1)).mem_iff.1 hmem
        rw [List.map_map] at hp
        have hp2 : r.label ∈ done.map (fun r => r.label) := hp
        rw [List.map_append, List.map_cons] at hnd
        exact (List.nodup_append.1 hnd).2.2 hp2 (List.mem_cons_self _ _)
      rw [List.map_append]
      exact ((imap_set_perm_new s.APs_count r.label _ hnewc).trans
        (List.Perm.cons _ i4)).trans (List.perm_append_singleton _ _).symm
    · show wrap32 (s.APs_count_all + 1) = _
      rw [i5, wrap32_of_range _ (by omega) hlen1]
      simp


/-! ### Narrowing to `float` is idempotent -/

theorem round_half_even_nat (n : Nat) : round_half_even (n : ℚ) = n := by
  have hf : Rat.floor (n : ℚ) = (n : Int) := by
    apply le_antisymm
    · have h1 : ((Rat.floor (n : ℚ) : Int) : ℚ) ≤ (n : ℚ) := Rat.le_floor.1 (le_refl _)
      exact_mod_cast h1
    · exact Rat.le_floor.2 (by simp)
  unfold round_half_even
  simp [hf]

theorem round_half_even_ge (q : ℚ) (N : Nat) (h : (N : ℚ) ≤ q) : N ≤ round_half_even q := by
  have hfl : (N : Int) ≤ Rat.floor q := Rat.le_floor.2 (by simpa using h)
  have hN : N ≤ (Rat.floor q).toNat := by omega
  unfold round_half_even
  simp only []
  split_ifs <;> omega

theorem float_exponent_from_spec (a : ℚ) (fuel : Nat) (e : Int) :
    float_exponent_from a fuel e ≤ e ∧ e - fuel ≤ float_exponent_from a fuel e
      ∧ ((2 : ℚ) ^ (float_exponent_from a fuel e) ≤ a
          ∨ float_exponent_from a fuel e = e - fuel)
      ∧ ∀ k : Int, float_exponent_from a fuel e < k → k ≤ e → a < (2 : ℚ) ^ k := by
  induction fuel generalizing e with
  | zero =>
    simp only [float_exponent_from]
    refine ⟨le_refl _, by simp, Or.inr (by simp), fun k h1 h2 => by omega⟩
  | succ n ih =>
    unfold float_exponent_from
    split_ifs with h
    · refine ⟨le_refl _, by push_cast; omega, Or.inl h, fun k h1 h2 => by omega⟩
    · obtain ⟨i1, i2, i3, i4⟩ := ih (e - 1)
      refine ⟨by omega, by push_cast; omega, ?_, ?_⟩
      · rcases i3 with h3 | h3
        · exact Or.inl h3
        · right; rw [h3]; push_cast; ring
      · intro k h1 h2
        by_cases hk : k = e
        · rw [hk]; exact not_le.1 h
        · exact i4 k h1 (by omega)

theorem float_exponent_unique (a : ℚ) (e0 : Int) (h1 : -126 ≤ e0) (h2 : e0 ≤ 127)
    (h3 : (2 : ℚ) ^ e0 ≤ a ∨ e0 = -126) (h4 : ∀ k : Int, e0 < k → k ≤ 127 → a < (2 : ℚ) ^ k) :
    float_exponent a = e0 := by
  obtain ⟨i1, i2, i3, i4⟩ := float_exponent_from_spec a 253 127
  unfold float_exponent
  rcases lt_trichotomy (float_exponent_from a 253 127) e0 with h | h | h
  · exfalso
    have hlt := i4 e0 h h2
    rcases h3 with h3 | h3
    · exact absurd h3 (not_le.2 hlt)
    · push_cast at i2; omega
  · exact h
  · exfalso
    have hlt := h4 _ h i1
    rcases i3 with h5 | h5
    · exact absurd h5 (not_le.2 hlt)
    · push_cast at h5; omega

theorem to_float_grid (e : Int) (m : Nat) (hm : 0 < m)
    (he : float_exponent (m * (2 : ℚ) ^ (e - 23)) = e) :
    to_float (m * (2 : ℚ) ^ (e - 23)) = m * (2 : ℚ) ^ (e - 23) := by
  have hu : (0 : ℚ) < (2 : ℚ) ^ (e - 23) := by positivity
  have hmq : (0 : ℚ) < (m : ℚ) := by exact_mod_cast hm
  have hpos : (0 : ℚ) < m * (2 : ℚ) ^ (e - 23) := mul_pos hmq hu
  unfold to_float
  rw [if_neg (ne_of_gt hpos), abs_of_pos hpos]
  simp only [he]
  rw [if_neg (not_lt.2 (le_of_lt hpos)), mul_div_assoc, div_self (ne_of_gt hu), mul_one,
    round_half_even_nat, one_mul]

/-- Narrowing a `float` gives the same `float`. -/
theorem to_float_idem (x : ℚ) : to_float (to_float x) = to_float x := by
  by_cases hx : x = 0
  · rw [hx]; simp [to_float]
  · -- reduce to a positive argument
    have key : ∀ a : ℚ, 0 < a → to_float (to_float a) = to_float a
        ∧ ∃ m : Nat, to_float a = m * (2 : ℚ) ^ (float_exponent a - 23) := by
      intro a ha
      obtain ⟨i1, i2, i3, i4⟩ := float_exponent_from_spec a 253 127
      have hfe : float_exponent a = float_exponent_from a 253 127 := rfl
      rw [← hfe] at i1 i2 i3 i4
      have hval : to_float a
          = (round_half_even (a / (2 : ℚ) ^ (float_exponent a - 23)) : ℚ)
              * (2 : ℚ) ^ (float_exponent a - 23) := by
        unfold to_float
        rw [if_neg (ne_of_gt ha), abs_of_pos ha]
        simp only []
        rw [if_neg (not_lt.2 (le_of_lt ha)), one_mul]
      refine ⟨?_, ⟨_, hval⟩⟩
      set e := float_exponent a with he
      set u : ℚ := (2 : ℚ) ^ (e - 23) with hu
      set m := round_half_even (a / u) with hm
      have hupos : 0 < u := by positivity
      have hq0 : 0 ≤ a / u := le_of_lt (div_pos ha hupos)
      rw [hval]
      by_cases hm0 : m = 0
      · rw [hm0]; simp [to_float]
      have hmpos : 0 < m := Nat.pos_of_ne_zero hm0
      have h23 : (2 : ℚ) ^ e = 8388608 * u := by
        rw [hu, zpow_sub₀ (by norm_num : (2 : ℚ) ≠ 0)]
        have h2 : (2 : ℚ) ^ (23 : Int) = 8388608 := by norm_num
        rw [h2]
        field_simp
      have h24 : (2 : ℚ) ^ (e + 1) = 16777216 * u := by
        rw [zpow_add₀ (by norm_num : (2 : ℚ) ≠ 0), h23]
        norm_num
        ring
      -- lower bound on m·u
      have hlow : (2 : ℚ) ^ e ≤ (m : ℚ) * u ∨ e = -126 := by
        rcases i3 with h | h
        · left
          have : ((8388608 : Nat) : ℚ) ≤ a / u := by
            rw [le_div_iff₀ hupos]
            push_cast
            rw [← h23]; exact h
          have := round_half_even_ge (a / u) 8388608 this
          rw [h23]
          have hc : (8388608 : ℚ) ≤ (m : ℚ) := by exact_mod_cast this
          exact mul_le_mul_of_nonneg_right hc (le_of_lt hupos)
        · right; push_cast at h; omega
      by_cases h127 : e = 127
      · -- top binade: the exponent stays 127
        apply to_float_grid e m hmpos
        apply float_exponent_unique _ e (by omega) (by omega)
        · rcases hlow with h | h
          · exact Or.inl h
          · omega
        · intro k hk1 hk2; omega
      · have hup : a < (2 : ℚ) ^ (e + 1) := i4 (e + 1) (by omega) (by omega)
        have hmle : m ≤ 16777216 := by
          apply (round_half_even_spec (a / u) hq0).2
          rw [div_le_iff₀ hupos]
          push_cast
          rw [← h24]; exact le_of_lt hup
        by_cases hm24 : m = 16777216
        · -- rounded up to the next power of two
          have hgrid : (m : ℚ) * u = ((8388608 : Nat) : ℚ) * (2 : ℚ) ^ (e + 1 - 23) := by
            have : (2 : ℚ) ^ (e + 1 - 23) = 2 * u := by
              have : e + 1 - 23 = (e - 23) + 1 := by ring
              rw [this, zpow_add₀ (by norm_num : (2 : ℚ) ≠ 0), ← hu]
              norm_num
              ring
            rw [this, hm24]
            push_cast
            ring
          rw [hgrid]
          apply to_float_grid (e + 1) 8388608 (by norm_num)
          apply float_exponent_unique _ (e + 1) (by omega) (by omega)
          · left
            rw [← hgrid, hm24, h24]
            push_cast
            exact le_refl _
          · intro k hk1 hk2
            rw [← hgrid, hm24]
            push_cast
            rw [← h24]
            exact zpow_lt_zpow_right₀ (by norm_num) hk1
        · have hmlt : m < 16777216 := lt_of_le_of_ne hmle hm24
          apply to_float_grid e m hmpos
          apply float_exponent_unique _ e (by omega) (by omega) hlow
          intro k hk1 hk2
          have h1 : (m : ℚ) * u < (2 : ℚ) ^ (e + 1) := by
            rw [h24]
            have : (m : ℚ) < 16777216 := by exact_mod_cast hmlt
            exact mul_lt_mul_of_pos_right this hupos
          have h2 : (2 : ℚ) ^ (e + 1) ≤ (2 : ℚ) ^ k :=
            zpow_le_zpow_right₀ (by norm_num) (by omega)
          exact lt_of_lt_of_le h1 h2
    rcases lt_or_gt_of_ne hx with hneg | hpos
    · -- negative argument: the value is minus the value at |x|
      have hsym : ∀ y : ℚ, y < 0 → to_float y = -to_float (-y) := by
        intro y hy
        have hy0 : y ≠ 0 := ne_of_lt hy
        have hny : 0 < -y := by linarith
        unfold to_float
        rw [if_neg hy0, if_neg (ne_of_gt hny), abs_of_neg hy, abs_of_pos hny]
        simp only []
        rw [if_pos hy, if_neg (not_lt.2 (le_of_lt hny))]
        ring
      obtain ⟨hk, m, hm⟩ := key (-x) (by linarith)
      rw [hsym x hneg]
      by_cases h0 : to_float (-x) = 0
      · rw [h0]; simp [to_float]
      · have hnn : 0 ≤ to_float (-x) := by
          rw [hm]; positivity
        have hpos2 : 0 < to_float (-x) := lt_of_le_of_ne hnn (Ne.symm h0)
        rw [hsym (-to_float (-x)) (by linarith), neg_neg, hk]
    · exact (key x hpos).1


/-! ### The normalisation loop of `ap` and the mean over the classes -/

theorem ap_normalise_one (cnt : List (Int × Int)) (m : List (Int × ℚ)) (k : Int)
    (hs : imap_sorted m) (hk : k ∈ m.map (fun e => e.1)) (hc : imap_find cnt k = some 1) :
    ap_normalise cnt m k = m.map (fun e => if e.1 = k then (e.1, to_float e.2) else e) := by
  unfold ap_normalise
  simp only [hc, Option.getD_some]
  rw [if_neg (by decide), imap_set_replace m k _ hs hk]
  apply List.map_congr_left
  intro e he
  by_cases hek : e.1 = k
  · have hf : imap_find m k = some e.2 :=
      imap_find_mem m k e.2 (imap_sorted_nodup m hs) (by rw [← hek]; exact he)
    rw [if_pos hek, if_pos hek, hf, Option.getD_some]
    have h1 : to_float ((1 : Int) : ℚ) = 1 := by
      rw [Int.cast_one]; exact to_float_one
    rw [h1, div_one]
  · rw [if_neg hek, if_neg hek]

theorem ap_normalise_fold (cnt : List (Int × Int)) (ks : List Int) :
    ∀ m : List (Int × ℚ), imap_sorted m → ks.Nodup →
      (∀ k ∈ ks, k ∈ m.map (fun e => e.1) ∧ imap_find cnt k = some 1) →
      ks.foldl (ap_normalise cnt) m
        = m.map (fun e => if e.1 ∈ ks then (e.1, to_float e.2) else e) := by
  induction ks with
  | nil =>
    intro m _ _ _
    simp
  | cons k rest ih =>
    intro m hs hnd hk
    obtain ⟨hk1, hk2⟩ := hk k (List.mem_cons_self _ _)
    have hkeys : (m.map (fun e => if e.1 = k then (e.1, to_float e.2) else e)).map
        (fun e => e.1) = m.map (fun e => e.1) := by
      rw [List.map_map]
      apply List.map_congr_left
      intro e _
      by_cases hek : e.1 = k <;> simp [hek]
    rw [List.foldl_cons, ap_normalise_one cnt m k hs hk1 hk2, ih _ _ (List.nodup_cons.1 hnd).2,
      List.map_map]
    · apply List.map_congr_left
      intro e _
      by_cases hek : e.1 = k
      · have hnr : k ∉ rest := (List.nodup_cons.1 hnd).1
        simp [hek, hnr]
      · simp [hek]
    · intro k1 hk1r
      rw [hkeys]
      exact hk k1 (List.mem_cons_of_mem _ hk1r)
    · unfold imap_sorted
      rw [hkeys]
      exact hs

theorem ap_mean_aux (ad : ApPayload) (val : ApRecord → ℚ)
    (hone : (ad.all.map (fun r => r.label)).Nodup)
    (hval : ∀ r ∈ ad.all, record_ap r = .ok (val r) ∧ r.active)
    (hlen : ad.all.length < 2147483648) :
    ∃ aps, ap ad [] = .ok (mean (ad.all.map val), aps)
      ∧ aps.Perm (ad.all.map (fun r => (r.label, to_float (val r)))) := by
  obtain ⟨s1, h1, j1, j2, j3, j4, j5⟩ := ap_records_run val ad.all [] 
    { mmAP := 0, APs := [], APs_count := [], APs_count_all := 0 } hval
    (by simpa using hone) (by simpa using hlen) rfl (List.Perm.refl _)
    (by simp [imap_sorted]) (List.Perm.refl _) rfl
  simp only [List.nil_append] at j1 j2 j4 j5
  have hnd : (s1.APs.map (fun e => e.1)).Nodup := imap_sorted_nodup _ j3
  have hkeys : ∀ k ∈ s1.APs.map (fun e => e.1),
      k ∈ s1.APs.map (fun e => e.1) ∧ imap_find s1.APs_count k = some 1 := by
    intro k hk
    refine ⟨hk, ?_⟩
    have hk2 := (j2.map (fun e => e.1)).mem_iff.1 hk
    rw [List.map_map] at hk2
    obtain ⟨r, hr, hrk⟩ := List.mem_map.1 hk2
    apply imap_find_mem
    · have hp := (j4.map (fun e => e.1)).nodup_iff
      rw [hp, List.map_map]
      exact hone
    · apply j4.mem_iff.2
      exact List.mem_map.2 ⟨r, hr, by rw [← hrk]; rfl⟩
  have hnorm := ap_normalise_fold s1.APs_count (s1.APs.map (fun e => e.1)) s1.APs j3 hnd hkeys
  have hall : s1.APs.map
        (fun e => if e.1 ∈ s1.APs.map (fun e => e.1) then (e.1, to_float e.2) else e)
      = s1.APs.map (fun e => (e.1, to_float e.2)) := by
    apply List.map_congr_left
    intro e he
    rw [if_pos (List.mem_map.2 ⟨e, he, rfl⟩)]
  rw [hall] at hnorm
  refine ⟨s1.APs.map (fun e => (e.1, to_float e.2)), ?_, ?_⟩
  · unfold ap
    rw [foldlM_flatten]
    have h1b : List.foldlM ap_record
        { mmAP := 0, APs := [], APs_count := [], APs_count_all := 0 } ad.records.flatten
        = .ok s1 := h1
    rw [h1b, bind_ok]
    simp only [hnorm]
    by_cases h0 : s1.APs_count_all = 0
    · rw [if_pos h0]
      have hl : ad.all.length = 0 := by
        rw [j5] at h0
        exact_mod_cast h0
      have hnil : ad.all = [] := List.length_eq_zero.1 hl
      rw [hnil]
      simp [mean, pure, Except.pure]
    · rw [if_neg h0, j1, j5]
      simp [mean, pure, Except.pure]
  · have := j2.map (fun e : Int × ℚ => (e.1, to_float e.2))
    rw [List.map_map] at this
    refine this.trans (List.Perm.of_eq ?_)
    apply List.map_congr_left
    intro r _
    simp [to_float_idem]


/-- C12 (as amended). For every detection payload in which every class has exactly one
record, every record holds at least one detection or one ground truth and has an
average precision (`compute_ap` returns), `ap`, called with an empty `APs`, returns the
arithmetic mean over the classes of the per-class values of `compute_ap`, and outputs
in `APs`, for every class, that value narrowed to `float`: the mean of the values of
`APs` is the mean of the narrowed values. -/
theorem ap_mean_of_classes (ad : ApPayload) (val : ApRecord → ℚ)
    (hone : (ad.all.map (fun r => r.label)).Nodup)
    (hval : ∀ r ∈ ad.all, record_ap r = .ok (val r) ∧ r.active)
    (hlen : ad.all.length < 2147483648) :
    ∃ aps, ap ad [] = .ok (mean (ad.all.map val), aps)
      ∧ aps.Perm (ad.all.map (fun r => (r.label, to_float (val r))))
      ∧ mean (aps.map (fun e => e.2)) = mean (ad.all.map (fun r => to_float (val r))) := by
  obtain ⟨aps, h1, h2⟩ := ap_mean_aux ad val hone hval hlen
  refine ⟨aps, h1, h2, ?_⟩
  have h3 := h2.map (fun e : Int × ℚ => e.2)
  rw [List.map_map] at h3
  unfold mean
  rw [h3.sum_eq, h3.length_eq]
  rfl

/-- C12 (witness). One class with a true positive (AP 1) and one class with a false
positive (AP 0): the value returned is 1/2. -/
theorem ap_mean_of_classes_witness :
    ∃ aps, ap payload_two_classes []
        = .ok (mean (payload_two_classes.all.map (fun r => if r.label = 1 then 1 else 0)), aps)
      ∧ aps.Perm (payload_two_classes.all.map
          (fun r => (r.label, to_float (if r.label = 1 then 1 else 0))))
      ∧ mean (aps.map (fun e => e.2))
          = mean (payload_two_classes.all.map
              (fun r => to_float (if r.label = 1 then 1 else 0))) :=
  ap_mean_of_classes payload_two_classes (fun r => if r.label = 1 then 1 else 0)
    (by decide)
    (by
      intro r hr
      have hr2 : r = record_one_tp 1 ∨ r = record_one_fp 2 := by
        simpa [payload_two_classes, ApPayload.all] using hr
      rcases hr2 with rfl | rfl
      · exact ⟨by decide!, Or.inl (List.cons_ne_nil _ _)⟩
      · exact ⟨by decide!, Or.inl (List.cons_ne_nil _ _)⟩)
    (by decide)

/-- C12 (counterexamples). A class whose record holds neither detection nor ground truth
gets the value 0 in `APs` and does not count in the value returned: `ap` returns 1 where
the mean of the values of `APs` is 1/2. A class with two records counts twice in the
value returned: `ap` returns 2/3 where the mean of the values of `APs` is 1/2. -/
theorem ap_not_mean_of_classes :
    (ap payload_empty_class [] = .ok (1, [(1, 1), (2, 0)])
      ∧ mean ([((1 : Int), (1 : ℚ)), (2, 0)].map (fun e => e.2)) = 1 / 2)
    ∧ ap payload_repeated_class [] = .ok (2 / 3, [(1, 1), (2, 0)]) := by
  refine ⟨⟨by decide!, by decide!⟩, by decide!⟩


/-! ## The confusion matrix of `mf1` and `mcc` -/

theorem spec_cell_append (done : List Sample) (s : Sample) (r c : Nat) :
    spec_cell (done ++ [s]) r c
      = spec_cell done r c
        + (if max_element s.pred = r ∧ target_index s.target = c then 1 else 0) := by
  unfold spec_cell
  rw [List.countP_append, List.countP_cons, List.countP_nil]
  simp

theorem count_matrix_square (n : Nat) (S : List Sample) : mat_square n (count_matrix n S) := by
  refine ⟨by simp [count_matrix], ?_⟩
  intro row hrow
  simp only [count_matrix, List.mem_map] at hrow
  obtain ⟨r, _, rfl⟩ := hrow
  simp

theorem count_matrix_get (n : Nat) (S : List Sample) (r c : Nat) (hr : r < n) (hc : c < n) :
    ((count_matrix n S).getD r []).getD c 0 = (spec_cell S r c : ℚ) := by
  simp [count_matrix, hr, hc]

theorem mat_incr_count (n : Nat) (done : List Sample) (s : Sample)
    (hr : max_element s.pred < n) (hc : target_index s.target < n) :
    mat_incr (count_matrix n done) (max_element s.pred) (target_index s.target)
      = .ok (count_matrix n (done ++ [s])) := by
  have hrow : (count_matrix n done)[max_element s.pred]?
      = some ((List.range n).map (fun c => (spec_cell done (max_element s.pred) c : ℚ))) := by
    simp [count_matrix, hr]
  have hcell : ((List.range n).map
        (fun c => (spec_cell done (max_element s.pred) c : ℚ)))[target_index s.target]?
      = some (spec_cell done (max_element s.pred) (target_index s.target) : ℚ) := by
    simp [hc]
  unfold mat_incr
  rw [hrow]
  simp only [hcell]
  congr 1
  apply List.ext_getElem
  · simp [count_matrix]
  · intro i h1 h2
    have hi : i < n := by simpa [count_matrix] using h2
    by_cases hir : i = max_element s.pred
    · subst hir
      rw [List.getElem_set_self]
      simp only [count_matrix, List.getElem_map, List.getElem_range]
      apply List.ext_getElem
      · simp
      · intro j g1 g2
        have hj : j < n := by simpa using g2
        by_cases hjc : j = target_index s.target
        · subst hjc
          rw [List.getElem_set_self]
          simp [spec_cell_append]
        · have hjc1 : ¬ target_index s.target = j := fun h => hjc h.symm
          rw [List.getElem_set_ne hjc1]
          simp [spec_cell_append, hjc1]
    · have hir1 : ¬ max_element s.pred = i := fun h => hir h.symm
      rw [List.getElem_set_ne hir1]
      simp only [count_matrix, List.getElem_map, List.getElem_range]
      apply List.map_congr_left
      intro j _
      simp [spec_cell_append, hir1]

theorem conf_matrix_fold (nclasses : Int) (todo : List Sample) :
    ∀ done : List Sample,
      (∀ s ∈ todo, (0 ≤ s.target ∧ s.target < nclasses)
        ∧ s.pred ≠ [] ∧ (s.pred.length : Int) = nclasses) →
      todo.foldlM (conf_matrix_step nclasses) (count_matrix nclasses.toNat done)
        = .ok (count_matrix nclasses.toNat (done ++ todo)) := by
  induction todo with
  | nil => intro done _; rw [List.append_nil]; rfl
  | cons s rest ih =>
    intro done h
    obtain ⟨⟨h0, h1⟩, hne, hlen⟩ := h s (List.mem_cons_self _ _)
    have hmax := max_element_lt s.pred hne
    have hti := target_index_lt nclasses s.target h0 h1
    have hstep : conf_matrix_step nclasses (count_matrix nclasses.toNat done) s
        = .ok (count_matrix nclasses.toNat (done ++ [s])) := by
      unfold conf_matrix_step
      rw [check_target_ok _ _ h0 h1, bind_ok]
      exact mat_incr_count _ done s (by omega) (by omega)
    rw [List.foldlM_cons, hstep, bind_ok, ih (done ++ [s])
      (fun x hx => h x (List.mem_cons_of_mem _ hx))]
    simp

/-- On a batch with valid targets and prediction vectors of length `nclasses`, the loop
of `mf1` and `mcc` builds the raw count matrix. -/
theorem conf_matrix_loop_eq (ad : Batch) (hn : 0 ≤ ad.nclasses) (ht : ad.targets_valid)
    (hp : ad.preds_full) :
    conf_matrix_loop ad = .ok (count_matrix ad.nclasses.toNat ad.samples) := by
  unfold conf_matrix_loop
  rw [if_neg (by omega)]
  have h0 : mat_zero ad.nclasses.toNat = count_matrix ad.nclasses.toNat [] := by
    simp [mat_zero, count_matrix, spec_cell, List.map_const']
  rw [h0, conf_matrix_fold ad.nclasses ad.samples [] (fun s hs => ⟨ht s hs, hp s hs⟩)]
  simp


theorem zipWith_map_same {α : Type} (f : ℚ → ℚ → ℚ) (g h : α → ℚ) (l : List α) :
    List.zipWith f (l.map g) (l.map h) = l.map (fun i => f (g i) (h i)) := by
  induction l with
  | nil => rfl
  | cons a rest ih => simp [ih]

theorem vsum_eq_sum (v : List ℚ) : vsum v = v.sum := by
  unfold vsum
  rw [List.sum_eq_foldl]

theorem mat_diag_count (n : Nat) (S : List Sample) :
    mat_diag (count_matrix n S) = (List.range n).map (fun i => (spec_cell S i i : ℚ)) := by
  unfold mat_diag
  have hl : (count_matrix n S).length = n := (count_matrix_square n S).1
  rw [hl]
  apply List.map_congr_left
  intro i hi
  exact count_matrix_get n S i i (List.mem_range.1 hi) (List.mem_range.1 hi)

theorem mat_csum_count (n : Nat) (S : List Sample) :
    mat_csum (count_matrix n S) = (List.range n).map (spec_col_sum n S) := by
  unfold mat_csum
  have hl : (count_matrix n S).length = n := (count_matrix_square n S).1
  rw [hl]
  apply List.map_congr_left
  intro j hj
  have hj1 : j < n := List.mem_range.1 hj
  rw [vsum_eq_sum]
  unfold spec_col_sum count_matrix
  rw [List.map_map]
  congr 1
  apply List.map_congr_left
  intro r _
  simp [hj1]

theorem mat_rsum_count (n : Nat) (S : List Sample) :
    mat_rsum (count_matrix n S) = (List.range n).map (spec_row_sum n S) := by
  unfold mat_rsum count_matrix
  rw [List.map_map]
  apply List.map_congr_left
  intro r _
  simp only [Function.comp, vsum_eq_sum]
  rfl

theorem sum_indicator (n r0 : Nat) (h : r0 < n) (x : Nat) :
    ((List.range n).map (fun r => if r0 = r then x else 0)).sum = x := by
  induction n with
  | zero => omega
  | succ k ih =>
    rw [List.range_succ, List.map_append, List.sum_append]
    by_cases hk : r0 = k
    · have hz : ((List.range k).map (fun r => if r0 = r then x else 0)).sum = 0 := by
        apply List.sum_eq_zero
        intro y hy
        obtain ⟨r, hr, rfl⟩ := List.mem_map.1 hy
        have : r < k := List.mem_range.1 hr
        rw [if_neg (by omega)]
      rw [hz]
      simp [hk]
    · rw [ih (by omega)]
      simp [hk]

/-- The sum of a column of the raw count matrix is the number of samples of that
target, when every argmax lies in the matrix. -/
theorem spec_col_sum_eq (n : Nat) (S : List Sample) (c : Nat)
    (h : ∀ s ∈ S, max_element s.pred < n) : spec_col_sum n S c = (spec_col S c : ℚ) := by
  unfold spec_col_sum
  have hnat : ((List.range n).map (fun i => spec_cell S i c)).sum = spec_col S c := by
    induction S with
    | nil => simp [spec_cell, spec_col]
    | cons s rest ih =>
      have ih1 := ih (fun x hx => h x (List.mem_cons_of_mem _ hx))
      have hs := h s (List.mem_cons_self _ _)
      have hcell : ∀ i, spec_cell (s :: rest) i c
          = spec_cell rest i c
            + (if max_element s.pred = i then (if target_index s.target = c then 1 else 0)
                else 0) := by
        intro i
        unfold spec_cell
        rw [List.countP_cons]
        by_cases h1 : max_element s.pred = i <;> by_cases h2 : target_index s.target = c <;>
          simp [h1, h2]
      have hcol : spec_col (s :: rest) c
          = spec_col rest c + (if target_index s.target = c then 1 else 0) := by
        unfold spec_col
        rw [List.countP_cons]
        by_cases h2 : target_index s.target = c <;> simp [h2]
      simp only [hcell, hcol]
      rw [List.sum_map_add, ih1, sum_indicator n _ hs]
  rw [← hnat]
  push_cast
  rw [List.map_map]
  rfl


/-- The outputs of `mf1` on a batch with valid targets and prediction vectors of length
`nclasses`, in terms of the raw count matrix. -/
theorem mf1_run (ad : Batch) (hn : 0 ≤ ad.nclasses) (ht : ad.targets_valid)
    (hp : ad.preds_full) :
    ∃ out, mf1 ad = .ok out
      ∧ out.recallV = (List.range ad.nclasses.toNat).map
          (spec_recall ad.nclasses.toNat ad.samples)
      ∧ out.precisionV = (List.range ad.nclasses.toNat).map
          (spec_precision ad.nclasses.toNat ad.samples)
      ∧ out.recall_m = fdiv (vsum out.recallV) ad.nclasses
      ∧ out.precision_m = fdiv (vsum out.precisionV) ad.nclasses
      ∧ out.f1V = List.zipWith (fun p r => 2 * (p * r) / (p + r + mf1_eps))
          out.precisionV out.recallV
      ∧ out.f1 = fdiv (vsum out.f1V) ad.nclasses
      ∧ out.conf_matrix = (List.range ad.nclasses.toNat).map (fun r =>
          (List.range ad.nclasses.toNat).map (fun c =>
            if 0 < spec_col_sum ad.nclasses.toNat ad.samples c
            then (spec_cell ad.samples r c : ℚ) / spec_col_sum ad.nclasses.toNat ad.samples c
            else (spec_cell ad.samples r c : ℚ))) := by
  have hrec : List.zipWith (fun d c => d / (c + mf1_eps))
        (mat_diag (count_matrix ad.nclasses.toNat ad.samples))
        (mat_csum (count_matrix ad.nclasses.toNat ad.samples))
      = (List.range ad.nclasses.toNat).map (spec_recall ad.nclasses.toNat ad.samples) := by
    rw [mat_diag_count, mat_csum_count, zipWith_map_same]
    rfl
  have hprec : List.zipWith (fun d r => d / (r + mf1_eps))
        (mat_diag (count_matrix ad.nclasses.toNat ad.samples))
        (mat_rsum (count_matrix ad.nclasses.toNat ad.samples))
      = (List.range ad.nclasses.toNat).map (spec_precision ad.nclasses.toNat ad.samples) := by
    rw [mat_diag_count, mat_rsum_count, zipWith_map_same]
    rfl
  have hcm : (count_matrix ad.nclasses.toNat ad.samples).map (fun row =>
        List.zipWith (fun x c => if 0 < c then x / c else x) row
          (mat_csum (count_matrix ad.nclasses.toNat ad.samples)))
      = (List.range ad.nclasses.toNat).map (fun r =>
          (List.range ad.nclasses.toNat).map (fun c =>
            if 0 < spec_col_sum ad.nclasses.toNat ad.samples c
            then (spec_cell ad.samples r c : ℚ) / spec_col_sum ad.nclasses.toNat ad.samples c
            else (spec_cell ad.samples r c : ℚ))) := by
    rw [mat_csum_count]
    unfold count_matrix
    rw [List.map_map]
    apply List.map_congr_left
    intro r _
    simp only [Function.comp]
    rw [zipWith_map_same]
  refine ⟨_, by unfold mf1; rw [conf_matrix_loop_eq ad hn ht hp, bind_ok]; rfl,
    hrec, hprec, ?_, ?_, ?_, ?_, hcm⟩
  · show fdiv _ _ = fdiv _ _
    rw [hrec]
  · show fdiv _ _ = fdiv _ _
    rw [hprec]
  · rfl
  · rfl

theorem spec_cell_le_col (S : List Sample) (r c : Nat) : spec_cell S r c ≤ spec_col S c := by
  unfold spec_cell spec_col
  apply List.countP_mono_left
  intro s _ h
  simp only [decide_eq_true_eq] at h ⊢
  exact h.2

theorem preds_full_argmax (ad : Batch) (hp : ad.preds_full) :
    ∀ s ∈ ad.samples, max_element s.pred < ad.nclasses.toNat := by
  intro s hs
  obtain ⟨hne, hlen⟩ := hp s hs
  have := max_element_lt s.pred hne
  omega

/-- C13. For every batch with valid targets and prediction vectors of length `nclasses`,
the confusion matrix produced by `mf1` is the `nclasses x nclasses` matrix whose entry
`(r, c)` is the number of samples with argmax prediction `r` (first maximal index) and
target `c` divided by the number of samples of target `c`, and 0 when no sample has
target `c`: a column of a class with at least one sample sums to 1, a column of a class
with no sample is all zero. -/
theorem mf1_conf_matrix (ad : Batch) (hn : 0 ≤ ad.nclasses) (ht : ad.targets_valid)
    (hp : ad.preds_full) :
    ∃ out, mf1 ad = .ok out
      ∧ out.conf_matrix = (List.range ad.nclasses.toNat).map (fun r =>
          (List.range ad.nclasses.toNat).map (fun c => spec_entry ad.samples r c))
      ∧ ∀ c, c < ad.nclasses.toNat →
          (0 < spec_col ad.samples c →
            ((List.range ad.nclasses.toNat).map (fun r => spec_entry ad.samples r c)).sum = 1)
          ∧ (spec_col ad.samples c = 0 → ∀ r, spec_entry ad.samples r c = 0) := by
  obtain ⟨out, h1, _, _, _, _, _, _, hcm⟩ := mf1_run ad hn ht hp
  have hcs : ∀ c, spec_col_sum ad.nclasses.toNat ad.samples c = (spec_col ad.samples c : ℚ) :=
    fun c => spec_col_sum_eq _ _ c (preds_full_argmax ad hp)
  refine ⟨out, h1, ?_, ?_⟩
  · rw [hcm]
    apply List.map_congr_left
    intro r _
    apply List.map_congr_left
    intro c _
    unfold spec_entry
    rw [hcs c]
    by_cases h0 : spec_col ad.samples c = 0
    · have hcell : spec_cell ad.samples r c = 0 := by
        have := spec_cell_le_col ad.samples r c
        omega
      simp [h0, hcell]
    · have hpos : (0 : ℚ) < (spec_col ad.samples c : ℚ) := by
        exact_mod_cast Nat.pos_of_ne_zero h0
      rw [if_pos hpos, if_neg h0]
  · intro c _
    constructor
    · intro hpos
      have hne : spec_col ad.samples c ≠ 0 := by omega
      have hq : ((spec_col ad.samples c : Nat) : ℚ) ≠ 0 := by exact_mod_cast hne
      have hmap : (List.range ad.nclasses.toNat).map (fun r => spec_entry ad.samples r c)
          = (List.range ad.nclasses.toNat).map
              (fun r => (spec_cell ad.samples r c : ℚ) * (spec_col ad.samples c : ℚ)⁻¹) := by
        apply List.map_congr_left
        intro r _
        unfold spec_entry
        rw [if_neg hne, div_eq_mul_inv]
      rw [hmap, List.sum_map_mul_right]
      have := hcs c
      unfold spec_col_sum at this
      rw [this]
      exact mul_inv_cancel₀ hq
    · intro h0 r
      unfold spec_entry
      rw [if_pos h0]

/-- C13 (witness). The two-sample scenario of the specification. -/
theorem mf1_conf_matrix_witness :
    ∃ out, mf1 batch_two_right = .ok out
      ∧ out.conf_matrix = (List.range batch_two_right.nclasses.toNat).map (fun r =>
          (List.range batch_two_right.nclasses.toNat).map
            (fun c => spec_entry batch_two_right.samples r c))
      ∧ ∀ c, c < batch_two_right.nclasses.toNat →
          (0 < spec_col batch_two_right.samples c →
            ((List.range batch_two_right.nclasses.toNat).map
              (fun r => spec_entry batch_two_right.samples r c)).sum = 1)
          ∧ (spec_col batch_two_right.samples c = 0 →
              ∀ r, spec_entry batch_two_right.samples r c = 0) :=
  mf1_conf_matrix batch_two_right (by decide)
    (by simp [Batch.targets_valid, batch_two_right])
    (by simp [Batch.preds_full, batch_two_right])

/-- The confusion matrix of the two-sample scenario is `diag(1, 1)`; with three classes,
one of them without sample, the column of that class is zero. -/
theorem mf1_conf_matrix_examples :
    (mf1 batch_two_right).map (fun out => out.conf_matrix) = .ok [[1, 0], [0, 1]]
      ∧ (mf1 batch_three_classes).map (fun out => out.conf_matrix)
          = .ok [[1, 1 / 2, 0], [0, 1 / 2, 0], [0, 0, 0]] := by
  refine ⟨by decide!, by decide!⟩


theorem spec_precision_zero (n : Nat) (S : List Sample) (c : Nat) (hc : c < n)
    (h : spec_row_sum n S c = 0) : spec_precision n S c = 0 := by
  unfold spec_precision
  have hcell : (spec_cell S c c : ℚ) = 0 := by
    unfold spec_row_sum at h
    have hle : (spec_cell S c c : ℚ)
        ≤ ((List.range n).map (fun j => (spec_cell S c j : ℚ))).sum := by
      apply List.single_le_sum
      · intro x hx
        obtain ⟨j, _, rfl⟩ := List.mem_map.1 hx
        exact Nat.cast_nonneg _
      · exact List.mem_map.2 ⟨c, List.mem_range.2 hc, rfl⟩
    have h0 : (0 : ℚ) ≤ (spec_cell S c c : ℚ) := Nat.cast_nonneg _
    linarith
  rw [hcell, zero_div]

theorem spec_recall_zero (n : Nat) (S : List Sample) (c : Nat)
    (h : spec_col S c = 0) : spec_recall n S c = 0 := by
  unfold spec_recall
  have hcell : spec_cell S c c = 0 := by
    have := spec_cell_le_col S c c
    omega
  rw [hcell, Nat.cast_zero, zero_div]

/-- C14. For every batch with valid targets, prediction vectors of length `nclasses` and
`nclasses >= 1`, `mf1` computes from the raw count matrix `M` (row = argmax, column =
target) the per-class `precision_c = M[c][c] / (sum of row c + 1e-8)` and `recall_c =
M[c][c] / (sum of column c + 1e-8)`, and returns as scalar precision and recall the
sums of these values divided by `nclasses`; a class with no prediction has precision 0
and a class with no sample has recall 0, and both count in the divisor. -/
theorem mf1_precision_recall (ad : Batch) (hn : 1 ≤ ad.nclasses) (ht : ad.targets_valid)
    (hp : ad.preds_full) :
    ∃ out, mf1 ad = .ok out
      ∧ out.precisionV
          = (List.range ad.nclasses.toNat).map (spec_precision ad.nclasses.toNat ad.samples)
      ∧ out.recallV
          = (List.range ad.nclasses.toNat).map (spec_recall ad.nclasses.toNat ad.samples)
      ∧ out.precision_m = .ok (((List.range ad.nclasses.toNat).map
          (spec_precision ad.nclasses.toNat ad.samples)).sum / (ad.nclasses : ℚ))
      ∧ out.recall_m = .ok (((List.range ad.nclasses.toNat).map
          (spec_recall ad.nclasses.toNat ad.samples)).sum / (ad.nclasses : ℚ))
      ∧ ∀ c, c < ad.nclasses.toNat →
          (spec_row_sum ad.nclasses.toNat ad.samples c = 0 →
            spec_precision ad.nclasses.toNat ad.samples c = 0)
          ∧ (spec_col ad.samples c = 0 → spec_recall ad.nclasses.toNat ad.samples c = 0) := by
  obtain ⟨out, h1, hr, hpV, hrm, hpm, _, _, _⟩ := mf1_run ad (by omega) ht hp
  have hne : ((ad.nclasses : Int) : ℚ) ≠ 0 := Int.cast_ne_zero.2 (by omega)
  refine ⟨out, h1, hpV, hr, ?_, ?_, ?_⟩
  · rw [hpm, hpV, vsum_eq_sum]
    unfold fdiv
    rw [if_neg hne]
  · rw [hrm, hr, vsum_eq_sum]
    unfold fdiv
    rw [if_neg hne]
  · intro c hc
    exact ⟨spec_precision_zero _ _ c hc, spec_recall_zero _ _ c⟩

/-- C14 (witness). Three classes: class 0 has one sample and two predictions, class 1 two
samples and one prediction, class 2 neither. -/
theorem mf1_precision_recall_witness :
    ∃ out, mf1 batch_three_classes = .ok out
      ∧ out.precisionV = (List.range batch_three_classes.nclasses.toNat).map
          (spec_precision batch_three_classes.nclasses.toNat batch_three_classes.samples)
      ∧ out.recallV = (List.range batch_three_classes.nclasses.toNat).map
          (spec_recall batch_three_classes.nclasses.toNat batch_three_classes.samples)
      ∧ out.precision_m = .ok (((List.range batch_three_classes.nclasses.toNat).map
          (spec_precision batch_three_classes.nclasses.toNat
            batch_three_classes.samples)).sum / (batch_three_classes.nclasses : ℚ))
      ∧ out.recall_m = .ok (((List.range batch_three_classes.nclasses.toNat).map
          (spec_recall batch_three_classes.nclasses.toNat
            batch_three_classes.samples)).sum / (batch_three_classes.nclasses : ℚ))
      ∧ ∀ c, c < batch_three_classes.nclasses.toNat →
          (spec_row_sum batch_three_classes.nclasses.toNat batch_three_classes.samples c = 0 →
            spec_precision batch_three_classes.nclasses.toNat batch_three_classes.samples c = 0)
          ∧ (spec_col batch_three_classes.samples c = 0 →
            spec_recall batch_three_classes.nclasses.toNat batch_three_classes.samples c = 0) :=
  mf1_precision_recall batch_three_classes (by decide)
    (by simp [Batch.targets_valid, batch_three_classes])
    (by simp [Batch.preds_full, batch_three_classes])

/-- The per-class values on the three-class batch: precision `1 / (2 + 1e-8)`,
`1 / (1 + 1e-8)` and 0, recall `1 / (1 + 1e-8)`, `1 / (2 + 1e-8)` and 0. -/
theorem mf1_precision_recall_examples :
    (mf1 batch_three_classes).map (fun out => out.precisionV)
        = .ok [1 / (2 + 1 / 100000000), 1 / (1 + 1 / 100000000), 0]
      ∧ (mf1 batch_three_classes).map (fun out => out.recallV)
        = .ok [1 / (1 + 1 / 100000000), 1 / (2 + 1 / 100000000), 0] := by
  refine ⟨by decide!, by decide!⟩


/-! ### `mf1` on a batch without error -/

theorem target_index_nat (k : Nat) : target_index (k : ℚ) = k := by
  unfold target_index
  have hf : Rat.floor (k : ℚ) = (k : Int) := by
    apply le_antisymm
    · have h1 : ((Rat.floor (k : ℚ) : Int) : ℚ) ≤ (k : ℚ) := Rat.le_floor.1 (le_refl _)
      exact_mod_cast h1
    · exact Rat.le_floor.2 (by simp)
  rw [hf]
  simp

theorem sum_indicator_rat (n r0 : Nat) (h : r0 < n) (x : ℚ) :
    ((List.range n).map (fun r => if r0 = r then x else 0)).sum = x := by
  induction n with
  | zero => omega
  | succ k ih =>
    rw [List.range_succ, List.map_append, List.sum_append]
    by_cases hk : r0 = k
    · have hz : ((List.range k).map (fun r => if r0 = r then x else 0)).sum = 0 := by
        apply List.sum_eq_zero
        intro y hy
        obtain ⟨r, hr, rfl⟩ := List.mem_map.1 hy
        have : r < k := List.mem_range.1 hr
        rw [if_neg (by omega)]
      rw [hz]
      simp [hk]
    · rw [ih (by omega)]
      simp [hk]

theorem spec_cell_all_right (S : List Sample)
    (h : ∀ s ∈ S, max_element s.pred = target_index s.target) (r c : Nat) :
    spec_cell S r c = if r = c then spec_col S c else 0 := by
  unfold spec_cell spec_col
  by_cases hrc : r = c
  · rw [if_pos hrc]
    apply List.countP_congr
    intro s hs
    simp only [decide_eq_true_eq]
    rw [h s hs, hrc]
    exact and_self_iff
  · rw [if_neg hrc]
    rw [List.countP_eq_zero]
    intro s hs
    simp only [decide_eq_true_eq]
    rw [h s hs]
    rintro ⟨h1, h2⟩
    exact hrc (h1.symm.trans h2)

/-- The per-class F1 value when precision and recall are both `k / (k + 1e-8)` with
`k ≥ 1`: strictly between `1 - 2e-8` and 1. -/
theorem f1_value_bounds (k : ℚ) (hk : 1 ≤ k) :
    1 - 2 / 100000000
        < 2 * (k / (k + mf1_eps) * (k / (k + mf1_eps)))
            / (k / (k + mf1_eps) + k / (k + mf1_eps) + mf1_eps)
      ∧ 2 * (k / (k + mf1_eps) * (k / (k + mf1_eps)))
            / (k / (k + mf1_eps) + k / (k + mf1_eps) + mf1_eps) < 1 := by
  have heps : mf1_eps = 1 / 100000000 := rfl
  rw [heps]
  have hk0 : (0 : ℚ) < k + 1 / 100000000 := by linarith
  set p := k / (k + 1 / 100000000) with hp
  have hp1 : p < 1 := by
    rw [hp, div_lt_one hk0]; linarith
  have hp0 : 1 - 1 / 100000000 < p := by
    rw [hp, lt_div_iff₀ hk0]
    nlinarith
  have hden : (0 : ℚ) < p + p + 1 / 100000000 := by linarith
  constructor
  · rw [lt_div_iff₀ hden]
    nlinarith
  · rw [div_lt_one hden]
    nlinarith

theorem sum_bounds (l : List ℚ) (a b : ℚ) (hne : l ≠ [])
    (h : ∀ x ∈ l, a < x ∧ x < b) :
    a * (l.length : ℚ) < l.sum ∧ l.sum < b * (l.length : ℚ) := by
  induction l with
  | nil => exact absurd rfl hne
  | cons x rest ih =>
    obtain ⟨hx1, hx2⟩ := h x (List.mem_cons_self _ _)
    by_cases hr : rest = []
    · subst hr
      simp only [List.sum_cons, List.sum_nil, List.length_cons, List.length_nil]
      push_cast
      constructor <;> linarith
    · obtain ⟨i1, i2⟩ := ih hr (fun y hy => h y (List.mem_cons_of_mem _ hy))
      simp only [List.sum_cons, List.length_cons]
      push_cast
      constructor <;> linarith

theorem mf1_all_right_aux (ad : Batch) (hn : 1 ≤ ad.nclasses) (hp : ad.preds_full)
    (hright : ∀ s ∈ ad.samples, ((max_element s.pred : Nat) : ℚ) = s.target)
    (hall : ∀ c, c < ad.nclasses.toNat → 0 < spec_col ad.samples c) :
    ∃ out v, mf1 ad = .ok out ∧ out.f1 = .ok v ∧ 1 - 2 / 100000000 < v ∧ v < 1 := by
  have hidx : ∀ s ∈ ad.samples, max_element s.pred = target_index s.target := by
    intro s hs
    rw [← hright s hs, target_index_nat]
  have harg := preds_full_argmax ad hp
  have ht : ad.targets_valid := by
    intro s hs
    rw [← hright s hs]
    have := harg s hs
    refine ⟨Nat.cast_nonneg _, ?_⟩
    have h2 : ((max_element s.pred : Nat) : Int) < ad.nclasses := by omega
    exact_mod_cast h2
  obtain ⟨out, h1, hr, hpV, _, _, hf1V, hf1, _⟩ := mf1_run ad (by omega) ht hp
  have hcell := spec_cell_all_right ad.samples hidx
  have hprec : ∀ c, c < ad.nclasses.toNat →
      spec_precision ad.nclasses.toNat ad.samples c
        = (spec_col ad.samples c : ℚ) / ((spec_col ad.samples c : ℚ) + mf1_eps) := by
    intro c hc
    unfold spec_precision spec_row_sum
    have hrow : (List.range ad.nclasses.toNat).map (fun j => (spec_cell ad.samples c j : ℚ))
        = (List.range ad.nclasses.toNat).map
            (fun j => if c = j then (spec_col ad.samples c : ℚ) else 0) := by
      apply List.map_congr_left
      intro j _
      rw [hcell c j]
      by_cases hcj : c = j
      · rw [if_pos hcj, if_pos hcj, hcj]
      · rw [if_neg hcj, if_neg hcj]; simp
    rw [hrow, sum_indicator_rat _ _ hc, hcell c c, if_pos rfl]
    rfl
  have hrec : ∀ c, c < ad.nclasses.toNat →
      spec_recall ad.nclasses.toNat ad.samples c
        = (spec_col ad.samples c : ℚ) / ((spec_col ad.samples c : ℚ) + mf1_eps) := by
    intro c _
    unfold spec_recall
    rw [spec_col_sum_eq _ _ c harg, hcell c c, if_pos rfl]
    rfl
  have hV : out.f1V = (List.range ad.nclasses.toNat).map (fun c =>
      2 * ((spec_col ad.samples c : ℚ) / ((spec_col ad.samples c : ℚ) + mf1_eps)
            * ((spec_col ad.samples c : ℚ) / ((spec_col ad.samples c : ℚ) + mf1_eps)))
        / ((spec_col ad.samples c : ℚ) / ((spec_col ad.samples c : ℚ) + mf1_eps)
            + (spec_col ad.samples c : ℚ) / ((spec_col ad.samples c : ℚ) + mf1_eps)
            + mf1_eps)) := by
    rw [hf1V, hpV, hr, zipWith_map_same]
    apply List.map_congr_left
    intro c hc
    rw [hprec c (List.mem_range.1 hc), hrec c (List.mem_range.1 hc)]
  have hnq : (0 : ℚ) < (ad.nclasses : ℚ) := Int.cast_pos.2 (by omega)
  have hlen : ((out.f1V.length : Nat) : ℚ) = (ad.nclasses : ℚ) := by
    rw [hV, List.length_map, List.length_range]
    have : ((ad.nclasses.toNat : Nat) : Int) = ad.nclasses := Int.toNat_of_nonneg (by omega)
    exact_mod_cast this
  have hne : out.f1V ≠ [] := by
    intro h0
    rw [h0] at hlen
    simp at hlen
    linarith
  have hb : ∀ x ∈ out.f1V, 1 - 2 / 100000000 < x ∧ x < 1 := by
    intro x hx
    rw [hV] at hx
    obtain ⟨c, hc, rfl⟩ := List.mem_map.1 hx
    have hk : (1 : ℚ) ≤ (spec_col ad.samples c : ℚ) := by
      exact_mod_cast hall c (List.mem_range.1 hc)
    exact f1_value_bounds _ hk
  obtain ⟨s1, s2⟩ := sum_bounds out.f1V _ _ hne hb
  rw [hlen] at s1 s2
  refine ⟨out, out.f1V.sum / (ad.nclasses : ℚ), h1, ?_, ?_, ?_⟩
  · rw [hf1, vsum_eq_sum]
    unfold fdiv
    rw [if_neg (ne_of_gt hnq)]
  · rw [lt_div_iff₀ hnq]; exact s1
  · rw [div_lt_iff₀ hnq]; linarith

/-- C15 (as amended). For every batch with `nclasses >= 1` and prediction vectors of
length `nclasses` in which each sample's argmax prediction equals its target and every
class has at least one sample, `mf1` returns an F1 strictly between `1 - 2e-8` and 1:
the constant `1e-8` added to the denominators keeps it below 1. -/
theorem mf1_all_right (ad : Batch) (hn : 1 ≤ ad.nclasses) (hp : ad.preds_full)
    (hright : ∀ s ∈ ad.samples, ((max_element s.pred : Nat) : ℚ) = s.target)
    (hall : ∀ c, c < ad.nclasses.toNat → 0 < spec_col ad.samples c) :
    ∃ out v, mf1 ad = .ok out ∧ out.f1 = .ok v ∧ 1 - 2 / 100000000 < v ∧ v < 1 :=
  mf1_all_right_aux ad hn hp hright hall

/-- C15 (witness). The two-sample scenario of the specification. -/
theorem mf1_all_right_witness :
    ∃ out v, mf1 batch_two_right = .ok out ∧ out.f1 = .ok v
      ∧ 1 - 2 / 100000000 < v ∧ v < 1 :=
  mf1_all_right batch_two_right (by decide)
    (by simp [Batch.preds_full, batch_two_right])
    (by
      intro s hs
      have hs2 : s = { pred := [9 / 10, 1 / 10], target := 0 }
          ∨ s = { pred := [2 / 10, 8 / 10], target := 1 } := by
        simpa [batch_two_right] using hs
      rcases hs2 with rfl | rfl <;> decide!)
    (by
      intro c hc
      have hc2 : c = 0 ∨ c = 1 := by
        have : c < 2 := hc
        omega
      rcases hc2 with rfl | rfl <;> decide!)

/-- C15 (counterexample). On the two-sample scenario of the specification `mf1` returns
`F1 = 0.999999985...`, not 1. -/
theorem mf1_two_right_below_one :
    (mf1 batch_two_right).bind (fun out => out.f1)
      = .ok (2000000000000000000000000 / 2000000030000000200000001) := by
  decide!


/-! ### `mcc` on a degenerate confusion matrix -/

theorem mat_get_count (n : Nat) (S : List Sample) (r c : Nat) (hr : r < n) (hc : c < n) :
    mat_get (count_matrix n S) r c = .ok (spec_cell S r c : ℚ) := by
  unfold mat_get count_matrix vec_idx
  simp [hr, hc]

theorem mcc_degenerate_aux (sqrt : ℚ → ℚ) (hsqrt : sqrt 1 = 1) (ad : Batch)
    (hn : ad.nclasses = 2) (ht : ad.targets_valid) (hp : ad.preds_full)
    (hden : (spec_cell ad.samples 0 0 + spec_cell ad.samples 1 0)
        * (spec_cell ad.samples 0 0 + spec_cell ad.samples 0 1)
        * (spec_cell ad.samples 1 1 + spec_cell ad.samples 1 0)
        * (spec_cell ad.samples 1 1 + spec_cell ad.samples 0 1) = 0) :
    mcc sqrt ad = .ok 0 := by
  have hn2 : ad.nclasses.toNat = 2 := by rw [hn]; rfl
  have hdenq : ((spec_cell ad.samples 0 0 : ℚ) + (spec_cell ad.samples 1 0 : ℚ))
        * ((spec_cell ad.samples 0 0 : ℚ) + (spec_cell ad.samples 0 1 : ℚ))
        * ((spec_cell ad.samples 1 1 : ℚ) + (spec_cell ad.samples 1 0 : ℚ))
        * ((spec_cell ad.samples 1 1 : ℚ) + (spec_cell ad.samples 0 1 : ℚ)) = 0 := by
    exact_mod_cast hden
  have hnum : (spec_cell ad.samples 0 0 : ℚ) * (spec_cell ad.samples 1 1 : ℚ)
      - (spec_cell ad.samples 1 0 : ℚ) * (spec_cell ad.samples 0 1 : ℚ) = 0 := by
    have hz : spec_cell ad.samples 0 0 * spec_cell ad.samples 1 1 = 0
        ∧ spec_cell ad.samples 1 0 * spec_cell ad.samples 0 1 = 0 := by
      rcases Nat.mul_eq_zero.1 hden with h | h
      · rcases Nat.mul_eq_zero.1 h with h | h
        · rcases Nat.mul_eq_zero.1 h with h | h
          · have h1 : spec_cell ad.samples 0 0 = 0 := by omega
            have h2 : spec_cell ad.samples 1 0 = 0 := by omega
            simp [h1, h2]
          · have h1 : spec_cell ad.samples 0 0 = 0 := by omega
            have h2 : spec_cell ad.samples 0 1 = 0 := by omega
            simp [h1, h2]
        · have h1 : spec_cell ad.samples 1 1 = 0 := by omega
          have h2 : spec_cell ad.samples 1 0 = 0 := by omega
          simp [h1, h2]
      · have h1 : spec_cell ad.samples 1 1 = 0 := by omega
        have h2 : spec_cell ad.samples 0 1 = 0 := by omega
        simp [h1, h2]
    have h1 : (spec_cell ad.samples 0 0 : ℚ) * (spec_cell ad.samples 1 1 : ℚ) = 0 := by
      exact_mod_cast hz.1
    have h2 : (spec_cell ad.samples 1 0 : ℚ) * (spec_cell ad.samples 0 1 : ℚ) = 0 := by
      exact_mod_cast hz.2
    rw [h1, h2, sub_zero]
  unfold mcc
  rw [conf_matrix_loop_eq ad (by omega) ht hp, bind_ok, hn2,
    mat_get_count 2 _ 0 0 (by omega) (by omega), bind_ok,
    mat_get_count 2 _ 1 1 (by omega) (by omega), bind_ok,
    mat_get_count 2 _ 0 1 (by omega) (by omega), bind_ok,
    mat_get_count 2 _ 1 0 (by omega) (by omega), bind_ok]
  simp only [hdenq, if_true, hsqrt, hnum]
  unfold fdiv
  rw [if_neg one_ne_zero, zero_div]

/-- C16. For every binary batch (`nclasses = 2`, valid targets, prediction vectors of
length 2) whose confusion matrix makes `(tp+fp)(tp+fn)(tn+fp)(tn+fn)` equal to zero,
`mcc` returns exactly 0; it ends normally, so no division by zero takes place. `sqrt`
stands for `std::sqrt`, of which only `sqrt 1 = 1` is used. -/
theorem mcc_degenerate (sqrt : ℚ → ℚ) (hsqrt : sqrt 1 = 1) (ad : Batch)
    (hn : ad.nclasses = 2) (ht : ad.targets_valid) (hp : ad.preds_full)
    (hden : (spec_cell ad.samples 0 0 + spec_cell ad.samples 1 0)
        * (spec_cell ad.samples 0 0 + spec_cell ad.samples 0 1)
        * (spec_cell ad.samples 1 1 + spec_cell ad.samples 1 0)
        * (spec_cell ad.samples 1 1 + spec_cell ad.samples 0 1) = 0) :
    mcc sqrt ad = .ok 0 :=
  mcc_degenerate_aux sqrt hsqrt ad hn ht hp hden

/-- C16 (witness). Two samples of class 0, both predicted as class 0. -/
theorem mcc_degenerate_witness : mcc (fun _ => 1) batch_one_class = .ok 0 :=
  mcc_degenerate (fun _ => 1) rfl batch_one_class rfl
    (by simp [Batch.targets_valid, batch_one_class])
    (by simp [Batch.preds_full, batch_one_class])
    (by decide!)

/-- The degenerate cases on concrete batches: one class only, and the empty batch. -/
theorem mcc_degenerate_examples :
    mcc (fun _ => 1) batch_one_class = .ok 0
      ∧ mcc (fun _ => 1) { nclasses := 2, samples := [] } = .ok 0 := by
  refine ⟨by decide!, by decide!⟩

/-! ## `multilabel_soft_kl` on identical vectors -/

theorem kl_clamp_pos (x : ℚ) : 0 < kl_clamp x := by
  unfold kl_clamp
  have h : (0 : ℚ) < kl_eps := by decide!
  split_ifs with h1
  · exact h
  · linarith [not_lt.1 h1]

theorem to_double_zero : to_double 0 = 0 := by
  unfold to_double
  rw [if_pos rfl]

theorem kl_temp_zero (log : ℚ → ℚ) (hlog : log 1 = 0) (thres : ℚ) (v : List ℚ)
    (hone : ∀ x ∈ v, kl_unmasked thres x = true →
        to_double (to_double (1 / kl_clamp x) * kl_clamp x) = 1) :
    List.zipWith (fun t x => if kl_unmasked thres t then x else 0) v
        (List.zipWith (fun p t =>
          to_double (log (to_double (to_double (1 / kl_clamp p) * kl_clamp t)) * kl_clamp t))
          v v)
      = v.map (fun _ => 0) := by
  induction v with
  | nil => rfl
  | cons x rest ih =>
    simp only [List.zipWith_cons_cons, List.map_cons,
      ih (fun y hy => hone y (List.mem_cons_of_mem _ hy))]
    cases hu : kl_unmasked thres x with
    | false => simp
    | true =>
      rw [hone x (List.mem_cons_self _ _) hu, hlog, zero_mul, to_double_zero]
      simp

theorem kl_sample_identical (log : ℚ → ℚ) (hlog : log 1 = 0) (thres : ℚ) (bad : MlSample)
    (heq : bad.pred = bad.target) (hne : bad.target ≠ [])
    (hone : ∀ x ∈ bad.target, kl_unmasked thres x = true →
        to_double (to_double (1 / kl_clamp x) * kl_clamp x) = 1) :
    kl_sample log thres bad = .ok (0, bad.target.countP (kl_unmasked thres)) := by
  unfold kl_sample
  rw [if_neg (by rw [heq]; exact hne), if_neg hne, if_neg (by rw [heq]; simp)]
  simp only [heq, kl_temp_zero log hlog thres bad.target hone]
  have hz : vsum (bad.target.map (fun _ => (0 : ℚ))) = 0 := by
    rw [vsum_eq_sum]
    apply List.sum_eq_zero
    intro x hx
    obtain ⟨_, _, rfl⟩ := List.mem_map.1 hx
    rfl
  rw [hz]

theorem kl_fold_identical (log : ℚ → ℚ) (hlog : log 1 = 0) (thres : ℚ)
    (samples : List MlSample) :
    ∀ n : Int, (∀ s ∈ samples, s.pred = s.target ∧ s.target ≠ []
        ∧ ∀ x ∈ s.target, kl_unmasked thres x = true →
        to_double (to_double (1 / kl_clamp x) * kl_clamp x) = 1) →
      samples.foldlM (fun (s : ℚ × Int) bad => do
          let r ← kl_sample log thres bad
          pure (s.1 + r.1, s.2 + (r.2 : Int))) ((0 : ℚ), n)
        = .ok (0, n + ((samples.map
            (fun s => s.target.countP (kl_unmasked thres))).sum : Nat)) := by
  induction samples with
  | nil => intro n _; simp [List.foldlM, pure, Except.pure]
  | cons s rest ih =>
    intro n h
    obtain ⟨heq, hne, hone⟩ := h s (List.mem_cons_self _ _)
    rw [List.foldlM_cons, kl_sample_identical log hlog thres s heq hne hone, bind_ok]
    have hstep : (pure ((0 : ℚ) + (0 : ℚ), n + ((s.target.countP (kl_unmasked thres) : Nat) : Int))
          : Except Err (ℚ × Int))
        = .ok (0, n + ((s.target.countP (kl_unmasked thres) : Nat) : Int)) := by
      rw [add_zero]; rfl
    rw [hstep, bind_ok, ih _ (fun x hx => h x (List.mem_cons_of_mem _ hx))]
    simp only [List.map_cons, List.sum_cons]
    push_cast
    rw [add_assoc]

/-- C17 (as amended). For every batch in which each sample's prediction vector equals
its (non-empty) target vector, at least one target entry is unmasked (`target >= 0` when
the threshold is unset, that is negative; `target > threshold` otherwise), and for every
unmasked entry `v`, clamped to `eps`, the product `(1 / v) * v` computed in `double` (the
inverse rounded, then the product rounded) is exactly 1, `multilabel_soft_kl` returns 0. `log`
stands for `std::log`, of which only `log 1 = 0` is used. -/
theorem multilabel_soft_kl_identical (log : ℚ → ℚ) (hlog : log 1 = 0) (thres : ℚ)
    (samples : List MlSample)
    (hsame : ∀ s ∈ samples, s.pred = s.target ∧ s.target ≠ []
      ∧ ∀ x ∈ s.target, kl_unmasked thres x = true →
        to_double (to_double (1 / kl_clamp x) * kl_clamp x) = 1)
    (hone : ∃ s ∈ samples, ∃ t ∈ s.target, kl_unmasked thres t = true) :
    multilabel_soft_kl log samples thres = .ok 0 := by
  unfold multilabel_soft_kl
  rw [kl_fold_identical log hlog thres samples 0 hsame, bind_ok]
  obtain ⟨s, hs, t, ht, hu⟩ := hone
  have hpos : 0 < (samples.map (fun s => s.target.countP (kl_unmasked thres))).sum := by
    have h1 : 0 < s.target.countP (kl_unmasked thres) :=
      List.countP_pos_iff.2 ⟨t, ht, hu⟩
    have h2 : s.target.countP (kl_unmasked thres)
        ≤ (samples.map (fun s => s.target.countP (kl_unmasked thres))).sum :=
      List.single_le_sum (fun _ _ => Nat.zero_le _) _ (List.mem_map.2 ⟨s, hs, rfl⟩)
    omega
  unfold fdiv
  have hne : (((0 : Int) + ((samples.map
      (fun s => s.target.countP (kl_unmasked thres))).sum : Nat) : Int) : ℚ) ≠ 0 := by
    have : (0 : Int) < 0 + ((samples.map
        (fun s => s.target.countP (kl_unmasked thres))).sum : Nat) := by omega
    exact Int.cast_ne_zero.2 (ne_of_gt this)
  rw [if_neg hne, zero_div]

/-- C17 (witness). The scenario of the specification: `target = pred = [0.5, 0.5]`,
threshold unset (-1); `(1 / 0.5) * 0.5` is exactly 1. -/
theorem multilabel_soft_kl_identical_witness :
    multilabel_soft_kl log_near_one ml_identical (-1) = .ok 0 :=
  multilabel_soft_kl_identical log_near_one (by decide!) (-1) ml_identical
    (by decide!)
    ⟨{ target := [1 / 2, 1 / 2], pred := [1 / 2, 1 / 2] }, by simp [ml_identical],
      1 / 2, by simp, by decide!⟩

/-- C17 (counterexample). `target = pred = [0.95]`, threshold unset: in `double` the
inverse of 0.95 times 0.95 is `1 - 2^-53`, not 1; the logarithm is taken there, its value
`-2^-53` is multiplied by 0.95, and `multilabel_soft_kl` returns about `-1.05e-16`, not
0. -/
theorem multilabel_soft_kl_not_zero :
    to_double (to_double (1 / to_double (19 / 20)) * to_double (19 / 20)) = 1 - 1 / 2 ^ 53
      ∧ multilabel_soft_kl log_near_one ml_near_one (-1)
        = .ok (-4278419646001971 / 40564819207303340847894502572032)
      ∧ multilabel_soft_kl log_near_one ml_near_one (-1) ≠ .ok 0 := by
  refine ⟨by decide!, by decide!, by decide!⟩


/-! ## `comp_gini` against the specification's formula -/

theorem gini_pairs_zip (a : List ℚ) : ∀ p : List ℚ, a.length ≤ p.length →
    gini_pairs a p = .ok (a.zip p) := by
  induction a with
  | nil => intro p _; cases p <;> rfl
  | cons x xs ih =>
    intro p h
    cases p with
    | nil => simp at h
    | cons y ys =>
      simp only [gini_pairs, ih ys (by simpa using h), Except.map, List.zip_cons_cons]

theorem sort_by_p_eq (k : List (ℚ × ℚ)) :
    sort_by_p k = k.insertionSort (fun x y => x.2 ≥ y.2) := by
  unfold sort_by_p
  induction k with
  | nil => rfl
  | cons x rest ih =>
    simp only [List.insertionSort]
    rw [ih]
    generalize List.insertionSort (fun x y => x.2 ≥ y.2) rest = l
    induction l with
    | nil => rfl
    | cons y ys ih2 =>
      simp only [List.orderedInsert]
      by_cases h : x.2 ≥ y.2
      · rw [if_pos h, if_pos (not_lt.2 h)]
      · rw [if_neg h, if_neg (fun hc => h (not_lt.1 hc)), ih2]

theorem spec_ranked_perm (a p : List ℚ) (hlen : a.length ≤ p.length) :
    (spec_ranked a p).Perm a := by
  unfold spec_ranked
  have h1 := (List.perm_insertionSort (fun x y : ℚ × ℚ => x.2 ≥ y.2) (a.zip p)).map
    (fun e : ℚ × ℚ => e.1)
  have h2 : (a.zip p).map (fun e : ℚ × ℚ => e.1) = a := List.map_fst_zip a p hlen
  rw [h2] at h1
  exact h1

/-- The state of the loop of `comp_gini` after the targets `l` (in ranked order). -/
theorem gini_fold (sum : ℚ) (hs : sum ≠ 0) (size : Nat) (hn : size ≠ 0)
    (todo : List (ℚ × ℚ)) :
    ∀ done : List ℚ,
      todo.foldlM (gini_step sum size)
          { accPopPercSum := (done.length : ℚ) / size,
            accLossPercSum := done.sum / sum,
            giniSum := ((List.range done.length).map
              (fun i => (done.take (i + 1)).sum / sum - ((i : ℚ) + 1) / size)).sum }
        = .ok
          { accPopPercSum := ((done ++ todo.map (fun e => e.1)).length : ℚ) / size,
            accLossPercSum := (done ++ todo.map (fun e => e.1)).sum / sum,
            giniSum := ((List.range (done ++ todo.map (fun e => e.1)).length).map
              (fun i => ((done ++ todo.map (fun e => e.1)).take (i + 1)).sum / sum
                - ((i : ℚ) + 1) / size)).sum } := by
  have hnq : ((size : Nat) : ℚ) ≠ 0 := by exact_mod_cast hn
  induction todo with
  | nil => intro done; simp [List.foldlM, pure, Except.pure]
  | cons x rest ih =>
    intro done
    have hstep : gini_step sum size
          { accPopPercSum := (done.length : ℚ) / size,
            accLossPercSum := done.sum / sum,
            giniSum := ((List.range done.length).map
              (fun i => (done.take (i + 1)).sum / sum - ((i : ℚ) + 1) / size)).sum } x
        = .ok
          { accPopPercSum := ((done ++ [x.1]).length : ℚ) / size,
            accLossPercSum := (done ++ [x.1]).sum / sum,
            giniSum := ((List.range (done ++ [x.1]).length).map
              (fun i => ((done ++ [x.1]).take (i + 1)).sum / sum
                - ((i : ℚ) + 1) / size)).sum } := by
      unfold gini_step fdiv
      rw [if_neg hs, bind_ok, if_neg hnq, bind_ok]
      have e1 : (done ++ [x.1]).length = done.length + 1 := by simp
      have e2 : (done ++ [x.1]).sum = done.sum + x.1 := by simp
      have e3 : (List.range done.length).map
            (fun i => ((done ++ [x.1]).take (i + 1)).sum / sum - ((i : ℚ) + 1) / size)
          = (List.range done.length).map
            (fun i => (done.take (i + 1)).sum / sum - ((i : ℚ) + 1) / size) := by
        apply List.map_congr_left
        intro i hi
        have : i + 1 ≤ done.length := List.mem_range.1 hi
        rw [List.take_append_of_le_length this]
      have e4 : (done ++ [x.1]).take (done.length + 1) = done ++ [x.1] := by
        apply List.take_of_length_le
        simp
      rw [e1, List.range_succ, List.map_append, List.sum_append, e3]
      simp only [List.map_cons, List.map_nil, List.sum_cons, List.sum_nil, e4, e2]
      simp only [pure, Except.pure]
      congr 1
      push_cast
      congr 1
      · ring
      · ring
      · rw [List.sum_append]
        simp only [List.sum_cons, List.sum_nil]
        ring
    rw [List.foldlM_cons, hstep, bind_ok, ih (done ++ [x.1])]
    simp only [List.map_cons, List.append_assoc, List.singleton_append]

/-- On non-empty targets of non-zero sum `comp_gini(a, p)` is the specification's
`G(a, p)`. -/
theorem comp_gini_eq (a p : List ℚ) (hlen : a.length ≤ p.length) (hne : a ≠ [])
    (hsum : a.sum ≠ 0) : comp_gini a p = .ok (spec_gini a p) := by
  have hperm := spec_ranked_perm a p hlen
  have hn : a.length ≠ 0 := fun h => hne (List.length_eq_zero.1 h)
  have hnq : ((a.length : Nat) : ℚ) ≠ 0 := by exact_mod_cast hn
  unfold comp_gini
  rw [gini_pairs_zip a p hlen, bind_ok, vsum_eq_sum]
  unfold gini_scan
  have h0 := gini_fold a.sum hsum a.length hn (sort_by_p (a.zip p)) []
  simp only [List.length_nil, Nat.cast_zero, zero_div, List.sum_nil, List.range_zero,
    List.map_nil, List.nil_append] at h0
  rw [h0, bind_ok]
  unfold fdiv
  rw [if_neg hnq]
  have hr : (sort_by_p (a.zip p)).map (fun e => e.1) = spec_ranked a p := by
    rw [sort_by_p_eq]; rfl
  simp only [hr]
  unfold spec_gini spec_gini_of spec_mass_share
  rw [hperm.length_eq, hperm.sum_eq]


theorem gini_entries_regression (samples : List Sample) :
    ∀ p : List ℚ, samples.map (fun s => s.pred.head?) = p.map some →
      ∃ k, gini_entries true samples = .ok k
        ∧ k.map (fun e => e.1) = samples.map (fun s => s.target)
        ∧ k.map (fun e => e.2) = p := by
  induction samples with
  | nil =>
    intro p h
    cases p with
    | nil => exact ⟨[], rfl, rfl, rfl⟩
    | cons _ _ => simp at h
  | cons s rest ih =>
    intro p h
    cases p with
    | nil => simp at h
    | cons y ys =>
      simp only [List.map_cons, List.cons.injEq] at h
      obtain ⟨k, hk, k1, k2⟩ := ih ys h.2
      have hp : vec_at s.pred 0 = .ok y := by
        unfold vec_at
        cases hs : s.pred with
        | nil => rw [hs] at h; simp at h
        | cons z zs =>
          rw [hs] at h
          simp only [List.head?_cons, Option.some.injEq] at h
          simp [h.1]
      refine ⟨(s.target, y) :: k, ?_, by simp [k1], by simp [k2]⟩
      unfold gini_entries gini_entry
      rw [if_pos rfl, hp, bind_ok, hk]
      rfl

/-- In regression mode `gini` returns `G(a, p) / G(a, a)` for the targets `a` and the
predictions `p` (`pred.at(0)`) of the batch. -/
theorem gini_regression_eq (ad : Batch) (p : List ℚ)
    (hp : ad.samples.map (fun s => s.pred.head?) = p.map some)
    (hsum : (ad.samples.map (fun s => s.target)).sum ≠ 0)
    (hg : spec_gini (ad.samples.map (fun s => s.target))
      (ad.samples.map (fun s => s.target)) ≠ 0) :
    gini ad true = .ok (spec_gini (ad.samples.map (fun s => s.target)) p
      / spec_gini (ad.samples.map (fun s => s.target)) (ad.samples.map (fun s => s.target))) := by
  obtain ⟨k, hk, k1, k2⟩ := gini_entries_regression ad.samples p hp
  have hlen : (ad.samples.map (fun s => s.target)).length = p.length := by
    have := congrArg List.length hp
    simpa using this
  have hne : ad.samples.map (fun s => s.target) ≠ [] := by
    intro h
    rw [h] at hsum
    exact hsum rfl
  unfold gini
  rw [hk, bind_ok, k1, k2]
  unfold comp_gini_normalized
  rw [comp_gini_eq _ p (le_of_eq hlen) hne hsum, bind_ok,
    comp_gini_eq _ _ (le_refl _) hne hsum, bind_ok]
  unfold fdiv
  rw [if_neg hg]

theorem gini_entries_classification (samples : List Sample) :
    gini_entries false samples
      = .ok (samples.map (fun s => (((max_element s.pred : Nat) : ℚ), (0 : ℚ)))) := by
  induction samples with
  | nil => rfl
  | cons s rest ih =>
    unfold gini_entries gini_entry
    rw [if_neg (by decide), ih]
    rfl

/-- In classification mode the value of `gini` does not depend on the targets. -/
theorem gini_classification_targets (ad1 ad2 : Batch)
    (h : ad1.samples.map (fun s => s.pred) = ad2.samples.map (fun s => s.pred)) :
    gini ad1 false = gini ad2 false := by
  have hk : ad1.samples.map (fun s => (((max_element s.pred : Nat) : ℚ), (0 : ℚ)))
      = ad2.samples.map (fun s => (((max_element s.pred : Nat) : ℚ), (0 : ℚ))) := by
    have := congrArg (List.map (fun v : List ℚ => (((max_element v : Nat) : ℚ), (0 : ℚ)))) h
    simpa [List.map_map] using this
  unfold gini
  rw [gini_entries_classification, gini_entries_classification, hk]

/-- C19 (failing input). Classification mode, targets 1, 0, 0 and argmax predictions
0, 0, 1: `gini` returns -1, the value it returns for every assignment of targets to
these predictions; the normalized Gini of the targets ranked by the predicted class is
0, and ranked by the score of class 1 it is 0 as well. -/
theorem gini_classification_wrong :
    gini batch_gini_class false = .ok (-1)
      ∧ spec_gini [1, 0, 0] [0, 0, 1] / spec_gini [1, 0, 0] [1, 0, 0] = 0
      ∧ spec_gini [1, 0, 0] [1 / 10, 1 / 10, 8 / 10] / spec_gini [1, 0, 0] [1, 0, 0] = 0
      ∧ gini batch_gini_class true = .ok 1 := by
  refine ⟨by decide!, by decide!, by decide!, by decide!⟩


/-! ## `aggregate_multiple_testsets` on copies of one record -/

theorem sum_add_new (pre : List (String × ℚ)) (k : String) (v : ℚ)
    (h : k ∉ pre.map (fun e => e.1)) : sum_add pre k v = pre ++ [(k, 0 + v)] := by
  induction pre with
  | nil => rfl
  | cons e rest ih =>
    simp only [List.map_cons, List.mem_cons, not_or] at h
    unfold sum_add
    rw [if_neg (fun he => h.1 he.symm), ih h.2]
    rfl

theorem sum_add_present (pre post : List (String × ℚ)) (k : String) (w v : ℚ)
    (h : k ∉ pre.map (fun e => e.1)) :
    sum_add (pre ++ (k, w) :: post) k v = pre ++ (k, w + v) :: post := by
  induction pre with
  | nil => simp [sum_add]
  | cons e rest ih =>
    simp only [List.map_cons, List.mem_cons, not_or] at h
    simp only [List.cons_append]
    unfold sum_add
    rw [if_neg (fun he => h.1 he.symm), ih h.2]

theorem doubles_keys (r : ADRecord) (k : String) (h : k ∈ (doubles r).map (fun e => e.1)) :
    k ∈ r.map (fun e => e.1) := by
  induction r with
  | nil => simp [doubles] at h
  | cons e rest ih =>
    unfold doubles at h
    cases he : e.2 with
    | dbl v =>
      rw [he] at h
      simp only [List.map_cons, List.mem_cons] at h ⊢
      rcases h with h | h
      · exact Or.inl h
      · exact Or.inr (ih h)
    | int v => rw [he] at h; exact List.mem_cons_of_mem _ (ih h)
    | str v => rw [he] at h; exact List.mem_cons_of_mem _ (ih h)
    | vec v => rw [he] at h; exact List.mem_cons_of_mem _ (ih h)

/-- The first record: every `double` entry is created. -/
theorem aggregate_record_first (r : ADRecord) :
    ∀ pre : List (String × ℚ), (r.map (fun e => e.1)).Nodup →
      (∀ k ∈ r.map (fun e => e.1), k ∉ pre.map (fun e => e.1)) →
      aggregate_record pre r = pre ++ (doubles r).map (fun e => (e.1, 0 + e.2)) := by
  induction r with
  | nil => intro pre _ _; simp [aggregate_record, doubles]
  | cons e rest ih =>
    intro pre hnd hdis
    simp only [List.map_cons, List.nodup_cons] at hnd
    have hrest : ∀ pre1 : List (String × ℚ),
        (∀ k ∈ rest.map (fun e => e.1), k ∉ pre1.map (fun e => e.1)) →
        aggregate_record pre1 rest = pre1 ++ (doubles rest).map (fun e => (e.1, 0 + e.2)) :=
      fun pre1 h => ih pre1 hnd.2 h
    have hpre : ∀ k ∈ rest.map (fun e => e.1), k ∉ pre.map (fun e => e.1) :=
      fun k hk => hdis k (List.mem_cons_of_mem _ hk)
    have hunf : aggregate_record pre (e :: rest)
        = aggregate_record (match e.2 with
            | .dbl val => sum_add pre e.1 val
            | _ => pre) rest := rfl
    rw [hunf]
    unfold doubles
    cases he : e.2 with
    | dbl v =>
      simp only []
      rw [sum_add_new pre e.1 v (hdis e.1 (List.mem_cons_self _ _)), hrest]
      · simp
      · intro k hk hmem
        simp only [List.map_append, List.map_cons, List.map_nil, List.mem_append,
          List.mem_singleton] at hmem
        rcases hmem with h | h
        · exact hpre k hk h
        · rw [h] at hk; exact hnd.1 hk
    | int v => simp only []; exact hrest pre hpre
    | str v => simp only []; exact hrest pre hpre
    | vec v => simp only []; exact hrest pre hpre

/-- A further copy of the record: every `double` entry is increased by its value. -/
theorem aggregate_record_next (c : ℚ) (r : ADRecord) :
    ∀ pre : List (String × ℚ), (r.map (fun e => e.1)).Nodup →
      (∀ k ∈ r.map (fun e => e.1), k ∉ pre.map (fun e => e.1)) →
      aggregate_record (pre ++ (doubles r).map (fun e => (e.1, c * e.2))) r
        = pre ++ (doubles r).map (fun e => (e.1, c * e.2 + e.2)) := by
  induction r with
  | nil => intro pre _ _; simp [aggregate_record, doubles]
  | cons e rest ih =>
    intro pre hnd hdis
    simp only [List.map_cons, List.nodup_cons] at hnd
    have hpre : ∀ k ∈ rest.map (fun e => e.1), k ∉ pre.map (fun e => e.1) :=
      fun k hk => hdis k (List.mem_cons_of_mem _ hk)
    have hunf : ∀ m, aggregate_record m (e :: rest)
        = aggregate_record (match e.2 with
            | .dbl val => sum_add m e.1 val
            | _ => m) rest := fun _ => rfl
    rw [hunf]
    unfold doubles
    cases he : e.2 with
    | dbl v =>
      simp only [List.map_cons]
      rw [sum_add_present pre _ e.1 (c * v) v (hdis e.1 (List.mem_cons_self _ _))]
      have h2 := ih (pre ++ [(e.1, c * v + v)]) hnd.2 (by
        intro k hk hmem
        simp only [List.map_append, List.map_cons, List.map_nil, List.mem_append,
          List.mem_singleton] at hmem
        rcases hmem with h | h
        · exact hpre k hk h
        · rw [h] at hk; exact hnd.1 hk)
      simp only [List.append_assoc, List.singleton_append] at h2
      exact h2
    | int v => simp only []; exact ih pre hnd.2 hpre
    | str v => simp only []; exact ih pre hnd.2 hpre
    | vec v => simp only []; exact ih pre hnd.2 hpre

theorem aggregate_copies (r : ADRecord) (hnd : (r.map (fun e => e.1)).Nodup) (j : Nat) :
    (List.replicate (j + 1) r).foldl aggregate_record []
      = (doubles r).map (fun e => (e.1, ((j : ℚ) + 1) * e.2)) := by
  induction j with
  | zero =>
    have h := aggregate_record_first r [] hnd (by simp)
    rw [List.nil_append] at h
    have hf : (List.replicate (0 + 1) r).foldl aggregate_record [] = aggregate_record [] r :=
      rfl
    rw [hf, h]
    apply List.map_congr_left
    intro e _
    simp
  | succ j ih =>
    rw [List.replicate_succ', List.foldl_append, ih]
    have h := aggregate_record_next ((j : ℚ) + 1) r [] hnd (by simp)
    simp only [List.nil_append] at h
    simp only [List.foldl_cons, List.foldl_nil]
    rw [h]
    apply List.map_congr_left
    intro e _
    push_cast
    congr 1
    ring

theorem doubles_filter (r : ADRecord) :
    (doubles r).map (fun e => (e.1, ADValue.dbl e.2)) = r.filter (fun e => e.2.is_double) := by
  induction r with
  | nil => rfl
  | cons e rest ih =>
    unfold doubles
    obtain ⟨k, x⟩ := e
    cases x with
    | dbl v => simp [List.filter_cons, ADValue.is_double, ih]
    | int v => simp [List.filter_cons, ADValue.is_double, ih]
    | str v => simp [List.filter_cons, ADValue.is_double, ih]
    | vec v => simp [List.filter_cons, ADValue.is_double, ih]

/-- C20 (as amended). For every `N >= 1` and every metric record `r`,
`aggregate_multiple_testsets` applied to `N` copies of `r` sets `measure` to the record
made of the entries of `r` whose value is a `double`, with the same values, when the
multiples `v, 2 v, ..., N v` of every such value `v` are values of `double`s (the sum of
the copies is then exact, and so is its quotient by `N`); the entries of another type
(`test_id`, `test_name`, vectors) are left out. -/
theorem aggregate_identical (N : Nat) (hN : 1 ≤ N) (r : ADRecord)
    (hnd : (r.map (fun e => e.1)).Nodup)
    (hexact : ∀ e ∈ doubles r, exact_multiples e.2 N = true) :
    aggregate_multiple_testsets (List.replicate N r) = r.filter (fun e => e.2.is_double) := by
  have _ := hexact
  obtain ⟨j, rfl⟩ : ∃ j, N = j + 1 := ⟨N - 1, by omega⟩
  unfold aggregate_multiple_testsets
  rw [aggregate_copies r hnd j, List.map_map, ← doubles_filter]
  apply List.map_congr_left
  intro e _
  have hne : ((j : ℚ) + 1) ≠ 0 := by positivity
  simp only [Function.comp, List.length_replicate]
  push_cast
  rw [mul_div_cancel_left₀ _ hne]

/-- C20 (witness). Three copies of a record with the two metrics 3/4 and 1/2, whose
multiples up to 3 are values of `double`s. -/
theorem aggregate_identical_witness :
    aggregate_multiple_testsets (List.replicate 3 record_measure)
      = record_measure.filter (fun e => e.2.is_double) :=
  aggregate_identical 3 (by decide) record_measure (by decide) (by decide!)

/-- C20 (counterexample). On copies of a record built by `measure` the result holds the
metrics only: `test_id` and `test_name` are not in it. -/
theorem aggregate_drops_non_double :
    aggregate_multiple_testsets (List.replicate 2 record_measure)
        = [("acc", .dbl (3 / 4)), ("f1", .dbl (1 / 2))]
      ∧ aggregate_multiple_testsets (List.replicate 2 record_measure) ≠ record_measure := by
  refine ⟨by decide!, by decide!⟩

/-- The sum of three copies of the `double` 0.1, taken in `double`, is not three times
that value, and its quotient by 3, taken in `double`, is the `double` above 0.1: a mean
of equal values is that value only when the sum is exact. -/
theorem double_mean_of_three_tenths :
    to_double (to_double (to_double (0 + to_double (1 / 10)) + to_double (1 / 10))
        + to_double (1 / 10)) ≠ 3 * to_double (1 / 10)
      ∧ to_double (to_double (to_double (to_double (0 + to_double (1 / 10))
          + to_double (1 / 10)) + to_double (1 / 10)) / 3)
        = to_double (1 / 10) + 1 / 2 ^ 56
      ∧ exact_multiples (to_double (1 / 10)) 3 = false := by
  refine ⟨by decide!, by decide!, by decide!⟩


/-! ## `aggregate_multiple_testsets`: the mean of every field -/

theorem sum_find_cons (e : String × ℚ) (m : List (String × ℚ)) (k : String) :
    sum_find (e :: m) k = if e.1 = k then some e.2 else sum_find m k := by
  unfold sum_find
  by_cases h : e.1 = k <;> simp [List.find?_cons, h]

theorem sum_find_add (m : List (String × ℚ)) (k : String) (v : ℚ) (k1 : String) :
    sum_find (sum_add m k v) k1
      = if k1 = k then some ((sum_find m k).getD 0 + v) else sum_find m k1 := by
  induction m with
  | nil =>
    unfold sum_add
    rw [sum_find_cons]
    by_cases h : k1 = k
    · rw [if_pos h.symm, if_pos h]; rfl
    · rw [if_neg (fun hc => h hc.symm), if_neg h]
  | cons e rest ih =>
    unfold sum_add
    by_cases he : e.1 = k
    · rw [if_pos he, sum_find_cons, sum_find_cons, sum_find_cons]
      by_cases h : k1 = k
      · rw [if_pos h, if_pos (he.trans h.symm), if_pos he]; rfl
      · have hne : ¬ e.1 = k1 := fun hc => h (hc.symm.trans he)
        simp only [h, hne, if_false]
    · rw [if_neg he, sum_find_cons, ih, sum_find_cons, sum_find_cons, if_neg he]
      by_cases h : k1 = k
      · rw [if_pos h, if_pos h, if_neg (fun hc => he (hc.trans h))]
      · rw [if_neg h, if_neg h]

theorem sum_add_keys (m : List (String × ℚ)) (k : String) (v : ℚ) :
    (sum_add m k v).map (fun e => e.1)
      = if k ∈ m.map (fun e => e.1) then m.map (fun e => e.1)
        else m.map (fun e => e.1) ++ [k] := by
  induction m with
  | nil => simp [sum_add]
  | cons e rest ih =>
    unfold sum_add
    by_cases he : e.1 = k
    · rw [if_pos he]
      simp [he]
    · rw [if_neg he, List.map_cons, ih]
      by_cases hk : k ∈ rest.map (fun e => e.1)
      · rw [if_pos hk, if_pos (by simp only [List.map_cons]; exact List.mem_cons_of_mem _ hk)]
        rfl
      · rw [if_neg hk, if_neg (by
          simp only [List.map_cons, List.mem_cons, not_or]
          exact ⟨fun h => he h.symm, hk⟩)]
        rfl

theorem sum_add_nodup (m : List (String × ℚ)) (k : String) (v : ℚ)
    (h : (m.map (fun e => e.1)).Nodup) : ((sum_add m k v).map (fun e => e.1)).Nodup := by
  rw [sum_add_keys]
  split_ifs with hk
  · exact h
  · exact List.Nodup.append h (List.nodup_singleton k) (by
      intro x hx hx1
      rw [List.mem_singleton.1 hx1] at hx
      exact hk hx)

theorem dbl_value_cons (e : String × ADValue) (r : ADRecord) (k : String) :
    dbl_value (e :: r) k
      = if e.1 = k then (match e.2 with | .dbl v => some v | _ => none)
        else dbl_value r k := by
  unfold dbl_value
  by_cases h : e.1 = k
  · rw [if_pos h]
    simp only [List.find?_cons, h, decide_True]
    obtain ⟨k0, x⟩ := e
    cases x <;> rfl
  · rw [if_neg h]
    simp [List.find?_cons, h]

theorem dbl_value_absent (r : ADRecord) (k : String) (h : k ∉ r.map (fun e => e.1)) :
    dbl_value r k = none := by
  induction r with
  | nil => rfl
  | cons e rest ih =>
    simp only [List.map_cons, List.mem_cons, not_or] at h
    rw [dbl_value_cons, if_neg (fun hc => h.1 hc.symm), ih h.2]

/-- The sums after one more record: the value of every `double` field of the record is
added to the sum of its key. -/
theorem aggregate_record_find (r : ADRecord) :
    ∀ m : List (String × ℚ), (r.map (fun e => e.1)).Nodup → ∀ k : String,
      sum_find (aggregate_record m r) k
        = (match dbl_value r k with
            | some v => some ((sum_find m k).getD 0 + v)
            | none => sum_find m k) := by
  induction r with
  | nil => intro m _ k; rfl
  | cons e rest ih =>
    intro m hnd k
    simp only [List.map_cons, List.nodup_cons] at hnd
    have hunf : aggregate_record m (e :: rest)
        = aggregate_record (match e.2 with
            | .dbl val => sum_add m e.1 val
            | _ => m) rest := rfl
    rw [hunf, ih _ hnd.2 k, dbl_value_cons]
    by_cases hk : e.1 = k
    · rw [if_pos hk, dbl_value_absent rest k (by rw [← hk]; exact hnd.1)]
      obtain ⟨k0, x⟩ := e
      cases x with
      | dbl v =>
        simp only []
        rw [sum_find_add, if_pos hk.symm]
        simp only at hk
        rw [hk]
      | int v => rfl
      | str v => rfl
      | vec v => rfl
    · rw [if_neg hk]
      obtain ⟨k0, x⟩ := e
      cases x with
      | dbl v =>
        simp only []
        have hne : ¬ k = k0 := fun hc => hk hc.symm
        cases hd : dbl_value rest k with
        | none => simp only []; rw [sum_find_add, if_neg hne]
        | some w => simp only []; rw [sum_find_add, if_neg hne]
      | int v => rfl
      | str v => rfl
      | vec v => rfl

theorem aggregate_record_nodup (r : ADRecord) :
    ∀ m : List (String × ℚ), (m.map (fun e => e.1)).Nodup →
      ((aggregate_record m r).map (fun e => e.1)).Nodup := by
  induction r with
  | nil => intro m h; exact h
  | cons e rest ih =>
    intro m h
    have hunf : aggregate_record m (e :: rest)
        = aggregate_record (match e.2 with
            | .dbl val => sum_add m e.1 val
            | _ => m) rest := rfl
    rw [hunf]
    apply ih
    obtain ⟨k0, x⟩ := e
    cases x with
    | dbl v => exact sum_add_nodup m k0 v h
    | int v => exact h
    | str v => exact h
    | vec v => exact h

theorem sum_find_mem (m : List (String × ℚ)) (k : String) (v : ℚ)
    (hn : (m.map (fun e => e.1)).Nodup) (h : (k, v) ∈ m) : sum_find m k = some v := by
  induction m with
  | nil => simp at h
  | cons e rest ih =>
    simp only [List.map_cons, List.nodup_cons] at hn
    rw [sum_find_cons]
    rcases List.mem_cons.1 h with he | he
    · rw [← he]; simp
    · have hne : e.1 ≠ k := by
        intro hek
        apply hn.1
        rw [hek]
        exact List.mem_map.2 ⟨(k, v), he, rfl⟩
      rw [if_neg hne, ih hn.2 he]

theorem sum_find_some_mem (m : List (String × ℚ)) (k : String) (v : ℚ)
    (h : sum_find m k = some v) : (k, v) ∈ m := by
  induction m with
  | nil => cases h
  | cons e rest ih =>
    rw [sum_find_cons] at h
    by_cases he : e.1 = k
    · rw [if_pos he] at h
      cases h
      rw [← he]
      exact List.mem_cons_self _ _
    · rw [if_neg he] at h
      exact List.mem_cons_of_mem _ (ih h)

/-- The sums after all the records. -/
theorem aggregate_fold_find (ms : List ADRecord) :
    ∀ m : List (String × ℚ), (∀ r ∈ ms, (r.map (fun e => e.1)).Nodup) → ∀ k : String,
      (((∃ r ∈ ms, dbl_value r k ≠ none) ∨ sum_find m k ≠ none) →
        sum_find (ms.foldl aggregate_record m) k
          = some ((sum_find m k).getD 0 + (ms.map (fun r => field_value r k)).sum))
      ∧ (¬ ((∃ r ∈ ms, dbl_value r k ≠ none) ∨ sum_find m k ≠ none) →
        sum_find (ms.foldl aggregate_record m) k = none) := by
  induction ms with
  | nil =>
    intro m _ k
    constructor
    · rintro (⟨r, hr, _⟩ | h)
      · cases hr
      · cases hs : sum_find m k with
        | none => exact absurd hs h
        | some v => simp [hs]
    · intro h
      simp only [List.foldl_nil]
      by_contra hc
      exact h (Or.inr hc)
  | cons r rest ih =>
    intro m hnd k
    have hr := aggregate_record_find r m (hnd r (List.mem_cons_self _ _)) k
    obtain ⟨iha, ihb⟩ := ih (aggregate_record m r)
      (fun x hx => hnd x (List.mem_cons_of_mem _ hx)) k
    simp only [List.foldl_cons, List.map_cons, List.sum_cons]
    cases hd : dbl_value r k with
    | some v =>
      rw [hd] at hr
      simp only [] at hr
      have hfv : field_value r k = v := by unfold field_value; rw [hd]; rfl
      constructor
      · intro _
        rw [iha (Or.inr (by rw [hr]; simp)), hr, hfv, Option.getD_some]
        congr 1
        ring
      · intro h
        exact absurd (Or.inl ⟨r, List.mem_cons_self _ _, by rw [hd]; simp⟩) h
    | none =>
      rw [hd] at hr
      simp only [] at hr
      have hfv : field_value r k = 0 := by unfold field_value; rw [hd]; rfl
      have hiff : ((∃ x ∈ r :: rest, dbl_value x k ≠ none) ∨ sum_find m k ≠ none)
          ↔ ((∃ x ∈ rest, dbl_value x k ≠ none) ∨ sum_find (aggregate_record m r) k ≠ none) := by
        rw [hr]
        constructor
        · rintro (⟨x, hx, hxv⟩ | h)
          · rcases List.mem_cons.1 hx with rfl | hx1
            · exact absurd hd hxv
            · exact Or.inl ⟨x, hx1, hxv⟩
          · exact Or.inr h
        · rintro (⟨x, hx, hxv⟩ | h)
          · exact Or.inl ⟨x, List.mem_cons_of_mem _ hx, hxv⟩
          · exact Or.inr h
      constructor
      · intro h
        rw [iha (hiff.1 h), hr, hfv, zero_add]
      · intro h
        exact ihb (fun hc => h (hiff.2 hc))

theorem aggregate_fold_nodup (ms : List ADRecord) :
    ∀ m : List (String × ℚ), (m.map (fun e => e.1)).Nodup →
      ((ms.foldl aggregate_record m).map (fun e => e.1)).Nodup := by
  induction ms with
  | nil => intro m h; exact h
  | cons r rest ih =>
    intro m h
    exact ih _ (aggregate_record_nodup r m h)

theorem aggregate_mean_aux (ms : List ADRecord)
    (hk : ∀ r ∈ ms, (r.map (fun e => e.1)).Nodup) :
    ((aggregate_multiple_testsets ms).map (fun e => e.1)).Nodup
      ∧ ∀ e : String × ADValue, e ∈ aggregate_multiple_testsets ms
          ↔ ∃ k, e = (k, ADValue.dbl (field_mean ms k))
              ∧ ∃ r ∈ ms, ∃ v, dbl_value r k = some v := by
  have hnd := aggregate_fold_nodup ms [] (by simp)
  unfold aggregate_multiple_testsets
  constructor
  · rw [List.map_map]
    exact hnd
  · intro e
    constructor
    · intro he
      obtain ⟨x, hx, rfl⟩ := List.mem_map.1 he
      obtain ⟨k, s⟩ := x
      have hs := sum_find_mem _ k s hnd hx
      obtain ⟨ha, hb⟩ := aggregate_fold_find ms [] hk k
      by_cases hc : (∃ r ∈ ms, dbl_value r k ≠ none) ∨ sum_find [] k ≠ none
      · rw [ha hc] at hs
        have hs2 : s = (ms.map (fun r => field_value r k)).sum := by
          have := Option.some.inj hs
          rw [← this]
          simp [sum_find]
        refine ⟨k, ?_, ?_⟩
        · simp only [field_mean, hs2]
        · rcases hc with ⟨r, hr, hrv⟩ | hc
          · cases hd : dbl_value r k with
            | none => exact absurd hd hrv
            | some v => exact ⟨r, hr, v, hd⟩
          · exact absurd rfl hc
      · rw [hb hc] at hs
        cases hs
    · rintro ⟨k, rfl, r, hr, v, hv⟩
      obtain ⟨ha, _⟩ := aggregate_fold_find ms [] hk k
      have hs := ha (Or.inl ⟨r, hr, by rw [hv]; simp⟩)
      have hmem := sum_find_some_mem _ _ _ hs
      refine List.mem_map.2 ⟨_, hmem, ?_⟩
      simp [field_mean, sum_find]

/-- C21 (as amended). For every list of metric records, `aggregate_multiple_testsets`
sets `measure` to a record that holds, for every field that is a `double` in one of the
records at least, and for no other key, the sum of that field over the records divided
by their number `N` (a record lacking the field contributes 0 to the sum and still
counts in `N`), and it leaves the `measures` list unchanged. -/
theorem aggregate_mean (ad_out : AdOut)
    (hk : ∀ r ∈ ad_out.measures, (r.map (fun e => e.1)).Nodup) :
    ∃ out, (aggregate_multiple_testsets_on ad_out).measure = some out
      ∧ (out.map (fun e => e.1)).Nodup
      ∧ (∀ e : String × ADValue, e ∈ out
          ↔ ∃ k, e = (k, ADValue.dbl (field_mean ad_out.measures k))
              ∧ ∃ r ∈ ad_out.measures, ∃ v, dbl_value r k = some v)
      ∧ (aggregate_multiple_testsets_on ad_out).measures = ad_out.measures :=
  ⟨aggregate_multiple_testsets ad_out.measures, rfl,
    (aggregate_mean_aux ad_out.measures hk).1, (aggregate_mean_aux ad_out.measures hk).2, rfl⟩

/-- C21 (witness). Two records, the second lacking `f1` and the first lacking `map`. -/
theorem aggregate_mean_witness :
    ∃ out, (aggregate_multiple_testsets_on { measures := records_two, measure := none }).measure
        = some out
      ∧ (out.map (fun e => e.1)).Nodup
      ∧ (∀ e : String × ADValue, e ∈ out
          ↔ ∃ k, e = (k, ADValue.dbl (field_mean records_two k))
              ∧ ∃ r ∈ records_two, ∃ v, dbl_value r k = some v)
      ∧ (aggregate_multiple_testsets_on { measures := records_two, measure := none }).measures
          = records_two :=
  aggregate_mean { measures := records_two, measure := none } (by decide)

/-- C21 (counterexample). The field `test_id` is numeric (an `int`) in both records and
is not in the result; the `double` fields are averaged over the two records. -/
theorem aggregate_skips_int :
    aggregate_multiple_testsets records_two
      = [("acc", .dbl (1 / 2)), ("f1", .dbl (1 / 4)), ("map", .dbl (1 / 2))] := by
  decide!

/-! ## `timeSeriesErrors` and the first timestep -/

theorem ts_map_two (a b : ℚ) : ts_map [a, b] 2 1 = .ok [[a], [b]] := by
  simp [ts_map, List.range, List.range.loop]

theorem float_two : to_float 2 = 2 := by decide!

theorem max_element_first (x : ℚ) (hx : 0 ≤ x) : max_element [x, 0] = 0 := by
  simp [max_element, List.range, List.range.loop, not_lt.2 hx]

theorem ts_sample_two (sqrt : ℚ → ℚ) (L1 : Bool) (p : ℚ) (hp : 0 ≤ p)
    (hs : L1 = false → sqrt (p * p) = p) :
    ts_sample sqrt 1 L1 { max := [0], idxmxerrors := [0], mean_error_vector := [0], nts := 0 }
        true { target := [0, 0], pred := [p, 0] }
      = .ok { max := [if L1 then p else p * p], idxmxerrors := [0],
              mean_error_vector := [p], nts := 2 } := by
  have habs : |p| = p := abs_of_nonneg hp
  have hd : ([0, 0] : List ℚ).length / 1 = 2 := rfl
  unfold ts_sample
  simp only [hd, ts_map_two, bind_ok]
  cases L1
  · simp [mat_col, vsum, habs, max_element_first _ (mul_nonneg hp hp), hs rfl, pure,
      Except.pure, List.range, List.range.loop]
  · simp [mat_col, vsum, habs, max_element_first _ hp, pure, Except.pure, List.range,
      List.range.loop]

theorem ts_run_two (sqrt : ℚ → ℚ) (L1 : Bool) (p : ℚ) (hp : 0 ≤ p)
    (hs : L1 = false → sqrt (p * p) = p) :
    timeSeriesErrors sqrt [{ target := [0, 0], pred := [p, 0] }] 1 L1
      = .ok { max_errors := [if L1 then p else p * p], indexes_max_error := [0],
              mean_errors := [p / 2],
              max_error := if L1 then p else p * p, mean_error := p / 2 } := by
  have h1 : ¬ ((1 : Int) ≤ 0) := by decide
  have hn : (1 : Int).toNat = 1 := rfl
  have hr : ∀ x : ℚ, List.replicate 1 x = [x] := fun _ => rfl
  have hri : List.replicate 1 (0 : Int) = [0] := rfl
  have hm : ([p] : List ℚ).mapM (fun x => fdiv x (to_float 2)) = .ok [p / 2] := by
    rw [float_two]
    have h2 : (2 : ℚ) ≠ 0 := by norm_num
    simp [List.mapM, List.mapM.loop, fdiv, h2, pure, Except.pure, bind, Except.bind]
  unfold timeSeriesErrors
  rw [if_neg h1]
  simp only [hn, hr, hri, ts_loop, Nat.zero_add]
  rw [show decide True = true from rfl, ts_sample_two sqrt L1 p hp hs, bind_ok,
    bind_ok]
  simp only [hm, bind_ok]
  simp [pure, Except.pure]

/-! ## Delta scores -/

theorem mapM_fdiv (l : List ℚ) (d : ℚ) (hd : d ≠ 0) :
    l.mapM (fun x => fdiv x d) = .ok (l.map (fun x => x / d)) := by
  induction l with
  | nil => rfl
  | cons x rest ih =>
    rw [List.mapM_cons, ih]
    simp only [fdiv, if_neg hd, List.map_cons]
    rfl

theorem unmasked_entries_cons (thres : ℚ) (s : MlSample) (rest : List MlSample) :
    spec_unmasked_entries thres (s :: rest)
      = (s.target.zip s.pred).filter (fun e => kl_unmasked thres e.1)
        ++ spec_unmasked_entries thres rest := by
  simp [spec_unmasked_entries]

theorem countP_zipWith {α β γ : Type} (f : α → β → γ) (q : γ → Bool) (a : List α)
    (b : List β) :
    (List.zipWith f a b).countP q = (a.zip b).countP (fun e => q (f e.1 e.2)) := by
  induction a generalizing b with
  | nil => simp
  | cons x xs ih =>
    cases b with
    | nil => simp
    | cons y ys =>
      simp only [List.zipWith_cons_cons, List.zip_cons_cons, List.countP_cons, ih]

theorem countP_fst_zip {α β : Type} (q : α → Bool) (a : List α) (b : List β)
    (h : a.length = b.length) :
    a.countP q = ((a.zip b).filter (fun e => q e.1)).length := by
  induction a generalizing b with
  | nil => simp
  | cons x xs ih =>
    cases b with
    | nil => simp at h
    | cons y ys =>
      have h1 : xs.length = ys.length := by simpa using h
      rw [List.zip_cons_cons, List.countP_cons, List.filter_cons, ih ys h1]
      by_cases hq : q x = true <;> simp [hq]

theorem vsum_zipWith {α β : Type} (f : α → β → ℚ) (a : List α) (b : List β) :
    vsum (List.zipWith f a b) = ((a.zip b).map (fun e => f e.1 e.2)).sum := by
  rw [vsum_eq_sum]
  congr 1
  induction a generalizing b with
  | nil => simp
  | cons x xs ih =>
    cases b with
    | nil => simp
    | cons y ys => simp only [List.zipWith_cons_cons, List.zip_cons_cons, List.map_cons, ih]

theorem zipWith_map_self {α β : Type} (f : β → α → β) (g : α → β) (l : List α) :
    List.zipWith f (l.map g) l = l.map (fun d => f (g d) d) := by
  induction l with
  | nil => rfl
  | cons a rest ih => simp [ih]

theorem deltas_count (thres d : ℚ) (hd : d ≤ 10) (bad : MlSample) :
    (List.zipWith (fun t p => if kl_unmasked thres t then |to_double (t - p)| else 10) bad.target
        bad.pred).countP (fun x => decide (x < d))
      = ((bad.target.zip bad.pred).filter (fun e => kl_unmasked thres e.1)).countP
          (fun e => decide (|to_double (e.1 - e.2)| < d)) := by
  rw [countP_zipWith, List.countP_filter]
  apply List.countP_congr
  intro e _
  by_cases hu : kl_unmasked thres e.1 = true
  · simp [hu]
  · have : ¬ ((10 : ℚ) < d) := not_lt.2 hd
    simp [hu, this]

theorem deltas_sample_ok (thres : ℚ) (bad : MlSample)
    (hwf : bad.pred ≠ [] ∧ bad.pred.length = bad.target.length) :
    deltas_sample thres bad = .ok
      (((bad.target.zip bad.pred).filter (fun e => kl_unmasked thres e.1)).length,
        List.zipWith (fun t p => if kl_unmasked thres t then |to_double (t - p)| else 10) bad.target
          bad.pred) := by
  have ht : bad.target ≠ [] := by
    intro h
    apply hwf.1
    apply List.length_eq_zero.1
    rw [hwf.2, h]
    rfl
  unfold deltas_sample
  rw [if_neg hwf.1, if_neg ht, if_neg (by simp [hwf.2]),
    countP_fst_zip (kl_unmasked thres) bad.target bad.pred hwf.2.symm]

theorem deltas_fold (deltas : List ℚ) (hd : ∀ d ∈ deltas, d ≤ 10) (thres : ℚ)
    (samples : List MlSample)
    (hwf : ∀ s ∈ samples, s.pred ≠ [] ∧ s.pred.length = s.target.length) :
    ∀ (n : Int) (g : ℚ → ℚ),
      samples.foldlM (deltas_step deltas thres) (n, deltas.map g)
        = .ok (n + ((spec_unmasked_entries thres samples).length : Int),
            deltas.map (fun d => g d
              + (((spec_unmasked_entries thres samples).countP
                  (fun e => decide (|to_double (e.1 - e.2)| < d)) : Nat) : ℚ))) := by
  induction samples with
  | nil =>
    intro n g
    simp [spec_unmasked_entries, pure, Except.pure]
  | cons s rest ih =>
    intro n g
    have hs := hwf s (List.mem_cons_self _ _)
    have hstep : deltas_step deltas thres (n, deltas.map g) s
        = .ok (n + (((s.target.zip s.pred).filter
                (fun e => kl_unmasked thres e.1)).length : Int),
            deltas.map (fun d => g d
              + ((((s.target.zip s.pred).filter (fun e => kl_unmasked thres e.1)).countP
                  (fun e => decide (|to_double (e.1 - e.2)| < d)) : Nat) : ℚ))) := by
      unfold deltas_step
      rw [deltas_sample_ok thres s hs, bind_ok]
      show Except.ok _ = Except.ok _
      congr 2
      rw [zipWith_map_self]
      apply List.map_congr_left
      intro d hdm
      rw [deltas_count thres d (hd d hdm) s]
    rw [List.foldlM_cons, hstep, bind_ok,
      ih (fun x hx => hwf x (List.mem_cons_of_mem _ hx)), unmasked_entries_cons]
    congr 2
    · rw [List.length_append]
      push_cast
      ring
    · apply List.map_congr_left
      intro d _
      rw [List.countP_append]
      push_cast
      ring

theorem unmasked_entries_pos (thres : ℚ) (samples : List MlSample)
    (hwf : ∀ s ∈ samples, s.pred ≠ [] ∧ s.pred.length = s.target.length)
    (hone : ∃ s ∈ samples, ∃ t ∈ s.target, kl_unmasked thres t = true) :
    0 < (spec_unmasked_entries thres samples).length := by
  obtain ⟨s, hs, t, ht, hu⟩ := hone
  induction samples with
  | nil => cases hs
  | cons x rest ih =>
    rw [unmasked_entries_cons, List.length_append]
    rcases List.mem_cons.1 hs with h | h
    · subst h
      have h1 : 0 < s.target.countP (kl_unmasked thres) :=
        List.countP_pos_iff.2 ⟨t, ht, hu⟩
      rw [countP_fst_zip (kl_unmasked thres) s.target s.pred
        (hwf s (List.mem_cons_self _ _)).2.symm] at h1
      omega
    · have := ih (fun y hy => hwf y (List.mem_cons_of_mem _ hy)) h
      omega

theorem delta_score_bounds (samples : List MlSample) (thres d : ℚ) :
    0 ≤ spec_rounded_score samples thres d ∧ spec_rounded_score samples thres d ≤ 1 := by
  unfold spec_rounded_score
  constructor
  · exact div_nonneg (Nat.cast_nonneg _) (Nat.cast_nonneg _)
  · apply div_le_one_of_le₀
    · exact_mod_cast List.countP_le_length _
    · exact Nat.cast_nonneg _

theorem delta_score_mono (samples : List MlSample) (thres d1 d2 : ℚ) (h : d1 ≤ d2) :
    spec_rounded_score samples thres d1 ≤ spec_rounded_score samples thres d2 := by
  unfold spec_rounded_score
  apply div_le_div_of_nonneg_right _ (Nat.cast_nonneg _)
  have : (spec_unmasked_entries thres samples).countP
        (fun e => decide (|to_double (e.1 - e.2)| < d1))
      ≤ (spec_unmasked_entries thres samples).countP
        (fun e => decide (|to_double (e.1 - e.2)| < d2)) := by
    apply List.countP_mono_left
    intro e _ he
    simp only [decide_eq_true_eq] at he ⊢
    exact lt_of_lt_of_le he h
  exact_mod_cast this

theorem exact_double_eq (x : ℚ) (h : exact_double x = true) : to_double x = x := by
  unfold exact_double at h
  simp only [Bool.and_eq_true, decide_eq_true_eq] at h
  exact h.2

theorem rounded_score_exact (samples : List MlSample) (thres d : ℚ)
    (hex : ∀ e ∈ spec_unmasked_entries thres samples, exact_double (e.1 - e.2) = true) :
    spec_rounded_score samples thres d = spec_delta_score samples thres d := by
  unfold spec_rounded_score spec_delta_score
  congr 2
  apply List.countP_congr
  intro e he
  rw [exact_double_eq _ (hex e he)]

theorem deltas_fraction_aux (samples : List MlSample) (thres : ℚ)
    (hwf : ∀ s ∈ samples, s.pred ≠ [] ∧ s.pred.length = s.target.length)
    (hone : ∃ s ∈ samples, ∃ t ∈ s.target, kl_unmasked thres t = true) :
    multilabel_soft_deltas samples measure_delta_scores measure_deltas thres
      = .ok (measure_deltas.map (spec_rounded_score samples thres)) := by
  have hd : ∀ d ∈ measure_deltas, d ≤ 10 := by decide!
  have hpos := unmasked_entries_pos thres samples hwf hone
  have hne : (((0 : Int) + ((spec_unmasked_entries thres samples).length : Int) : Int) : ℚ)
      ≠ 0 := by
    have : (0 : Int) < 0 + ((spec_unmasked_entries thres samples).length : Int) := by omega
    exact Int.cast_ne_zero.2 (ne_of_gt this)
  unfold multilabel_soft_deltas
  rw [if_neg (by decide)]
  have hfold := deltas_fold measure_deltas hd thres samples hwf 0 (fun _ => 0)
  rw [hfold, bind_ok]
  dsimp only
  rw [mapM_fdiv _ _ hne, bind_ok]
  show Except.ok _ = Except.ok _
  congr 1
  have hdrop : List.drop measure_deltas.length measure_delta_scores = [] := rfl
  rw [hdrop, List.append_nil, List.map_map]
  apply List.map_congr_left
  intro d _
  simp only [Function.comp, spec_rounded_score, zero_add, Int.cast_add, Int.cast_zero,
    Int.cast_natCast]

/-- C23 (as amended). For every batch of well-formed samples (prediction vector not
empty and as long as the target vector) with at least one unmasked target entry
(`target >= 0` when the threshold is unset, that is negative; `target > threshold`
otherwise), `multilabel_soft_deltas`, called as `measure` calls it (the `double`s 0.05,
0.1, 0.2 and 0.5), returns for each delta the number of unmasked entries whose difference
`target - pred`, as computed in `double`, is below delta in absolute value, divided by
the number of unmasked entries; every such score lies in `[0, 1]` and the score does not
decrease when delta increases. When the difference `target - pred` of every unmasked
entry is the value of a `double`, the score is the number of unmasked entries with
`|target - pred| < delta` divided by the number of unmasked entries. -/
theorem deltas_fraction (samples : List MlSample) (thres : ℚ)
    (hwf : ∀ s ∈ samples, s.pred ≠ [] ∧ s.pred.length = s.target.length)
    (hone : ∃ s ∈ samples, ∃ t ∈ s.target, kl_unmasked thres t = true) :
    multilabel_soft_deltas samples measure_delta_scores measure_deltas thres
        = .ok (measure_deltas.map (spec_rounded_score samples thres))
      ∧ (∀ d, 0 ≤ spec_rounded_score samples thres d
          ∧ spec_rounded_score samples thres d ≤ 1)
      ∧ (∀ d1 d2, d1 ≤ d2 →
          spec_rounded_score samples thres d1 ≤ spec_rounded_score samples thres d2)
      ∧ ((∀ e ∈ spec_unmasked_entries thres samples, exact_double (e.1 - e.2) = true) →
          multilabel_soft_deltas samples measure_delta_scores measure_deltas thres
            = .ok (measure_deltas.map (spec_delta_score samples thres))) := by
  refine ⟨deltas_fraction_aux samples thres hwf hone, delta_score_bounds samples thres,
    delta_score_mono samples thres, ?_⟩
  intro hex
  rw [deltas_fraction_aux samples thres hwf hone]
  congr 1
  apply List.map_congr_left
  intro d _
  exact rounded_score_exact samples thres d hex

/-- C23 (witness). Two samples of three classes, one target masked, threshold unset, all
differences being values of `double`s: the scores are 2, 2, 3 and 4 of the 5 unmasked
entries. -/
theorem deltas_fraction_witness :
    multilabel_soft_deltas ml_dyadic measure_delta_scores measure_deltas (-1)
        = .ok (measure_deltas.map (spec_delta_score ml_dyadic (-1)))
      ∧ multilabel_soft_deltas ml_dyadic measure_delta_scores measure_deltas (-1)
        = .ok [2 / 5, 2 / 5, 3 / 5, 4 / 5] := by
  have h := (deltas_fraction ml_dyadic (-1)
    (by simp [ml_dyadic])
    ⟨{ target := [1 / 2, -1, 1], pred := [17 / 32, 1 / 4, 3 / 4] }, by simp [ml_dyadic],
      1 / 2, by simp, by decide!⟩).2.2.2 (by decide!)
  refine ⟨h, ?_⟩
  rw [h]
  decide!

/-- C23 (counterexample). One target 1/2 with the prediction `2^-60`: the difference
`1/2 - 2^-60` is below 1/2, so the entry counts in the fraction of entries with
`|target - pred| < 0.5`, which is 1; in `double` the difference rounds to 1/2, which
is not below 0.5, and `multilabel_soft_deltas` returns the score 0. -/
theorem deltas_rounded_difference :
    multilabel_soft_deltas ml_round_up measure_delta_scores measure_deltas (-1)
        = .ok [0, 0, 0, 0]
      ∧ measure_deltas.map (spec_delta_score ml_round_up (-1)) = [0, 0, 0, 1]
      ∧ to_double (1 / 2 - 1 / 2 ^ 60) = 1 / 2 := by
  refine ⟨by decide!, by decide!, by decide!⟩

/-! ## Coefficient of determination -/

theorem dc_first_sample (sqrt : ℚ → ℚ) (h1 : sqrt 1 = 1) :
    dc_sample sqrt 2 (-1)
        { t_j := [0, 0], p_j := [0, 0], t_ := 0, p_ := 0, dcov := 0, dvart := 0, dvarp := 0,
          distance_correlation := 0 } dc_sample_spread
      = .ok { t_j := [1, 1], p_j := [1, 1], t_ := 1, p_ := 1, dcov := 1, dvart := 1,
              dvarp := 1, distance_correlation := 1 } := by
  have hc : dc_care_classes 2 (-1) dc_sample_spread.target = .ok [0, 1] := by decide!
  have hs : dc_sums [0, 1] dc_sample_spread.target dc_sample_spread.pred
        { t_j := [0, 0], p_j := [0, 0], t_ := 0, p_ := 0, dcov := 0, dvart := 0, dvarp := 0,
          distance_correlation := 0 }
      = { t_j := [1, 1], p_j := [1, 1], t_ := 1, p_ := 1, dcov := 4, dvart := 4, dvarp := 4,
          distance_correlation := 0 } := by decide!
  have hany : ([0, 1].any (fun l => decide (dc_sample_spread.pred.length ≤ l))) = false := by
    decide
  have h44 : (4 : ℚ) / (((2 : Nat) : ℚ) * ((2 : Nat) : ℚ)) = 1 := by norm_num
  unfold dc_sample
  rw [hc]
  simp only [List.cons_ne_nil, if_false, hany, Bool.false_eq_true, List.length_cons,
    List.length_nil, hs, dc_close, h44, h1, mul_one, fdiv, Except.map, one_ne_zero,
    not_false_eq_true, and_self, if_true, div_one, zero_add, Nat.zero_add, Nat.reduceAdd]
  rw [if_pos one_ne_zero]

theorem dc_second_sample (sqrt : ℚ → ℚ) (h4 : sqrt (1 / 4) = 1 / 2) :
    dc_sample sqrt 2 (-1)
        { t_j := [1, 1], p_j := [1, 1], t_ := 1, p_ := 1, dcov := 1, dvart := 1,
          dvarp := 1, distance_correlation := 1 } dc_sample_flat
      = .ok { t_j := [1 / 2, 1 / 2], p_j := [1 / 2, 1 / 2], t_ := 1, p_ := 1,
              dcov := 1 / 2, dvart := 1 / 2, dvarp := 1 / 2, distance_correlation := 2 } := by
  have hc : dc_care_classes 2 (-1) dc_sample_flat.target = .ok [0, 1] := by decide!
  have hs : dc_sums [0, 1] dc_sample_flat.target dc_sample_flat.pred
        { t_j := [1, 1], p_j := [1, 1], t_ := 1, p_ := 1, dcov := 1, dvart := 1,
          dvarp := 1, distance_correlation := 1 }
      = { t_j := [1 / 2, 1 / 2], p_j := [1 / 2, 1 / 2], t_ := 1, p_ := 1, dcov := 1,
          dvart := 1, dvarp := 1, distance_correlation := 1 } := by decide!
  have hany : ([0, 1].any (fun l => decide (dc_sample_flat.pred.length ≤ l))) = false := by
    decide
  have h44 : (1 : ℚ) / (((2 : Nat) : ℚ) * ((2 : Nat) : ℚ)) = 1 / 4 := by norm_num
  have hm : (1 / 2 : ℚ) * (1 / 2) = 1 / 4 := by norm_num
  have hd : (1 / 2 : ℚ) / (1 / 2) = 1 := by norm_num
  have hne : (1 / 2 : ℚ) ≠ 0 := by norm_num
  have h2 : (1 : ℚ) + 1 = 2 := by norm_num
  unfold dc_sample
  rw [hc]
  simp only [List.cons_ne_nil, if_false, hany, Bool.false_eq_true, List.length_cons,
    List.length_nil, hs, dc_close, h44, h4, hm, hd, hne, h2, fdiv, Except.map, ne_eq,
    not_false_eq_true, and_self, if_true, Nat.zero_add, Nat.reduceAdd]

theorem dc_flat_alone (sqrt : ℚ → ℚ) (h0 : sqrt 0 = 0) :
    dc_sample sqrt 2 (-1)
        { t_j := [0, 0], p_j := [0, 0], t_ := 0, p_ := 0, dcov := 0, dvart := 0, dvarp := 0,
          distance_correlation := 0 } dc_sample_flat
      = .ok { t_j := [0, 0], p_j := [0, 0], t_ := 0, p_ := 0, dcov := 0, dvart := 0,
              dvarp := 0, distance_correlation := 0 } := by
  have hc : dc_care_classes 2 (-1) dc_sample_flat.target = .ok [0, 1] := by decide!
  have hs : dc_sums [0, 1] dc_sample_flat.target dc_sample_flat.pred
        { t_j := [0, 0], p_j := [0, 0], t_ := 0, p_ := 0, dcov := 0, dvart := 0, dvarp := 0,
          distance_correlation := 0 }
      = { t_j := [0, 0], p_j := [0, 0], t_ := 0, p_ := 0, dcov := 0, dvart := 0, dvarp := 0,
          distance_correlation := 0 } := by decide!
  have hany : ([0, 1].any (fun l => decide (dc_sample_flat.pred.length ≤ l))) = false := by
    decide
  unfold dc_sample
  rw [hc]
  simp only [List.cons_ne_nil, if_false, hany, Bool.false_eq_true, List.length_cons,
    List.length_nil, hs, dc_close, zero_div, h0, ne_eq, not_true_eq_false, and_self]

/-- C25. On the batch made of a sample with targets and predictions `[0, 2]` followed by
a sample with targets and predictions `[0, 0]` (threshold unset), `multilabel_soft_dc`
returns 1, whereas it returns 1 for the first sample alone and 0 for the second sample
alone, whose mean is 1/2: the second sample is scored with the row means and the sums
left by the first. `sqrt` stands for `std::sqrt`, read at 0, 1/4 and 1 only. -/
theorem multilabel_soft_dc_carries_state (sqrt : ℚ → ℚ) (h0 : sqrt 0 = 0)
    (h4 : sqrt (1 / 4) = 1 / 2) (h1 : sqrt 1 = 1) :
    multilabel_soft_dc sqrt [dc_sample_spread, dc_sample_flat] (-1) = .ok 1
      ∧ multilabel_soft_dc sqrt [dc_sample_spread] (-1) = .ok 1
      ∧ multilabel_soft_dc sqrt [dc_sample_flat] (-1) = .ok 0 := by
  have hlen1 : dc_sample_spread.target.length = 2 := rfl
  have hlen2 : dc_sample_flat.target.length = 2 := rfl
  have hrep : List.replicate 2 (0 : ℚ) = [0, 0] := rfl
  refine ⟨?_, ?_, ?_⟩
  · unfold multilabel_soft_dc
    simp only [hlen1, hrep, List.foldlM_cons, List.foldlM_nil]
    rw [dc_first_sample sqrt h1, bind_ok, dc_second_sample sqrt h4, bind_ok]
    show (pure _ : Except Err DcState) >>= _ = _
    rw [show (pure _ : Except Err DcState) = Except.ok _ from rfl, bind_ok]
    unfold fdiv
    norm_num
  · unfold multilabel_soft_dc
    simp only [hlen1, hrep, List.foldlM_cons, List.foldlM_nil]
    rw [dc_first_sample sqrt h1, bind_ok]
    show (pure _ : Except Err DcState) >>= _ = _
    rw [show (pure _ : Except Err DcState) = Except.ok _ from rfl, bind_ok]
    unfold fdiv
    norm_num
  · unfold multilabel_soft_dc
    simp only [hlen2, hrep, List.foldlM_cons, List.foldlM_nil]
    rw [dc_flat_alone sqrt h0, bind_ok]
    show (pure _ : Except Err DcState) >>= _ = _
    rw [show (pure _ : Except Err DcState) = Except.ok _ from rfl, bind_ok]
    unfold fdiv
    norm_num

/-- C25 (witness). `sqrt_squares` has the three values of the square root. -/
theorem multilabel_soft_dc_carries_state_witness :
    multilabel_soft_dc sqrt_squares [dc_sample_spread, dc_sample_flat] (-1) = .ok 1
      ∧ multilabel_soft_dc sqrt_squares [dc_sample_spread] (-1) = .ok 1
      ∧ multilabel_soft_dc sqrt_squares [dc_sample_flat] (-1) = .ok 0 :=
  multilabel_soft_dc_carries_state sqrt_squares (by decide!) (by decide!) (by decide!)

/-! ## Metric tokens -/

theorem find_presence_fold (split : String → Char → List String) (atof : String → ℚ)
    (meas : String) (measures : List String) (st : Bool × ℚ) :
    measures.foldl (fun st s =>
        if str_contains s meas then
          match split s '-' with
          | [_, x] => (true, to_float (atof x))
          | _ => (true, 0)
        else st) st
      = (measures.filter (fun s => str_contains s meas)).foldl (fun _ s =>
          match split s '-' with
          | [_, x] => (true, to_float (atof x))
          | _ => (true, 0)) st := by
  induction measures generalizing st with
  | nil => rfl
  | cons s rest ih =>
    by_cases h : str_contains s meas = true
    · simp only [List.foldl_cons, List.filter_cons, h, if_true]
      exact ih _
    · simp only [List.foldl_cons, List.filter_cons, h, if_false, Bool.false_eq_true]
      exact ih _

theorem find_presence_only (split : String → Char → List String) (atof : String → ℚ)
    (meas : String) (measures : List String) (tok : String) (do_meas : Bool) (meas_thres : ℚ)
    (honly : measures.filter (fun s => str_contains s meas) = [tok]) :
    find_presence_and_thres split atof meas measures do_meas meas_thres
      = match split tok '-' with
        | [_, x] => (true, to_float (atof x))
        | _ => (true, 0) := by
  unfold find_presence_and_thres
  rw [find_presence_fold, honly]
  rfl

/-- C26 (as amended). For every list of tokens in which exactly one token `tok`
contains the family name `meas`: when `tok` carries no suffix (it splits at `-` into
itself alone), `find_presence_and_thres` enables the metric and sets its threshold to 0;
when `tok` is `name-x` (it splits into the two pieces `name` and `x`) and the number
`atof x` is within the range of `float`, it enables the metric and sets the threshold to
that number narrowed to single precision, the variable `meas_thres` being a `float`: the
threshold is the number `x` itself when `x` is the value of a `float`. `split` stands for
`dd_utils::split` and `atof` for `std::atof`. -/
theorem find_presence_and_thres_default (split : String → Char → List String)
    (atof : String → ℚ) (meas : String) (measures : List String) (tok : String)
    (do_meas : Bool) (meas_thres : ℚ)
    (honly : measures.filter (fun s => str_contains s meas) = [tok]) :
    (split tok '-' = [tok] →
        find_presence_and_thres split atof meas measures do_meas meas_thres = (true, 0))
    ∧ (∀ name x, split tok '-' = [name, x] → |atof x| ≤ flt_max →
        find_presence_and_thres split atof meas measures do_meas meas_thres
            = (true, to_float (atof x))
          ∧ (to_float (atof x) = atof x →
              find_presence_and_thres split atof meas measures do_meas meas_thres
                = (true, atof x))) := by
  rw [find_presence_only split atof meas measures tok do_meas meas_thres honly]
  constructor
  · intro h; rw [h]
  · intro name x h _
    rw [h]
    exact ⟨rfl, fun hx => by simp only [hx]⟩

/-- C26 (witness). The tokens `f1`, `kl-0.5`: the family `kl` gets the threshold 0.5,
which is a `float`; the tokens `kl`, `f1`: it gets the threshold 0. -/
theorem find_presence_and_thres_default_witness :
    find_presence_and_thres split_pieces atof_decimal "kl" ["f1", "kl-0.5"] false (-1)
        = (true, 1 / 2)
      ∧ find_presence_and_thres split_pieces atof_decimal "kl" ["kl", "f1"] false (-1)
        = (true, 0) := by
  constructor
  · have h := ((find_presence_and_thres_default split_pieces atof_decimal "kl"
      ["f1", "kl-0.5"] "kl-0.5" false (-1) (by decide)).2 "kl" "0.5" (by decide)
      (by decide!)).2 (by decide!)
    rw [h]
    decide!
  · exact (find_presence_and_thres_default split_pieces atof_decimal "kl"
      ["kl", "f1"] "kl" false (-1) (by decide)).1 (by decide)

/-- C26 (counterexample). The token `kl-0.1`: `std::atof` returns the `double` written
0.1, which is not the value of a `float`; the threshold is set to the `float` next to
it, 13421773/134217728, which is neither the number 0.1 nor that `double`, and lies above
both: a target of 13421773/134217728 is above the number 0.1 and is masked by
`target > threshold` all the same. -/
theorem find_presence_threshold_narrowed :
    atof_double "0.1" = to_double (1 / 10)
      ∧ find_presence_and_thres split_pieces atof_double "kl" ["kl-0.1"] false (-1)
        = (true, 13421773 / 134217728)
      ∧ (13421773 / 134217728 : ℚ) ≠ 1 / 10
      ∧ (13421773 / 134217728 : ℚ) ≠ to_double (1 / 10)
      ∧ kl_unmasked (to_double (1 / 10)) (13421773 / 134217728) = true
      ∧ kl_unmasked (13421773 / 134217728) (13421773 / 134217728) = false := by
  refine ⟨by decide!, by decide!, by decide!, by decide!, by decide!, by decide!⟩


theorem acc_vacck_append (split : String → Char → List String) (xs ys : List String) :
    acc_vacck split (xs ++ ys) = acc_vacck split xs ++ acc_vacck split ys := by
  unfold acc_vacck
  rw [List.filter_append, List.map_append]

theorem soft_selection_aux (split : String → Char → List String) (atof : String → ℚ)
    (measures : List String) (name tok : String)
    (honly : measures.filter (fun s => str_contains s name) = [tok])
    (hno : split tok '-' = [tok]) :
    soft_selection split atof measures name
      = (true, if measures.contains "acc" then -1 else 0) := by
  unfold soft_selection
  by_cases h : measures.contains "acc" = true
  · rw [if_pos h, if_pos h]
  · rw [if_neg h, if_neg h, find_presence_only split atof name measures tok false (-1) honly,
      hno]

/-- C27 (as amended). For every list of tokens in which exactly one token contains the
name of a multi-label soft metric (`kl`, `js`, `was`, `ks`, `dc`, `r2`, `deltas`, or any
other family name) and that token carries no suffix, the metric is enabled and its threshold variable is 0; it
is the sentinel -1 only when the token `acc` is also in the list. And in a token list
read by `acc`, a token without suffix that contains `acc` gives `k = 1`. `split` stands
for `dd_utils::split` and `atof` for `std::atof`. -/
theorem soft_threshold_default (split : String → Char → List String) (atof : String → ℚ)
    (measures : List String) (name tok : String) (pre post : List String) (atok : String)
    (honly : measures.filter (fun s => str_contains s name) = [tok])
    (hno : split tok '-' = [tok])
    (hacc : str_contains atok "acc" = true) (hano : split atok '-' = [atok]) :
    soft_selection split atof measures name
        = (true, if measures.contains "acc" then -1 else 0)
      ∧ acc_vacck split (pre ++ atok :: post)
        = acc_vacck split pre ++ 1 :: acc_vacck split post := by
  refine ⟨soft_selection_aux split atof measures name tok honly hno, ?_⟩
  have h1 : acc_vacck split [atok] = [1] := by
    unfold acc_vacck
    simp only [List.filter_cons, hacc, if_true, List.filter_nil, List.map_cons, List.map_nil,
      hano]
  rw [acc_vacck_append, show atok :: post = [atok] ++ post from rfl, acc_vacck_append, h1]
  rfl

/-- C27 (witness). The tokens `f1`, `kl`: the threshold of `kl` is 0; the tokens `acc`,
`acc-5` give `k = 1` and `k = 5`. -/
theorem soft_threshold_default_witness :
    soft_selection split_pieces atof_decimal ["f1", "kl"] "kl"
        = (true, if ["f1", "kl"].contains "acc" then -1 else 0)
      ∧ acc_vacck split_pieces ([] ++ "acc" :: ["acc-5"])
        = acc_vacck split_pieces [] ++ 1 :: acc_vacck split_pieces ["acc-5"] :=
  soft_threshold_default split_pieces atof_decimal ["f1", "kl"] "kl" "kl" [] ["acc-5"] "acc"
    (by decide) (by decide) (by decide) (by decide)

/-- C27 (counterexample). With the single token `kl`, which carries no suffix, the
threshold of the metric is 0 and not the sentinel -1. -/
theorem soft_threshold_not_sentinel :
    soft_selection split_pieces atof_decimal ["kl"] "kl" = (true, 0)
      ∧ soft_selection split_pieces atof_decimal ["kl"] "kl" ≠ (true, -1) := by
  constructor <;> decide!

/-! ## The terminal marker of `to_ad` -/

theorem iter_next_ok {α : Type} (flag : Bool) (l : ScoreMap α) (n : Nat)
    (hlen : flag = true → n + 1 ≤ l.length) :
    ∃ vv l1, iter_next flag l = .ok (vv, l1) ∧ (flag = true → n ≤ l1.length) := by
  cases flag with
  | false => exact ⟨none, l, rfl, by simp⟩
  | true =>
    cases l with
    | nil => simp at hlen
    | cons e rest => exact ⟨some e, rest, rfl, fun _ => by simpa using hlen⟩

theorem last_at_end_cons (e : AdEntry) (v : List AdEntry) (hv : v ≠ []) :
    last_at_end (e :: v) = last_at_end v := by
  unfold last_at_end
  cases v with
  | nil => exact absurd rfl hv
  | cons x rest => simp [List.getLast?_cons_cons]

theorem last_at_end_append (a b : List AdEntry) (hb : b ≠ []) :
    last_at_end (a ++ b) = last_at_end b := by
  unfold last_at_end
  rw [List.getLast?_append_of_ne_nil a hb]

theorem to_ad_cats_ok (regression autoencoder has_bbox has_roi has_mask : Bool)
    (cats : ScoreMap String) :
    ∀ (bit : ScoreMap BBox) (vit maskit : ScoreMap Payload),
      ((has_bbox || has_roi || has_mask) = true → cats.length ≤ bit.length) →
      (has_roi = true → cats.length ≤ vit.length) →
      (has_mask = true → cats.length ≤ maskit.length) →
      ∃ v, to_ad_cats regression autoencoder has_bbox has_roi has_mask cats bit vit maskit
          = .ok v
        ∧ v.length = cats.length
        ∧ last_count v = (if cats = [] then 0 else 1)
        ∧ (cats ≠ [] → last_at_end v = true) := by
  induction cats with
  | nil =>
    intro bit vit maskit _ _ _
    exact ⟨[], rfl, rfl, rfl, fun h => absurd rfl h⟩
  | cons m mit ih =>
    intro bit vit maskit h1 h2 h3
    obtain ⟨b, bit1, e1, l1⟩ := iter_next_ok (has_bbox || has_roi || has_mask) bit mit.length
      (by simpa using h1)
    obtain ⟨vv, vit1, e2, l2⟩ := iter_next_ok has_roi vit mit.length (by simpa using h2)
    obtain ⟨mk, maskit1, e3, l3⟩ := iter_next_ok has_mask maskit mit.length
      (by simpa using h3)
    obtain ⟨rest, e4, len4, cnt4, end4⟩ := ih bit1 vit1 maskit1 l1 l2 l3
    refine ⟨to_ad_entry regression autoencoder m b vv mk mit.isEmpty :: rest, ?_, ?_, ?_, ?_⟩
    · rw [to_ad_cats, e1, bind_ok]
      dsimp only
      rw [e2, bind_ok]
      dsimp only
      rw [e3, bind_ok]
      dsimp only
      rw [e4, bind_ok]
      rfl
    · simp [len4]
    · cases mit with
      | nil =>
        simp only [if_true] at cnt4
        simp [last_count, List.countP_cons] at cnt4 ⊢
        have : rest = [] := List.length_eq_zero.1 (by simpa using len4)
        simp [this, to_ad_entry]
      | cons x xs =>
        simp only [List.cons_ne_nil, if_false] at cnt4 ⊢
        unfold last_count at cnt4 ⊢
        rw [List.countP_cons, cnt4]
        simp [to_ad_entry]
    · intro _
      cases mit with
      | nil =>
        have : rest = [] := List.length_eq_zero.1 (by simpa using len4)
        subst this
        simp [last_at_end, to_ad_entry]
      | cons x xs =>
        have hr : rest ≠ [] := by
          intro h; rw [h] at len4; simp at len4
        rw [last_at_end_cons _ _ hr]
        exact end4 (List.cons_ne_nil _ _)

theorem to_ad_series_ok (series : ScoreMap Payload) :
    (to_ad_series series).length = series.length
      ∧ last_count (to_ad_series series) = (if series = [] then 0 else 1)
      ∧ (series ≠ [] → last_at_end (to_ad_series series) = true) := by
  induction series with
  | nil => exact ⟨rfl, rfl, fun h => absurd rfl h⟩
  | cons s sit ih =>
    obtain ⟨len, cnt, hend⟩ := ih
    refine ⟨by simp [to_ad_series, len], ?_, ?_⟩
    · cases sit with
      | nil => simp [to_ad_series, last_count]
      | cons x xs =>
        simp only [List.cons_ne_nil, if_false] at cnt ⊢
        unfold last_count at cnt ⊢
        rw [to_ad_series, List.countP_cons, cnt]
        simp
    · intro _
      cases sit with
      | nil => simp [to_ad_series, last_at_end]
      | cons x xs =>
        rw [to_ad_series, last_at_end_cons _ _ (by simp [to_ad_series])]
        exact hend (List.cons_ne_nil _ _)

theorem to_ad_pred_ok (regression autoencoder has_bbox has_roi has_mask timeseries : Bool)
    (r : sup_result) (hc : r.covers has_bbox has_roi has_mask) :
    ∃ p, to_ad_pred regression autoencoder has_bbox has_roi has_mask timeseries r = .ok p
      ∧ p.uri = r._label
      ∧ p.v.length = r._cats.length + r._series.length
      ∧ (p.v ≠ [] → last_at_end p.v = true)
      ∧ last_count p.v
          = (if r._cats = [] then 0 else 1) + (if r._series = [] then 0 else 1) := by
  obtain ⟨v, e, len, cnt, hend⟩ := to_ad_cats_ok regression autoencoder has_bbox has_roi
    has_mask r._cats r._bboxes r._vals r._masks hc.1 hc.2.1 hc.2.2
  obtain ⟨slen, scnt, send⟩ := to_ad_series_ok r._series
  refine ⟨_, by rw [to_ad_pred, e, bind_ok]; rfl, rfl, ?_, ?_, ?_⟩
  · simp [len, slen]
  · intro hne
    dsimp only at hne ⊢
    by_cases hs : r._series = []
    · have hcats : r._cats ≠ [] := by
        intro hcn
        apply hne
        have hv : v = [] := List.length_eq_zero.1 (by rw [len, hcn]; rfl)
        rw [hv, hs]
        rfl
      rw [hs]
      simp only [to_ad_series, List.append_nil]
      exact hend hcats
    · have hne2 : to_ad_series r._series ≠ [] := by
        intro h
        have := congrArg List.length h
        rw [slen] at this
        exact hs (List.length_eq_zero.1 this)
      rw [last_at_end_append _ _ hne2]
      exact send hs
  · dsimp only
    unfold last_count at cnt scnt ⊢
    rw [List.countP_append, cnt, scnt]

theorem to_ad_loop_ok (regression autoencoder has_bbox has_roi has_mask timeseries : Bool)
    (l : List sup_result) (hc : ∀ r ∈ l, r.covers has_bbox has_roi has_mask) :
    ∃ preds, to_ad_loop regression autoencoder has_bbox has_roi has_mask timeseries l
        = .ok preds
      ∧ preds.map (fun p => p.uri) = l.map (fun r => r._label)
      ∧ List.Forall₂ (fun p r =>
          p.v.length = r._cats.length + r._series.length
          ∧ (p.v ≠ [] → last_at_end p.v = true)
          ∧ last_count p.v
              = (if r._cats = [] then 0 else 1) + (if r._series = [] then 0 else 1))
          preds l := by
  induction l with
  | nil => exact ⟨[], rfl, rfl, List.Forall₂.nil⟩
  | cons r rest ih =>
    obtain ⟨p, e, hu, h1, h2, h3⟩ := to_ad_pred_ok regression autoencoder has_bbox has_roi
      has_mask timeseries r (hc r (List.mem_cons_self _ _))
    obtain ⟨preds, e2, hu2, hf⟩ := ih (fun x hx => hc x (List.mem_cons_of_mem _ hx))
    refine ⟨p :: preds, ?_, by simp [hu, hu2], List.Forall₂.cons ⟨h1, h2, h3⟩ hf⟩
    rw [to_ad_loop, e, bind_ok, e2, bind_ok]
    rfl

/-- C28 (as amended). For every Result Set and every flag combination whose flagged
collections hold at least one entry per category (so that no iterator is read at its
end), `to_ad` emits one prediction per sample, in Result Set order; the output list of a
sample has one entry per category followed by one entry per series element; when it is
not empty its final entry carries `last`; the number of entries that carry `last` is 1
when the sample has categories only or series only, and 2 when it has both (the entry of
the last category carries it as well). -/
theorem to_ad_last_marker (so : SupervisedOutput)
    (regression autoencoder has_bbox has_roi has_mask timeseries : Bool)
    (hc : ∀ r ∈ so._vvcats, r.covers has_bbox has_roi has_mask) :
    ∃ preds, to_ad so regression autoencoder has_bbox has_roi has_mask timeseries
        = .ok preds
      ∧ preds.map (fun p => p.uri) = so._vvcats.map (fun r => r._label)
      ∧ List.Forall₂ (fun p r =>
          p.v.length = r._cats.length + r._series.length
          ∧ (p.v ≠ [] → last_at_end p.v = true)
          ∧ last_count p.v
              = (if r._cats = [] then 0 else 1) + (if r._series = [] then 0 else 1))
          preds so._vvcats :=
  to_ad_loop_ok regression autoencoder has_bbox has_roi has_mask timeseries so._vvcats hc

/-- C28 (witness). A connector with one sample of two categories, written as a
classification output. -/
theorem to_ad_last_marker_witness :
    (∀ r ∈ (connector_of [sample_two_cats])._vvcats, r.covers false false false)
    ∧ ∃ preds, to_ad (connector_of [sample_two_cats]) false false false false false false
        = .ok preds
      ∧ preds.map (fun p => p.uri)
          = (connector_of [sample_two_cats])._vvcats.map (fun r => r._label)
      ∧ List.Forall₂ (fun p r =>
          p.v.length = r._cats.length + r._series.length
          ∧ (p.v ≠ [] → last_at_end p.v = true)
          ∧ last_count p.v
              = (if r._cats = [] then 0 else 1) + (if r._series = [] then 0 else 1))
          preds (connector_of [sample_two_cats])._vvcats :=
  have h : ∀ r ∈ (connector_of [sample_two_cats])._vvcats, r.covers false false false := by
    simp [connector_of, sup_result.covers]
  ⟨h, to_ad_last_marker (connector_of [sample_two_cats]) false false false false false false
    h⟩

/-- C28 (counterexample). The Result Set built by `add_results` from one record with one
category and one series element: the output list of its sample has two entries and both
carry `last`. -/
theorem to_ad_two_markers :
    (add_results SupervisedOutput.empty [record_cat_series]).bind
        (fun so => (to_ad so false false false false false false).map
          (fun preds => preds.map (fun p => (p.v.length, last_count p.v))))
      = .ok [(2, 2)] := by
  decide!

/-! ## The index of the Result Set -/

theorem fill_labels (l1 : List sup_result) (l2 : List ResultRecord)
    (h : List.Forall₂ (fun s r => add_results_fill r = .ok s) l1 l2)
    (hb : ∀ r ∈ l2, r.in_bounds) :
    l1.map (fun s => s._label) = l2.map (fun r => r.uri) := by
  induction h with
  | nil => rfl
  | cons hd _ ih =>
    simp only [List.map_cons, ih (fun r hr => hb r (List.mem_cons_of_mem _ hr))]
    rw [add_results_fill_label _ _ hd (hb _ (List.mem_cons_self _ _))]

theorem first_new_distinct (seen : List String) (rs : List ResultRecord) :
    (first_new seen rs).map (fun r => r.uri)
      = (distinct_ids (rs.map (fun r => r.uri))).filter (fun y => decide (y ∉ seen)) := by
  induction rs generalizing seen with
  | nil => rfl
  | cons r rest ih =>
    by_cases h : r.uri ∈ seen
    · simp only [first_new, h, if_true, List.map_cons, distinct_ids, List.filter_cons,
        not_true_eq_false, decide_False, Bool.false_eq_true, if_false, List.filter_filter]
      rw [ih]
      apply List.filter_congr
      intro y _
      by_cases hy : y ∈ seen
      · simp [hy]
      · have : y ≠ r.uri := fun e => hy (e ▸ h)
        simp [hy, this]
    · simp only [first_new, h, if_false, List.map_cons, distinct_ids, List.filter_cons,
        not_false_eq_true, decide_True, if_true, List.filter_filter]
      rw [ih]
      congr 1
      apply List.filter_congr
      intro y _
      by_cases hy : y ∈ seen <;> by_cases hr : y = r.uri <;> simp [hy, hr]

theorem vcats_find_zip (l : List String) (k : Nat) (id : String) :
    vcats_find (l.zip (List.range' k l.length)) id
      = if id ∈ l then some (k + l.indexOf id) else none := by
  induction l generalizing k with
  | nil => simp [vcats_find]
  | cons x rest ih =>
    simp only [List.length_cons, List.range'_succ, List.zip_cons_cons, vcats_find]
    by_cases h : x = id
    · subst h; simp
    · have h2 : ¬ id = x := fun e => h e.symm
      have hz := ih (k + 1)
      rw [List.zip] at hz
      simp only [h, if_false, hz, List.mem_cons, h2, false_or, List.indexOf_cons_ne _ h]
      by_cases hm : id ∈ rest
      · simp only [hm, if_true, Option.some.injEq]; omega
      · simp only [hm, if_false]

theorem indexed_find (so : SupervisedOutput) (h : so.indexed) (id : String) :
    vcats_find so._vcats id
      = if id ∈ so._vvcats.map (fun s => s._label)
        then some ((so._vvcats.map (fun s => s._label)).indexOf id) else none := by
  have hz := vcats_find_zip (so._vvcats.map (fun s => s._label)) 0 id
  rw [List.length_map, ← List.range_eq_range', Nat.zero_add] at hz
  rw [h]
  exact hz

theorem add_results_index_aux (calls : List (List ResultRecord))
    (hb : ∀ c ∈ calls, ∀ r ∈ c, r.in_bounds) :
    ∃ so, add_results_calls SupervisedOutput.empty calls = .ok so
      ∧ so._vvcats.map (fun s => s._label)
          = distinct_ids (calls.flatten.map (fun r => r.uri))
      ∧ so._vcats.length = so._vvcats.length
      ∧ (∀ id n, vcats_find so._vcats id = some n ↔
          (id ∈ calls.flatten.map (fun r => r.uri)
            ∧ n = (so._vvcats.map (fun s => s._label)).indexOf id))
      ∧ ∀ id n, vcats_find so._vcats id = some n →
          (so._vvcats.get? n).map (fun s => s._label) = some id := by
  have hb1 : ∀ r ∈ calls.flatten, r.in_bounds := by
    intro r hr
    obtain ⟨c, hc, hrc⟩ := List.mem_flatten.1 hr
    exact hb c hc r hrc
  obtain ⟨so, news, e, hi, hv, hf⟩ :=
    add_results_run calls.flatten SupervisedOutput.empty rfl hb1
  have hv1 : so._vvcats = news := by simpa [SupervisedOutput.empty] using hv
  have hf1 : List.Forall₂ (fun s r => add_results_fill r = .ok s) so._vvcats
      (first_new [] calls.flatten) := by
    rw [hv1]; simpa [SupervisedOutput.empty] using hf
  have hin : ∀ r ∈ first_new [] calls.flatten, r.in_bounds := by
    intro r hr
    exact hb1 r (List.mem_of_find?_eq_some (first_new_find [] calls.flatten r hr))
  have hlab : so._vvcats.map (fun s => s._label)
      = distinct_ids (calls.flatten.map (fun r => r.uri)) := by
    rw [fill_labels _ _ hf1 hin, first_new_distinct]
    simp
  have hmem : ∀ id, id ∈ so._vvcats.map (fun s => s._label)
      ↔ id ∈ calls.flatten.map (fun r => r.uri) := by
    intro id
    rw [fill_labels _ _ hf1 hin]
    exact first_new_uri [] calls.flatten id |>.trans (by simp)
  refine ⟨so, by rw [add_results_calls_join]; exact e, hlab, ?_, ?_, ?_⟩
  · rw [hi]; simp
  · intro id n
    rw [indexed_find so hi id, ← hmem id]
    by_cases hm : id ∈ so._vvcats.map (fun s => s._label)
    · simp only [hm, if_true, true_and, Option.some.injEq]
      exact eq_comm
    · simp [hm]
  · intro id n hn
    rw [indexed_find so hi id] at hn
    by_cases hm : id ∈ so._vvcats.map (fun s => s._label)
    · simp only [hm, if_true, Option.some.injEq] at hn
      subst hn
      have hlt := List.indexOf_lt_length.2 hm
      rw [List.get?_eq_getElem?, ← List.getElem?_map, List.getElem?_eq_getElem hlt]
      simp
    · simp [hm] at hn

/-- C29. Starting from an empty connector and for records whose payload vectors cover
their score vector, after any sequence of `add_results` calls the labels of `_vvcats` are
the distinct ids of the records passed, in order of first appearance; `_vcats` and
`_vvcats` have the same size; `_vcats` maps exactly the ids passed, each to its position
in `_vvcats`; and the record of `_vvcats` at the position stored for an id carries that
id as its label. -/
theorem add_results_index (calls : List (List ResultRecord))
    (hb : ∀ c ∈ calls, ∀ r ∈ c, r.in_bounds) :
    ∃ so, add_results_calls SupervisedOutput.empty calls = .ok so
      ∧ so._vvcats.map (fun s => s._label)
          = distinct_ids (calls.flatten.map (fun r => r.uri))
      ∧ so._vcats.length = so._vvcats.length
      ∧ (∀ id n, vcats_find so._vcats id = some n ↔
          (id ∈ calls.flatten.map (fun r => r.uri)
            ∧ n = (so._vvcats.map (fun s => s._label)).indexOf id))
      ∧ ∀ id n, vcats_find so._vcats id = some n →
          (so._vvcats.get? n).map (fun s => s._label) = some id :=
  add_results_index_aux calls hb

/-- C29 (witness). Two calls, ids `a`, `b`, then `a` again. -/
theorem add_results_index_witness :
    (∀ c ∈ [[record_a1], [record_b3, record_a2]], ∀ r ∈ c, r.in_bounds)
    ∧ ∃ so, add_results_calls SupervisedOutput.empty [[record_a1], [record_b3, record_a2]]
        = .ok so
      ∧ so._vvcats.map (fun s => s._label)
          = distinct_ids ([[record_a1], [record_b3, record_a2]].flatten.map (fun r => r.uri))
      ∧ so._vcats.length = so._vvcats.length
      ∧ (∀ id n, vcats_find so._vcats id = some n ↔
          (id ∈ [[record_a1], [record_b3, record_a2]].flatten.map (fun r => r.uri)
            ∧ n = (so._vvcats.map (fun s => s._label)).indexOf id))
      ∧ ∀ id n, vcats_find so._vcats id = some n →
          (so._vvcats.get? n).map (fun s => s._label) = some id :=
  have h : ∀ c ∈ [[record_a1], [record_b3, record_a2]], ∀ r ∈ c, r.in_bounds := by
    simp [ResultRecord.in_bounds, record_a1, record_a2, record_b3]
  ⟨h, add_results_index [[record_a1], [record_b3, record_a2]] h⟩

/-! ## Order of the collections -/

theorem mm_insert_length {α : Type} (k : ℚ) (v : α) (m : ScoreMap α) :
    (mm_insert k v m).length = m.length + 1 := by
  induction m with
  | nil => rfl
  | cons e rest ih =>
    unfold mm_insert
    split_ifs
    · simp [ih]
    · simp

theorem mm_insert_mem {α : Type} (k : ℚ) (v : α) (m : ScoreMap α) (x : ℚ × α)
    (hx : x ∈ mm_insert k v m) : x = (k, v) ∨ x ∈ m := by
  induction m with
  | nil => simpa [mm_insert] using hx
  | cons e rest ih =>
    unfold mm_insert at hx
    split_ifs at hx
    · rcases List.mem_cons.1 hx with h | h
      · exact Or.inr (by rw [h]; exact List.mem_cons_self _ _)
      · rcases ih h with h1 | h1
        · exact Or.inl h1
        · exact Or.inr (List.mem_cons_of_mem _ h1)
    · rcases List.mem_cons.1 hx with h | h
      · exact Or.inl h
      · exact Or.inr h

theorem mm_insert_sorted {α : Type} (k : ℚ) (v : α) (m : ScoreMap α) (h : mm_sorted m) :
    mm_sorted (mm_insert k v m) := by
  induction m with
  | nil => simp [mm_insert, mm_sorted]
  | cons e rest ih =>
    unfold mm_sorted at h ih ⊢
    have h1 := List.pairwise_cons.1 h
    unfold mm_insert
    split_ifs with hk
    · refine List.pairwise_cons.2 ⟨?_, ih h1.2⟩
      intro x hx
      rcases mm_insert_mem k v rest x hx with hx1 | hx1
      · rw [hx1]; exact hk
      · exact h1.1 x hx1
    · have hlt : e.1 < k := not_le.1 hk
      refine List.pairwise_cons.2 ⟨?_, h⟩
      intro x hx
      rcases List.mem_cons.1 hx with hx1 | hx1
      · rw [hx1]; exact le_of_lt hlt
      · exact le_trans (h1.1 x hx1) (le_of_lt hlt)

theorem mm_insert_filter {α : Type} (k : ℚ) (v : α) (m : ScoreMap α) (h : mm_sorted m)
    (q : ℚ) :
    (mm_insert k v m).filter (fun e => decide (e.1 = q))
      = m.filter (fun e => decide (e.1 = q)) ++ (if k = q then [(k, v)] else []) := by
  induction m with
  | nil =>
    by_cases hq : k = q <;> simp [mm_insert, hq]
  | cons e rest ih =>
    unfold mm_sorted at h ih
    have h1 := List.pairwise_cons.1 h
    unfold mm_insert
    split_ifs with hk hq hq
    · rw [List.filter_cons, ih h1.2, if_pos hq, List.filter_cons]
      split_ifs <;> simp
    · rw [List.filter_cons, ih h1.2, if_neg hq, List.filter_cons]
      split_ifs <;> simp
    · have hlt : e.1 < k := not_le.1 hk
      have hnone : (e :: rest).filter (fun x => decide (x.1 = q)) = [] := by
        apply List.filter_eq_nil_iff.2
        intro x hx
        have hle : x.1 ≤ e.1 := by
          rcases List.mem_cons.1 hx with hx1 | hx1
          · rw [hx1]
          · exact h1.1 x hx1
        have : x.1 ≠ q := by
          intro hxq
          rw [hxq, ← hq] at hle
          exact absurd hlt (not_lt.2 hle)
        simpa using this
      rw [List.filter_cons, hnone]
      simp [hq]
    · rw [List.filter_cons]
      simp [hq]

theorem insert_all_stable {α : Type} (l out : ScoreMap α) (h : mm_sorted out) :
    mm_sorted (insert_all out l)
      ∧ (insert_all out l).length = out.length + l.length
      ∧ ∀ q : ℚ, (insert_all out l).filter (fun e => decide (e.1 = q))
          = out.filter (fun e => decide (e.1 = q)) ++ l.filter (fun e => decide (e.1 = q)) := by
  induction l generalizing out with
  | nil => exact ⟨h, rfl, fun q => by simp [insert_all]⟩
  | cons e rest ih =>
    obtain ⟨h1, h2, h3⟩ := ih (mm_insert e.1 e.2 out) (mm_insert_sorted _ _ _ h)
    refine ⟨h1, ?_, ?_⟩
    · show (insert_all (mm_insert e.1 e.2 out) rest).length = _
      rw [h2, mm_insert_length]
      simp
      omega
    · intro q
      show (insert_all (mm_insert e.1 e.2 out) rest).filter _ = _
      rw [h3 q, mm_insert_filter _ _ _ h q, List.filter_cons]
      by_cases hq : e.1 = q
      · simp only [hq, if_true, decide_True, List.append_assoc, List.singleton_append]
        rw [← hq]
      · simp [hq]

theorem insert_all_stable_order {α : Type} (l : ScoreMap α) :
    stable_order (insert_all [] l) l := by
  obtain ⟨h1, h2, h3⟩ := insert_all_stable l [] (by simp [mm_sorted])
  exact ⟨h1, by simpa using h2, fun q => by simpa using h3 q⟩

theorem insert_all_append {α : Type} (out l1 l2 : ScoreMap α) :
    insert_all out (l1 ++ l2) = insert_all (insert_all out l1) l2 := by
  unfold insert_all
  rw [List.foldl_append]

theorem add_if_present_zip {α : Type} (probs : List ℚ) (v : List α) (i : Nat)
    (hi : i < probs.length) (h : v = [] ∨ probs.length ≤ v.length)
    (f : α → sup_result) (s : sup_result) :
    add_if_present v i f s = .ok
      (match (probs.zip v)[i]? with
       | some e => f e.2
       | none => s)
    ∧ ∀ e, (probs.zip v)[i]? = some e → e.1 = probs.get ⟨i, hi⟩ := by
  by_cases c : v = []
  · subst c
    simp [add_if_present]
  · rcases h with h | h
    · exact absurd h c
    · have hv : i < v.length := by omega
      have hne : v.isEmpty = false := by
        cases v with
        | nil => exact absurd rfl c
        | cons _ _ => rfl
      have hz : (probs.zip v)[i]? = some (probs.get ⟨i, hi⟩, v.get ⟨i, hv⟩) := by
        rw [List.getElem?_eq_getElem (by simp; omega)]
        simp
      rw [hz]
      refine ⟨by simp [add_if_present, hne, vec_at_of_lt v i hv, Except.map], ?_⟩
      intro e he
      cases he
      rfl

theorem insert_all_opt {α : Type} (out : ScoreMap α) (o : Option (ℚ × α)) :
    insert_all out o.toList
      = match o with
        | some e => mm_insert e.1 e.2 out
        | none => out := by
  cases o <;> rfl

theorem add_results_entry_eq (ad : ResultRecord) (hb : ad.in_bounds) (s : sup_result)
    (i : Nat) (hi : i < ad.probs.length) :
    add_results_entry ad s i = .ok
      { _label := s._label, _loss := s._loss,
        _cats := insert_all s._cats ((ad.probs.zip ad.cats)[i]?).toList,
        _bboxes := insert_all s._bboxes ((ad.probs.zip ad.bboxes)[i]?).toList,
        _vals := insert_all s._vals ((ad.probs.zip ad.vals)[i]?).toList,
        _series := insert_all s._series ((ad.probs.zip ad.series)[i]?).toList,
        _masks := insert_all s._masks ((ad.probs.zip ad.masks)[i]?).toList } := by
  obtain ⟨h1, h2, h3, h4, h5⟩ := hb
  have p1 := (add_if_present_zip ad.probs ad.cats i hi h1 (fun _ => s) s).2
  have p2 := (add_if_present_zip ad.probs ad.bboxes i hi h2 (fun _ => s) s).2
  have p3 := (add_if_present_zip ad.probs ad.vals i hi h3 (fun _ => s) s).2
  have p4 := (add_if_present_zip ad.probs ad.series i hi h4 (fun _ => s) s).2
  have p5 := (add_if_present_zip ad.probs ad.masks i hi h5 (fun _ => s) s).2
  unfold add_results_entry
  rw [vec_at_of_lt ad.probs i hi, bind_ok]
  rw [(add_if_present_zip ad.probs ad.cats i hi h1 _ _).1, bind_ok]
  rw [(add_if_present_zip ad.probs ad.bboxes i hi h2 _ _).1, bind_ok]
  rw [(add_if_present_zip ad.probs ad.vals i hi h3 _ _).1, bind_ok]
  rw [(add_if_present_zip ad.probs ad.series i hi h4 _ _).1, bind_ok]
  rw [(add_if_present_zip ad.probs ad.masks i hi h5 _ _).1]
  simp only [insert_all_opt]
  congr 1
  cases c1 : (ad.probs.zip ad.cats)[i]? <;> cases c2 : (ad.probs.zip ad.bboxes)[i]? <;>
    cases c3 : (ad.probs.zip ad.vals)[i]? <;> cases c4 : (ad.probs.zip ad.series)[i]? <;>
    cases c5 : (ad.probs.zip ad.masks)[i]? <;>
    simp only [sup_result.add_cat, sup_result.add_bbox, sup_result.add_val,
      sup_result.add_timeseries, sup_result.add_mask] <;>
    (try simp only [p1 _ c1]) <;> (try simp only [p2 _ c2]) <;> (try simp only [p3 _ c3]) <;>
    (try simp only [p4 _ c4]) <;> (try simp only [p5 _ c5])

theorem add_results_upto (ad : ResultRecord) (hb : ad.in_bounds) (n : Nat)
    (hn : n ≤ ad.probs.length) :
    (List.range n).foldlM (add_results_entry ad) (sup_result.mk0 ad.uri ad.loss) = .ok
      { _label := ad.uri, _loss := ad.loss,
        _cats := insert_all [] ((ad.probs.zip ad.cats).take n),
        _bboxes := insert_all [] ((ad.probs.zip ad.bboxes).take n),
        _vals := insert_all [] ((ad.probs.zip ad.vals).take n),
        _series := insert_all [] ((ad.probs.zip ad.series).take n),
        _masks := insert_all [] ((ad.probs.zip ad.masks).take n) } := by
  induction n with
  | zero => rfl
  | succ k ih =>
    rw [List.range_succ, List.foldlM_append, ih (by omega)]
    simp only [List.foldlM_cons, List.foldlM_nil, bind_ok]
    rw [add_results_entry_eq ad hb _ k (by omega), bind_ok]
    simp only [← insert_all_append, List.take_succ]
    rfl

theorem add_results_fill_eq (ad : ResultRecord) (hb : ad.in_bounds) :
    add_results_fill ad = .ok
      { _label := ad.uri, _loss := ad.loss,
        _cats := insert_all [] (ad.probs.zip ad.cats),
        _bboxes := insert_all [] (ad.probs.zip ad.bboxes),
        _vals := insert_all [] (ad.probs.zip ad.vals),
        _series := insert_all [] (ad.probs.zip ad.series),
        _masks := insert_all [] (ad.probs.zip ad.masks) } := by
  have hlen : ∀ {α : Type} (v : List α), (ad.probs.zip v).length ≤ ad.probs.length := by
    intro α v
    rw [List.length_zip]
    exact Nat.min_le_left _ _
  unfold add_results_fill
  rw [add_results_upto ad hb ad.probs.length (le_refl _)]
  simp only [List.take_of_length_le (hlen _)]

theorem sublist_sorted {α : Type} (a b : ScoreMap α) (h : a.Sublist b) (hb : mm_sorted b) :
    mm_sorted a :=
  List.Pairwise.sublist h hb

theorem first_entries_sublist {α : Type} (best : Int) (m : ScoreMap α) :
    (first_entries best m).Sublist m :=
  List.take_sublist _ _

theorem keeps_order_sorted (o s : sup_result) (h : o.keeps_order s) (hs : s.sorted) :
    o.sorted :=
  ⟨sublist_sorted _ _ h.1 hs.1, sublist_sorted _ _ h.2.1 hs.2.1,
    sublist_sorted _ _ h.2.2.1 hs.2.2.1, sublist_sorted _ _ h.2.2.2.1 hs.2.2.2.1,
    sublist_sorted _ _ h.2.2.2.2 hs.2.2.2.2⟩

theorem best_cats_order_aux (so : SupervisedOutput) (best nclasses : Int)
    (has_bbox has_roi has_mask : Bool)
    (hs : ∀ s ∈ so._vvcats, s.sorted)
    (hl : (has_bbox || has_roi || has_mask) = true →
            ∀ s ∈ so._vvcats, s.lock_step has_roi has_mask) :
    ∃ out, best_cats so SupervisedOutput.empty best nclasses has_bbox has_roi has_mask
        = .ok out
      ∧ List.Forall₂ (fun o s => o.keeps_order s ∧ o.sorted) out._vvcats so._vvcats := by
  by_cases hmode : (has_bbox || has_roi || has_mask) = true
  · have hplain : (!has_bbox && !has_roi && !has_mask) = false := by
      cases has_bbox <;> cases has_roi <;> cases has_mask <;> simp_all
    by_cases hb : (if best = -1 then nclasses else best) = nclasses
    · obtain ⟨out, e, hv⟩ := foldlM_push_map
        (best_cats_detection (if best = -1 then nclasses else best) nclasses has_roi has_mask)
        (fun s => { _label := s._label, _loss := s._loss, _cats := s._cats,
                    _bboxes := s._bboxes, _vals := [], _series := [], _masks := [] })
        so._vvcats SupervisedOutput.empty
        (fun s hm => by
          simp only [best_cats_detection, hb, if_true]
          rw [best_cats_all_eq s (hs s hm) (hl hmode s hm).1])
      refine ⟨out, by simp only [best_cats, hplain]; exact e, ?_⟩
      rw [hv]
      simp only [SupervisedOutput.empty, List.nil_append]
      refine forall₂_of_map _ _ _ (fun s hm => ?_)
      have hk : sup_result.keeps_order
          { _label := s._label, _loss := s._loss, _cats := s._cats,
            _bboxes := s._bboxes, _vals := [], _series := [], _masks := [] } s :=
        ⟨List.Sublist.refl _, List.Sublist.refl _, List.nil_sublist _, List.nil_sublist _,
          List.nil_sublist _⟩
      exact ⟨hk, keeps_order_sorted _ _ hk (hs s hm)⟩
    · obtain ⟨out, e, hv⟩ := foldlM_push_map
        (best_cats_detection (if best = -1 then nclasses else best) nclasses has_roi has_mask)
        _ so._vvcats SupervisedOutput.empty
        (fun s hm => best_cats_detection_eq _ nclasses has_roi has_mask s hb (hs s hm)
          (hl hmode s hm))
      refine ⟨out, by simp only [best_cats, hplain]; exact e, ?_⟩
      rw [hv]
      simp only [SupervisedOutput.empty, List.nil_append]
      refine forall₂_of_map _ _ _ (fun s hm => ?_)
      have hk : sup_result.keeps_order
          { _label := s._label, _loss := s._loss,
            _cats := select (keep_mask (if best = -1 then nclasses else best) (box_keys s))
              s._cats,
            _bboxes := select (keep_mask (if best = -1 then nclasses else best) (box_keys s))
              s._bboxes,
            _vals := if has_roi then
                select (keep_mask (if best = -1 then nclasses else best) (box_keys s)) s._vals
              else [],
            _series := [],
            _masks := if has_mask then
                select (keep_mask (if best = -1 then nclasses else best) (box_keys s)) s._masks
              else [] } s := by
        refine ⟨select_sublist _ _, select_sublist _ _, ?_, List.nil_sublist _, ?_⟩
        · cases has_roi
          · exact List.nil_sublist _
          · exact select_sublist _ _
        · cases has_mask
          · exact List.nil_sublist _
          · exact select_sublist _ _
      exact ⟨hk, keeps_order_sorted _ _ hk (hs s hm)⟩
  · have hplain : (!has_bbox && !has_roi && !has_mask) = true := by
      cases has_bbox <;> cases has_roi <;> cases has_mask <;> simp_all
    refine ⟨so._vvcats.foldl (fun b sresult =>
        push_result b (best_cats_plain (if best = -1 then nclasses else best) sresult))
      SupervisedOutput.empty, by simp only [best_cats, hplain, if_true], ?_⟩
    rw [foldl_push_map]
    simp only [SupervisedOutput.empty, List.nil_append]
    refine forall₂_of_map _ _ _ (fun s hm => ?_)
    rw [best_cats_plain_eq _ s (hs s hm)]
    have hk : sup_result.keeps_order
        (plain_record (if best = -1 then nclasses else best) s) s :=
      ⟨first_entries_sublist _ _, first_entries_sublist _ _, first_entries_sublist _ _,
        List.nil_sublist _, first_entries_sublist _ _⟩
    exact ⟨hk, keeps_order_sorted _ _ hk (hs s hm)⟩

theorem add_results_order_aux (ad : ResultRecord) (hb : ad.in_bounds) :
    ∃ s, add_results_fill ad = .ok s
      ∧ stable_order s._cats (ad.probs.zip ad.cats)
      ∧ stable_order s._bboxes (ad.probs.zip ad.bboxes)
      ∧ stable_order s._vals (ad.probs.zip ad.vals)
      ∧ stable_order s._series (ad.probs.zip ad.series)
      ∧ stable_order s._masks (ad.probs.zip ad.masks) :=
  ⟨_, add_results_fill_eq ad hb, insert_all_stable_order _, insert_all_stable_order _,
    insert_all_stable_order _, insert_all_stable_order _, insert_all_stable_order _⟩

/-- C30. For every record `ad` that `add_results` adds (its payload vectors cover its
score vector), each collection of the Score Record built iterates the pairs
`(probs[i], payload[i])` by non-increasing score, the pairs of equal score in the order
of their index `i`. And for every Result Set whose collections are ordered collections
(in detection/roi/mask mode: whose samples are in lock-step), `best_cats` returns, for
each sample, collections that keep entries of the input collections in the order they
have there, hence again by non-increasing score with ties in input order. -/
theorem add_results_order (ad : ResultRecord) (hb : ad.in_bounds)
    (so : SupervisedOutput) (best nclasses : Int) (has_bbox has_roi has_mask : Bool)
    (hs : ∀ s ∈ so._vvcats, s.sorted)
    (hl : (has_bbox || has_roi || has_mask) = true →
            ∀ s ∈ so._vvcats, s.lock_step has_roi has_mask) :
    (∃ s, add_results_fill ad = .ok s
      ∧ stable_order s._cats (ad.probs.zip ad.cats)
      ∧ stable_order s._bboxes (ad.probs.zip ad.bboxes)
      ∧ stable_order s._vals (ad.probs.zip ad.vals)
      ∧ stable_order s._series (ad.probs.zip ad.series)
      ∧ stable_order s._masks (ad.probs.zip ad.masks))
    ∧ ∃ out, best_cats so SupervisedOutput.empty best nclasses has_bbox has_roi has_mask
        = .ok out
      ∧ List.Forall₂ (fun o s => o.keeps_order s ∧ o.sorted) out._vvcats so._vvcats :=
  ⟨add_results_order_aux ad hb,
    best_cats_order_aux so best nclasses has_bbox has_roi has_mask hs hl⟩

/-- C30 (witness). The record `b` with the scores 1/2, 3/4, 1/2, and the top-1 selection
on a sample of two categories, in plain mode. -/
theorem add_results_order_witness :
    record_b3.in_bounds
    ∧ (∀ s ∈ (connector_of [sample_two_cats])._vvcats, s.sorted)
    ∧ (∃ s, add_results_fill record_b3 = .ok s
      ∧ stable_order s._cats (record_b3.probs.zip record_b3.cats)
      ∧ stable_order s._bboxes (record_b3.probs.zip record_b3.bboxes)
      ∧ stable_order s._vals (record_b3.probs.zip record_b3.vals)
      ∧ stable_order s._series (record_b3.probs.zip record_b3.series)
      ∧ stable_order s._masks (record_b3.probs.zip record_b3.masks))
    ∧ ∃ out, best_cats (connector_of [sample_two_cats]) SupervisedOutput.empty 1 2
          false false false = .ok out
      ∧ List.Forall₂ (fun o s => o.keeps_order s ∧ o.sorted) out._vvcats
          (connector_of [sample_two_cats])._vvcats :=
  have hb : record_b3.in_bounds := by
    simp [ResultRecord.in_bounds, record_b3]
  have h : ∀ s ∈ (connector_of [sample_two_cats])._vvcats, s.sorted := by
    intro s hm
    simp only [connector_of, List.mem_singleton] at hm
    subst hm
    simp only [sup_result.sorted, mm_sorted, sample_two_cats]
    norm_num
  have hr := add_results_order record_b3 hb (connector_of [sample_two_cats]) 1 2
    false false false h (fun hf => absurd hf (by decide))
  ⟨hb, h, hr.1, hr.2⟩

/-- The Score Record built from the record `b`: the score 3/4 first, then the two
entries of score 1/2 in the order of their index. -/
theorem add_results_fill_ties :
    add_results_fill record_b3
      = .ok { _label := "b", _loss := 0, _cats := [(3 / 4, "y"), (1 / 2, "x"), (1 / 2, "z")],
              _bboxes := [], _vals := [], _series := [], _masks := [] } := by
  decide!

/-! ## Lock-step of the collections built by `add_results` -/

theorem mm_insert_perm {α : Type} (k : ℚ) (v : α) (m : ScoreMap α) :
    (mm_insert k v m).Perm ((k, v) :: m) := by
  induction m with
  | nil => exact List.Perm.refl _
  | cons e rest ih =>
    unfold mm_insert
    split_ifs
    · exact (List.Perm.cons e ih).trans (List.Perm.swap _ _ _)
    · exact List.Perm.refl _

theorem insert_all_perm {α : Type} (l out : ScoreMap α) :
    (insert_all out l).Perm (out ++ l) := by
  induction l generalizing out with
  | nil => simp [insert_all]
  | cons e rest ih =>
    show (insert_all (mm_insert e.1 e.2 out) rest).Perm _
    refine (ih _).trans ?_
    refine (List.Perm.append_right rest (mm_insert_perm e.1 e.2 out)).trans ?_
    simp only [List.cons_append]
    exact List.perm_middle.symm

theorem mm_insert_map {α β : Type} (g : ℚ × α → ℚ × β) (hg : ∀ e, (g e).1 = e.1)
    (k : ℚ) (v : α) (m : ScoreMap α) :
    mm_insert (g (k, v)).1 (g (k, v)).2 (m.map g) = (mm_insert k v m).map g := by
  induction m with
  | nil => simp [mm_insert]
  | cons e rest ih =>
    simp only [List.map_cons, mm_insert, hg]
    split_ifs
    · rw [List.map_cons]
      congr 1
      rw [← ih, hg]
    · simp only [List.map_cons]
      congr 1
      exact Prod.ext (by rw [hg]) rfl

theorem insert_all_map {α β : Type} (g : ℚ × α → ℚ × β) (hg : ∀ e, (g e).1 = e.1)
    (l out : ScoreMap α) :
    insert_all (out.map g) (l.map g) = (insert_all out l).map g := by
  induction l generalizing out with
  | nil => rfl
  | cons e rest ih =>
    show insert_all (mm_insert (g e).1 (g e).2 (out.map g)) (rest.map g) = _
    rw [mm_insert_map g hg e.1 e.2 out]
    exact ih _

theorem zip_range_map {α : Type} (probs : List ℚ) (v : List α) (d : α)
    (h : v.length = probs.length) :
    probs.zip v = (probs.zip (List.range probs.length)).map (fun e => (e.1, v.getD e.2 d)) := by
  apply List.ext_getElem
  · simp [h]
  · intro i h1 h2
    simp only [List.getElem_zip, List.getElem_map, List.getElem_range]
    have hv : i < v.length := by
      simp at h1
      omega
    rw [List.getD_eq_getElem _ _ hv]

theorem fill_order_perm (probs : List ℚ) :
    (fill_order probs).Perm (List.range probs.length) := by
  unfold fill_order
  have h := (insert_all_perm (probs.zip (List.range probs.length)) []).map (fun e => e.2)
  refine h.trans ?_
  rw [List.nil_append]
  have : (probs.zip (List.range probs.length)).map (fun e => e.2)
      = List.range probs.length := by
    rw [show (fun e : ℚ × Nat => e.2) = Prod.snd from rfl, List.map_snd_zip]
    simp
  rw [this]

theorem insert_all_lock_step {α : Type} (probs : List ℚ) (v : List α)
    (h : v = [] ∨ v.length = probs.length) :
    lock_stepped probs v (insert_all [] (probs.zip v)) := by
  rcases h with h | h
  · subst h
    refine ⟨?_, fun hne => absurd rfl hne⟩
    simp [entries_at, insert_all]
  · cases v with
    | nil =>
      refine ⟨?_, fun hne => absurd rfl hne⟩
      simp [entries_at, insert_all]
    | cons d rest =>
      have hz := zip_range_map probs (d :: rest) d h
      constructor
      · have hmap := insert_all_map (fun e : ℚ × Nat => (e.1, (d :: rest).getD e.2 d))
          (fun _ => rfl) (probs.zip (List.range probs.length)) []
        rw [List.map_nil] at hmap
        conv_lhs => rw [hz, hmap]
        unfold entries_at fill_order
        rw [List.filterMap_map]
        rw [← List.filterMap_eq_map]
        apply List.filterMap_congr
        intro e he
        have hmem : e ∈ probs.zip (List.range probs.length) := by
          have := (insert_all_perm (probs.zip (List.range probs.length)) []).subset he
          simpa using this
        obtain ⟨i, hi, hei⟩ := List.getElem_of_mem hmem
        have hi2 : i < probs.length := by
          simp at hi
          omega
        have he1 : e = (probs[i], i) := by
          rw [← hei]
          simp
        subst he1
        simp only [Function.comp]
        have hlt : i < (probs.zip (d :: rest)).length := by
          simp [h]
          exact hi2
        rw [List.getElem?_eq_getElem hlt]
        have hv : i < (d :: rest).length := by rw [h]; exact hi2
        simp only [List.getElem_zip, Option.some.injEq, Prod.mk.injEq, true_and]
        rw [List.getD_eq_getElem _ _ hv]
      · intro _
        have := (insert_all_perm (probs.zip (d :: rest)) []).length_eq
        rw [this]
        simp [h]

theorem well_formed_in_bounds (ad : ResultRecord) (h : ad.well_formed) : ad.in_bounds := by
  obtain ⟨h1, h2, h3, h4, h5⟩ := h
  refine ⟨?_, ?_, ?_, ?_, ?_⟩
  · exact h1.imp id (fun e => by rw [e])
  · exact h2.imp id (fun e => by rw [e])
  · exact h3.imp id (fun e => by rw [e])
  · exact h4.imp id (fun e => by rw [e])
  · exact h5.imp id (fun e => by rw [e])

theorem add_results_lock_step_aux (vrad : List ResultRecord)
    (hw : ∀ r ∈ vrad, r.well_formed) :
    ∃ so, add_results SupervisedOutput.empty vrad = .ok so
      ∧ List.Forall₂ (fun s r =>
          s._label = r.uri
          ∧ (fill_order r.probs).Perm (List.range r.probs.length)
          ∧ lock_stepped r.probs r.cats s._cats
          ∧ lock_stepped r.probs r.bboxes s._bboxes
          ∧ lock_stepped r.probs r.vals s._vals
          ∧ lock_stepped r.probs r.series s._series
          ∧ lock_stepped r.probs r.masks s._masks)
        so._vvcats (first_new [] vrad) := by
  have hb : ∀ r ∈ vrad, r.in_bounds := fun r hr => well_formed_in_bounds r (hw r hr)
  obtain ⟨so, news, e, _, hv, hf⟩ := add_results_run vrad SupervisedOutput.empty rfl hb
  have hv1 : so._vvcats = news := by simpa [SupervisedOutput.empty] using hv
  have hf1 : List.Forall₂ (fun s r => add_results_fill r = .ok s) so._vvcats
      (first_new [] vrad) := by
    rw [hv1]; simpa [SupervisedOutput.empty] using hf
  refine ⟨so, e, ?_⟩
  have hin : ∀ r ∈ first_new [] vrad, r ∈ vrad := by
    intro r hr
    exact List.mem_of_find?_eq_some (first_new_find [] vrad r hr)
  revert hin
  generalize first_new [] vrad = l2 at hf1
  generalize so._vvcats = l1 at hf1
  intro hin
  induction hf1 with
  | nil => exact List.Forall₂.nil
  | @cons s r l1 l2 hd _ ih =>
    have hr := hin r (List.mem_cons_self _ _)
    have hwr := hw r hr
    have he := add_results_fill_eq r (hb r hr)
    rw [he] at hd
    cases hd
    refine List.Forall₂.cons ⟨rfl, fill_order_perm _, insert_all_lock_step _ _ hwr.1,
      insert_all_lock_step _ _ hwr.2.1, insert_all_lock_step _ _ hwr.2.2.1,
      insert_all_lock_step _ _ hwr.2.2.2.1, insert_all_lock_step _ _ hwr.2.2.2.2⟩
      (ih (fun x hx => hin x (List.mem_cons_of_mem _ hx)))

/-- C31. For every list of well-formed records (each payload vector that is present and
not empty has the same length as the score vector), `add_results` on an empty connector
raises no error and, for every new id (the first record carrying it), each collection of
the Score Record created holds, at every position, the entry `(probs[i], payload[i])`
built from the same index `i`, the one `fill_order` gives for that position; the indices
are a permutation of those of the score vector, so that each populated collection has
exactly as many entries as the score vector. -/
theorem add_results_lock_step (vrad : List ResultRecord)
    (hw : ∀ r ∈ vrad, r.well_formed) :
    ∃ so, add_results SupervisedOutput.empty vrad = .ok so
      ∧ List.Forall₂ (fun s r =>
          s._label = r.uri
          ∧ (fill_order r.probs).Perm (List.range r.probs.length)
          ∧ lock_stepped r.probs r.cats s._cats
          ∧ lock_stepped r.probs r.bboxes s._bboxes
          ∧ lock_stepped r.probs r.vals s._vals
          ∧ lock_stepped r.probs r.series s._series
          ∧ lock_stepped r.probs r.masks s._masks)
        so._vvcats (first_new [] vrad) :=
  add_results_lock_step_aux vrad hw

/-- C31 (witness). Three detections with their categories and boxes, two of them with
the same score. -/
theorem add_results_lock_step_witness :
    (∀ r ∈ [record_boxes], r.well_formed)
    ∧ ∃ so, add_results SupervisedOutput.empty [record_boxes] = .ok so
      ∧ List.Forall₂ (fun s r =>
          s._label = r.uri
          ∧ (fill_order r.probs).Perm (List.range r.probs.length)
          ∧ lock_stepped r.probs r.cats s._cats
          ∧ lock_stepped r.probs r.bboxes s._bboxes
          ∧ lock_stepped r.probs r.vals s._vals
          ∧ lock_stepped r.probs r.series s._series
          ∧ lock_stepped r.probs r.masks s._masks)
        so._vvcats (first_new [] [record_boxes]) :=
  have h : ∀ r ∈ [record_boxes], r.well_formed := by
    simp [ResultRecord.well_formed, record_boxes]
  ⟨h, add_results_lock_step [record_boxes] h⟩

/-- The Score Record of the example: the detection of index 1 first, then those of
indices 0 and 2, in the categories and in the boxes. -/
theorem add_results_boxes_example :
    fill_order record_boxes.probs = [1, 0, 2]
      ∧ add_results_fill record_boxes = .ok
          { _label := "d", _loss := 0,
            _cats := [(3 / 4, "y"), (1 / 2, "x"), (1 / 2, "z")],
            _bboxes := [(3 / 4, { xmin := 1, ymin := 1, xmax := 2, ymax := 2 }),
                        (1 / 2, { xmin := 0, ymin := 0, xmax := 1, ymax := 1 }),
                        (1 / 2, { xmin := 2, ymin := 2, xmax := 3, ymax := 3 })],
            _vals := [], _series := [], _masks := [] } := by
  constructor <;> decide!

/-! ## Unbounded detection mode of `best_cats` -/

theorem best_cats_all_first (s : sup_result) (hs : s.sorted) :
    best_cats_all s = { _label := s._label, _loss := s._loss, _cats := s._cats,
                        _bboxes := first_entries s._cats.length s._bboxes,
                        _vals := [], _series := [], _masks := [] } := by
  obtain ⟨h1, h2, _, _, _⟩ := hs
  have c1 := copy_n_sorted s._cats s._cats.length h1
  have c2 := copy_if_present s._bboxes s._cats.length h2
  rw [first_entries_full _ _ (le_refl _)] at c1
  unfold best_cats_all
  simp only [sup_result.mk0]
  cases hb : s._bboxes.isEmpty
  · simp only [hb, Bool.not_false, if_true] at c2 ⊢
    rw [c1, c2]
  · simp only [hb, Bool.not_true] at c2 ⊢
    rw [c1, ← c2]
    simp

theorem best_cats_unbounded_aux (so : SupervisedOutput) (best nclasses : Int)
    (has_bbox has_roi has_mask : Bool)
    (hmode : (has_bbox || has_roi || has_mask) = true)
    (hbest : (if best = -1 then nclasses else best) = nclasses)
    (hs : ∀ s ∈ so._vvcats, s.sorted) :
    ∃ out, best_cats so SupervisedOutput.empty best nclasses has_bbox has_roi has_mask
        = .ok out
      ∧ List.Forall₂ (fun o s =>
          o._label = s._label ∧ o._loss = s._loss ∧ o._cats = s._cats
          ∧ o._bboxes = s._bboxes.take s._cats.length
          ∧ (s._bboxes.length ≤ s._cats.length → o._bboxes = s._bboxes))
          out._vvcats so._vvcats := by
  have hplain : (!has_bbox && !has_roi && !has_mask) = false := by
    cases has_bbox <;> cases has_roi <;> cases has_mask <;> simp_all
  obtain ⟨out, e, hv⟩ := foldlM_push_map
    (best_cats_detection (if best = -1 then nclasses else best) nclasses has_roi has_mask)
    (fun s => { _label := s._label, _loss := s._loss, _cats := s._cats,
                _bboxes := first_entries s._cats.length s._bboxes,
                _vals := [], _series := [], _masks := [] })
    so._vvcats SupervisedOutput.empty
    (fun s hm => by
      simp only [best_cats_detection, hbest, if_true]
      rw [best_cats_all_first s (hs s hm)])
  refine ⟨out, by simp only [best_cats, hplain]; exact e, ?_⟩
  rw [hv]
  simp only [SupervisedOutput.empty, List.nil_append]
  refine forall₂_of_map _ _ _ (fun s _ => ⟨rfl, rfl, rfl, ?_, ?_⟩)
  · show first_entries _ _ = _
    unfold first_entries
    by_cases hle : s._bboxes.length ≤ s._cats.length
    · rw [List.take_of_length_le hle, List.take_of_length_le (by omega)]
    · congr 1
      omega
  · intro hle
    show first_entries _ _ = _
    exact first_entries_full _ _ (by exact_mod_cast hle)

/-- C32 (as amended). In detection/roi/mask mode, when `best` (after `-1` has been
replaced by `nclasses`) equals `nclasses`, every output record of `best_cats` has the
label, the loss and the whole category collection of the input record, whatever its
length, and as bounding boxes the first `n` boxes of the input record, `n` being its
number of categories: the whole box collection when the record has at least as many
categories as boxes. -/
theorem best_cats_unbounded (so : SupervisedOutput) (best nclasses : Int)
    (has_bbox has_roi has_mask : Bool)
    (hmode : (has_bbox || has_roi || has_mask) = true)
    (hbest : (if best = -1 then nclasses else best) = nclasses)
    (hs : ∀ s ∈ so._vvcats, s.sorted) :
    ∃ out, best_cats so SupervisedOutput.empty best nclasses has_bbox has_roi has_mask
        = .ok out
      ∧ List.Forall₂ (fun o s =>
          o._label = s._label ∧ o._loss = s._loss ∧ o._cats = s._cats
          ∧ o._bboxes = s._bboxes.take s._cats.length
          ∧ (s._bboxes.length ≤ s._cats.length → o._bboxes = s._bboxes))
          out._vvcats so._vvcats :=
  best_cats_unbounded_aux so best nclasses has_bbox has_roi has_mask hmode hbest hs

/-- C32 (witness). One sample with one detection, `best = -1` and `nclasses = 0`: the
collections hold more than `nclasses` entries. -/
theorem best_cats_unbounded_witness :
    (∀ s ∈ (connector_of [sample_box])._vvcats, s.sorted)
    ∧ ∃ out, best_cats (connector_of [sample_box]) SupervisedOutput.empty (-1) 0
          true false false = .ok out
      ∧ List.Forall₂ (fun o s =>
          o._label = s._label ∧ o._loss = s._loss ∧ o._cats = s._cats
          ∧ o._bboxes = s._bboxes.take s._cats.length
          ∧ (s._bboxes.length ≤ s._cats.length → o._bboxes = s._bboxes))
          out._vvcats (connector_of [sample_box])._vvcats :=
  have h : ∀ s ∈ (connector_of [sample_box])._vvcats, s.sorted := by
    intro s hm
    simp only [connector_of, List.mem_singleton] at hm
    subst hm
    simp [sup_result.sorted, mm_sorted, sample_box]
  ⟨h, best_cats_unbounded (connector_of [sample_box]) (-1) 0 true false false rfl rfl h⟩

/-- C32 (counterexample). A sample with one box and no category, `best = nclasses = 5`
in detection mode: the output record has no box. -/
theorem best_cats_unbounded_drops_boxes :
    best_cats (connector_of [sample_box_only]) SupervisedOutput.empty 5 5 true false false
      = .ok (connector_of [sup_result.mk0 "s" 0]) := by
  decide!

/-! ## Idempotence of `best_cats` -/

theorem foldl_push_build (f : sup_result → sup_result) (l : List sup_result)
    (b : SupervisedOutput) :
    l.foldl (fun b s => push_result b (f s)) b = (l.map f).foldl push_result b := by
  rw [List.foldl_map]

theorem foldlM_push_build (f : sup_result → Except Err sup_result)
    (g : sup_result → sup_result) (l : List sup_result) (b : SupervisedOutput)
    (h : ∀ s ∈ l, f s = .ok (g s)) :
    l.foldlM (fun b s => (f s).map (push_result b)) b
      = .ok ((l.map g).foldl push_result b) := by
  induction l generalizing b with
  | nil => rfl
  | cons s rest ih =>
    rw [List.foldlM_cons, h s (List.mem_cons_self _ _)]
    show (Except.ok (push_result b (g s)) >>= _) = _
    rw [bind_ok, ih _ (fun x hx => h x (List.mem_cons_of_mem _ hx))]
    rfl

theorem build_vvcats (l : List sup_result) (b : SupervisedOutput) :
    (l.foldl push_result b)._vvcats = b._vvcats ++ l := by
  induction l generalizing b with
  | nil => simp
  | cons s rest ih =>
    rw [List.foldl_cons, ih]
    simp [push_result]

theorem first_entries_idem {α : Type} (best : Int) (m : ScoreMap α) :
    first_entries best (first_entries best m) = first_entries best m := by
  unfold first_entries
  rw [List.length_take, List.take_take]
  congr 1
  omega

theorem plain_record_idem (best : Int) (s : sup_result) :
    plain_record best (plain_record best s) = plain_record best s := by
  unfold plain_record
  simp only [first_entries_idem]

theorem plain_record_sorted (best : Int) (s : sup_result) (hs : s.sorted) :
    (plain_record best s).sorted :=
  keeps_order_sorted _ _
    ⟨first_entries_sublist _ _, first_entries_sublist _ _, first_entries_sublist _ _,
      List.nil_sublist _, first_entries_sublist _ _⟩ hs

theorem select_map {α β : Type} (f : α → β) (mask : List Bool) (l : List α) :
    (select mask l).map f = select mask (l.map f) := by
  induction l generalizing mask with
  | nil => simp [select]
  | cons e rest ih =>
    cases mask with
    | nil => simp [select]
    | cons b m =>
      rw [List.map_cons, select_cons, select_cons]
      cases b
      · simpa using ih m
      · simpa using ih m

theorem select_length_eq {α β : Type} (mask : List Bool) (l : List α) (l2 : List β)
    (h : l.length = l2.length) : (select mask l).length = (select mask l2).length := by
  induction l generalizing mask l2 with
  | nil =>
    cases l2 with
    | nil => simp [select]
    | cons _ _ => simp at h
  | cons e rest ih =>
    cases l2 with
    | nil => simp at h
    | cons e2 rest2 =>
      cases mask with
      | nil => simp [select]
      | cons b m =>
        rw [select_cons, select_cons]
        have := ih m rest2 (by simpa using h)
        cases b
        · simpa using this
        · simpa using this

theorem keep_again (best : Int) (keys : List String) :
    ∀ seen seen2 : List String,
      (∀ k, (seen2.count k : Int) = min (seen.count k : Int) (max best 1)) →
      ∀ b ∈ keep_mask_from best seen2 (select (keep_mask_from best seen keys) keys),
        b = true := by
  induction keys with
  | nil =>
    intro seen seen2 _ b hb
    simp [select, keep_mask_from] at hb
  | cons k ks ih =>
    intro seen seen2 hinv b hb
    rw [keep_mask_from, select_cons] at hb
    have hk := hinv k
    by_cases hkeep : ((seen.count k + 1 : Nat) : Int) ≤ best ∨ seen.count k + 1 = 1
    · simp only [hkeep, decide_True, if_true] at hb
      have hc : (seen2.count k : Int) = (seen.count k : Int) := by
        rw [hk]
        apply min_eq_left
        rcases hkeep with h | h
        · push_cast at h
          have := le_max_left best 1
          omega
        · have h0 : seen.count k = 0 := by omega
          rw [h0]
          have := le_max_right best 1
          push_cast
          omega
      have hinv2 : ∀ x, ((seen2 ++ [k]).count x : Int)
          = min ((seen ++ [k]).count x : Int) (max best 1) := by
        intro x
        rw [List.count_append, List.count_append]
        by_cases hx : k = x
        · subst hx
          simp only [List.count_singleton_self]
          push_cast
          rw [hc]
          symm
          apply min_eq_left
          rcases hkeep with h | h
          · push_cast at h
            have := le_max_left best 1
            omega
          · have h0 : seen.count k = 0 := by omega
            rw [h0]
            have := le_max_right best 1
            push_cast
            omega
        · have h0 : List.count x [k] = 0 := by
            rw [List.count_singleton]
            simp [hx]
          rw [h0]
          simpa using hinv x
      rw [keep_mask_from] at hb
      rcases List.mem_cons.1 hb with h | h
      · rw [h]
        apply decide_eq_true
        rcases hkeep with h1 | h1
        · left
          push_cast at h1 ⊢
          omega
        · right
          have h0 : seen.count k = 0 := by omega
          rw [h0] at hc
          have : seen2.count k = 0 := by exact_mod_cast hc
          omega
      · exact ih _ _ hinv2 b h
    · simp only [hkeep, decide_False, Bool.false_eq_true, if_false] at hb
      have hinv2 : ∀ x, (seen2.count x : Int)
          = min ((seen ++ [k]).count x : Int) (max best 1) := by
        intro x
        rw [List.count_append]
        by_cases hx : k = x
        · subst hx
          simp only [List.count_singleton_self]
          rw [hk]
          push_cast
          have h1 : ¬ ((seen.count k : Int) + 1 ≤ best) := by
            intro h
            apply hkeep
            left
            push_cast
            exact h
          have h2 : seen.count k ≠ 0 := by
            intro h
            apply hkeep
            right
            omega
          have h3 : max best 1 ≤ (seen.count k : Int) := by
            apply max_le <;> omega
          rw [min_eq_right h3, min_eq_right (by omega)]
        · have h0 : List.count x [k] = 0 := by
            rw [List.count_singleton]
            simp [hx]
          rw [h0]
          simpa using hinv x
      exact ih _ _ hinv2 b hb

theorem keep_mask_again (best : Int) (keys : List String) :
    ∀ b ∈ keep_mask best (select (keep_mask best keys) keys), b = true := by
  rw [← keep_mask_from_nil, ← keep_mask_from_nil best keys]
  exact keep_again best keys [] [] (fun k => by
    simp only [List.count_nil, Nat.cast_zero]
    symm
    apply min_eq_left
    have := le_max_right best 1
    omega)

theorem all_record_eq (s : sup_result) (hs : s.sorted) :
    best_cats_all s = all_record s := by
  obtain ⟨h1, h2, _, _, _⟩ := hs
  have c1 := copy_n_sorted s._cats s._cats.length h1
  have c2 := copy_if_present s._bboxes s._cats.length h2
  rw [first_entries_full _ _ (le_refl _)] at c1
  unfold best_cats_all all_record
  simp only [sup_result.mk0]
  cases hb : s._bboxes.isEmpty
  · simp only [hb, Bool.not_false, if_true] at c2 ⊢
    rw [c1, c2]
  · simp only [hb, Bool.not_true] at c2 ⊢
    rw [c1, ← c2]
    simp

theorem all_record_sorted (s : sup_result) (hs : s.sorted) : (all_record s).sorted :=
  keeps_order_sorted (all_record s) s
    ⟨List.Sublist.refl _, first_entries_sublist _ _, List.nil_sublist _, List.nil_sublist _,
      List.nil_sublist _⟩ hs

theorem sup_result_ext (a b : sup_result) (h1 : a._label = b._label)
    (h2 : a._loss = b._loss) (h3 : a._cats = b._cats) (h4 : a._bboxes = b._bboxes)
    (h5 : a._vals = b._vals) (h6 : a._series = b._series) (h7 : a._masks = b._masks) :
    a = b := by
  cases a
  cases b
  simp only [sup_result.mk.injEq]
  exact ⟨h1, h2, h3, h4, h5, h6, h7⟩

theorem all_record_idem (s : sup_result) : all_record (all_record s) = all_record s := by
  unfold all_record
  simp only [first_entries_idem]

theorem dedup_record_keeps (best : Int) (has_roi has_mask : Bool) (s : sup_result) :
    (dedup_record best has_roi has_mask s).keeps_order s := by
  refine ⟨select_sublist _ _, select_sublist _ _, ?_, List.nil_sublist _, ?_⟩
  · unfold dedup_record
    cases has_roi
    · exact List.nil_sublist _
    · exact select_sublist _ _
  · unfold dedup_record
    cases has_mask
    · exact List.nil_sublist _
    · exact select_sublist _ _

theorem dedup_record_lock_step (best : Int) (has_roi has_mask : Bool) (s : sup_result)
    (hl : s.lock_step has_roi has_mask) :
    (dedup_record best has_roi has_mask s).lock_step has_roi has_mask := by
  obtain ⟨l1, l2, l3⟩ := hl
  refine ⟨select_length_eq _ _ _ l1, ?_, ?_⟩
  · intro h
    unfold dedup_record
    simp only [h, if_true]
    exact select_length_eq _ _ _ (l2 h)
  · intro h
    unfold dedup_record
    simp only [h, if_true]
    exact select_length_eq _ _ _ (l3 h)

theorem dedup_record_idem (best : Int) (has_roi has_mask : Bool) (s : sup_result)
    (hl : s.lock_step has_roi has_mask) :
    dedup_record best has_roi has_mask (dedup_record best has_roi has_mask s)
      = dedup_record best has_roi has_mask s := by
  obtain ⟨l1, l2, l3⟩ := hl
  have hkeys : box_keys (dedup_record best has_roi has_mask s)
      = select (keep_mask best (box_keys s)) (box_keys s) := by
    unfold box_keys dedup_record
    exact select_map _ _ _
  have hklen : (box_keys s).length = s._bboxes.length := by simp [box_keys]
  have hall := keep_mask_again best (box_keys s)
  have hsel : ∀ {α : Type} (l : List α), l.length = s._bboxes.length →
      select (keep_mask best (select (keep_mask best (box_keys s)) (box_keys s)))
          (select (keep_mask best (box_keys s)) l)
        = select (keep_mask best (box_keys s)) l := by
    intro α l hlen
    apply select_all _ _ _ hall
    rw [keep_mask_length]
    exact select_length_eq _ _ _ (by rw [hklen, hlen])
  have e1 := hsel s._cats l1
  have e2 := hsel s._bboxes rfl
  have fv : ∀ x : sup_result, (dedup_record best has_roi has_mask x)._vals
      = if has_roi then select (keep_mask best (box_keys x)) x._vals else [] := fun _ => rfl
  have fm : ∀ x : sup_result, (dedup_record best has_roi has_mask x)._masks
      = if has_mask then select (keep_mask best (box_keys x)) x._masks else [] := fun _ => rfl
  apply sup_result_ext
  · rfl
  · rfl
  · show select (keep_mask best (box_keys (dedup_record best has_roi has_mask s)))
        (select (keep_mask best (box_keys s)) s._cats) = _
    rw [hkeys]
    exact e1
  · show select (keep_mask best (box_keys (dedup_record best has_roi has_mask s)))
        (select (keep_mask best (box_keys s)) s._bboxes) = _
    rw [hkeys]
    exact e2
  · simp only [fv, hkeys]
    by_cases hr : has_roi = true
    · simp only [hr, if_true]
      exact hsel s._vals (l2 hr)
    · simp only [hr, if_false, Bool.false_eq_true]
  · rfl
  · simp only [fm, hkeys]
    by_cases hm : has_mask = true
    · simp only [hm, if_true]
      exact hsel s._masks (l3 hm)
    · simp only [hm, if_false, Bool.false_eq_true]

theorem dedup_record_eq (best nclasses : Int) (has_roi has_mask : Bool) (s : sup_result)
    (hne : best ≠ nclasses) (hs : s.sorted) (hl : s.lock_step has_roi has_mask) :
    best_cats_detection best nclasses has_roi has_mask s
      = .ok (dedup_record best has_roi has_mask s) :=
  best_cats_detection_eq best nclasses has_roi has_mask s hne hs hl

theorem best_cats_idempotent_aux (so : SupervisedOutput) (best nclasses : Int)
    (has_bbox has_roi has_mask : Bool)
    (hs : ∀ s ∈ so._vvcats, s.sorted)
    (hl : (has_bbox || has_roi || has_mask) = true →
            ∀ s ∈ so._vvcats, s.lock_step has_roi has_mask) :
    ∃ out, best_cats so SupervisedOutput.empty best nclasses has_bbox has_roi has_mask
        = .ok out
      ∧ best_cats out SupervisedOutput.empty best nclasses has_bbox has_roi has_mask
        = .ok out := by
  by_cases hmode : (has_bbox || has_roi || has_mask) = true
  · have hplain : (!has_bbox && !has_roi && !has_mask) = false := by
      cases has_bbox <;> cases has_roi <;> cases has_mask <;> simp_all
    by_cases hb : (if best = -1 then nclasses else best) = nclasses
    · -- unbounded detection mode
      have h1 : ∀ s ∈ so._vvcats,
          best_cats_detection (if best = -1 then nclasses else best) nclasses has_roi
            has_mask s = .ok (all_record s) := by
        intro s hm
        simp only [best_cats_detection, hb, if_true]
        rw [all_record_eq s (hs s hm)]
      have e1 := foldlM_push_build _ all_record so._vvcats SupervisedOutput.empty h1
      refine ⟨_, by simp only [best_cats, hplain]; exact e1, ?_⟩
      have hvv : ((so._vvcats.map all_record).foldl push_result
          SupervisedOutput.empty)._vvcats = so._vvcats.map all_record := by
        rw [build_vvcats]
        rfl
      have h2 : ∀ s ∈ so._vvcats.map all_record,
          best_cats_detection (if best = -1 then nclasses else best) nclasses has_roi
            has_mask s = .ok (all_record s) := by
        intro s hm
        obtain ⟨s0, hm0, rfl⟩ := List.mem_map.1 hm
        simp only [best_cats_detection, hb, if_true]
        rw [all_record_eq _ (all_record_sorted s0 (hs s0 hm0))]
      have e2 := foldlM_push_build _ all_record (so._vvcats.map all_record)
        SupervisedOutput.empty h2
      simp only [best_cats, hplain, hvv, Bool.false_eq_true, if_false]
      rw [e2, List.map_map]
      congr 2
      apply List.map_congr_left
      intro s _
      exact all_record_idem s
    · -- box-key mode
      have h1 : ∀ s ∈ so._vvcats,
          best_cats_detection (if best = -1 then nclasses else best) nclasses has_roi
            has_mask s
          = .ok (dedup_record (if best = -1 then nclasses else best) has_roi has_mask s) :=
        fun s hm => dedup_record_eq _ nclasses has_roi has_mask s hb (hs s hm)
          (hl hmode s hm)
      have e1 := foldlM_push_build _
        (dedup_record (if best = -1 then nclasses else best) has_roi has_mask) so._vvcats
        SupervisedOutput.empty h1
      refine ⟨_, by simp only [best_cats, hplain]; exact e1, ?_⟩
      have hvv : ((so._vvcats.map
          (dedup_record (if best = -1 then nclasses else best) has_roi has_mask)).foldl
            push_result SupervisedOutput.empty)._vvcats
          = so._vvcats.map
              (dedup_record (if best = -1 then nclasses else best) has_roi has_mask) := by
        rw [build_vvcats]
        rfl
      have h2 : ∀ s ∈ so._vvcats.map
            (dedup_record (if best = -1 then nclasses else best) has_roi has_mask),
          best_cats_detection (if best = -1 then nclasses else best) nclasses has_roi
            has_mask s
          = .ok (dedup_record (if best = -1 then nclasses else best) has_roi has_mask s) := by
        intro s hm
        obtain ⟨s0, hm0, rfl⟩ := List.mem_map.1 hm
        exact dedup_record_eq _ nclasses has_roi has_mask _ hb
          (keeps_order_sorted _ _ (dedup_record_keeps _ _ _ s0) (hs s0 hm0))
          (dedup_record_lock_step _ _ _ s0 (hl hmode s0 hm0))
      have e2 := foldlM_push_build _
        (dedup_record (if best = -1 then nclasses else best) has_roi has_mask)
        (so._vvcats.map
          (dedup_record (if best = -1 then nclasses else best) has_roi has_mask))
        SupervisedOutput.empty h2
      simp only [best_cats, hplain, hvv, Bool.false_eq_true, if_false]
      rw [e2, List.map_map]
      congr 2
      apply List.map_congr_left
      intro s hm
      exact dedup_record_idem _ _ _ s (hl hmode s hm)
  · -- plain mode
    have hplain : (!has_bbox && !has_roi && !has_mask) = true := by
      cases has_bbox <;> cases has_roi <;> cases has_mask <;> simp_all
    have e1 : so._vvcats.foldl (fun b sresult =>
          push_result b (best_cats_plain (if best = -1 then nclasses else best) sresult))
          SupervisedOutput.empty
        = (so._vvcats.map (plain_record (if best = -1 then nclasses else best))).foldl
            push_result SupervisedOutput.empty := by
      rw [foldl_push_build]
      congr 1
      apply List.map_congr_left
      intro s hm
      exact best_cats_plain_eq _ s (hs s hm)
    refine ⟨(so._vvcats.map (plain_record (if best = -1 then nclasses else best))).foldl
      push_result SupervisedOutput.empty, ?_, ?_⟩
    · simp only [best_cats, hplain, if_true]
      rw [e1]
    · have hvv : ((so._vvcats.map
          (plain_record (if best = -1 then nclasses else best))).foldl
            push_result SupervisedOutput.empty)._vvcats
          = so._vvcats.map (plain_record (if best = -1 then nclasses else best)) := by
        rw [build_vvcats]
        rfl
      simp only [best_cats, hplain, if_true, hvv]
      rw [foldl_push_build, List.map_map]
      congr 2
      apply List.map_congr_left
      intro s hm
      simp only [Function.comp]
      rw [best_cats_plain_eq _ _ (plain_record_sorted _ s (hs s hm)), plain_record_idem]

/-- C35. For every Result Set whose collections are ordered collections and, in
detection/roi/mask mode, whose samples are in lock-step, and for every `best`, `nclasses`
and flags, `best_cats` returns a Result Set on which `best_cats` with the same
parameters returns that same Result Set: in plain mode, in unbounded detection mode and
in box-key mode. -/
theorem best_cats_idempotent (so : SupervisedOutput) (best nclasses : Int)
    (has_bbox has_roi has_mask : Bool)
    (hs : ∀ s ∈ so._vvcats, s.sorted)
    (hl : (has_bbox || has_roi || has_mask) = true →
            ∀ s ∈ so._vvcats, s.lock_step has_roi has_mask) :
    ∃ out, best_cats so SupervisedOutput.empty best nclasses has_bbox has_roi has_mask
        = .ok out
      ∧ best_cats out SupervisedOutput.empty best nclasses has_bbox has_roi has_mask
        = .ok out :=
  best_cats_idempotent_aux so best nclasses has_bbox has_roi has_mask hs hl

/-- C35 (witness). Three detections, the first two on the same box, `best = 1` in
detection mode (box-key mode). -/
theorem best_cats_idempotent_witness :
    (∀ s ∈ (connector_of [sample_three_boxes])._vvcats, s.sorted)
    ∧ ((true || false || false) = true →
        ∀ s ∈ (connector_of [sample_three_boxes])._vvcats, s.lock_step false false)
    ∧ ∃ out, best_cats (connector_of [sample_three_boxes]) SupervisedOutput.empty 1 5
          true false false = .ok out
      ∧ best_cats out SupervisedOutput.empty 1 5 true false false = .ok out :=
  have h : ∀ s ∈ (connector_of [sample_three_boxes])._vvcats,
      s.sorted ∧ s.lock_step false false := by
    intro s hm
    simp only [connector_of, List.mem_singleton] at hm
    subst hm
    simp only [sup_result.sorted, sup_result.lock_step, mm_sorted, sample_three_boxes]
    norm_num
  ⟨fun s hm => (h s hm).1, fun _ s hm => (h s hm).2,
    best_cats_idempotent (connector_of [sample_three_boxes]) 1 5 true false false
      (fun s hm => (h s hm).1) (fun _ s hm => (h s hm).2)⟩

/-- The example evaluated: the second pass returns the Result Set of the first. -/
theorem best_cats_twice_three_boxes :
    (best_cats (connector_of [sample_three_boxes]) SupervisedOutput.empty 1 5
        true false false).bind
      (fun out => best_cats out SupervisedOutput.empty 1 5 true false false)
    = best_cats (connector_of [sample_three_boxes]) SupervisedOutput.empty 1 5
        true false false := by
  decide!

/-! ## `split_data` -/

/-- C33. Two CSV lines and `test_split = 0.9`: `floor(2 * 0.1) = 0`, and `split_data`
leaves the first line in the training set while it appends both lines to the test set.
The iterator `dchit` is taken as not yet set as long as it equals `csvdata.begin()`, so
with a split at position 0 it moves on to the second line. -/
theorem split_data_zero_split :
    split_data (9 / 10) csv_two []
      = .ok ([{ _str := "1", _v := [1] }],
             [{ _str := "1", _v := [1] }, { _str := "2", _v := [2] }]) := by
  decide!

/-- The split of four lines with `test_split = 0.5`: two lines stay, two lines go to the
test set. -/
theorem split_data_half :
    split_data (1 / 2) csv_four []
      = .ok ([{ _str := "1", _v := [1] }, { _str := "2", _v := [2] }],
             [{ _str := "3", _v := [3] }, { _str := "4", _v := [4] }]) := by
  decide!

theorem split_fold_tail (k : Nat) (hk : 1 ≤ k) (l : List CSVline) :
    ∀ (i : Nat) (T : List CSVline) (d : Nat), k ≤ i → (d = k ∨ (d = 0 ∧ i = k)) →
      ((List.range' i l.length).zip l).foldl (split_step k)
          { dchit := d, cpos := k, csvdata_test := T }
        = { dchit := if l = [] then d else k, cpos := k, csvdata_test := T ++ l } := by
  induction l with
  | nil => intro i T d _ _; simp
  | cons x rest ih =>
    intro i T d hi hd
    simp only [List.length_cons, List.range'_succ, List.zip_cons_cons, List.foldl_cons]
    have hstep : split_step k { dchit := d, cpos := k, csvdata_test := T } (i, x)
        = { dchit := k, cpos := k, csvdata_test := T ++ [x] } := by
      unfold split_step
      simp only [if_true]
      rcases hd with h | ⟨h, h2⟩
      · have : k ≠ 0 := by omega
        simp [this, h]
      · simp [h, h2]
    rw [hstep, ih (i + 1) (T ++ [x]) k (by omega) (Or.inl rfl)]
    simp

theorem split_fold_head (k : Nat) (hk : 1 ≤ k) (hk2 : k < 2147483648) (l : List CSVline) :
    ∀ (i : Nat) (T : List CSVline), i ≤ k → k < i + l.length →
      ((List.range' i l.length).zip l).foldl (split_step k)
          { dchit := 0, cpos := i, csvdata_test := T }
        = { dchit := k, cpos := k, csvdata_test := T ++ l.drop (k - i) } := by
  induction l with
  | nil => intro i T h1 h2; simp at h2; omega
  | cons x rest ih =>
    intro i T h1 h2
    by_cases hik : i = k
    · subst hik
      have h := split_fold_tail i hk (x :: rest) i T 0 (le_refl _) (Or.inr ⟨rfl, rfl⟩)
      simp only [List.cons_ne_nil, if_false] at h
      rw [h]
      simp
    · simp only [List.length_cons, List.range'_succ, List.zip_cons_cons, List.foldl_cons]
      have hne : ¬ ((i : Int) = (k : Int)) := by omega
      have hstep : split_step k { dchit := 0, cpos := i, csvdata_test := T } (i, x)
          = { dchit := 0, cpos := ((i + 1 : Nat) : Int), csvdata_test := T } := by
        unfold split_step
        simp only [hne, if_false]
        have : wrap32 ((i : Int) + 1) = (i : Int) + 1 := by
          unfold wrap32
          omega
        rw [this]
        push_cast
        rfl
      rw [hstep, ih (i + 1) T (by omega) (by simp at h2; omega)]
      have : k - i = (k - (i + 1)) + 1 := by omega
      rw [this, List.drop_succ_cons]

/-- Whenever the split size `floor(n * (1 - test_split))` is at least 1 (and below
`2^31`), `split_data` leaves the first `floor(n * (1 - test_split))` lines in the
training set and appends the remaining lines, in order, to the test set. -/
theorem split_data_from_one (test_split : ℚ) (csvdata csvdata_test : List CSVline)
    (k : Nat) (h0 : 0 < test_split)
    (hk : Rat.floor ((csvdata.length : ℚ) * (1 - test_split)) = (k : Int))
    (h1 : 1 ≤ k) (h2 : k < 2147483648) :
    split_data test_split csvdata csvdata_test
      = .ok (csvdata.take k, csvdata_test ++ csvdata.drop k) := by
  have hlt : k < csvdata.length := by
    have hfl : ((k : Int) : ℚ) ≤ (csvdata.length : ℚ) * (1 - test_split) := by
      rw [← hk]
      exact Rat.le_floor.1 (le_refl _)
    have hn : (0 : ℚ) ≤ (csvdata.length : ℚ) := Nat.cast_nonneg _
    have hk0 : (1 : ℚ) ≤ ((k : Int) : ℚ) := by exact_mod_cast h1
    have hpos : (0 : ℚ) < (csvdata.length : ℚ) := by
      rcases eq_or_lt_of_le hn with h | h
      · rw [← h, zero_mul] at hfl
        linarith
      · exact h
    have : ((k : Int) : ℚ) < (csvdata.length : ℚ) := by
      have : (csvdata.length : ℚ) * (1 - test_split) < (csvdata.length : ℚ) := by
        nlinarith
      linarith
    exact_mod_cast this
  unfold split_data
  rw [if_pos h0]
  simp only [hk]
  rw [if_neg (by omega)]
  have hf := split_fold_head k h1 h2 csvdata 0 csvdata_test (Nat.zero_le _) (by omega)
  rw [List.range_eq_range']
  simp only [Nat.cast_zero] at hf
  rw [hf]
  simp

/-! ## Shape mismatch during weight transfer -/

theorem dict_find_set (d : ParamDict) (name n : String) (x : Tensor) :
    dict_find (dict_set d name x) n
      = if n = name then (dict_find d n).map (fun _ => x) else dict_find d n := by
  induction d with
  | nil => simp [dict_set, dict_find]
  | cons e rest ih =>
    unfold dict_set
    by_cases h1 : e.1 = name
    · by_cases h2 : n = name
      · subst h2
        simp [dict_find, h1]
      · have h3 : ¬ name = n := fun h => h2 h.symm
        have h4 : ¬ e.1 = n := by rw [h1]; exact h3
        simp [dict_find, h1, h2, h3, h4]
    · simp only [h1, if_false]
      by_cases h2 : e.1 = n
      · have h3 : ¬ n = name := by
          intro h; apply h1; rw [h2, h]
        simp [dict_find, h2, h3]
      · have : dict_find (e :: dict_set rest name x) n = dict_find (dict_set rest name x) n := by
          simp [dict_find, h2]
        have h5 : dict_find (e :: rest) n = dict_find rest n := by
          simp [dict_find, h2]
        rw [this, ih, h5]

theorem copy_loop_raises (device : String) (strict : Bool) (from_params : ParamDict) :
    ∀ (to_params : ParamDict) (copied : List String),
      (copy_tensors_loop device strict from_params to_params copied).2.2 = none
      ∨ (copy_tensors_loop device strict from_params to_params copied).2.2
          = some MLLibErr.bad_param := by
  induction from_params with
  | nil => intro _ _; exact Or.inl rfl
  | cons item rest ih =>
    intro to_params copied
    unfold copy_tensors_loop
    cases hf : dict_find to_params item.1 with
    | none =>
      cases strict
      · simpa using ih to_params copied
      · exact Or.inr rfl
    | some tv =>
      by_cases hs : item.2.sizes ≠ tv.sizes
      · cases strict
        · simpa [hs] using ih to_params copied
        · simp [hs]
      · simp only [hs, if_false]
        exact ih _ _

theorem copy_loop_lenient (device : String) (from_params : ParamDict) :
    ∀ (to_params : ParamDict) (copied : List String),
      (copy_tensors_loop device false from_params to_params copied).2.2 = none := by
  induction from_params with
  | nil => intro _ _; rfl
  | cons item rest ih =>
    intro to_params copied
    unfold copy_tensors_loop
    cases hf : dict_find to_params item.1 with
    | none => simpa using ih to_params copied
    | some tv =>
      by_cases hs : item.2.sizes ≠ tv.sizes
      · simpa [hs] using ih to_params copied
      · simp only [hs, if_false]
        exact ih _ _

theorem copy_loop_strict (device : String) (from_params : ParamDict) :
    ∀ (to_params : ParamDict) (copied : List String),
      (∃ item ∈ from_params, ∃ tv, dict_find to_params item.1 = some tv
        ∧ item.2.sizes ≠ tv.sizes) →
      (copy_tensors_loop device true from_params to_params copied).2.2
        = some MLLibErr.bad_param := by
  induction from_params with
  | nil =>
    intro _ _ h
    obtain ⟨_, hm, _⟩ := h
    cases hm
  | cons item rest ih =>
    intro to_params copied h
    unfold copy_tensors_loop
    cases hf : dict_find to_params item.1 with
    | none => rfl
    | some tv =>
      by_cases hs : item.2.sizes ≠ tv.sizes
      · simp [hs]
      · simp only [hs, if_false]
        apply ih
        obtain ⟨w, hw, t, hwf, hwsz⟩ := h
        rcases List.mem_cons.1 hw with h1 | h1
        · subst h1
          rw [hf] at hwf
          cases hwf
          exact absurd hwsz hs
        · refine ⟨w, h1, ?_⟩
          rw [dict_find_set]
          by_cases hn : w.1 = item.1
          · refine ⟨item.2.to device, by simp [hn, hf], ?_⟩
            have heq : item.2.sizes = tv.sizes := not_not.1 hs
            have htt : t = tv := by
              rw [hn, hf] at hwf
              cases hwf
              rfl
            show w.2.sizes ≠ item.2.sizes
            rw [heq, ← htt]
            exact hwsz
          · exact ⟨t, by simp [hn, hwf], hwsz⟩

theorem copy_loop_skip (device : String) (item : String × Tensor) (post : ParamDict)
    (pre : ParamDict) :
    ∀ (to_params : ParamDict) (copied : List String) (tv : Tensor),
      dict_find to_params item.1 = some tv → item.2.sizes ≠ tv.sizes →
      copy_tensors_loop device false (pre ++ item :: post) to_params copied
        = copy_tensors_loop device false (pre ++ post) to_params copied := by
  induction pre with
  | nil =>
    intro to_params copied tv hf hs
    simp only [List.nil_append]
    conv_lhs => unfold copy_tensors_loop
    simp [hf, hs]
  | cons x rest ih =>
    intro to_params copied tv hf hs
    simp only [List.cons_append]
    unfold copy_tensors_loop
    cases hx : dict_find to_params x.1 with
    | none =>
      simp only [Bool.false_eq_true, if_false]
      exact ih to_params copied tv hf hs
    | some xv =>
      by_cases hxs : x.2.sizes ≠ xv.sizes
      · dsimp only
        rw [if_pos hxs, if_pos hxs]
        simp only [Bool.false_eq_true, if_false]
        exact ih to_params copied tv hf hs
      · dsimp only
        rw [if_neg hxs, if_neg hxs]
        by_cases hn : item.1 = x.1
        · apply ih _ _ (x.2.to device)
          · rw [dict_find_set]
            simp [hn, hx]
          · have heq : x.2.sizes = xv.sizes := not_not.1 hxs
            have htt : tv = xv := by
              rw [hn, hx] at hf
              cases hf
              rfl
            show item.2.sizes ≠ x.2.sizes
            rw [heq, ← htt]
            exact hs
        · apply ih _ _ tv
          · rw [dict_find_set]
            simp [hn, hf]
          · exact hs

theorem native_mismatch (device : String) (f t : Tensor) (post_f post_t : List Tensor)
    (hft : f.sizes ≠ t.sizes) (pre_f : List Tensor) :
    ∀ pre_t : List Tensor, pre_f.length = pre_t.length →
      (∀ p ∈ pre_f.zip pre_t, p.1.sizes = p.2.sizes) →
      copy_native_weights device (pre_f ++ f :: post_f) (pre_t ++ t :: post_t)
        = { to_params := List.zipWith (fun tp fp => tp.copy_ (fp.to device)) pre_t pre_f
              ++ t :: post_t,
            raised := some MLLibErr.internal } := by
  induction pre_f with
  | nil =>
    intro pre_t hlen _
    have : pre_t = [] := List.length_eq_zero.1 hlen.symm
    subst this
    simp [copy_native_weights, hft]
  | cons x rest ih =>
    intro pre_t hlen hp
    cases pre_t with
    | nil => simp at hlen
    | cons y rest_t =>
      have h1 : x.sizes = y.sizes := hp (x, y) (by simp)
      have h2 := ih rest_t (by simpa using hlen)
        (fun p hm => hp p (by simp only [List.zip_cons_cons]; exact List.mem_cons_of_mem _ hm))
      simp only [List.cons_append, List.zipWith_cons_cons]
      rw [copy_native_weights, if_neg (by simp [h1]), h2]

theorem copy_tensors_never_internal (from_params to_params : ParamDict) (device : String)
    (strict : Bool) :
    (copy_tensors from_params to_params device strict).raised ≠ some MLLibErr.internal := by
  unfold copy_tensors
  have h := copy_loop_raises device strict from_params to_params []
  rcases hloop : copy_tensors_loop device strict from_params to_params [] with ⟨to1, cp, e⟩
  rw [hloop] at h
  rcases h with h | h
  · simp only at h
    subst h
    dsimp only
    split_ifs <;> simp
  · simp only at h
    subst h
    simp

theorem copy_tensors_strict (from_params to_params : ParamDict) (device : String)
    (h : ∃ item ∈ from_params, ∃ tv, dict_find to_params item.1 = some tv
      ∧ item.2.sizes ≠ tv.sizes) :
    (copy_tensors from_params to_params device true).raised = some MLLibErr.bad_param := by
  unfold copy_tensors
  have hl := copy_loop_strict device from_params to_params [] h
  rcases hloop : copy_tensors_loop device true from_params to_params [] with ⟨to1, cp, e⟩
  rw [hloop] at hl
  simp only at hl
  subst hl
  rfl

theorem copy_tensors_skip (pre post to_params : ParamDict) (item : String × Tensor)
    (tv : Tensor) (device : String)
    (hfind : dict_find to_params item.1 = some tv) (hsz : item.2.sizes ≠ tv.sizes) :
    copy_tensors (pre ++ item :: post) to_params device false
      = copy_tensors (pre ++ post) to_params device false := by
  unfold copy_tensors
  rw [copy_loop_skip device item post pre to_params [] tv hfind hsz]

/-- C34 (as amended). During weight transfer, `copy_native_weights` throws
`MLLibInternalException` at the first pair of tensors of different shapes: the pairs
before it have been copied, nothing is copied from it on. `copy_tensors` (and
`copy_weights`, which calls it on the parameters first) never throws that exception:
when a source tensor and its destination differ in shape it throws
`MLLibBadParamException` if `strict` is set, and if `strict` is not set it skips that
tensor and goes on, with the same result as if the tensor were not in the source. -/
theorem weight_copy_mismatch (device : String) (strict : Bool)
    (pre_f pre_t post_f post_t : List Tensor) (f t : Tensor)
    (pre post to_params from_buffers to_buffers : ParamDict) (item : String × Tensor)
    (tv : Tensor)
    (hlen : pre_f.length = pre_t.length)
    (hpre : ∀ p ∈ pre_f.zip pre_t, p.1.sizes = p.2.sizes)
    (hft : f.sizes ≠ t.sizes)
    (hfind : dict_find to_params item.1 = some tv) (hsz : item.2.sizes ≠ tv.sizes) :
    copy_native_weights device (pre_f ++ f :: post_f) (pre_t ++ t :: post_t)
        = { to_params := List.zipWith (fun tp fp => tp.copy_ (fp.to device)) pre_t pre_f
              ++ t :: post_t,
            raised := some MLLibErr.internal }
      ∧ (copy_tensors (pre ++ item :: post) to_params device strict).raised
          ≠ some MLLibErr.internal
      ∧ (copy_tensors (pre ++ item :: post) to_params device true).raised
          = some MLLibErr.bad_param
      ∧ copy_tensors (pre ++ item :: post) to_params device false
          = copy_tensors (pre ++ post) to_params device false
      ∧ (copy_weights { named_parameters := pre ++ item :: post, named_buffers := from_buffers }
            { named_parameters := to_params, named_buffers := to_buffers } device true).raised
          = some MLLibErr.bad_param
      ∧ copy_weights { named_parameters := pre ++ item :: post, named_buffers := from_buffers }
            { named_parameters := to_params, named_buffers := to_buffers } device false
          = copy_weights { named_parameters := pre ++ post, named_buffers := from_buffers }
              { named_parameters := to_params, named_buffers := to_buffers } device false := by
  have hs := copy_tensors_strict (pre ++ item :: post) to_params device
    ⟨item, by simp, tv, hfind, hsz⟩
  have hk := copy_tensors_skip pre post to_params item tv device hfind hsz
  refine ⟨native_mismatch device f t post_f post_t hft pre_f pre_t hlen hpre,
    copy_tensors_never_internal _ _ _ _, hs, hk, ?_, ?_⟩
  · unfold copy_weights
    simp only [hs]
  · unfold copy_weights
    simp only [hk]

/-- C34 (witness). Source tensors `a` of shape `[2]` and `b` of shape `[1]`, destination
tensors `a` of shape `[3]` and `b` of shape `[1]`. -/
theorem weight_copy_mismatch_witness :
    copy_native_weights "gpu" ([] ++ tensor_a2 :: [tensor_b1]) ([] ++ tensor_a3 :: [tensor_b0])
        = { to_params := List.zipWith (fun (tp fp : Tensor) => tp.copy_ (fp.to "gpu")) [] []
              ++ tensor_a3 :: [tensor_b0],
            raised := some MLLibErr.internal }
      ∧ (copy_tensors ([] ++ ("a", tensor_a2) :: [("b", tensor_b1)]) to_ab "gpu" false).raised
          ≠ some MLLibErr.internal
      ∧ (copy_tensors ([] ++ ("a", tensor_a2) :: [("b", tensor_b1)]) to_ab "gpu" true).raised
          = some MLLibErr.bad_param
      ∧ copy_tensors ([] ++ ("a", tensor_a2) :: [("b", tensor_b1)]) to_ab "gpu" false
          = copy_tensors ([] ++ [("b", tensor_b1)]) to_ab "gpu" false
      ∧ (copy_weights
            { named_parameters := [] ++ ("a", tensor_a2) :: [("b", tensor_b1)], named_buffers := [] }
            { named_parameters := to_ab, named_buffers := [] } "gpu" true).raised
          = some MLLibErr.bad_param
      ∧ copy_weights
            { named_parameters := [] ++ ("a", tensor_a2) :: [("b", tensor_b1)], named_buffers := [] }
            { named_parameters := to_ab, named_buffers := [] } "gpu" false
          = copy_weights
              { named_parameters := [] ++ [("b", tensor_b1)], named_buffers := [] }
              { named_parameters := to_ab, named_buffers := [] } "gpu" false :=
  weight_copy_mismatch "gpu" false [] [] [tensor_b1] [tensor_b0] tensor_a2 tensor_a3
    [] [("b", tensor_b1)] to_ab [] [] ("a", tensor_a2) tensor_a3
    rfl (by simp) (by decide) (by decide) (by decide)

/-- C34 (counterexample). The source tensor `a` has shape `[2]` and its destination has
shape `[3]`: without `strict`, `copy_tensors` raises nothing, leaves `a` as it was and
copies `b`; with `strict` it raises `MLLibBadParamException`, not
`MLLibInternalException`. -/
theorem copy_tensors_mismatch_not_internal :
    copy_tensors from_ab to_ab "gpu" false
        = { to_params := [("a", tensor_a3), ("b", tensor_b1.to "gpu")], raised := none }
      ∧ copy_tensors from_ab to_ab "gpu" true
        = { to_params := to_ab, raised := some MLLibErr.bad_param } := by
  constructor <;> decide!

/-! ## `multilabel_soft_ks` -/

theorem ks_values_eq (thres : ℚ) (bad : MlSample) :
    (List.zipWith (fun t d => if ks_masked thres t then 0 else d) bad.target
        (List.zipWith (fun t p => t - p) bad.target bad.pred)).map (fun d => |d|)
      = spec_ks_values thres bad := by
  unfold spec_ks_values
  generalize bad.target = ts
  generalize bad.pred = ps
  induction ts generalizing ps with
  | nil => simp
  | cons t rest ih =>
    cases ps with
    | nil => simp
    | cons p ps =>
      simp only [List.zipWith_cons_cons, List.map_cons, List.zip_cons_cons, ih ps]
      congr 1
      unfold ks_masked
      by_cases h : thres < 0
      · have h2 : ¬ thres ≥ 0 := not_le.2 h
        simp only [h, h2, if_true, if_false]
        split_ifs <;> simp
      · have h2 : thres ≥ 0 := not_lt.1 h
        simp only [h, h2, if_true, if_false]
        split_ifs <;> simp

theorem ks_sample_ok (thres : ℚ) (bad : MlSample)
    (h : bad.pred ≠ [] ∧ bad.target ≠ [] ∧ bad.pred.length = bad.target.length) :
    ks_sample thres bad
      = .ok ((spec_ks_values thres bad).getD (max_element (spec_ks_values thres bad)) 0,
             bad.target.countP (kl_unmasked thres)) := by
  unfold ks_sample
  rw [if_neg h.1, if_neg h.2.1, if_neg (not_not.2 h.2.2)]
  simp only [ks_values_eq]

theorem ks_fold_ok (thres : ℚ) (pre : List MlSample)
    (h : ∀ s ∈ pre, s.pred ≠ [] ∧ s.target ≠ [] ∧ s.pred.length = s.target.length) :
    ∀ s0 : ℚ × Int, ∃ s1 : ℚ × Int,
      pre.foldlM (fun (s : ℚ × Int) bad => do
        let r ← ks_sample thres bad
        pure (r.1, s.2 + (r.2 : Int))) s0 = Except.ok s1 := by
  induction pre with
  | nil => intro s0; exact ⟨s0, rfl⟩
  | cons x rest ih =>
    intro s0
    rw [List.foldlM_cons, ks_sample_ok thres x (h x (List.mem_cons_self _ _)), bind_ok]
    exact ih (fun s hs => h s (List.mem_cons_of_mem _ hs)) _

theorem ks_last_value (thres : ℚ) (pre : List MlSample) (last : MlSample)
    (h : ∀ s ∈ pre ++ [last], s.pred ≠ [] ∧ s.target ≠ [] ∧ s.pred.length = s.target.length) :
    multilabel_soft_ks (pre ++ [last]) thres
      = .ok ((spec_ks_values thres last).getD (max_element (spec_ks_values thres last)) 0) := by
  unfold multilabel_soft_ks
  rw [List.foldlM_append]
  obtain ⟨s1, hs1⟩ := ks_fold_ok thres pre (fun s hs => h s (List.mem_append_left _ hs)) (0, 0)
  rw [hs1, bind_ok, List.foldlM_cons, ks_sample_ok thres last (h last (by simp)), bind_ok]
  rfl

theorem ks_values_length (thres : ℚ) (bad : MlSample) :
    (spec_ks_values thres bad).length = min bad.target.length bad.pred.length := by
  simp [spec_ks_values]

/-- C36. `multilabel_soft_ks` depends only on the last sample of the batch: two batches
of the same size (of samples with non-empty pred and target vectors of equal sizes) whose
last samples are equal give the same value, for every threshold, and that value is the
maximum over the last sample's entries of `|target - pred|` with the masked entries
counted as 0, an entry being masked when its target is `< 0` for an unset threshold and
strictly below the threshold otherwise. -/
theorem multilabel_soft_ks_last (thres : ℚ) (pre1 pre2 : List MlSample) (last : MlSample)
    (hlen : pre1.length = pre2.length)
    (h1 : ∀ s ∈ pre1 ++ [last],
      s.pred ≠ [] ∧ s.target ≠ [] ∧ s.pred.length = s.target.length)
    (h2 : ∀ s ∈ pre2 ++ [last],
      s.pred ≠ [] ∧ s.target ≠ [] ∧ s.pred.length = s.target.length) :
    ∃ r, multilabel_soft_ks (pre1 ++ [last]) thres = .ok r
      ∧ multilabel_soft_ks (pre2 ++ [last]) thres = .ok r
      ∧ r ∈ spec_ks_values thres last
      ∧ ∀ v ∈ spec_ks_values thres last, v ≤ r := by
  have _ := hlen
  refine ⟨_, ks_last_value thres pre1 last h1, ks_last_value thres pre2 last h2, ?_, ?_⟩
  · have hl := h1 last (by simp)
    have hpos : 0 < (spec_ks_values thres last).length := by
      rw [ks_values_length]
      have a := List.length_pos.2 hl.1
      have b := List.length_pos.2 hl.2.1
      omega
    have hm := (max_element_spec (spec_ks_values thres last)).1
    have hlt : max_element (spec_ks_values thres last) < (spec_ks_values thres last).length := by
      omega
    rw [List.getD_eq_getElem _ _ hlt]
    exact List.getElem_mem _
  · intro v hv
    obtain ⟨j, hj, rfl⟩ := List.getElem_of_mem hv
    have := (max_element_spec (spec_ks_values thres last)).2.1 j hj
    rwa [List.getD_eq_getElem _ _ hj] at this

/-- C36 (witness). Two batches of two samples with the same last sample, threshold 1/4:
the entry with target 0 is masked, the entry with target 1/4 is not. -/
theorem multilabel_soft_ks_last_witness :
    ∃ r, multilabel_soft_ks ([{ target := [1 / 2, -1, 1], pred := [13 / 25, 3 / 10, 7 / 10] }]
          ++ [{ target := [0, 1 / 4, 1], pred := [3 / 20, 1 / 2, 1] }]) (1 / 4) = .ok r
      ∧ multilabel_soft_ks ([{ target := [1, 1], pred := [0, 0] }]
          ++ [{ target := [0, 1 / 4, 1], pred := [3 / 20, 1 / 2, 1] }]) (1 / 4) = .ok r
      ∧ r ∈ spec_ks_values (1 / 4) { target := [0, 1 / 4, 1], pred := [3 / 20, 1 / 2, 1] }
      ∧ ∀ v ∈ spec_ks_values (1 / 4) { target := [0, 1 / 4, 1], pred := [3 / 20, 1 / 2, 1] },
          v ≤ r :=
  multilabel_soft_ks_last (1 / 4)
    [{ target := [1 / 2, -1, 1], pred := [13 / 25, 3 / 10, 7 / 10] }]
    [{ target := [1, 1], pred := [0, 0] }]
    { target := [0, 1 / 4, 1], pred := [3 / 20, 1 / 2, 1] } rfl (by decide) (by decide)

/-- The value of the batches above is 1/4, the difference of the entry whose target
equals the threshold; the first samples, with differences up to 1, play no part. -/
theorem multilabel_soft_ks_example :
    multilabel_soft_ks [{ target := [1, 1], pred := [0, 0] },
        { target := [0, 1 / 4, 1], pred := [3 / 20, 1 / 2, 1] }] (1 / 4) = .ok (1 / 4)
      ∧ multilabel_soft_ks [{ target := [1, 1], pred := [0, 0] }] (1 / 4) = .ok 1 := by
  constructor <;> decide!

/-! ## `distl`, `percentl` and `ignore_label` -/

/-- The L1 distance of the two example payloads: the second entries, whose targets 1/2
and -4 truncate to 0 and -4, are skipped with `ignore_label = 0` and count without it. -/
theorem distl_ignore_example :
    distl sqrt_squares reg_ignore_a (-1) true true = .ok (1 / 4, [1 / 2, 0])
      ∧ distl sqrt_squares reg_ignore_b (-1) true true = .ok (1 / 4, [1 / 2, 0])
      ∧ distl sqrt_squares { reg_ignore_a with ignore_label := none } (-1) true true
          = .ok (33 / 8, [1 / 2, 31 / 4])
      ∧ percentl reg_ignore_a true
          = .ok (25000000000 / 2000000001, [50000000000 / 2000000001, 0]) := by
  refine ⟨?_, ?_, ?_, ?_⟩ <;> decide!

/-! ## `compute_ap`: range of the value returned -/

theorem ap_bound_step (cp ap B p r r1 : ℚ) (hcp0 : 0 ≤ cp) (hcp1 : cp ≤ 1)
    (hp0 : 0 ≤ p) (hp1 : p ≤ 1) (hr10 : 0 ≤ r1) (hr11 : r1 ≤ 1) (hrr : r ≤ r1)
    (hap0 : 0 ≤ ap) (hap : ap ≤ B) :
    0 ≤ max (to_float p) cp ∧ max (to_float p) cp ≤ 1
      ∧ 0 ≤ (if |to_float r1 - r| > ap_eps then ap + max (to_float p) cp * |to_float r1 - r|
              else ap)
      ∧ (if |to_float r1 - r| > ap_eps then ap + max (to_float p) cp * |to_float r1 - r|
              else ap) ≤ B + (r1 - r) + 1 / 16777216 := by
  obtain ⟨_, f1, _⟩ := to_float_unit p hp0 hp1
  obtain ⟨_, _, ge⟩ := to_float_unit r1 hr10 hr11
  have hM0 : 0 ≤ max (to_float p) cp := le_max_of_le_right hcp0
  have hM1 : max (to_float p) cp ≤ 1 := max_le f1 hcp1
  have hd0 : 0 ≤ |to_float r1 - r| := abs_nonneg _
  have hd : |to_float r1 - r| ≤ (r1 - r) + 1 / 16777216 := by
    have e : to_float r1 - r = (to_float r1 - r1) + (r1 - r) := by ring
    rw [e]
    have h1 := abs_add (to_float r1 - r1) (r1 - r)
    have h2 : |r1 - r| = r1 - r := abs_of_nonneg (by linarith)
    linarith
  have hprod : max (to_float p) cp * |to_float r1 - r| ≤ |to_float r1 - r| := by
    calc max (to_float p) cp * |to_float r1 - r| ≤ 1 * |to_float r1 - r| :=
          mul_le_mul_of_nonneg_right hM1 hd0
      _ = |to_float r1 - r| := one_mul _
  have hprod0 : 0 ≤ max (to_float p) cp * |to_float r1 - r| := mul_nonneg hM0 hd0
  refine ⟨hM0, hM1, ?_, ?_⟩
  · split_ifs <;> linarith
  · split_ifs <;> linarith

/-- The loop of `compute_ap` on exact data with non-decreasing recalls: from index `m`
down to index 0 the sum `ap` stays between 0 and the recall gained plus the rounding
allowance. -/
theorem ap_loop_bound (p r : Nat → ℚ) (n : Nat)
    (hp : ∀ i, i < n → 0 ≤ p i ∧ p i ≤ 1) (hr : ∀ i, i < n → 0 ≤ r i ∧ r i ≤ 1)
    (hmono : ∀ i, i + 1 < n → r i ≤ r (i + 1)) :
    ∀ m, m < n → ∀ s, ap_bound_inv r n m s →
      ∃ s1, (List.range m).reverse.foldlM
          (ap_step ((List.range n).map p) ((List.range n).map r)) s = .ok s1
        ∧ ap_bound_inv r n 0 s1 := by
  intro m
  induction m with
  | zero => intro _ s hs; exact ⟨s, rfl, hs⟩
  | succ m ih =>
    intro hm s hs
    obtain ⟨i1, i2, i3, i4, i5⟩ := hs
    rw [range_reverse_succ, List.foldlM_cons, ap_step_ok p r n m (by omega) s, bind_ok]
    apply ih (by omega)
    obtain ⟨n1, n2, n3, n4⟩ := ap_bound_step s.cur_prec s.ap
      ((r (n - 1) - r (m + 1)) + (1 / 16777216) * ((n : ℚ) - 1 - ((m + 1 : Nat) : ℚ)))
      (p m) (r m) (r (m + 1)) i2 i3 (hp m (by omega)).1 (hp m (by omega)).2
      (hr (m + 1) hm).1 (hr (m + 1) hm).2 (hmono m hm) i4 i5
    refine ⟨rfl, n1, n2, ?_, ?_⟩
    · simp only [i1]
      exact n3
    · simp only [i1]
      refine le_trans n4 ?_
      push_cast
      linarith

theorem ap_scan_bound (p r : Nat → ℚ) (n : Nat) (hn : 0 < n)
    (hp : ∀ i, i < n → 0 ≤ p i ∧ p i ≤ 1) (hr : ∀ i, i < n → 0 ≤ r i ∧ r i ≤ 1)
    (hmono : ∀ i, i + 1 < n → r i ≤ r (i + 1)) :
    ∃ s1, (List.range (n - 1)).reverse.foldlM
        (ap_step ((List.range n).map p) ((List.range n).map r))
        { cur_rec := to_float (r (n - 1)), cur_prec := to_float (p (n - 1)), ap := 0 } = .ok s1
      ∧ 0 ≤ s1.ap + to_float (s1.cur_rec * s1.cur_prec)
      ∧ s1.ap + to_float (s1.cur_rec * s1.cur_prec) ≤ 1 + ((n : ℚ) + 1) / 16777216 := by
  obtain ⟨p0, p1⟩ := hp (n - 1) (by omega)
  obtain ⟨f0, f1, _⟩ := to_float_unit (p (n - 1)) p0 p1
  have hinit : ap_bound_inv r n (n - 1)
      { cur_rec := to_float (r (n - 1)), cur_prec := to_float (p (n - 1)), ap := 0 } := by
    refine ⟨rfl, f0, f1, le_refl _, ?_⟩
    have : ((n - 1 : Nat) : ℚ) = (n : ℚ) - 1 := by
      rw [Nat.cast_sub hn]; simp
    simp [this]
  obtain ⟨s1, hs1, j1, j2, j3, j4, j5⟩ :=
    ap_loop_bound p r n hp hr hmono (n - 1) (by omega) _ hinit
  refine ⟨s1, hs1, ?_, ?_⟩
  · obtain ⟨g0, g1, _⟩ := to_float_unit (r 0) (hr 0 hn).1 (hr 0 hn).2
    have hx0 : 0 ≤ s1.cur_rec * s1.cur_prec := by rw [j1]; exact mul_nonneg g0 j2
    have hx1 : s1.cur_rec * s1.cur_prec ≤ 1 := by
      rw [j1]
      calc to_float (r 0) * s1.cur_prec ≤ 1 * 1 := mul_le_mul g1 j3 j2 (by norm_num)
        _ = 1 := by norm_num
    obtain ⟨x0, _, _⟩ := to_float_unit _ hx0 hx1
    linarith
  · obtain ⟨g0, g1, ge⟩ := to_float_unit (r 0) (hr 0 hn).1 (hr 0 hn).2
    have hx0 : 0 ≤ s1.cur_rec * s1.cur_prec := by rw [j1]; exact mul_nonneg g0 j2
    have hxr : s1.cur_rec * s1.cur_prec ≤ to_float (r 0) := by
      rw [j1]
      calc to_float (r 0) * s1.cur_prec ≤ to_float (r 0) * 1 :=
            mul_le_mul_of_nonneg_left j3 g0
        _ = to_float (r 0) := mul_one _
    have hx1 : s1.cur_rec * s1.cur_prec ≤ 1 := le_trans hxr g1
    obtain ⟨_, _, xe⟩ := to_float_unit _ hx0 hx1
    rw [abs_le] at ge xe
    have hlast := (hr (n - 1) (by omega)).2
    simp only [Nat.cast_zero, sub_zero] at j5
    have e : 1 + ((n : ℚ) + 1) / 16777216
        = 1 + (1 / 16777216) * ((n : ℚ) - 1) + 2 / 16777216 := by ring
    rw [e]
    linarith [xe.2, ge.2]

theorem spec_rec_mono (dets : List (ℚ × Bool)) (num_pos : Int) (h1 : 1 ≤ num_pos) (i : Nat)
    (hi : i + 1 < dets.length) :
    spec_rec dets num_pos i ≤ spec_rec dets num_pos (i + 1) := by
  have hpos : (0 : ℚ) < (num_pos : ℚ) := by exact_mod_cast (by omega : (0 : Int) < num_pos)
  rcases spec_step dets num_pos h1 i hi with h | ⟨h, _⟩
  · rw [h]
  · rw [h]
    have : (0 : ℚ) < 1 / (num_pos : ℚ) := one_div_pos.2 hpos
    linarith

theorem compute_ap_zero (tp fp : List (ℚ × Int)) (num_pos : Int)
    (h : tp = [] ∨ num_pos = 0) : compute_ap tp fp num_pos = .ok 0 := by
  unfold compute_ap
  rcases h with h | h
  · subst h
    simp [wrap32]
  · subst h
    simp

theorem compute_ap_range_aux (dets : List (ℚ × Bool)) (num_pos : Int) (hne : dets ≠ [])
    (hlen : dets.length < 2147483648) (h1 : 1 ≤ num_pos)
    (htp : (tp_total dets : Int) ≤ num_pos) :
    ∃ v, compute_ap (tp_list dets) (fp_list dets) num_pos = .ok v
      ∧ 0 ≤ v ∧ v ≤ 1 + ((dets.length : ℚ) + 1) / 16777216 := by
  have hn : 0 < dets.length := List.length_pos.2 hne
  have hnum : wrap32 (((tp_list dets).length : Nat) : Int) = (dets.length : Int) := by
    unfold tp_list
    rw [List.length_map]
    exact wrap32_of_range _ (by omega) (by omega)
  have hnp : (num_pos : ℚ) ≠ 0 :=
    Int.cast_ne_zero.2 (ne_of_gt (by omega : (0 : Int) < num_pos))
  obtain ⟨s1, hs1, hb0, hb1⟩ := ap_scan_bound (spec_prec dets) (spec_rec dets num_pos)
    dets.length hn (fun i _ => spec_prec_bounds dets i)
    (fun i _ => spec_rec_bounds dets num_pos h1 htp i)
    (fun i hi => spec_rec_mono dets num_pos h1 i hi)
  refine ⟨s1.ap + to_float (s1.cur_rec * s1.cur_prec), ?_, hb0, hb1⟩
  have hc : ¬ ((dets.length : Int) = 0 ∨ num_pos = 0) := by omega
  unfold compute_ap
  rw [hnum]
  dsimp only
  rw [if_neg hc, cumsum_pair_tp dets hlen, cumsum_pair_fp dets hlen, Int.toNat_ofNat,
    compute_ap_prec dets hlen, bind_ok, compute_ap_rec dets num_pos hnp, bind_ok,
    getLast_map_range _ _ hn, getLast_map_range _ _ hn]
  dsimp only
  rw [hs1, bind_ok]
  rfl

theorem env_of_ones (p : Nat → ℚ) (n : Nat) (hp : ∀ i, i < n → p i = 1) (i : Nat)
    (hi : i < n) : env_of p n i = 1 := by
  rw [env_of_step p n i hi, hp i hi]
  exact max_eq_left
    (env_of_bounds p n (fun k hk => by rw [hp k hk]; norm_num) (i + 1)).2

theorem upper_sum_ones (p r : Nat → ℚ) (n : Nat) (hp : ∀ i, i < n → p i = 1) :
    ∀ d i, i + d + 1 = n → upper_sum p r n i = r (n - 1) - r i := by
  intro d
  induction d with
  | zero =>
    intro i hi
    have : i = n - 1 := by omega
    rw [this, upper_sum_last p r n (by omega)]
    ring
  | succ d ih =>
    intro i hi
    rw [upper_sum_step p r n i (by omega), env_of_ones p n hp (i + 1) (by omega),
      ih (i + 1) (by omega)]
    ring

theorem ap_sum_ones (p r : Nat → ℚ) (n : Nat) (hn : 0 < n) (hp : ∀ i, i < n → p i = 1) :
    ap_sum p r n = r (n - 1) := by
  rw [ap_sum_eq p r n hn, env_of_ones p n hp 0 hn, upper_sum_ones p r n hp (n - 1) 0 (by omega)]
  ring

theorem spec_fp_cum_all_tp (dets : List (ℚ × Bool)) (hall : ∀ d ∈ dets, d.2 = true)
    (i : Nat) : spec_fp_cum dets i = 0 := by
  unfold spec_fp_cum
  rw [List.countP_eq_zero]
  intro d hd
  have hmem : d ∈ dets := (stable_sort_perm dets).mem_iff.1 (List.mem_of_mem_take hd)
  simp [hall d hmem]

theorem pascal_ap_all_tp (dets : List (ℚ × Bool)) (hne : dets ≠ [])
    (hall : ∀ d ∈ dets, d.2 = true) :
    pascal_ap dets (dets.length : Int) = 1 := by
  have hn : 0 < dets.length := List.length_pos.2 hne
  have htp : ∀ i, i < dets.length → spec_tp_cum dets i = i + 1 := by
    intro i hi
    have h := spec_cum_add dets i hi
    rw [spec_fp_cum_all_tp dets hall i] at h
    omega
  have hprec : ∀ i, i < dets.length → spec_prec dets i = 1 := by
    intro i hi
    unfold spec_prec
    rw [spec_fp_cum_all_tp dets hall i, htp i hi]
    have : ((i + 1 : Nat) : ℚ) ≠ 0 := Nat.cast_ne_zero.2 (by omega)
    simp only [Nat.cast_zero, add_zero]
    exact div_self this
  have h := ap_sum_ones (spec_prec dets) (spec_rec dets (dets.length : Int)) dets.length hn hprec
  have hr : spec_rec dets (dets.length : Int) (dets.length - 1) = 1 := by
    unfold spec_rec
    rw [htp (dets.length - 1) (by omega)]
    have e : dets.length - 1 + 1 = dets.length := by omega
    rw [e, Int.cast_natCast]
    exact div_self (Nat.cast_ne_zero.2 (by omega))
  rw [hr] at h
  exact h

theorem tp_total_all_tp (dets : List (ℚ × Bool)) (hall : ∀ d ∈ dets, d.2 = true) :
    tp_total dets = dets.length := by
  unfold tp_total
  rw [List.countP_eq_length]
  intro d hd
  exact hall d hd

theorem compute_ap_all_tp_aux (dets : List (ℚ × Bool)) (hne : dets ≠ [])
    (h2 : dets.length ≤ 940000) (hall : ∀ d ∈ dets, d.2 = true) :
    ∃ v, compute_ap (tp_list dets) (fp_list dets) (dets.length : Int) = .ok v
      ∧ |v - 1| ≤ ((dets.length : ℚ) + 1) / 8388608 := by
  have hn : 0 < dets.length := List.length_pos.2 hne
  obtain ⟨v, hv, hb⟩ := compute_ap_close_aux dets (dets.length : Int) hne (by omega)
    (by omega) (by omega) (by rw [tp_total_all_tp dets hall])
  rw [pascal_ap_all_tp dets hne hall] at hb
  exact ⟨v, hv, hb⟩

/-- C39 (as amended). For fewer than `2^31` detections, each a true positive (1, 0) or a
false positive (0, 1), with the number of true positives `<= num_pos`, `compute_ap`
returns a value in `[0, 1 + (n + 1) / 2^24]`, `n` being the number of detections; it
returns 0 when the tp list is empty or `num_pos = 0`; and when all detections are true
positives and their number equals `num_pos`, with `num_pos <= 940000`, the value is
within `(n + 1) / 2^23` of 1. -/
theorem compute_ap_range (dets : List (ℚ × Bool)) (num_pos : Int)
    (hlen : dets.length < 2147483648) (htp : (tp_total dets : Int) ≤ num_pos) :
    (∃ v, compute_ap (tp_list dets) (fp_list dets) num_pos = .ok v
        ∧ 0 ≤ v ∧ v ≤ 1 + ((dets.length : ℚ) + 1) / 16777216)
      ∧ (tp_list dets = [] ∨ num_pos = 0 →
          compute_ap (tp_list dets) (fp_list dets) num_pos = .ok 0)
      ∧ ((∀ d ∈ dets, d.2 = true) → num_pos = (dets.length : Int) → dets ≠ [] →
          num_pos ≤ 940000 →
          ∃ v, compute_ap (tp_list dets) (fp_list dets) num_pos = .ok v
            ∧ |v - 1| ≤ ((dets.length : ℚ) + 1) / 8388608) := by
  refine ⟨?_, compute_ap_zero _ _ _, ?_⟩
  · by_cases h0 : dets = [] ∨ num_pos = 0
    · refine ⟨0, compute_ap_zero _ _ _ ?_, le_refl _, ?_⟩
      · rcases h0 with h | h
        · left; rw [h]; rfl
        · right; exact h
      · positivity
    · have hne : dets ≠ [] := fun h => h0 (Or.inl h)
      have hnp : num_pos ≠ 0 := fun h => h0 (Or.inr h)
      have h1 : 1 ≤ num_pos := by
        have : (0 : Int) ≤ (tp_total dets : Int) := Int.natCast_nonneg _
        omega
      exact compute_ap_range_aux dets num_pos hne hlen h1 htp
  · intro hall hnum hne h2
    subst hnum
    exact compute_ap_all_tp_aux dets hne (by omega) hall

/-- C39 (witness). Three true positives and three ground truths: the value is in the
range and within the tolerance of 1. -/
theorem compute_ap_range_witness :
    (∃ v, compute_ap (tp_list dets_all_three) (fp_list dets_all_three) 3 = .ok v
        ∧ 0 ≤ v ∧ v ≤ 1 + ((dets_all_three.length : ℚ) + 1) / 16777216)
      ∧ (∃ v, compute_ap (tp_list dets_all_three) (fp_list dets_all_three) 3 = .ok v
            ∧ |v - 1| ≤ ((dets_all_three.length : ℚ) + 1) / 8388608) :=
  ⟨(compute_ap_range dets_all_three 3 (by decide) (by decide)).1,
   (compute_ap_range dets_all_three 3 (by decide) (by decide)).2.2 (by decide) rfl
     (by decide) (by decide)⟩

/-- C39 (counterexample). Three true positives and three ground truths: `compute_ap`
returns `1 + 2^-25`, which is neither 1 nor in `[0, 1]`. The recalls 2/3 and 1/3 are
narrowed to `float` and both round upwards. -/
theorem compute_ap_above_one :
    compute_ap (tp_list dets_all_three) (fp_list dets_all_three) 3
        = .ok (33554433 / 33554432)
      ∧ (1 : ℚ) < 33554433 / 33554432 := by
  refine ⟨by decide!, by norm_num⟩

/-! ## `timeSeriesErrors`: mean and maximum errors -/

theorem to_float_pos (x : ℚ) (h1 : 1 ≤ x) : 0 < to_float x := by
  have hx0 : x ≠ 0 := by intro h; rw [h] at h1; norm_num at h1
  have hpos : 0 < x := by linarith
  unfold to_float
  rw [if_neg hx0, abs_of_pos hpos, if_neg (not_lt.2 (le_of_lt hpos))]
  simp only [one_mul]
  obtain ⟨_, _, i3, _⟩ := float_exponent_from_spec x 253 127
  have he : (2 : ℚ) ^ (float_exponent x) ≤ x := by
    unfold float_exponent
    rcases i3 with h | h
    · exact h
    · rw [h]
      refine le_trans ?_ h1
      norm_num
  have hu : (0 : ℚ) < (2 : ℚ) ^ (float_exponent x - 23) := by positivity
  have hq : ((1 : Nat) : ℚ) ≤ x / (2 : ℚ) ^ (float_exponent x - 23) := by
    rw [le_div_iff₀ hu, Nat.cast_one, one_mul]
    refine le_trans ?_ he
    exact zpow_le_zpow_right₀ (by norm_num) (by omega)
  have hm := round_half_even_ge _ 1 hq
  have hmq : (0 : ℚ) < (round_half_even (x / (2 : ℚ) ^ (float_exponent x - 23)) : ℚ) := by
    exact_mod_cast hm
  exact mul_pos hmq hu

theorem ts_map_ok (v : List ℚ) (d n : Nat) (hne : v ≠ []) (hlen : d * n ≤ v.length) :
    ts_map v d n = .ok ((List.range d).map
      (fun t => (List.range n).map (fun s => v.getD (t * n + s) 0))) := by
  unfold ts_map
  rw [if_neg hne, if_neg (by omega)]

theorem zipWith_same {α γ : Type} (f : α → α → γ) (l : List α) :
    List.zipWith f l l = l.map (fun x => f x x) := by
  induction l with
  | nil => rfl
  | cons x rest ih => simp [ih]

theorem zipWith_map_range {α β γ : Type} (f : α → β → γ) (a : Nat → α) (b : Nat → β)
    (n : Nat) :
    List.zipWith f ((List.range n).map a) ((List.range n).map b)
      = (List.range n).map (fun i => f (a i) (b i)) := by
  rw [List.zipWith_map_left, List.zipWith_map_right, zipWith_same]

theorem zip_map_range {α β : Type} (a : Nat → α) (b : Nat → β) (n : Nat) :
    List.zip ((List.range n).map a) ((List.range n).map b)
      = (List.range n).map (fun i => (a i, b i)) := by
  rw [List.zip, zipWith_map_range]

theorem mat_col_range (g : Nat → Nat → ℚ) (d n j : Nat) (hj : j < n) :
    mat_col ((List.range d).map (fun t => (List.range n).map (g t))) j
      = (List.range d).map (fun t => g t j) := by
  unfold mat_col
  rw [List.map_map]
  apply List.map_congr_left
  intro t _
  simp [List.getD_eq_getElem?_getD, hj]

theorem ts_cols (n : Nat) (bad : MlSample) :
    (List.range n).map (mat_col
        (List.zipWith (List.zipWith (fun p t => |p - t|))
          ((List.range (bad.target.length / n)).map
            (fun t => (List.range n).map (fun s => bad.pred.getD (t * n + s) 0)))
          ((List.range (bad.target.length / n)).map
            (fun t => (List.range n).map (fun s => bad.target.getD (t * n + s) 0)))))
      = (List.range n).map (spec_series_errors n bad) := by
  rw [zipWith_map_range]
  apply List.map_congr_left
  intro j hj
  have e : (fun i => List.zipWith (fun p t => |p - t|)
        ((List.range n).map (fun s => bad.pred.getD (i * n + s) 0))
        ((List.range n).map (fun s => bad.target.getD (i * n + s) 0)))
      = (fun i => (List.range n).map
          (fun s => |bad.pred.getD (i * n + s) 0 - bad.target.getD (i * n + s) 0|)) := by
    funext i
    rw [zipWith_map_range]
  rw [e, mat_col_range _ _ _ _ (List.mem_range.1 hj)]
  rfl

theorem ts_sample_l1 (sqrt : ℚ → ℚ) (n : Nat) (s : TsState) (first : Bool)
    (bad : MlSample) (hp : bad.pred.length = bad.target.length)
    (hpos : 0 < bad.target.length) (hdvd : n ∣ bad.target.length)
    (M A : Nat → ℚ) (I : Nat → Int) (hmax : s.max = (List.range n).map M)
    (hidx : s.idxmxerrors = (List.range n).map I)
    (hmean : s.mean_error_vector = (List.range n).map A) :
    ts_sample sqrt n true s first bad = .ok
      { max := (List.range n).map (fun j =>
          if first then (spec_series_errors n bad j).getD
              (max_element (spec_series_errors n bad j)) 0
          else if (spec_series_errors n bad j).getD
              (max_element (spec_series_errors n bad j)) 0 > M j
            then (spec_series_errors n bad j).getD
              (max_element (spec_series_errors n bad j)) 0
            else M j),
        idxmxerrors := (List.range n).map (fun j =>
          if first then (max_element (spec_series_errors n bad j) : Int)
          else if (spec_series_errors n bad j).getD
              (max_element (spec_series_errors n bad j)) 0 > M j
            then (max_element (spec_series_errors n bad j) : Int)
            else I j),
        mean_error_vector := (List.range n).map
          (fun j => A j + (spec_series_errors n bad j).sum),
        nts := s.nts + (bad.target.length : ℚ) } := by
  obtain ⟨k, hk⟩ := hdvd
  have hn : 0 < n := by
    rcases Nat.eq_zero_or_pos n with h | h
    · rw [h] at hk; omega
    · exact h
  have hd : bad.target.length / n * n ≤ bad.target.length := Nat.div_mul_le_self _ _
  have hd0 : bad.target.length / n ≠ 0 := by
    rw [hk, Nat.mul_div_cancel_left _ hn]
    intro h
    rw [h] at hk
    omega
  have hpne : bad.pred ≠ [] := List.length_pos.1 (by omega)
  have htne : bad.target ≠ [] := List.length_pos.1 hpos
  unfold ts_sample
  dsimp only
  rw [ts_map_ok bad.pred _ n hpne (by omega), bind_ok, ts_map_ok bad.target _ n htne hd, bind_ok]
  simp only [if_true]
  rw [if_neg hd0, ts_cols, hmax, hidx, hmean]
  simp only [List.map_map, zip_map_range, zipWith_map_range, Function.comp_def, vsum_eq_sum]
  refine congrArg Except.ok ?_
  cases first
  · simp only [Bool.false_eq_true, if_false]
    congr 1
    · rw [List.map_map]
      apply List.map_congr_left
      intro j _
      simp only [Function.comp]
      split_ifs <;> rfl
    · rw [List.map_map]
      apply List.map_congr_left
      intro j _
      simp only [Function.comp]
      split_ifs <;> rfl
  · simp only [if_true, List.map_map, Function.comp_def]

theorem max_coeff_spec (l : List ℚ) (hl : l ≠ []) :
    l.getD (max_element l) 0 ∈ l ∧ ∀ v ∈ l, v ≤ l.getD (max_element l) 0 := by
  have hpos : 0 < l.length := List.length_pos.2 hl
  have hm := (max_element_spec l).1
  have hlt : max_element l < l.length := by omega
  constructor
  · rw [List.getD_eq_getElem _ _ hlt]
    exact List.getElem_mem _
  · intro v hv
    obtain ⟨j, hj, rfl⟩ := List.getElem_of_mem hv
    have := (max_element_spec l).2.1 j hj
    rwa [List.getD_eq_getElem _ _ hj] at this

theorem batch_errors_append (n : Nat) (done : List MlSample) (bad : MlSample) (j : Nat) :
    spec_batch_errors n (done ++ [bad]) j
      = spec_batch_errors n done j ++ spec_series_errors n bad j := by
  simp [spec_batch_errors]

theorem batch_values_append (done : List MlSample) (bad : MlSample) :
    batch_values (done ++ [bad]) = batch_values done + bad.target.length := by
  simp [batch_values]

theorem series_errors_ne (n : Nat) (bad : MlSample) (j : Nat)
    (hpos : 0 < bad.target.length) (hdvd : n ∣ bad.target.length) :
    spec_series_errors n bad j ≠ [] := by
  obtain ⟨k, hk⟩ := hdvd
  have hn : 0 < n := by
    rcases Nat.eq_zero_or_pos n with h | h
    · rw [h] at hk; omega
    · exact h
  have hd0 : 0 < bad.target.length / n := by
    rw [hk, Nat.mul_div_cancel_left _ hn]
    rcases Nat.eq_zero_or_pos k with h | h
    · rw [h] at hk; omega
    · exact h
  intro h
  have hl := congrArg List.length h
  simp [spec_series_errors] at hl
  omega

theorem ts_step_inv (sqrt : ℚ → ℚ) (n : Nat) (done : List MlSample) (s : TsState)
    (bad : MlSample) (hp : bad.pred.length = bad.target.length)
    (hpos : 0 < bad.target.length) (hdvd : n ∣ bad.target.length) (hs : ts_inv n done s) :
    ∃ s1, ts_sample sqrt n true s (decide (done.length = 0)) bad = .ok s1
      ∧ ts_inv n (done ++ [bad]) s1 := by
  obtain ⟨hmean, hnts, M, I, hmax, hidx, hM⟩ := hs
  refine ⟨_, ts_sample_l1 sqrt n s _ bad hp hpos hdvd M _ I hmax hidx hmean, ?_, ?_, _, _,
    rfl, rfl, ?_⟩
  · apply List.map_congr_left
    intro j _
    rw [batch_errors_append, List.sum_append]
  · simp only [hnts, batch_values_append]
    push_cast
    rfl
  · intro _ j hj
    obtain ⟨m1, m2⟩ := max_coeff_spec _ (series_errors_ne n bad j hpos hdvd)
    rw [batch_errors_append]
    by_cases hd : done = []
    · subst hd
      simp only [List.length_nil, decide_True, if_true]
      refine ⟨List.mem_append_right _ m1, ?_⟩
      intro e he
      simp only [spec_batch_errors, List.map_nil, List.flatten_nil, List.nil_append] at he
      exact m2 e he
    · have hlen : done.length ≠ 0 := fun h => hd (List.length_eq_zero.1 h)
      obtain ⟨k1, k2⟩ := hM hd j hj
      simp only [hlen, decide_False, Bool.false_eq_true, if_false]
      split_ifs with hgt
      · refine ⟨List.mem_append_right _ m1, ?_⟩
        intro e he
        rcases List.mem_append.1 he with h | h
        · exact le_of_lt (lt_of_le_of_lt (k2 e h) hgt)
        · exact m2 e h
      · refine ⟨List.mem_append_left _ k1, ?_⟩
        intro e he
        rcases List.mem_append.1 he with h | h
        · exact k2 e h
        · exact le_trans (m2 e h) (not_lt.1 hgt)

theorem ts_loop_inv (sqrt : ℚ → ℚ) (n : Nat) (rest : List MlSample) :
    ∀ (done : List MlSample) (s : TsState),
      (∀ bad ∈ rest, bad.pred.length = bad.target.length ∧ 0 < bad.target.length
        ∧ n ∣ bad.target.length) →
      ts_inv n done s →
      ∃ s1, ts_loop sqrt n true done.length s rest = .ok s1 ∧ ts_inv n (done ++ rest) s1 := by
  induction rest with
  | nil =>
    intro done s _ hs
    refine ⟨s, rfl, ?_⟩
    rw [List.append_nil]
    exact hs
  | cons bad rest ih =>
    intro done s hwf hs
    obtain ⟨w1, w2, w3⟩ := hwf bad (List.mem_cons_self _ _)
    obtain ⟨s1, h1, h2⟩ := ts_step_inv sqrt n done s bad w1 w2 w3 hs
    obtain ⟨s2, h3, h4⟩ := ih (done ++ [bad]) s1
      (fun b hb => hwf b (List.mem_cons_of_mem _ hb)) h2
    refine ⟨s2, ?_, ?_⟩
    · rw [ts_loop, h1, bind_ok]
      rw [List.length_append, List.length_singleton] at h3
      exact h3
    · rw [List.append_assoc] at h4
      exact h4

theorem ts_init_inv (n : Nat) :
    ts_inv n []
      { max := List.replicate n 0, idxmxerrors := List.replicate n 0,
        mean_error_vector := List.replicate n 0, nts := 0 } := by
  have hr : ∀ {α : Type} (c : α), List.replicate n c = (List.range n).map (fun _ => c) := by
    intro α c
    rw [List.map_const', List.length_range]
  refine ⟨?_, ?_, fun _ => 0, fun _ => 0, hr 0, hr 0, fun h => absurd rfl h⟩
  · simp only [spec_batch_errors, List.map_nil, List.flatten_nil, List.sum_nil]
    exact hr 0
  · simp [batch_values]

theorem batch_values_pos (samples : List MlSample) (hne : samples ≠ [])
    (hwf : ∀ bad ∈ samples, 0 < bad.target.length) : 1 ≤ batch_values samples := by
  cases samples with
  | nil => exact absurd rfl hne
  | cons bad rest =>
    have := hwf bad (List.mem_cons_self _ _)
    simp only [batch_values, List.map_cons, List.sum_cons]
    omega

theorem timeSeriesErrors_l1_aux (sqrt : ℚ → ℚ) (samples : List MlSample) (timeseries : Int)
    (h1 : 1 ≤ timeseries) (hne : samples ≠ [])
    (hwf : ∀ bad ∈ samples, bad.pred.length = bad.target.length ∧ 0 < bad.target.length
      ∧ timeseries.toNat ∣ bad.target.length) :
    ∃ (M : Nat → ℚ) (I : List Int),
      timeSeriesErrors sqrt samples timeseries true = .ok
        { max_errors := (List.range timeseries.toNat).map M,
          indexes_max_error := I,
          mean_errors := (List.range timeseries.toNat).map (fun j =>
            (spec_batch_errors timeseries.toNat samples j).sum
              / to_float (batch_values samples : ℚ) * (timeseries : ℚ)),
          max_error := (((List.range timeseries.toNat).map M).drop 1).foldl
            (fun m x => if x > m then x else m) (((List.range timeseries.toNat).map M).getD 0 0),
          mean_error := (((List.range timeseries.toNat).map (fun j =>
              (spec_batch_errors timeseries.toNat samples j).sum
                / to_float (batch_values samples : ℚ) * (timeseries : ℚ))).drop 1).foldl
              (fun m x => m + x)
              (((List.range timeseries.toNat).map (fun j =>
                (spec_batch_errors timeseries.toNat samples j).sum
                  / to_float (batch_values samples : ℚ) * (timeseries : ℚ))).getD 0 0)
            / (timeseries : ℚ) }
        ∧ ∀ j, j < timeseries.toNat →
            M j ∈ spec_batch_errors timeseries.toNat samples j
              ∧ ∀ e ∈ spec_batch_errors timeseries.toNat samples j, e ≤ M j := by
  obtain ⟨s1, hs1, hmean, hnts, M, I, hmax, hidx, hM⟩ :=
    ts_loop_inv sqrt timeseries.toNat samples [] _ hwf (ts_init_inv timeseries.toNat)
  rw [List.nil_append] at hmean hnts hM
  rw [List.length_nil] at hs1
  have hf : to_float (batch_values samples : ℚ) ≠ 0 := by
    have h := batch_values_pos samples hne (fun b hb => (hwf b hb).2.1)
    have hq : (1 : ℚ) ≤ (batch_values samples : ℚ) := by exact_mod_cast h
    exact ne_of_gt (to_float_pos _ hq)
  refine ⟨M, (List.range timeseries.toNat).map I, ?_, hM hne⟩
  unfold timeSeriesErrors
  rw [if_neg (by omega)]
  dsimp only
  rw [hs1, bind_ok, hmean, hnts, mapM_fdiv _ _ hf, bind_ok, hmax, hidx]
  simp only [List.map_map, Function.comp_def]
  rfl

theorem batch_values_eq (n : Nat) (samples : List MlSample)
    (hwf : ∀ bad ∈ samples, n ∣ bad.target.length) :
    batch_values samples = n * spec_timesteps n samples := by
  induction samples with
  | nil => simp [batch_values, spec_timesteps]
  | cons bad rest ih =>
    have h := ih (fun b hb => hwf b (List.mem_cons_of_mem _ hb))
    unfold batch_values spec_timesteps at h ⊢
    simp only [List.map_cons, List.sum_cons]
    rw [h, Nat.mul_add, Nat.mul_div_cancel' (hwf bad (List.mem_cons_self _ _))]

theorem batch_errors_length (n : Nat) (samples : List MlSample) (j : Nat) :
    (spec_batch_errors n samples j).length = spec_timesteps n samples := by
  induction samples with
  | nil => simp [spec_batch_errors, spec_timesteps]
  | cons bad rest ih =>
    unfold spec_batch_errors spec_timesteps at ih ⊢
    simp only [List.map_cons, List.flatten_cons, List.length_append, List.sum_cons, ih]
    simp [spec_series_errors]

theorem sum_le_length_mul (l : List ℚ) (B : ℚ) (h : ∀ e ∈ l, e ≤ B) :
    l.sum ≤ (l.length : ℚ) * B := by
  induction l with
  | nil => simp
  | cons x rest ih =>
    have h1 := h x (List.mem_cons_self _ _)
    have h2 := ih (fun e he => h e (List.mem_cons_of_mem _ he))
    simp only [List.sum_cons, List.length_cons]
    push_cast
    linarith

theorem foldl_add_init (l : List ℚ) (a : ℚ) :
    l.foldl (fun m x => m + x) a = a + l.sum := by
  induction l generalizing a with
  | nil => simp
  | cons x rest ih =>
    simp only [List.foldl_cons, List.sum_cons, ih]
    ring

theorem foldl_add_drop (l : List ℚ) (hl : l ≠ []) :
    (l.drop 1).foldl (fun m x => m + x) (l.getD 0 0) = l.sum := by
  cases l with
  | nil => exact absurd rfl hl
  | cons x rest =>
    simp only [List.drop_succ_cons, List.drop_zero, List.getD_cons_zero, List.sum_cons]
    exact foldl_add_init rest x

theorem foldl_max_init (l : List ℚ) (a : ℚ) :
    a ≤ l.foldl (fun m x => if x > m then x else m) a
      ∧ ∀ x ∈ l, x ≤ l.foldl (fun m x => if x > m then x else m) a := by
  induction l generalizing a with
  | nil => simp
  | cons y rest ih =>
    simp only [List.foldl_cons]
    obtain ⟨i1, i2⟩ := ih (if y > a then y else a)
    have ha : a ≤ (if y > a then y else a) := by
      split_ifs with h
      · exact le_of_lt h
      · exact le_refl _
    have hy : y ≤ (if y > a then y else a) := by
      split_ifs with h
      · exact le_refl _
      · exact not_lt.1 h
    refine ⟨le_trans ha i1, ?_⟩
    intro x hx
    rcases List.mem_cons.1 hx with h | h
    · rw [h]; exact le_trans hy i1
    · exact i2 x h

theorem foldl_max_ge (l : List ℚ) :
    ∀ x ∈ l, x ≤ (l.drop 1).foldl (fun m x => if x > m then x else m) (l.getD 0 0) := by
  cases l with
  | nil => intro x hx; cases hx
  | cons y rest =>
    intro x hx
    simp only [List.drop_succ_cons, List.drop_zero, List.getD_cons_zero]
    obtain ⟨i1, i2⟩ := foldl_max_init rest y
    rcases List.mem_cons.1 hx with h | h
    · rw [h]; exact i1
    · exact i2 x h

theorem sum_map_range_le (f g : Nat → ℚ) (n : Nat) (h : ∀ j, j < n → f j ≤ g j) :
    ((List.range n).map f).sum ≤ ((List.range n).map g).sum := by
  apply List.sum_le_sum
  intro j hj
  exact h j (List.mem_range.1 hj)

theorem getD_map_range (f : Nat → ℚ) (n j : Nat) (hj : j < n) :
    ((List.range n).map f).getD j 0 = f j := by
  simp [List.getD_eq_getElem?_getD, hj]

theorem ts_mean_numbers (S Bv T sv Mx : ℚ) (n : Nat) (hBv : Bv = n * T) (hsv : sv = n)
    (hn : 0 < n) (hT : 0 < T) (hS : S ≤ T * Mx) :
    S / Bv * sv = S / T ∧ S / Bv * sv ≤ Mx := by
  have hnq : (0 : ℚ) < (n : ℚ) := by exact_mod_cast hn
  have e : S / Bv * sv = S / T := by
    rw [hBv, hsv]
    field_simp
    ring
  refine ⟨e, ?_⟩
  rw [e, div_le_iff₀ hT]
  linarith

theorem ts_mean_max_aux (sqrt : ℚ → ℚ) (samples : List MlSample) (timeseries : Int)
    (h1 : 1 ≤ timeseries) (hne : samples ≠ [])
    (hwf : ∀ bad ∈ samples, bad.pred.length = bad.target.length ∧ 0 < bad.target.length
      ∧ timeseries.toNat ∣ bad.target.length) :
    ∃ r, timeSeriesErrors sqrt samples timeseries true = .ok r
      ∧ (∀ j, j < timeseries.toNat →
          r.mean_errors.getD j 0
              = (spec_batch_errors timeseries.toNat samples j).sum
                  / to_float (batch_values samples : ℚ) * (timeseries : ℚ)
            ∧ r.max_errors.getD j 0 ∈ spec_batch_errors timeseries.toNat samples j
            ∧ ∀ e ∈ spec_batch_errors timeseries.toNat samples j, e ≤ r.max_errors.getD j 0)
      ∧ (to_float (batch_values samples : ℚ) = (batch_values samples : ℚ) →
          (∀ j, j < timeseries.toNat →
            r.mean_errors.getD j 0
                = (spec_batch_errors timeseries.toNat samples j).sum
                    / (spec_timesteps timeseries.toNat samples : ℚ)
              ∧ r.mean_errors.getD j 0 ≤ r.max_errors.getD j 0)
          ∧ r.mean_error ≤ r.max_error) := by
  obtain ⟨M, I, hr, hM⟩ := timeSeriesErrors_l1_aux sqrt samples timeseries h1 hne hwf
  have hn : 0 < timeseries.toNat := by omega
  have hsv : (timeseries : ℚ) = (timeseries.toNat : ℚ) := by
    have : ((timeseries.toNat : Nat) : Int) = timeseries := Int.toNat_of_nonneg (by omega)
    exact_mod_cast this.symm
  have hBv := batch_values_eq timeseries.toNat samples (fun b hb => (hwf b hb).2.2)
  have hBq : (batch_values samples : ℚ)
      = (timeseries.toNat : ℚ) * (spec_timesteps timeseries.toNat samples : ℚ) := by
    exact_mod_cast hBv
  have hTpos : (0 : ℚ) < (spec_timesteps timeseries.toNat samples : ℚ) := by
    have hb := batch_values_pos samples hne (fun b hb => (hwf b hb).2.1)
    rw [hBv] at hb
    have : 0 < spec_timesteps timeseries.toNat samples := by
      rcases Nat.eq_zero_or_pos (spec_timesteps timeseries.toNat samples) with h | h
      · rw [h] at hb; omega
      · exact h
    exact_mod_cast this
  refine ⟨_, hr, ?_, ?_⟩
  · intro j hj
    simp only [getD_map_range _ _ _ hj]
    exact ⟨trivial, (hM j hj).1, (hM j hj).2⟩
  · intro hfl
    have hper : ∀ j, j < timeseries.toNat →
        (spec_batch_errors timeseries.toNat samples j).sum
              / to_float (batch_values samples : ℚ) * (timeseries : ℚ)
            = (spec_batch_errors timeseries.toNat samples j).sum
                / (spec_timesteps timeseries.toNat samples : ℚ)
          ∧ (spec_batch_errors timeseries.toNat samples j).sum
              / to_float (batch_values samples : ℚ) * (timeseries : ℚ) ≤ M j := by
      intro j hj
      rw [hfl]
      apply ts_mean_numbers _ _ _ _ _ timeseries.toNat hBq hsv hn hTpos
      have := sum_le_length_mul _ (M j) (hM j hj).2
      rw [batch_errors_length] at this
      exact this
    constructor
    · intro j hj
      simp only [getD_map_range _ _ _ hj]
      exact hper j hj
    · simp only []
      have hne1 : ∀ f : Nat → ℚ, (List.range timeseries.toNat).map f ≠ [] := by
        intro f h
        have := congrArg List.length h
        simp at this
        omega
      rw [foldl_add_drop _ (hne1 _)]
      have hX := foldl_max_ge ((List.range timeseries.toNat).map M)
      set X := (((List.range timeseries.toNat).map M).drop 1).foldl
        (fun m x => if x > m then x else m) (((List.range timeseries.toNat).map M).getD 0 0)
        with hXdef
      have hsum1 := sum_map_range_le _ M timeseries.toNat (fun j hj => (hper j hj).2)
      have hsum2 := sum_le_length_mul ((List.range timeseries.toNat).map M) X hX
      rw [List.length_map, List.length_range] at hsum2
      have hsq : (0 : ℚ) < (timeseries : ℚ) := by
        rw [hsv]; exact_mod_cast hn
      have e2 : X * (timeseries : ℚ) = (timeseries.toNat : ℚ) * X := by
        rw [hsv]; ring
      rw [div_le_iff₀ hsq, e2]
      exact le_trans hsum1 hsum2

theorem getD_replicate_lt (N t : Nat) (c : ℚ) (ht : t < N) :
    (List.replicate N c).getD t 0 = c := by
  rw [List.getD_eq_getElem?_getD, List.getElem?_replicate, if_pos ht]
  rfl

theorem series_errors_const (N : Nat) :
    spec_series_errors 1 { target := List.replicate N 0, pred := List.replicate N 1 } 0
      = List.replicate N 1 := by
  unfold spec_series_errors
  simp only [List.length_replicate, Nat.div_one, Nat.mul_one, Nat.add_zero]
  have hc : List.replicate N (1 : ℚ) = (List.range N).map (fun _ => (1 : ℚ)) := by
    rw [List.map_const', List.length_range]
  conv_rhs => rw [hc]
  apply List.map_congr_left
  intro t ht
  have h := List.mem_range.1 ht
  rw [getD_replicate_lt N t 1 h, getD_replicate_lt N t 0 h]
  norm_num

theorem sum_replicate_one (N : Nat) : (List.replicate N (1 : ℚ)).sum = (N : ℚ) := by
  rw [List.sum_replicate]
  simp

/-- One sample of one series with `N` timesteps, every prediction off by 1: the largest
error is 1 and the mean error is `N` divided by `N` narrowed to `float`. -/
theorem ts_const_sample (sqrt : ℚ → ℚ) (N : Nat) (hN : 0 < N) :
    ∃ r, timeSeriesErrors sqrt
          [{ target := List.replicate N 0, pred := List.replicate N 1 }] 1 true = .ok r
      ∧ r.mean_errors = [(N : ℚ) / to_float (N : ℚ)] ∧ r.max_errors = [1]
      ∧ r.mean_error = (N : ℚ) / to_float (N : ℚ) ∧ r.max_error = 1 := by
  have h1n : (1 : Int).toNat = 1 := rfl
  have hr1 : List.range 1 = [0] := rfl
  obtain ⟨M, I, hr, hM⟩ := timeSeriesErrors_l1_aux sqrt
    [{ target := List.replicate N 0, pred := List.replicate N 1 }] 1 (le_refl _)
    (List.cons_ne_nil _ _)
    (by
      intro bad hbad
      rw [List.mem_singleton] at hbad
      subst hbad
      simp only [List.length_replicate, h1n]
      exact ⟨trivial, hN, one_dvd _⟩)
  rw [h1n] at hr hM
  have herr : spec_batch_errors 1
      [{ target := List.replicate N 0, pred := List.replicate N 1 }] 0
        = List.replicate N 1 := by
    simp only [spec_batch_errors, List.map_cons, List.map_nil, List.flatten_cons,
      List.flatten_nil, List.append_nil]
    exact series_errors_const N
  have hbv : batch_values [{ target := List.replicate N 0, pred := List.replicate N 1 }]
      = N := by
    simp [batch_values]
  have hM0 : M 0 = 1 := by
    have := (hM 0 (by decide)).1
    rw [herr] at this
    exact List.eq_of_mem_replicate this
  refine ⟨_, hr, ?_, ?_, ?_, ?_⟩
  · simp only [hr1, List.map_cons, List.map_nil, herr, hbv, sum_replicate_one,
      Int.cast_one, mul_one]
  · simp only [hr1, List.map_cons, List.map_nil, hM0]
  · simp only [hr1, List.map_cons, List.map_nil, herr, hbv, sum_replicate_one,
      Int.cast_one, mul_one, List.drop_succ_cons, List.drop_nil, List.foldl_nil,
      List.getD_cons_zero, div_one]
  · simp only [hr1, List.map_cons, List.map_nil, hM0, List.drop_succ_cons,
      List.drop_nil, List.foldl_nil, List.getD_cons_zero]

/-- C40 (as amended). For every non-empty time-series batch in which each sample's length
is a positive multiple of `timeseries` (targets and predictions of the same length), the
number of values of the batch, timesteps times series, is exactly representable in single
precision (as every number up to `2^24` is), and no operation in `double` rounds
(`ts_errors_exact`: the differences, the sums of the absolute errors of each series, the
quotients and the sums of the means are values of `double`s), `timeSeriesErrors` with
`L1 = true` returns, for every series `j`, `mean_errors[j] = (sum of the absolute errors
of series j over all samples and timesteps) / (total number of timesteps)` and
`max_errors[j]` = the largest such absolute error, hence `mean_errors[j] <=
max_errors[j]` and `mean_error <= max_error`. -/
theorem timeSeriesErrors_mean_max (sqrt : ℚ → ℚ) (samples : List MlSample)
    (timeseries : Int) (q : ℚ) (h1 : 1 ≤ timeseries) (hne : samples ≠ [])
    (hwf : ∀ bad ∈ samples, bad.pred.length = bad.target.length ∧ 0 < bad.target.length
      ∧ timeseries.toNat ∣ bad.target.length)
    (hfl : to_float (batch_values samples : ℚ) = (batch_values samples : ℚ))
    (hq : 0 < q) (hexact : ts_errors_exact q timeseries.toNat samples = true) :
    ∃ r, timeSeriesErrors sqrt samples timeseries true = .ok r
      ∧ (∀ j, j < timeseries.toNat →
          r.mean_errors.getD j 0
              = (spec_batch_errors timeseries.toNat samples j).sum
                  / (spec_timesteps timeseries.toNat samples : ℚ)
            ∧ r.max_errors.getD j 0 ∈ spec_batch_errors timeseries.toNat samples j
            ∧ (∀ e ∈ spec_batch_errors timeseries.toNat samples j,
                e ≤ r.max_errors.getD j 0)
            ∧ r.mean_errors.getD j 0 ≤ r.max_errors.getD j 0)
      ∧ r.mean_error ≤ r.max_error := by
  have _ := hq
  have _ := hexact
  obtain ⟨r, hr, hA, hB⟩ := ts_mean_max_aux sqrt samples timeseries h1 hne hwf
  exact ⟨r, hr, fun j hj => ⟨((hB hfl).1 j hj).1, (hA j hj).2.1, (hA j hj).2.2,
    ((hB hfl).1 j hj).2⟩, (hB hfl).2⟩

/-- C40 (witness). One sample of two series and two timesteps with the absolute errors
1, 3 and 0, 2: the number of values, 4, is a `float`, the errors are multiples of 1 and
every sum and quotient is the value of a `double`. -/
theorem timeSeriesErrors_mean_max_witness :
    ∃ r, timeSeriesErrors sqrt_squares ts_two_series 2 true = .ok r
      ∧ (∀ j, j < (2 : Int).toNat →
          r.mean_errors.getD j 0
              = (spec_batch_errors (2 : Int).toNat ts_two_series j).sum
                  / (spec_timesteps (2 : Int).toNat ts_two_series : ℚ)
            ∧ r.max_errors.getD j 0 ∈ spec_batch_errors (2 : Int).toNat ts_two_series j
            ∧ (∀ e ∈ spec_batch_errors (2 : Int).toNat ts_two_series j,
                e ≤ r.max_errors.getD j 0)
            ∧ r.mean_errors.getD j 0 ≤ r.max_errors.getD j 0)
      ∧ r.mean_error ≤ r.max_error :=
  timeSeriesErrors_mean_max sqrt_squares ts_two_series 2 1 (by decide) (by decide)
    (by decide) (by decide!) (by norm_num) (by decide!)

/-- The values on the payload of the witness: series 0 has the errors 1 and 3, series 1
the errors 0 and 2. -/
theorem timeSeriesErrors_two_series :
    timeSeriesErrors sqrt_squares ts_two_series 2 true
      = .ok { max_errors := [3, 2], indexes_max_error := [1, 1], mean_errors := [2, 1],
              max_error := 3, mean_error := 3 / 2 } := by
  decide!

/-- C40 (counterexample). One series of `2^24 + 1` timesteps with every prediction off by
1: the number of values narrows to the `float` `2^24`, so the mean error is
`(2^24 + 1) / 2^24`, above the largest error 1. -/
theorem timeSeriesErrors_mean_above_max :
    ∃ r, timeSeriesErrors sqrt_squares [ts_long] 1 true = .ok r
      ∧ r.mean_errors = [16777217 / 16777216] ∧ r.max_errors = [1]
      ∧ r.mean_error = 16777217 / 16777216 ∧ r.max_error = 1
      ∧ r.max_error < r.mean_error := by
  have hf : to_float (16777217 : ℚ) = 16777216 := by decide!
  obtain ⟨r, h1, h2, h3, h4, h5⟩ := ts_const_sample sqrt_squares 16777217 (by norm_num)
  rw [Nat.cast_ofNat, hf] at h2 h4
  refine ⟨r, h1, h2, h3, h4, h5, ?_⟩
  rw [h4, h5]
  norm_num

theorem floor_nat_toNat (k : Nat) : (Rat.floor (((k : Nat) : Int) : ℚ)).toNat = k := by
  rw [Rat.floor_def']
  simp

/-- The batch of one series of three timesteps with every prediction off by the `double`
written 0.1 is not among the batches of the theorem, whatever unit `q` its errors are
taken as multiples of: three times that value is not the value of a `double`, and the
sum of the three errors rounds. -/
theorem ts_errors_exact_tenths (q : ℚ) (hq : 0 < q) :
    ts_errors_exact q 1 ts_tenths = false := by
  by_contra hcon
  have h : ts_errors_exact q 1 ts_tenths = true := by simpa using hcon
  unfold ts_errors_exact at h
  simp only [Bool.and_eq_true] at h
  obtain ⟨⟨⟨⟨_, hd⟩, hs⟩, _⟩, _⟩ := h
  have hS : (spec_batch_errors 1 ts_tenths 0).sum = 3 * to_double (1 / 10) := by decide!
  have h3 : exact_double (3 * to_double (1 / 10)) = false := by decide!
  have hnm : natural_multiple q (to_double (1 / 10)) = true := by
    have h0 := List.all_eq_true.1 hd _ (List.mem_singleton.2 rfl)
    have h1 := List.all_eq_true.1 h0 (to_double (1 / 10), 0) (by simp [ts_tenths])
    simp only [Bool.and_eq_true] at h1
    have h2 := h1.2
    rw [sub_zero, abs_of_nonneg (by decide!)] at h2
    exact h2
  unfold natural_multiple at hnm
  simp only [Bool.and_eq_true, decide_eq_true_eq] at hnm
  obtain ⟨hnn, hden⟩ := hnm
  have hm0 : to_double (1 / 10) / q = ((to_double (1 / 10) / q).num.toNat : ℚ) := by
    have hnum : 0 ≤ (to_double (1 / 10) / q).num := Rat.num_nonneg.2 hnn
    conv_lhs => rw [← Rat.num_div_den (to_double (1 / 10) / q), hden]
    rw [Nat.cast_one, div_one]
    have : ((to_double (1 / 10) / q).num.toNat : Int) = (to_double (1 / 10) / q).num :=
      Int.toNat_of_nonneg hnum
    rw [← Int.cast_natCast, this]
  obtain ⟨m, hm⟩ : ∃ m : Nat, to_double (1 / 10) / q = (m : ℚ) := ⟨_, hm0⟩
  have hs0 := List.all_eq_true.1 hs 0 (by simp)
  simp only [Bool.and_eq_true] at hs0
  have hmul := hs0.1.1
  rw [hS] at hmul
  have hfl : (Rat.floor (3 * to_double (1 / 10) / q)).toNat = 3 * m := by
    rw [mul_div_assoc, hm]
    have : (3 : ℚ) * (m : ℚ) = (((3 * m : Nat) : Int) : ℚ) := by
      push_cast; ring
    rw [this]
    exact floor_nat_toNat _
  rw [hfl] at hmul
  unfold exact_multiples at hmul
  have hk := List.all_eq_true.1 hmul (3 * m) (List.mem_range.2 (Nat.lt_succ_self _))
  have he : ((3 * m : Nat) : ℚ) * q = 3 * to_double (1 / 10) := by
    push_cast
    rw [← hm]
    field_simp
  rw [he, h3] at hk
  exact Bool.false_ne_true hk

/-! ## `timeSeriesMetrics`: MAE and MSE on a constant error -/

theorem mat_col_square (m : List (List ℚ)) (j : Nat) :
    mat_col (m.map (fun row => row.map (fun e => e * e))) j
      = (mat_col m j).map (fun e => e * e) := by
  unfold mat_col
  rw [List.map_map, List.map_map]
  apply List.map_congr_left
  intro row _
  simp only [Function.comp, List.getD_eq_getElem?_getD, List.getElem?_map]
  cases row[j]? <;> simp

theorem series_errors_all (n : Nat) (bad : MlSample) (c : ℚ) (j : Nat) (hj : j < n)
    (hlen : bad.target.length / n * n ≤ bad.target.length)
    (hc : ∀ i, i < bad.target.length → |bad.pred.getD i 0 - bad.target.getD i 0| = c) :
    spec_series_errors n bad j = (List.range (bad.target.length / n)).map (fun _ => c) := by
  unfold spec_series_errors
  apply List.map_congr_left
  intro t ht
  have h := List.mem_range.1 ht
  apply hc
  have : t * n + j < (t + 1) * n := by
    rw [Nat.add_mul, Nat.one_mul]; omega
  have h2 : (t + 1) * n ≤ bad.target.length / n * n := Nat.mul_le_mul_right n h
  omega

theorem sum_map_const (d : Nat) (c : ℚ) :
    ((List.range d).map (fun _ => c)).sum = (d : ℚ) * c := by
  rw [List.map_const', List.sum_replicate, List.length_range]
  simp

theorem mapM_fdiv_vsum (cols : List (List ℚ)) (d : ℚ) (hd : d ≠ 0) :
    cols.mapM (fun c => fdiv (vsum c) d) = .ok (cols.map (fun c => vsum c / d)) := by
  induction cols with
  | nil => rfl
  | cons x rest ih =>
    rw [List.mapM_cons, ih]
    simp only [fdiv, if_neg hd, List.map_cons]
    rfl

theorem ts_metrics_sample_const (n : Nat) (bad : TsSample) (c X Y : ℚ)
    (hp : bad.pred.length = bad.target.length)
    (htu : bad.target_unscaled.length = bad.target.length)
    (hpu : bad.pred_unscaled.length = bad.target.length)
    (hpos : 0 < bad.target.length) (hdvd : n ∣ bad.target.length)
    (hc : ∀ i, i < bad.target.length →
      |bad.pred_unscaled.getD i 0 - bad.target_unscaled.getD i 0| = c) :
    ts_metrics_sample n ((List.range n).map (fun _ => X), (List.range n).map (fun _ => Y)) bad
      = .ok ((List.range n).map (fun _ =>
                X + ((bad.target.length / n : Nat) : ℚ) * c
                  / to_float (bad.target.length : ℚ)),
             (List.range n).map (fun _ =>
                Y + ((bad.target.length / n : Nat) : ℚ) * (c * c)
                  / to_float (bad.target.length : ℚ))) := by
  obtain ⟨k, hk⟩ := hdvd
  have hn : 0 < n := by
    rcases Nat.eq_zero_or_pos n with h | h
    · rw [h] at hk; omega
    · exact h
  have hd : bad.target.length / n * n ≤ bad.target.length := Nat.div_mul_le_self _ _
  have hd0 : bad.target.length / n ≠ 0 := by
    rw [hk, Nat.mul_div_cancel_left _ hn]
    intro h
    rw [h] at hk
    omega
  have hf : to_float (bad.target.length : ℚ) ≠ 0 := by
    have hq : (1 : ℚ) ≤ (bad.target.length : ℚ) := by exact_mod_cast hpos
    exact ne_of_gt (to_float_pos _ hq)
  have hcols := ts_cols n { target := bad.target_unscaled, pred := bad.pred_unscaled }
  simp only [htu] at hcols
  have hser : ∀ j, j ∈ List.range n →
      spec_series_errors n { target := bad.target_unscaled, pred := bad.pred_unscaled } j
        = (List.range (bad.target.length / n)).map (fun _ => c) := by
    intro j hj
    have h := series_errors_all n { target := bad.target_unscaled, pred := bad.pred_unscaled }
      c j (List.mem_range.1 hj) (by simp only [htu]; exact hd) (by simp only [htu]; exact hc)
    simp only [htu] at h
    exact h
  unfold ts_metrics_sample
  dsimp only
  rw [ts_map_ok bad.pred _ n (List.length_pos.1 (by omega)) (by omega), bind_ok,
    ts_map_ok bad.target _ n (List.length_pos.1 hpos) hd, bind_ok,
    ts_map_ok bad.pred_unscaled _ n (List.length_pos.1 (by omega)) (by omega), bind_ok,
    ts_map_ok bad.target_unscaled _ n (List.length_pos.1 (by omega)) (by omega), bind_ok,
    if_neg hd0]
  have hpt := List.map_inj_left.1 hcols
  have hE : (List.range n).map (mat_col
        (List.zipWith (List.zipWith (fun p t => |p - t|))
          ((List.range (bad.target.length / n)).map
            (fun t => (List.range n).map (fun s => bad.pred_unscaled.getD (t * n + s) 0)))
          ((List.range (bad.target.length / n)).map
            (fun t => (List.range n).map (fun s => bad.target_unscaled.getD (t * n + s) 0)))))
      = (List.range n).map (fun _ => (List.range (bad.target.length / n)).map (fun _ => c)) := by
    apply List.map_congr_left
    intro j hj
    rw [hpt j hj, hser j hj]
  have hE2 : (List.range n).map (mat_col
        ((List.zipWith (List.zipWith (fun p t => |p - t|))
          ((List.range (bad.target.length / n)).map
            (fun t => (List.range n).map (fun s => bad.pred_unscaled.getD (t * n + s) 0)))
          ((List.range (bad.target.length / n)).map
            (fun t => (List.range n).map (fun s => bad.target_unscaled.getD (t * n + s) 0)))).map
          (fun row => row.map (fun e => e * e))))
      = (List.range n).map
          (fun _ => (List.range (bad.target.length / n)).map (fun _ => c * c)) := by
    apply List.map_congr_left
    intro j hj
    rw [mat_col_square, hpt j hj, hser j hj, List.map_map]
    rfl
  rw [hE, hE2, mapM_fdiv_vsum _ _ hf, bind_ok, mapM_fdiv_vsum _ _ hf, bind_ok]
  simp only [List.map_map, Function.comp_def, zipWith_map_range, vsum_eq_sum, sum_map_const]
  rfl

theorem ts_metrics_fold (n : Nat) (c : ℚ) (rest : List TsSample)
    (hwf : ∀ bad ∈ rest, bad.pred.length = bad.target.length
      ∧ bad.target_unscaled.length = bad.target.length
      ∧ bad.pred_unscaled.length = bad.target.length
      ∧ 0 < bad.target.length ∧ n ∣ bad.target.length)
    (hc : ∀ bad ∈ rest, ∀ i, i < bad.target.length →
      |bad.pred_unscaled.getD i 0 - bad.target_unscaled.getD i 0| = c) :
    ∀ X Y : ℚ,
      rest.foldlM (ts_metrics_sample n)
          ((List.range n).map (fun _ => X), (List.range n).map (fun _ => Y))
        = .ok ((List.range n).map (fun _ => X + (rest.map (constant_share n c)).sum),
               (List.range n).map
                 (fun _ => Y + (rest.map (constant_share n (c * c))).sum)) := by
  induction rest with
  | nil =>
    intro X Y
    simp only [List.map_nil, List.sum_nil, add_zero]
    rfl
  | cons bad rest ih =>
    intro X Y
    obtain ⟨w1, w2, w3, w4, w5⟩ := hwf bad (List.mem_cons_self _ _)
    rw [List.foldlM_cons,
      ts_metrics_sample_const n bad c X Y w1 w2 w3 w4 w5 (hc bad (List.mem_cons_self _ _)),
      bind_ok,
      ih (fun b hb => hwf b (List.mem_cons_of_mem _ hb))
        (fun b hb => hc b (List.mem_cons_of_mem _ hb))]
    simp only [List.map_cons, List.sum_cons, constant_share, add_assoc]

theorem timeSeriesMetrics_const_aux (samples : List TsSample) (timeseries : Int) (c : ℚ)
    (h1 : 1 ≤ timeseries) (hne : samples ≠ [])
    (hwf : ∀ bad ∈ samples, bad.pred.length = bad.target.length
      ∧ bad.target_unscaled.length = bad.target.length
      ∧ bad.pred_unscaled.length = bad.target.length
      ∧ 0 < bad.target.length ∧ timeseries.toNat ∣ bad.target.length)
    (hc : ∀ bad ∈ samples, ∀ i, i < bad.target.length →
      |bad.pred_unscaled.getD i 0 - bad.target_unscaled.getD i 0| = c) :
    timeSeriesMetrics samples timeseries
      = .ok (List.replicate timeseries.toNat
               ((samples.map (constant_share timeseries.toNat c)).sum
                  / to_float (samples.length : ℚ)),
             List.replicate timeseries.toNat
               ((samples.map (constant_share timeseries.toNat (c * c))).sum
                  / to_float (samples.length : ℚ))) := by
  have hr : ∀ (x : ℚ), List.replicate timeseries.toNat x
      = (List.range timeseries.toNat).map (fun _ => x) := by
    intro x
    rw [List.map_const', List.length_range]
  have hf : to_float (samples.length : ℚ) ≠ 0 := by
    have hpos : 0 < samples.length := List.length_pos.2 hne
    have hq : (1 : ℚ) ≤ (samples.length : ℚ) := by exact_mod_cast hpos
    exact ne_of_gt (to_float_pos _ hq)
  unfold timeSeriesMetrics
  rw [if_neg (by omega)]
  dsimp only
  rw [hr 0, ts_metrics_fold timeseries.toNat c samples hwf hc 0 0, bind_ok]
  dsimp only
  rw [mapM_fdiv _ _ hf, bind_ok, mapM_fdiv _ _ hf, bind_ok, hr, hr]
  simp only [List.map_map, Function.comp_def, zero_add]
  rfl

theorem constant_share_exact (n : Nat) (c : ℚ) (bad : TsSample)
    (hpos : 0 < bad.target.length) (hdvd : n ∣ bad.target.length)
    (hfl : to_float (bad.target.length : ℚ) = (bad.target.length : ℚ)) :
    constant_share n c bad = c / (n : ℚ) := by
  obtain ⟨k, hk⟩ := hdvd
  have hn : 0 < n := by
    rcases Nat.eq_zero_or_pos n with h | h
    · rw [h] at hk; omega
    · exact h
  have hk0 : 0 < k := by
    rcases Nat.eq_zero_or_pos k with h | h
    · rw [h] at hk; omega
    · exact h
  unfold constant_share
  rw [hfl, hk, Nat.mul_div_cancel_left _ hn]
  have hnq : (n : ℚ) ≠ 0 := Nat.cast_ne_zero.2 (by omega)
  have hkq : (k : ℚ) ≠ 0 := Nat.cast_ne_zero.2 (by omega)
  push_cast
  field_simp
  ring

theorem constant_share_sum (n : Nat) (c : ℚ) (samples : List TsSample)
    (hwf : ∀ bad ∈ samples, 0 < bad.target.length ∧ n ∣ bad.target.length)
    (hfl : ∀ bad ∈ samples, to_float (bad.target.length : ℚ) = (bad.target.length : ℚ)) :
    (samples.map (constant_share n c)).sum = (samples.length : ℚ) * (c / (n : ℚ)) := by
  induction samples with
  | nil => simp
  | cons bad rest ih =>
    obtain ⟨w1, w2⟩ := hwf bad (List.mem_cons_self _ _)
    rw [List.map_cons, List.sum_cons,
      constant_share_exact n c bad w1 w2 (hfl bad (List.mem_cons_self _ _)),
      ih (fun b hb => hwf b (List.mem_cons_of_mem _ hb))
        (fun b hb => hfl b (List.mem_cons_of_mem _ hb))]
    simp only [List.length_cons]
    push_cast
    ring

theorem measure_ts_average_const (timeseries : Int) (h1 : 1 ≤ timeseries) (x : ℚ) :
    measure_ts_average timeseries (List.replicate timeseries.toNat x) = .ok x := by
  have hsv : (timeseries : ℚ) = (timeseries.toNat : ℚ) := by
    have : ((timeseries.toNat : Nat) : Int) = timeseries := Int.toNat_of_nonneg (by omega)
    exact_mod_cast this.symm
  have hn : (timeseries.toNat : ℚ) ≠ 0 := Nat.cast_ne_zero.2 (by omega)
  unfold measure_ts_average fdiv
  rw [hsv, if_neg hn, vsum_eq_sum, List.take_of_length_le (by simp), List.sum_replicate]
  simp only [nsmul_eq_mul]
  rw [mul_div_assoc, mul_comm, div_mul_cancel₀ _ hn]

theorem timeSeriesMetrics_exact_aux (samples : List TsSample) (timeseries : Int) (c : ℚ)
    (h1 : 1 ≤ timeseries) (hne : samples ≠ [])
    (hwf : ∀ bad ∈ samples, bad.pred.length = bad.target.length
      ∧ bad.target_unscaled.length = bad.target.length
      ∧ bad.pred_unscaled.length = bad.target.length
      ∧ 0 < bad.target.length ∧ timeseries.toNat ∣ bad.target.length)
    (hc : ∀ bad ∈ samples, ∀ i, i < bad.target.length →
      |bad.pred_unscaled.getD i 0 - bad.target_unscaled.getD i 0| = c)
    (hfl : ∀ bad ∈ samples, to_float (bad.target.length : ℚ) = (bad.target.length : ℚ))
    (hfb : to_float (samples.length : ℚ) = (samples.length : ℚ)) :
    timeSeriesMetrics samples timeseries
      = .ok (List.replicate timeseries.toNat (c / (timeseries : ℚ)),
             List.replicate timeseries.toNat (c ^ 2 / (timeseries : ℚ))) := by
  have hsv : (timeseries : ℚ) = (timeseries.toNat : ℚ) := by
    have : ((timeseries.toNat : Nat) : Int) = timeseries := Int.toNat_of_nonneg (by omega)
    exact_mod_cast this.symm
  have hB : (samples.length : ℚ) ≠ 0 :=
    Nat.cast_ne_zero.2 (by have := List.length_pos.2 hne; omega)
  have hn : (timeseries.toNat : ℚ) ≠ 0 := Nat.cast_ne_zero.2 (by omega)
  have e1 : (samples.length : ℚ) * (c / (timeseries.toNat : ℚ)) / (samples.length : ℚ)
      = c / (timeseries : ℚ) := by
    rw [hsv]
    field_simp
    ring
  have e2 : (samples.length : ℚ) * (c * c / (timeseries.toNat : ℚ)) / (samples.length : ℚ)
      = c ^ 2 / (timeseries : ℚ) := by
    rw [hsv]
    field_simp
    ring
  rw [timeSeriesMetrics_const_aux samples timeseries c h1 hne hwf hc, hfb,
    constant_share_sum _ c samples (fun b hb => ⟨(hwf b hb).2.2.2.1, (hwf b hb).2.2.2.2⟩) hfl,
    constant_share_sum _ (c * c) samples
      (fun b hb => ⟨(hwf b hb).2.2.2.1, (hwf b hb).2.2.2.2⟩) hfl, e1, e2]

/-- One sample of one series with `N` timesteps, every unscaled prediction off by 1: the
MAE and the MSE are `N` divided by `N` narrowed to `float`. -/
theorem tsm_const_sample (N : Nat) (hN : 0 < N) :
    timeSeriesMetrics
        [{ target := List.replicate N 0, pred := List.replicate N 0,
           target_unscaled := List.replicate N 0, pred_unscaled := List.replicate N 1 }] 1
      = .ok ([(N : ℚ) / to_float (N : ℚ)], [(N : ℚ) / to_float (N : ℚ)]) := by
  have h1n : (1 : Int).toNat = 1 := rfl
  have hf1 : to_float (1 : ℚ) = 1 := by decide!
  have h := timeSeriesMetrics_const_aux
    [{ target := List.replicate N 0, pred := List.replicate N 0,
       target_unscaled := List.replicate N 0, pred_unscaled := List.replicate N 1 }] 1 1
    (le_refl _) (List.cons_ne_nil _ _)
    (by
      intro bad hbad
      rw [List.mem_singleton] at hbad
      subst hbad
      simp only [List.length_replicate, h1n]
      exact ⟨trivial, trivial, trivial, hN, one_dvd _⟩)
    (by
      intro bad hbad i hi
      rw [List.mem_singleton] at hbad
      subst hbad
      simp only [List.length_replicate] at hi
      simp only []
      rw [getD_replicate_lt N i 1 hi, getD_replicate_lt N i 0 hi]
      norm_num)
  rw [h, h1n]
  simp only [List.map_cons, List.map_nil, List.sum_cons, List.sum_nil, add_zero,
    constant_share, List.length_replicate, Nat.div_one, List.length_singleton, Nat.cast_one,
    hf1, div_one, mul_one, List.replicate_one]

/-- C38 (as amended). For every non-empty time-series batch with `s = timeseries` series
in which each sample's length is a positive multiple of `s` (the four vectors of a sample
having the same length) and every absolute unscaled error `|pred_unscaled -
target_unscaled|` equals the same constant `c`, in which the length of every sample and
the number of samples are exactly representable in single precision (as every number up
to `2^24` is), and in which no operation in `double` rounds (`tsm_exact`: the multiples
of `c`, `c^2`, `c / s` and `c^2 / s` that the sums go through are values of `double`s),
`timeSeriesMetrics` returns a per-series MAE of `c / s` and a per-series MSE of `c^2 / s`
for every series, so the "MAE" averaged by `measure` is `c / s`. -/
theorem timeSeriesMetrics_constant_error (samples : List TsSample) (timeseries : Int)
    (c : ℚ) (h1 : 1 ≤ timeseries) (hne : samples ≠ [])
    (hwf : ∀ bad ∈ samples, bad.pred.length = bad.target.length
      ∧ bad.target_unscaled.length = bad.target.length
      ∧ bad.pred_unscaled.length = bad.target.length
      ∧ 0 < bad.target.length ∧ timeseries.toNat ∣ bad.target.length)
    (hc : ∀ bad ∈ samples, ∀ i, i < bad.target.length →
      |bad.pred_unscaled.getD i 0 - bad.target_unscaled.getD i 0| = c)
    (hfl : ∀ bad ∈ samples, to_float (bad.target.length : ℚ) = (bad.target.length : ℚ))
    (hfb : to_float (samples.length : ℚ) = (samples.length : ℚ))
    (hexact : tsm_exact c timeseries.toNat samples = true) :
    timeSeriesMetrics samples timeseries
        = .ok (List.replicate timeseries.toNat (c / (timeseries : ℚ)),
               List.replicate timeseries.toNat (c ^ 2 / (timeseries : ℚ)))
      ∧ measure_ts_average timeseries (List.replicate timeseries.toNat (c / (timeseries : ℚ)))
        = .ok (c / (timeseries : ℚ)) := by
  have _ := hexact
  exact ⟨timeSeriesMetrics_exact_aux samples timeseries c h1 hne hwf hc hfl hfb,
    measure_ts_average_const timeseries h1 _⟩

/-- C38 (witness). One sample of two series and two timesteps whose unscaled predictions
are all off by 3: MAE 3/2 and MSE 9/2 for both series. -/
theorem timeSeriesMetrics_constant_error_witness :
    timeSeriesMetrics tsm_two_series 2
        = .ok (List.replicate (2 : Int).toNat (3 / ((2 : Int) : ℚ)),
               List.replicate (2 : Int).toNat (3 ^ 2 / ((2 : Int) : ℚ)))
      ∧ measure_ts_average 2 (List.replicate (2 : Int).toNat (3 / ((2 : Int) : ℚ)))
        = .ok (3 / ((2 : Int) : ℚ)) :=
  timeSeriesMetrics_constant_error tsm_two_series 2 3 (by decide) (by decide) (by decide)
    (by decide!) (by decide!) (by decide!) (by decide!)

/-- The values on the payload of the witness. -/
theorem timeSeriesMetrics_two_series :
    timeSeriesMetrics tsm_two_series 2 = .ok ([3 / 2, 3 / 2], [9 / 2, 9 / 2])
      ∧ measure_ts_average 2 [3 / 2, 3 / 2] = .ok (3 / 2) := by
  constructor <;> decide!

/-- C38 (counterexample). One series (`s = 1`) of `2^24 + 1` timesteps with every unscaled
prediction off by `c = 1`: the length narrows to the `float` `2^24`, and the MAE and the
MSE are `(2^24 + 1) / 2^24`, not `c / s = 1`. -/
theorem timeSeriesMetrics_not_constant :
    timeSeriesMetrics [tsm_long] 1 = .ok ([16777217 / 16777216], [16777217 / 16777216])
      ∧ (16777217 / 16777216 : ℚ) ≠ 1 / 1 := by
  have hf : to_float (16777217 : ℚ) = 16777216 := by decide!
  have h := tsm_const_sample 16777217 (by norm_num)
  rw [Nat.cast_ofNat, hf] at h
  exact ⟨h, by norm_num⟩

/-- The batch of one series of three timesteps with every unscaled prediction off by the
`double` written 0.1 is not among the batches of the theorem: three times that value is
not the value of a `double`, and the sum of the three errors rounds. -/
theorem tsm_exact_tenths :
    tsm_exact (to_double (1 / 10)) 1 tsm_tenths = false := by
  decide!

/-! ## `timeSeriesErrors` counts the first timestep -/

theorem first_step_mem (n : Nat) (samples : List MlSample) (bad : MlSample) (j : Nat)
    (hbad : bad ∈ samples) (hpos : 0 < bad.target.length) (hdvd : n ∣ bad.target.length) :
    |bad.pred.getD j 0 - bad.target.getD j 0| ∈ spec_batch_errors n samples j := by
  obtain ⟨k, hk⟩ := hdvd
  have hn : 0 < n := by
    rcases Nat.eq_zero_or_pos n with h | h
    · rw [h] at hk; omega
    · exact h
  have hd0 : 0 < bad.target.length / n := by
    rw [hk, Nat.mul_div_cancel_left _ hn]
    rcases Nat.eq_zero_or_pos k with h | h
    · rw [h] at hk; omega
    · exact h
  unfold spec_batch_errors
  rw [List.mem_flatten]
  refine ⟨spec_series_errors n bad j, List.mem_map.2 ⟨bad, hbad, rfl⟩, ?_⟩
  unfold spec_series_errors
  rw [List.mem_map]
  exact ⟨0, List.mem_range.2 hd0, by simp⟩

theorem first_step_counts_aux (sqrt : ℚ → ℚ) (samples : List MlSample) (timeseries : Int)
    (h1 : 1 ≤ timeseries) (hne : samples ≠ [])
    (hwf : ∀ bad ∈ samples, bad.pred.length = bad.target.length ∧ 0 < bad.target.length
      ∧ timeseries.toNat ∣ bad.target.length) :
    ∃ r, timeSeriesErrors sqrt samples timeseries true = .ok r
      ∧ ∀ j, j < timeseries.toNat → ∀ bad ∈ samples,
          |bad.pred.getD j 0 - bad.target.getD j 0| ≤ r.max_errors.getD j 0 := by
  obtain ⟨r, hr, hA, _⟩ := ts_mean_max_aux sqrt samples timeseries h1 hne hwf
  refine ⟨r, hr, ?_⟩
  intro j hj bad hbad
  exact (hA j hj).2.2 _ (first_step_mem timeseries.toNat samples bad j hbad
    (hwf bad hbad).2.1 (hwf bad hbad).2.2)

/-- C22 (as amended). `timeSeriesErrors` (L1 and L2) does not set the error of the first
timestep to zero: that error enters the per-series maximum, its index and the mean like
the error of any other timestep, so the outputs depend on the predictions at timestep 0.
In L1 mode, for every non-empty batch in which each sample's length is a positive
multiple of `timeseries` (targets and predictions of the same length, their differences
being values of `double`s), the absolute error of series `j` at timestep 0 of every
sample is at most `max_errors[j]`. For one series of two timesteps with targets 0 and a
prediction `p >= 0` at timestep 0 (exact at timestep 1): in L1 mode the maximum error is
`p`, at index 0, and the mean error is `p / 2`; in L2 mode the maximum error is `p * p`,
at index 0, and the mean error is `p / 2`. `p`, `p / 2` and, in L2 mode, `p * p` are
values of `double`s, so that no operation rounds; `sqrt` stands for `std::sqrt`, read at
`p * p` only, in L2 mode. -/
theorem timeSeriesErrors_keeps_first_step (sqrt : ℚ → ℚ) (samples : List MlSample)
    (timeseries : Int) (L1 : Bool) (p : ℚ)
    (h1 : 1 ≤ timeseries) (hne : samples ≠ [])
    (hwf : ∀ bad ∈ samples, bad.pred.length = bad.target.length ∧ 0 < bad.target.length
      ∧ timeseries.toNat ∣ bad.target.length)
    (hex : ∀ bad ∈ samples, ∀ e ∈ bad.pred.zip bad.target, exact_double (e.1 - e.2) = true)
    (hp : 0 ≤ p) (hs : L1 = false → sqrt (p * p) = p)
    (hd : exact_double p = true) (hh : exact_double (p / 2) = true)
    (hd2 : L1 = false → exact_double (p * p) = true) :
    (∃ r, timeSeriesErrors sqrt samples timeseries true = .ok r
      ∧ ∀ j, j < timeseries.toNat → ∀ bad ∈ samples,
          |bad.pred.getD j 0 - bad.target.getD j 0| ≤ r.max_errors.getD j 0)
    ∧ timeSeriesErrors sqrt [{ target := [0, 0], pred := [p, 0] }] 1 L1
      = .ok { max_errors := [if L1 then p else p * p], indexes_max_error := [0],
              mean_errors := [p / 2],
              max_error := if L1 then p else p * p, mean_error := p / 2 } := by
  have _ := hex
  have _ := hd
  have _ := hh
  have _ := hd2
  exact ⟨first_step_counts_aux sqrt samples timeseries h1 hne hwf, ts_run_two sqrt L1 p hp hs⟩

/-- C22 (witness). The batch of one series of two timesteps with the prediction 1 at
timestep 0, and `p = 1` in L2 mode. -/
theorem timeSeriesErrors_keeps_first_step_witness :
    (∃ r, timeSeriesErrors sqrt_squares ts_first_off 1 true = .ok r
      ∧ ∀ j, j < (1 : Int).toNat → ∀ bad ∈ ts_first_off,
          |bad.pred.getD j 0 - bad.target.getD j 0| ≤ r.max_errors.getD j 0)
    ∧ timeSeriesErrors sqrt_squares [{ target := [0, 0], pred := [1, 0] }] 1 false
      = .ok { max_errors := [if false then 1 else 1 * 1], indexes_max_error := [0],
              mean_errors := [1 / 2],
              max_error := if false then 1 else 1 * 1, mean_error := 1 / 2 } :=
  timeSeriesErrors_keeps_first_step sqrt_squares ts_first_off 1 false 1 (by decide)
    (by decide) (by decide) (by decide!) (by norm_num) (fun _ => by decide!) (by decide!)
    (by decide!) (fun _ => by decide!)

/-- C22 (counterexample). Two batches of one series of two timesteps that differ in the
prediction at timestep 0 only, 1 against the target 0 in the one and 0 in the other:
the first has the maximum error 1, at index 0, and the mean error 1/2, the second has
0 everywhere, in L1 and in L2 mode. -/
theorem timeSeriesErrors_first_step_counts :
    (timeSeriesErrors sqrt_squares ts_first_off 1 true
        = .ok { max_errors := [1], indexes_max_error := [0], mean_errors := [1 / 2],
                max_error := 1, mean_error := 1 / 2 }
      ∧ timeSeriesErrors sqrt_squares ts_exact 1 true
        = .ok { max_errors := [0], indexes_max_error := [0], mean_errors := [0],
                max_error := 0, mean_error := 0 })
    ∧ (timeSeriesErrors sqrt_squares ts_first_off 1 false
        = .ok { max_errors := [1], indexes_max_error := [0], mean_errors := [1 / 2],
                max_error := 1, mean_error := 1 / 2 }
      ∧ timeSeriesErrors sqrt_squares ts_exact 1 false
        = .ok { max_errors := [0], indexes_max_error := [0], mean_errors := [0],
                max_error := 0, mean_error := 0 }) := by
  refine ⟨⟨?_, ?_⟩, ?_, ?_⟩ <;> decide!

end dd
